import Mathlib

/-!
# Netlist matrix solvers: direct Gaussian elimination and Woodbury update

A shallow embedding of `nld_ms_direct.h` (class `matrix_solver_direct_t`) and
`nld_ms_w.h` (class `matrix_solver_w_t`).

Conventions of the embedding.

* `nl_double` values are exact rationals.  The only operation of the solvers that
  leaves the finite numbers is a division by zero (IEEE gives an infinity or a NaN
  there); a function that divides returns `none` when the divisor is zero.
* C arrays are functions from indices; a loop `for (i = a; i < b; i++)` is a left
  fold over the list of its indices, in the order of the loop.
* `unsigned` counters are natural numbers reduced modulo `2 ^ 32`.
-/

namespace Netlist

/-- A one-dimensional array of `nl_double`. -/
abbrev Vec := Nat → ℚ

/-- A two-dimensional array of `nl_double`, row index first. -/
abbrev Mat := Nat → Nat → ℚ

/-- The array `v` after the assignment `v[i] = x`. -/
def Vec.set (v : Vec) (i : Nat) (x : ℚ) : Vec := fun k => if k = i then x else v k

/-- The matrix `M` after the assignment `M[r][c] = x`. -/
def Mat.set (M : Mat) (r c : Nat) (x : ℚ) : Mat :=
  fun r1 c1 => if r1 = r ∧ c1 = c then x else M r1 c1

/-- The matrix `M` after row `r` has been replaced by the array `d`
(writes through a pointer `d = &M[r][0]`). -/
def Mat.setRow (M : Mat) (r : Nat) (d : Vec) : Mat :=
  fun r1 c1 => if r1 = r then d c1 else M r1 c1

/-- Modelled from the spec: `terms_t`, the per-row terminal table declared in the
absent `nld_solver.h`.  It holds parallel arrays of length `count` (`gt`, `go`,
`Idr`, `net_other`, and the voltage `*other_curanalog[i]` of the other net as it
is when the solver reads it), the partition point `m_railstart`, and the index
lists `m_nz`, `m_nzrd`, `m_nzbd`. -/
structure terms_t where
  count : Nat
  m_railstart : Nat
  gt : Nat → ℚ
  go : Nat → ℚ
  Idr : Nat → ℚ
  net_other : Nat → Int
  other_curanalog : Nat → ℚ
  m_nz : List Nat
  m_nzrd : List Nat
  m_nzbd : List Nat

/-- Modelled from the spec: `psort_list` of the absent `plib`, which sorts an index
list in ascending order. -/
def psort_list (l : List Nat) : List Nat := l.insertionSort (fun a b => a ≤ b)

/-- A row is well formed for dimension `N` when its matrix-coupled terms
(index below `m_railstart`) come first and name a net index in `[0, N)`, which is
what `add_term` puts into `m_terms[k]`. -/
def terms_t.wf (N : Nat) (t : terms_t) : Prop :=
  t.m_railstart ≤ t.count ∧
    ∀ i, i < t.m_railstart → 0 ≤ t.net_other i ∧ t.net_other i < (N : Int)

/-! ## Direct solver -/

namespace matrix_solver_direct_t

/-- One pass of the inner loop of `vsetup` over the matrix-coupled terms of row
`k`: `other[i]` is appended to `m_nzrd` when it is absent and `>= k + 1`, and to
`m_nz` when it is absent. -/
def vsetup_scan (t : terms_t) (k : Nat) (acc : List Nat × List Nat) : List Nat × List Nat :=
  (List.range t.m_railstart).foldl
    (fun acc i =>
      let o := (t.net_other i).toNat
      let nzrd := if !acc.1.contains o && decide (k + 1 ≤ o) then acc.1 ++ [o] else acc.1
      let nz := if !acc.2.contains o then acc.2 ++ [o] else acc.2
      (nzrd, nz))
    acc

/-- Body of the loop of `vsetup` that creates the lists of non zero elements, for
row `k`: `m_nzrd` starts from the list of row `k - 1` without its entries below
`k + 1`, the terms are scanned `N` times, both lists are sorted and the diagonal
is added to `m_nz`. -/
def vsetup_nz_row (N : Nat) (m_terms : Nat → terms_t) (k : Nat) : Nat → terms_t :=
  let t := m_terms k
  let nzrd0 : List Nat :=
    if k = 0 then [] else (m_terms (k - 1)).m_nzrd.filter (fun c => !decide (c < k + 1))
  let r := (List.range N).foldl (fun acc _ => vsetup_scan t k acc) (nzrd0, [])
  Function.update m_terms k
    { t with m_nzrd := psort_list r.1, m_nz := psort_list (r.2 ++ [k]) }

/-- The loop of `vsetup` over all rows that fills `m_nz` and `m_nzrd`. -/
def vsetup_nz (N : Nat) (m_terms : Nat → terms_t) : Nat → terms_t :=
  (List.range N).foldl (fun m k => vsetup_nz_row N m k) m_terms

/-- Row `k` of `build_LE_A`: the row is zeroed, the sum of all `gt` goes to the
diagonal and `go[i]` is subtracted at column `net_other[i]` for the
matrix-coupled terms. -/
def build_LE_A_row (iN : Nat) (t : terms_t) (k : Nat) (m_A : Mat) : Mat :=
  let A0 := (List.range iN).foldl (fun A i => Mat.set A k i 0) m_A
  let akk := (List.range t.count).foldl (fun akk i => akk + t.gt i) 0
  let A1 := Mat.set A0 k k (A0 k k + akk)
  (List.range t.m_railstart).foldl
    (fun A i => Mat.set A k (t.net_other i).toNat (A k (t.net_other i).toNat - t.go i)) A1

/-- Assembly of the coefficient matrix, `build_LE_A`. -/
def build_LE_A (iN : Nat) (m_terms : Nat → terms_t) (m_A : Mat) : Mat :=
  (List.range iN).foldl (fun A k => build_LE_A_row iN (m_terms k) k A) m_A

/-- Assembly of the right hand side, `build_LE_RHS`. -/
def build_LE_RHS (iN : Nat) (m_terms : Nat → terms_t) (rhs : Vec) : Vec :=
  (List.range iN).foldl
    (fun rhs k =>
      let t := m_terms k
      let rhsk_a := (List.range t.count).foldl (fun a i => a + t.Idr i) 0
      let rhsk_b := (List.range' t.m_railstart (t.count - t.m_railstart)).foldl
        (fun b i => b + t.go i * t.other_curanalog i) 0
      Vec.set rhs k (rhsk_a + rhsk_b))
    rhs

/-- The pivot search of `LE_solve` at step `i`: the row with the largest
`|m_A[j][i]|`, `j >= i` (first one on ties), is swapped with row `i` from column
`i` on, together with its `m_RHS` entry. -/
def LE_solve_search (kN i : Nat) (s : Mat × Vec) : Mat × Vec :=
  let maxrow := (List.range' (i + 1) (kN - (i + 1))).foldl
    (fun maxrow j => if |s.1 j i| > |s.1 maxrow i| then j else maxrow) i
  if maxrow ≠ i then
    ((List.range' i (kN - i)).foldl
        (fun A k => Mat.set (Mat.set A i k (A maxrow k)) maxrow k (A i k)) s.1,
      Vec.set (Vec.set s.2 i (s.2 maxrow)) maxrow (s.2 i))
  else s

/-- The state of `m_A`, `m_RHS` in step `i` of `LE_solve` at the point where the
pivot `m_A[i][i]` is read. -/
def LE_solve_pre (USE_PIVOT_SEARCH : Bool) (kN i : Nat) (s : Mat × Vec) : Mat × Vec :=
  if USE_PIVOT_SEARCH then LE_solve_search kN i s else s

/-- Elimination of column `i` from row `j` in `LE_solve`, `f` being `1.0 / m_A[i][i]`:
only the columns listed in `m_nzrd` of row `i` are updated. -/
def LE_solve_row (p : List Nat) (i : Nat) (f : ℚ) (j : Nat) (s : Mat × Vec) : Mat × Vec :=
  let f1 := - s.1 j i * f
  if f1 ≠ 0 then
    (Mat.setRow s.1 j (p.foldl (fun d pk => Vec.set d pk (d pk + s.1 i pk * f1)) (s.1 j)),
      Vec.set s.2 j (s.2 j + s.2 i * f1))
  else s

/-- The elimination loop of step `i` of `LE_solve` over the rows `j > i`. -/
def LE_solve_elim (kN : Nat) (m_terms : Nat → terms_t) (i : Nat) (s : Mat × Vec) : Mat × Vec :=
  let f := 1 / s.1 i i
  (List.range' (i + 1) (kN - (i + 1))).foldl
    (fun s j => LE_solve_row (m_terms i).m_nzrd i f j s) s

/-- Step `i` of `LE_solve`; `none` when the pivot is zero. -/
def LE_solve_step (USE_PIVOT_SEARCH : Bool) (kN : Nat) (m_terms : Nat → terms_t) (i : Nat)
    (s : Mat × Vec) : Option (Mat × Vec) :=
  let s1 := LE_solve_pre USE_PIVOT_SEARCH kN i s
  if s1.1 i i = 0 then none else some (LE_solve_elim kN m_terms i s1)

/-- Gaussian elimination `LE_solve` on `(m_A, m_RHS)`. -/
def LE_solve (USE_PIVOT_SEARCH : Bool) (kN : Nat) (m_terms : Nat → terms_t)
    (s : Mat × Vec) : Option (Mat × Vec) :=
  (List.range kN).foldlM (fun s i => LE_solve_step USE_PIVOT_SEARCH kN m_terms i s) s

/-- The arrays `(m_A, m_RHS)` after the first `n` steps of `LE_solve`, computed
without the test for a zero pivot; it is what `LE_solve` holds after `n` steps when
none of the pivots read so far was zero. -/
def LE_solve_upto (USE_PIVOT_SEARCH : Bool) (kN : Nat) (m_terms : Nat → terms_t) (n : Nat)
    (s : Mat × Vec) : Mat × Vec :=
  (List.range n).foldl
    (fun s i => LE_solve_elim kN m_terms i (LE_solve_pre USE_PIVOT_SEARCH kN i s)) s

/-- The pivot `m_A[i][i]` that step `i` of `LE_solve` divides by. -/
def LE_pivot (USE_PIVOT_SEARCH : Bool) (kN : Nat) (m_terms : Nat → terms_t) (s : Mat × Vec)
    (i : Nat) : ℚ :=
  (LE_solve_pre USE_PIVOT_SEARCH kN i (LE_solve_upto USE_PIVOT_SEARCH kN m_terms i s)).1 i i

/-- Row `j` of `LE_back_subst`; `none` when `m_A[j][j]` is zero. -/
def LE_back_subst_row (m_terms : Nat → terms_t) (s : Mat × Vec) (j : Nat) (x : Vec) :
    Option Vec :=
  let tmp := (m_terms j).m_nzrd.foldl (fun tmp pk => tmp + s.1 j pk * x pk) 0
  if s.1 j j = 0 then none else some (Vec.set x j ((s.2 j - tmp) / s.1 j j))

/-- Back substitution `LE_back_subst`, from row `kN - 1` down to row `0`. -/
def LE_back_subst (kN : Nat) (m_terms : Nat → terms_t) (s : Mat × Vec) (x : Vec) :
    Option Vec :=
  (List.range kN).reverse.foldlM (fun x j => LE_back_subst_row m_terms s j x) x

/-- Convergence measure `delta`: the largest `|V[i] - m_cur_Analog|` over the nets. -/
def delta (iN : Nat) (V cur_Analog : Vec) : ℚ :=
  (List.range iN).foldl (fun cerr i => max cerr |V i - cur_Analog i|) 0

/-- Commit `store`: the net voltages after `m_cur_Analog = V[i]` for all `i < N`. -/
def store (iN : Nat) (V cur_Analog : Vec) : Vec :=
  (List.range iN).foldl (fun cur i => Vec.set cur i (V i)) cur_Analog

end matrix_solver_direct_t

/-- The members of `matrix_solver_direct_t` that a solve reads or writes:
`N()`, `m_A`, `m_RHS`, `m_last_RHS`, `m_last_V`, `m_terms`, the voltages
`m_nets[i]->m_cur_Analog`, and `m_params.m_accuracy`. -/
structure matrix_solver_direct_t where
  N : Nat
  m_A : Mat
  m_RHS : Vec
  m_last_RHS : Vec
  m_last_V : Vec
  m_terms : Nat → terms_t
  cur_Analog : Vec
  m_accuracy : ℚ

namespace matrix_solver_direct_t

/-- Method `solve_non_dynamic` of the direct solver: back substitution into the
local `new_v`, then the commit; the result is the return code and the solver
after the call. -/
def solve_non_dynamic (s : matrix_solver_direct_t) (new_v : Vec) (newton_raphson : Bool) :
    Option (Nat × matrix_solver_direct_t) :=
  (LE_back_subst s.N s.m_terms (s.m_A, s.m_RHS) new_v).map fun new_v =>
    if newton_raphson then
      let err := delta s.N new_v s.cur_Analog
      (if err > s.m_accuracy then 2 else 1, { s with cur_Analog := store s.N new_v s.cur_Analog })
    else
      (1, { s with cur_Analog := store s.N new_v s.cur_Analog })

/-- Method `vsolve_non_dynamic` of the direct solver. -/
def vsolve_non_dynamic (USE_PIVOT_SEARCH : Bool) (s : matrix_solver_direct_t) (new_v : Vec)
    (newton_raphson : Bool) : Option (Nat × matrix_solver_direct_t) :=
  let A := build_LE_A s.N s.m_terms s.m_A
  let last_RHS := build_LE_RHS s.N s.m_terms s.m_last_RHS
  let RHS := (List.range s.N).foldl (fun r i => Vec.set r i (last_RHS i)) s.m_RHS
  (LE_solve USE_PIVOT_SEARCH s.N s.m_terms (A, RHS)).bind fun r =>
    solve_non_dynamic { s with m_A := r.1, m_RHS := r.2, m_last_RHS := last_RHS } new_v
      newton_raphson

end matrix_solver_direct_t

/-! ## Woodbury solver -/

/-- A two-dimensional array of `bool`, the local `touched` of `vsetup`. -/
abbrev BMat := Nat → Nat → Bool

/-- The array `T` after the assignment `T[r][c] = true`. -/
def BMat.mark (T : BMat) (r c : Nat) : BMat :=
  fun r1 c1 => if r1 = r ∧ c1 = c then true else T r1 c1

/-- The three matrices that `LE_invert` writes: the work matrix `W`, the
snapshot `lA` and the inverse `Ainv`.  `Ainv r c` is the accessor `Ainv(r,c)` of
the source (the storage `m_Ainv` is its transpose). -/
structure invert_state where
  W : Mat
  lA : Mat
  Ainv : Mat

namespace matrix_solver_w_t

/-- Body of the first loop of `vsetup` (list of non zero elements) for row `k`. -/
def vsetup_nz_row (m_terms : Nat → terms_t) (k : Nat) : Nat → terms_t :=
  let t := m_terms k
  let nz := (List.range t.m_railstart).foldl
    (fun nz i =>
      if !nz.contains (t.net_other i).toNat then nz ++ [(t.net_other i).toNat] else nz) []
  Function.update m_terms k { t with m_nz := psort_list (nz ++ [k]) }

/-- Body of the second loop of `vsetup` (non zero elements right of the diagonal)
for row `k`. -/
def vsetup_nzrd_row (m_terms : Nat → terms_t) (k : Nat) : Nat → terms_t :=
  let t := m_terms k
  let nzrd0 : List Nat :=
    if k = 0 then [] else (m_terms (k - 1)).m_nzrd.filter (fun c => !decide (c < k + 1))
  let nzrd := (List.range t.m_railstart).foldl
    (fun nzrd i =>
      let o := (t.net_other i).toNat
      if !nzrd.contains o && decide (k + 1 ≤ o) then nzrd ++ [o] else nzrd) nzrd0
  Function.update m_terms k { t with m_nzrd := psort_list nzrd }

/-- The array `touched` of `vsetup` after its initialisation from the `m_nz` lists. -/
def vsetup_touched (N : Nat) (m_terms : Nat → terms_t) : BMat :=
  (List.range N).foldl
    (fun T k => (m_terms k).m_nz.foldl (fun T c => BMat.mark T k c) T) (fun _ _ => false)

/-- Body of the loop over `row` in the last loop of `vsetup`, for pivot `k`; the
state is `touched` and the list `m_nzbd` of row `k`. -/
def vsetup_nzbd_row (N k row : Nat) (s : BMat × List Nat) : BMat × List Nat :=
  if s.1 row k then
    ((List.range' k (N - k)).foldl (fun T col => if T k col then BMat.mark T row col else T) s.1,
      if !s.2.contains row then s.2 ++ [row] else s.2)
  else s

/-- Body of the last loop of `vsetup` (non zero elements below the diagonal) for
pivot `k`. -/
def vsetup_nzbd_step (N k : Nat) (s : BMat × (Nat → terms_t)) : BMat × (Nat → terms_t) :=
  let r := (List.range' (k + 1) (N - (k + 1))).foldl
    (fun s row => vsetup_nzbd_row N k row s) (s.1, (s.2 k).m_nzbd)
  (r.1, Function.update s.2 k { s.2 k with m_nzbd := r.2 })

/-- The part of `vsetup` that fills `m_nz`, `m_nzrd` and `m_nzbd`. -/
def vsetup_nz (N : Nat) (m_terms : Nat → terms_t) : Nat → terms_t :=
  let m1 := (List.range N).foldl vsetup_nz_row m_terms
  let m2 := (List.range N).foldl vsetup_nzrd_row m1
  let m3 := (List.range N).foldl (fun m k => Function.update m k { m k with m_nzbd := [] }) m2
  ((List.range N).foldl (fun s k => vsetup_nzbd_step N k s) (vsetup_touched N m2, m3)).2

/-- First loop nest of `LE_invert`: `W = lA = A`, `Ainv` = identity. -/
def LE_invert_init (kN : Nat) (A : Mat) (s : invert_state) : invert_state :=
  (List.range kN).foldl
    (fun s i =>
      let s1 := (List.range kN).foldl
        (fun s j =>
          { W := Mat.set s.W i j (A i j), lA := Mat.set s.lA i j (A i j),
            Ainv := Mat.set s.Ainv i j 0 }) s
      { s1 with Ainv := Mat.set s1.Ainv i i 1 }) s

/-- Downward pass of `LE_invert`, elimination of column `i` from row `j`. -/
def LE_invert_down_row (p : List Nat) (i : Nat) (f : ℚ) (j : Nat) (s : invert_state) :
    invert_state :=
  let f1 := - s.W j i * f
  if f1 ≠ 0 then
    { s with
      W := p.foldl (fun W pk => Mat.set W j pk (W j pk + W i pk * f1)) s.W
      Ainv := (List.range (i + 1)).foldl
        (fun Ai k => Mat.set Ai j k (Ai j k + Ai i k * f1)) s.Ainv }
  else s

/-- Downward pass of `LE_invert`, the sweep of pivot `i` over the rows in `m_nzbd`. -/
def LE_invert_down_elim (m_terms : Nat → terms_t) (i : Nat) (s : invert_state) : invert_state :=
  let f := 1 / s.W i i
  (m_terms i).m_nzbd.foldl (fun s j => LE_invert_down_row (m_terms i).m_nzrd i f j s) s

/-- Downward pass of `LE_invert`, step `i`; `none` when the pivot `W(i,i)` is zero. -/
def LE_invert_down_step (m_terms : Nat → terms_t) (i : Nat) (s : invert_state) :
    Option invert_state :=
  if s.W i i = 0 then none else some (LE_invert_down_elim m_terms i s)

/-- Upward pass of `LE_invert`, elimination of column `i` from row `j < i`. -/
def LE_invert_up_row (kN i : Nat) (f : ℚ) (j : Nat) (s : invert_state) : invert_state :=
  let f1 := - s.W j i * f
  if f1 ≠ 0 then
    { s with
      W := (List.range' i (kN - i)).foldl (fun W k => Mat.set W j k (W j k + W i k * f1)) s.W
      Ainv := (List.range kN).foldl (fun Ai k => Mat.set Ai j k (Ai j k + Ai i k * f1)) s.Ainv }
  else s

/-- Upward pass of `LE_invert`, the sweep of pivot `i` over the rows above and the
scaling of row `i` of `Ainv`. -/
def LE_invert_up_elim (kN i : Nat) (s : invert_state) : invert_state :=
  let f := 1 / s.W i i
  let s1 := (List.range i).reverse.foldl (fun s j => LE_invert_up_row kN i f j s) s
  { s1 with Ainv := (List.range kN).foldl (fun Ai k => Mat.set Ai i k (Ai i k * f)) s1.Ainv }

/-- Upward pass of `LE_invert`, step `i`; `none` when the pivot `W(i,i)` is zero. -/
def LE_invert_up_step (kN i : Nat) (s : invert_state) : Option invert_state :=
  if s.W i i = 0 then none else some (LE_invert_up_elim kN i s)

/-- Full refresh `LE_invert`: initialisation, downward pass, upward pass. -/
def LE_invert (kN : Nat) (m_terms : Nat → terms_t) (A : Mat) (s : invert_state) :
    Option invert_state :=
  ((List.range kN).foldlM (fun s i => LE_invert_down_step m_terms i s)
      (LE_invert_init kN A s)).bind
    fun s => (List.range kN).reverse.foldlM (fun s i => LE_invert_up_step kN i s) s

/-- The matrices after the first `n` steps of the downward pass of `LE_invert`,
computed without the test for a zero pivot. -/
def LE_invert_down_upto (m_terms : Nat → terms_t) (n : Nat) (s : invert_state) : invert_state :=
  (List.range n).foldl (fun s i => LE_invert_down_elim m_terms i s) s

/-- The matrices after the first `d` steps of the upward pass of `LE_invert` (the
pivots `kN - 1` down to `kN - d`), computed without the test for a zero pivot. -/
def LE_invert_up_upto (kN d : Nat) (s : invert_state) : invert_state :=
  (List.range' (kN - d) d).reverse.foldl (fun s i => LE_invert_up_elim kN i s) s

/-- The pivot `W(i,i)` that step `i` of the downward pass of `LE_invert` divides by. -/
def LE_invert_pivot_down (kN : Nat) (m_terms : Nat → terms_t) (A : Mat) (s : invert_state)
    (i : Nat) : ℚ :=
  (LE_invert_down_upto m_terms i (LE_invert_init kN A s)).W i i

/-- The pivot `W(i,i)` that step `i` of the upward pass of `LE_invert` divides by. -/
def LE_invert_pivot_up (kN : Nat) (m_terms : Nat → terms_t) (A : Mat) (s : invert_state)
    (i : Nat) : ℚ :=
  (LE_invert_up_upto kN (kN - 1 - i)
    (LE_invert_down_upto m_terms kN (LE_invert_init kN A s))).W i i

/-- Matrix-vector product `LE_compute_x`: `x = Ainv * RHS`. -/
def LE_compute_x (kN : Nat) (Ainv : Mat) (RHS : Vec) (x : Vec) : Vec :=
  let x0 := (List.range kN).foldl (fun x i => Vec.set x i 0) x
  (List.range kN).foldl
    (fun x k =>
      let f := RHS k
      (List.range kN).foldl (fun x i => Vec.set x i (x i + Ainv i k * f)) x) x0

/-- The loop of `solve_non_dynamic` that determines the changed rows.  Entry `i` of
the result is the pair of `rows[i]` and the filled part `cols[i][0 .. colcount[i])`;
the length of the result is `rowcount`. -/
def changed_rows (iN : Nat) (m_terms : Nat → terms_t) (A lA : Mat) : List (Nat × List Nat) :=
  (List.range iN).foldl
    (fun acc row =>
      let cs := (m_terms row).m_nz.foldl
        (fun cs col => if A row col ≠ lA row col then cs ++ [col] else cs) []
      if cs.length > 0 then acc ++ [(row, cs)] else acc) []

/-- The local `w = transpose(V) * y` of the fast path. -/
def fast_w (iN rowcount : Nat) (rows : Nat → Nat) (A lA : Mat) (new_V : Vec) : Vec :=
  (List.range rowcount).foldl
    (fun w i =>
      (List.range iN).foldl
        (fun w k => Vec.set w i (w i + (A (rows i) k - lA (rows i) k) * new_V k)) w)
    (fun _ => 0)

/-- Construction of `H = (I + VT*Z)` in the fast path. -/
def fast_H (rowcount : Nat) (rows : Nat → Nat) (cols : Nat → List Nat) (A lA Ainv : Mat)
    (H : Mat) : Mat :=
  let H0 := (List.range rowcount).foldl
    (fun H i => (List.range rowcount).foldl (fun H k => Mat.set H i k 0) H) H
  let H1 := (List.range rowcount).foldl (fun H i => Mat.set H i i (H i i + 1)) H0
  (List.range rowcount).foldl
    (fun H i =>
      (cols i).foldl
        (fun H col =>
          let f := A (rows i) col - lA (rows i) col
          if f ≠ 0 then
            (List.range rowcount).foldl
              (fun H j => Mat.set H i j (H i j + f * Ainv col (rows j))) H
          else H) H) H1

/-- Gaussian elimination of `H` in the fast path, elimination of column `i` from
row `j`. -/
def fast_elim_row (rowcount i : Nat) (f : ℚ) (j : Nat) (s : Mat × Vec) : Mat × Vec :=
  let f1 := - f * s.1 j i
  if f1 ≠ 0 then
    ((List.range (rowcount - i - 1)).foldl
        (fun H k => Mat.set H j (i + 1 + k) (H j (i + 1 + k) + f1 * H i (i + 1 + k))) s.1,
      Vec.set s.2 j (s.2 j + f1 * s.2 i))
  else s

/-- Gaussian elimination of `H` in the fast path, the rows below pivot `i`. -/
def fast_elim_rows (rowcount i : Nat) (s : Mat × Vec) : Mat × Vec :=
  let f := 1 / s.1 i i
  (List.range' (i + 1) (rowcount - (i + 1))).foldl (fun s j => fast_elim_row rowcount i f j s) s

/-- Gaussian elimination of `H` in the fast path, step `i`; `none` when `H[i][i]`
is zero (the source prints "H singular" and divides). -/
def fast_elim_step (rowcount i : Nat) (s : Mat × Vec) : Option (Mat × Vec) :=
  if s.1 i i = 0 then none else some (fast_elim_rows rowcount i s)

/-- Gaussian elimination of `(H, w)` in the fast path. -/
def fast_elim (rowcount : Nat) (s : Mat × Vec) : Option (Mat × Vec) :=
  (List.range rowcount).foldlM (fun s i => fast_elim_step rowcount i s) s

/-- The arrays `(H, w)` after the first `n` steps of the Gaussian elimination of
the fast path, computed without the test for a zero pivot. -/
def fast_elim_upto (rowcount n : Nat) (s : Mat × Vec) : Mat × Vec :=
  (List.range n).foldl (fun s i => fast_elim_rows rowcount i s) s

/-- Back substitution of the fast path, row `j`; `none` when `H[j][j]` is zero. -/
def fast_back_row (rowcount : Nat) (s : Mat × Vec) (j : Nat) (t : Vec) : Option Vec :=
  let tmp := (List.range (rowcount - j - 1)).foldl
    (fun tmp k => tmp + s.1 j (j + 1 + k) * t (j + 1 + k)) 0
  if s.1 j j = 0 then none else some (Vec.set t j ((s.2 j - tmp) / s.1 j j))

/-- Back substitution of the fast path, solving `H t = w`. -/
def fast_back (rowcount : Nat) (s : Mat × Vec) (t : Vec) : Option Vec :=
  (List.range rowcount).reverse.foldlM (fun t j => fast_back_row rowcount s j t) t

/-- The correction `x = y - Zt` of the fast path. -/
def fast_correct (iN rowcount : Nat) (rows : Nat → Nat) (Ainv : Mat) (t new_V : Vec) : Vec :=
  (List.range iN).foldl
    (fun new_V i =>
      let tmp := (List.range rowcount).foldl (fun tmp j => tmp + Ainv i (rows j) * t j) 0
      Vec.set new_V i (new_V i - tmp)) new_V

/-- Modelled from the spec: the convergence measure `delta` that `solve_non_dynamic`
calls, a method of the absent base class; the spec gives the Woodbury solver the
convergence semantics of the direct solver. -/
def delta (iN : Nat) (V cur_Analog : Vec) : ℚ := matrix_solver_direct_t.delta iN V cur_Analog

/-- Modelled from the spec: the commit `store` that `solve_non_dynamic` calls, a
method of the absent base class; the spec gives the Woodbury solver the commit
semantics of the direct solver. -/
def store (iN : Nat) (V cur_Analog : Vec) : Vec := matrix_solver_direct_t.store iN V cur_Analog

end matrix_solver_w_t

/-- The members of `matrix_solver_w_t` that a solve reads or writes: `N()`, `m_A`,
`m_RHS`, the matrices `m_W`, `m_lA`, `m_Ainv` (as `inv`), the temporary `H`, the
counter `m_cnt`, `m_terms`, the voltages `m_nets[i]->m_cur_Analog`, and
`m_params.m_accuracy`.  The temporaries `rows`, `cols`, `colcount` are written
before they are read in every call and are kept local. -/
structure matrix_solver_w_t where
  N : Nat
  m_A : Mat
  m_RHS : Vec
  inv : invert_state
  H : Mat
  m_cnt : Nat
  m_terms : Nat → terms_t
  cur_Analog : Vec
  m_accuracy : ℚ

namespace matrix_solver_w_t

/-- The complete calculation of `solve_non_dynamic`, taken when `m_cnt % 100 == 0`:
`LE_invert` and `LE_compute_x`.  The result is the solver and `new_V`. -/
def solve_refresh (s : matrix_solver_w_t) (new_V : Vec) : Option (matrix_solver_w_t × Vec) :=
  (LE_invert s.N s.m_terms s.m_A s.inv).map fun inv =>
    ({ s with inv := inv }, LE_compute_x s.N inv.Ainv s.m_RHS new_V)

/-- The else-branch of `solve_non_dynamic` (the fast path): `LE_compute_x`, the
changed rows, and for `rowcount > 0` the Woodbury correction.  `t` is the content
of the uninitialised local `t`. -/
def solve_fast (s : matrix_solver_w_t) (new_V t : Vec) : Option (matrix_solver_w_t × Vec) :=
  let new_V := LE_compute_x s.N s.inv.Ainv s.m_RHS new_V
  let ch := changed_rows s.N s.m_terms s.m_A s.inv.lA
  let rowcount := ch.length
  let rows : Nat → Nat := fun i => (ch.getD i (0, [])).1
  let cols : Nat → List Nat := fun i => (ch.getD i (0, [])).2
  if rowcount > 0 then
    let w := fast_w s.N rowcount rows s.m_A s.inv.lA new_V
    let H := fast_H rowcount rows cols s.m_A s.inv.lA s.inv.Ainv s.H
    (fast_elim rowcount (H, w)).bind fun r =>
      (fast_back rowcount r t).map fun t =>
        ({ s with H := r.1 }, fast_correct s.N rowcount rows s.inv.Ainv t new_V)
  else some (s, new_V)

/-- The pivot `H[i][i]` that step `i` of the Gaussian elimination of the fast path
divides by, for the solver `s` at the entry of the call. -/
def solve_fast_pivot (s : matrix_solver_w_t) (new_V : Vec) (i : Nat) : ℚ :=
  let new_V := LE_compute_x s.N s.inv.Ainv s.m_RHS new_V
  let ch := changed_rows s.N s.m_terms s.m_A s.inv.lA
  let rowcount := ch.length
  let rows : Nat → Nat := fun i => (ch.getD i (0, [])).1
  let cols : Nat → List Nat := fun i => (ch.getD i (0, [])).2
  let w := fast_w s.N rowcount rows s.m_A s.inv.lA new_V
  let H := fast_H rowcount rows cols s.m_A s.inv.lA s.inv.Ainv s.H
  (fast_elim_upto rowcount i (H, w)).1 i i

/-- The tail of `solve_non_dynamic` after either path: `m_cnt++`, then `delta`,
`store` and the return code.  The residual loop in between only prints and is left
out. -/
def solve_commit (s : matrix_solver_w_t) (new_V : Vec) (newton_raphson : Bool) :
    Nat × matrix_solver_w_t :=
  let s1 := { s with m_cnt := (s.m_cnt + 1) % 2 ^ 32 }
  if newton_raphson then
    let err := delta s.N new_V s1.cur_Analog
    (if err > s.m_accuracy then 2 else 1, { s1 with cur_Analog := store s.N new_V s1.cur_Analog })
  else
    (1, { s1 with cur_Analog := store s.N new_V s1.cur_Analog })

/-- Method `solve_non_dynamic` of the Woodbury solver.  `new_V` and `t` are the
contents of the uninitialised locals; the result is the return code and the solver
after the call. -/
def solve_non_dynamic (s : matrix_solver_w_t) (new_V t : Vec) (newton_raphson : Bool) :
    Option (Nat × matrix_solver_w_t) :=
  (if s.m_cnt % 100 = 0 then solve_refresh s new_V else solve_fast s new_V t).map fun r =>
    solve_commit r.1 r.2 newton_raphson

/-- The solvers at the entry of call number `n` of `solve_non_dynamic`, counted from
a freshly constructed solver (the constructor sets `m_cnt = 0`).  Between two calls
everything but `m_cnt` may have been changed (`vsolve_non_dynamic` reassembles `m_A`
and `m_RHS`, device models change terminal values and voltages). -/
inductive w_run : Nat → matrix_solver_w_t → Prop
  | fresh (s : matrix_solver_w_t) (h : s.m_cnt = 0) : w_run 0 s
  | call (n : Nat) (s : matrix_solver_w_t) (new_V t : Vec) (newton_raphson : Bool) (code : Nat)
      (s1 s2 : matrix_solver_w_t) (hr : w_run n s)
      (hc : solve_non_dynamic s new_V t newton_raphson = some (code, s1))
      (hk : s2.m_cnt = s1.m_cnt) : w_run (n + 1) s2

/-- What the rest of the program may do to the solver between two calls of
`solve_non_dynamic`: `vsolve_non_dynamic` reassembles `m_A` and `m_RHS`, device
models change terminal values and voltages, `H` is scratch.  `N()` is fixed, and
`m_cnt` and the matrices `m_W`, `m_lA`, `m_Ainv` are written by `solve_non_dynamic`
and `LE_invert` only. -/
def between_calls (s1 s2 : matrix_solver_w_t) : Prop :=
  s2.N = s1.N ∧ s2.inv = s1.inv ∧ s2.m_cnt = s1.m_cnt

/-- The solver `s` is at the entry of a call of `solve_non_dynamic` that is reached
from the entry state `s0` of an earlier call by calls that all took the fast path
(`m_cnt % 100 != 0`), with `between_calls` after each of them. -/
inductive w_fast_run : matrix_solver_w_t → matrix_solver_w_t → Prop
  | start (s : matrix_solver_w_t) : w_fast_run s s
  | call (s0 s : matrix_solver_w_t) (new_V t : Vec) (newton_raphson : Bool) (code : Nat)
      (s1 s2 : matrix_solver_w_t) (hr : w_fast_run s0 s) (hf : s.m_cnt % 100 ≠ 0)
      (hc : solve_non_dynamic s new_V t newton_raphson = some (code, s1))
      (hk : between_calls s1 s2) : w_fast_run s0 s2

end matrix_solver_w_t

/-! ## The two-net scenario -/

/-- Node 0 of the two-net scenario: a coupling term to node 1 (`gt = go = 2`) and a
rail term (`gt = go = 1`, rail at 0 V) that carries the injected current `Idr = 1`. -/
def scenario_row0 : terms_t :=
  { count := 2, m_railstart := 1
    gt := fun i => if i = 0 then 2 else 1
    go := fun i => if i = 0 then 2 else 1
    Idr := fun i => if i = 0 then 0 else 1
    net_other := fun i => if i = 0 then 1 else -1
    other_curanalog := fun _ => 0
    m_nz := [], m_nzrd := [], m_nzbd := [] }

/-- Node 1 of the two-net scenario: a coupling term to node 0 (`gt = go = 2`) and a
rail term (`gt = go = 1`, rail at 0 V). -/
def scenario_row1 : terms_t :=
  { count := 2, m_railstart := 1
    gt := fun i => if i = 0 then 2 else 1
    go := fun i => if i = 0 then 2 else 1
    Idr := fun _ => 0
    net_other := fun i => if i = 0 then 0 else -1
    other_curanalog := fun _ => 0
    m_nz := [], m_nzrd := [], m_nzbd := [] }

/-- The rows of the two-net scenario before `vsetup` has computed the index lists. -/
def scenario_rows : Nat → terms_t := fun k => if k = 0 then scenario_row0 else scenario_row1

/-- A direct solver for the two-net scenario right after `vsetup`, with arbitrary
contents `junkA`, `junkV` in its arrays and all net voltages at `v`. -/
def scenario_direct (junkA : Mat) (junkV v : Vec) : matrix_solver_direct_t :=
  { N := 2, m_A := junkA, m_RHS := junkV, m_last_RHS := junkV, m_last_V := junkV
    m_terms := matrix_solver_direct_t.vsetup_nz 2 scenario_rows
    cur_Analog := v, m_accuracy := 1 / 1000000 }

/-- Rows of a two-net system coupled by pure transconductances: each net has one
matrix-coupled term to the other net with `gt = 0`, `go = 1`, and net 0 carries
`Idr = 1`.  The assembled system is `[[0,-1],[-1,0]] x = [1,0]`. -/
def zero_pivot_rows : Nat → terms_t := fun k =>
  { count := 1, m_railstart := 1
    gt := fun _ => 0
    go := fun _ => 1
    Idr := fun _ => if k = 0 then 1 else 0
    net_other := fun _ => if k = 0 then 1 else 0
    other_curanalog := fun _ => 0
    m_nz := [], m_nzrd := [], m_nzbd := [] }

/-- Rows of a one-net system: a single rail term with `gt = go = 1` that carries
`Idr = 1`, the rail at 0 V (a 1 Ohm resistor to ground fed with 1 A). -/
def one_net_rows : Nat → terms_t := fun _ =>
  { count := 1, m_railstart := 0
    gt := fun _ => 1
    go := fun _ => 1
    Idr := fun _ => 1
    net_other := fun _ => -1
    other_curanalog := fun _ => 0
    m_nz := [], m_nzrd := [], m_nzbd := [] }

/-- A freshly constructed Woodbury solver for `one_net_rows` after `vsetup`, holding
the assembled `A = [[1]]`, `RHS = [1]`. -/
def one_net_w : matrix_solver_w_t :=
  { N := 1, m_A := fun _ _ => 1, m_RHS := fun _ => 1
    inv := { W := fun _ _ => 0, lA := fun _ _ => 0, Ainv := fun _ _ => 0 }
    H := fun _ _ => 0, m_cnt := 0
    m_terms := matrix_solver_w_t.vsetup_nz 1 one_net_rows
    cur_Analog := fun _ => 0, m_accuracy := 1 / 1000000 }

/-- A Woodbury solver for the two-net scenario right after construction and
`vsetup` (`m_cnt = 0`), holding the assembled `A = [[3,-2],[-2,3]]`, `RHS = [1,0]`,
with arbitrary contents `inv`, `H` in its work matrices and net voltages `v`. -/
def scenario_w (inv : invert_state) (H : Mat) (v : Vec) : matrix_solver_w_t :=
  { N := 2, m_A := fun r c => if r = c then 3 else -2, m_RHS := fun i => if i = 0 then 1 else 0
    inv := inv, H := H, m_cnt := 0
    m_terms := matrix_solver_w_t.vsetup_nz 2 scenario_rows
    cur_Analog := v, m_accuracy := 1 / 1000000 }

/-- A net with a two-terminal device whose two terminals are both attached to this
net (`gt = go = 1`, the other net is the row's own net 0) and a rail term of
conductance `g` (rail at 0 V) that carries the injected current `Idr = 2`. -/
def shorted_row (g : ℚ) : terms_t :=
  { count := 2, m_railstart := 1
    gt := fun i => if i = 0 then 1 else g
    go := fun i => if i = 0 then 1 else g
    Idr := fun i => if i = 0 then 0 else 2
    net_other := fun i => if i = 0 then 0 else -1
    other_curanalog := fun _ => 0
    m_nz := [], m_nzrd := [], m_nzbd := [] }

/-- A one-net system made of `shorted_row g`, before `vsetup` has computed the index
lists. -/
def shorted_rows (g : ℚ) : Nat → terms_t := fun _ => shorted_row g

/-- A Woodbury solver for `shorted_rows` at its second call (`m_cnt = 1`): the first
call ran with rail conductance 1 and left `lA = [[1]]`, `Ainv = [[1]]`; the rail
conductance is 2 now, so the assembled system is `A = [[2]]`, `RHS = [2]`. -/
def shorted_w : matrix_solver_w_t :=
  { N := 1, m_A := fun _ _ => 2, m_RHS := fun _ => 2
    inv := { W := fun _ _ => 0, lA := fun _ _ => 1, Ainv := fun _ _ => 1 }
    H := fun _ _ => 0, m_cnt := 1
    m_terms := matrix_solver_w_t.vsetup_nz 1 (shorted_rows 1)
    cur_Analog := fun _ => 0, m_accuracy := 1 / 1000000 }

/-- The solver `shorted_w` at a second call (`m_cnt = 1`) for which the rail
conductance has not changed: the assembled matrix `A = [[1]]` is the snapshot. -/
def shorted_w_same : matrix_solver_w_t :=
  { shorted_w with m_A := fun _ _ => 1 }

/-- The solver `shorted_w` at its third call (`m_cnt = 2`), with net voltages `v`:
the snapshot is still `lA = [[1]]`, the assembled system is `A = [[2]]`, `RHS = [2]`. -/
def shorted_w_third (v : Vec) : matrix_solver_w_t :=
  { shorted_w with m_cnt := 2, cur_Analog := v }

/-- Node 0 of the two-net scenario with one more device, both of whose terminals are
attached to node 0 (`gt = go = 1`): term 0 is that device, term 1 the coupling to
node 1 with conductance `gc`, term 2 the rail term (`gt = go = 1`, `Idr = 1`). -/
def shorted_scenario_row0 (gc : ℚ) : terms_t :=
  { count := 3, m_railstart := 2
    gt := fun i => if i = 1 then gc else 1
    go := fun i => if i = 1 then gc else 1
    Idr := fun i => if i = 2 then 1 else 0
    net_other := fun i => if i = 0 then 0 else if i = 1 then 1 else -1
    other_curanalog := fun _ => 0
    m_nz := [], m_nzrd := [], m_nzbd := [] }

/-- Node 1 of the two-net scenario with coupling conductance `gc`. -/
def shorted_scenario_row1 (gc : ℚ) : terms_t :=
  { count := 2, m_railstart := 1
    gt := fun i => if i = 0 then gc else 1
    go := fun i => if i = 0 then gc else 1
    Idr := fun _ => 0
    net_other := fun i => if i = 0 then 0 else -1
    other_curanalog := fun _ => 0
    m_nz := [], m_nzrd := [], m_nzbd := [] }

/-- The rows of the two-net scenario with the shorted device at node 0, before
`vsetup` has computed the index lists. -/
def shorted_scenario_rows (gc : ℚ) : Nat → terms_t :=
  fun k => if k = 0 then shorted_scenario_row0 gc else shorted_scenario_row1 gc

/-- A Woodbury solver for `shorted_scenario_rows` at its second call (`m_cnt = 1`):
the first call ran with coupling conductance 2 and left `lA = [[3,-2],[-2,3]]` and
`Ainv = (1/5) [[3,2],[2,3]]`; the coupling conductance is 3 now, so the assembled
system is `A = [[4,-3],[-3,4]]`, `RHS = [1,0]`. -/
def shorted_scenario_w : matrix_solver_w_t :=
  { N := 2, m_A := fun r c => if r = c then 4 else -3
    m_RHS := fun i => if i = 0 then 1 else 0
    inv := { W := fun _ _ => 0, lA := fun r c => if r = c then 3 else -2
             Ainv := fun r c => if r = c then 3 / 5 else 2 / 5 }
    H := fun _ _ => 0, m_cnt := 1
    m_terms := matrix_solver_w_t.vsetup_nz 2 (shorted_scenario_rows 2)
    cur_Analog := fun _ => 0, m_accuracy := 1 / 1000000 }

/-- A Woodbury solver for the two-net scenario at its second call (`m_cnt = 1`): the
first call has left `lA = [[3,-2],[-2,3]]` and `Ainv = (1/5) [[3,2],[2,3]]`; the
assembled matrix is `A` now, `RHS = [1,0]`; `W`, `H`, `v` are the contents of the
work matrices and the net voltages. -/
def scenario_w_second (A W H : Mat) (v : Vec) : matrix_solver_w_t :=
  { N := 2, m_A := A, m_RHS := fun i => if i = 0 then 1 else 0
    inv := { W := W, lA := fun r c => if r = c then 3 else -2
             Ainv := fun r c => if r = c then 3 / 5 else 2 / 5 }
    H := H, m_cnt := 1
    m_terms := matrix_solver_w_t.vsetup_nz 2 scenario_rows
    cur_Analog := v, m_accuracy := 1 / 1000000 }

/-! ## Setup of the rows -/

/-- Modelled from the spec: the part of a `terminal_t` (declared in the absent
`nl_base.h`) that `add_term` reads: whether the net of the other terminal is a rail
net (`m_otherterm->net().isRailNet()`) and the index that `get_net_idx` finds for
that net among the nets of this solver, negative when it is not one of them.  The
field `name` tells the terminals apart. -/
structure terminal_t where
  name : Nat
  otherterm_isRailNet : Bool
  otherterm_net_idx : Int

/-- Modelled from the spec: the parallel lists `m_term`, `m_net_other` of a `terms_t`
(absent `nld_solver.h`) while the rows are set up, as one list of pairs, and the
partition point `m_railstart`. -/
structure terms_list_t where
  terms : List (terminal_t × Int)
  m_railstart : Nat

namespace terms_list_t

/-- Modelled from the spec: `terms_t::count`, the number of terminals in the row. -/
def count (t : terms_list_t) : Nat := t.terms.length

/-- Modelled from the spec: `terms_t::clear`, which empties the lists. -/
def clear (t : terms_list_t) : terms_list_t := { t with terms := [] }

/-- Modelled from the spec: `terms_t::add(term, net_other, sorted)`, which puts the
terminal and its `net_other` into the lists: at the end when `sorted` is false, and
when `sorted` is true at the position that the absent code chooses from the
`net_other` values, given here by `pos` (a position beyond the end is the end). -/
def add (pos : List (terminal_t × Int) → Int → Nat) (t : terms_list_t) (term : terminal_t)
    (net_other : Int) (sorted : Bool) : terms_list_t :=
  if sorted then
    { t with terms := t.terms.take (pos t.terms net_other) ++ [(term, net_other)]
        ++ t.terms.drop (pos t.terms net_other) }
  else { t with terms := t.terms ++ [(term, net_other)] }

end terms_list_t

namespace matrix_solver_direct_t

/-- Method `add_term` for row `k`; the state is the pair `(m_terms[k], m_rails_temp[k])`.
A terminal whose other net is a rail goes to `m_rails_temp[k]` with `net_other = -1`,
one whose other net has an index `ot >= 0` goes to `m_terms[k]`, and one with a
missing other net goes to `m_rails_temp[k]` (the source then reports
"found term with missing othernet"). -/
def add_term (pos : List (terminal_t × Int) → Int → Nat) (term : terminal_t)
    (s : terms_list_t × terms_list_t) : terms_list_t × terms_list_t :=
  if term.otherterm_isRailNet then (s.1, s.2.add pos term (-1) false)
  else
    let ot := term.otherterm_net_idx
    if ot ≥ 0 then (s.1.add pos term ot true, s.2)
    else (s.1, s.2.add pos term ot true)

/-- The loop body of `vsetup` that appends the rail terms of row `k`: `m_railstart`
becomes the current `count`, the entries of `m_rails_temp[k]` are added in their
order with `sorted = false`, and `m_rails_temp[k]` is cleared. -/
def vsetup_rails (pos : List (terminal_t × Int) → Int → Nat)
    (s : terms_list_t × terms_list_t) : terms_list_t × terms_list_t :=
  let t0 := { s.1 with m_railstart := s.1.count }
  (s.2.terms.foldl (fun t e => t.add pos e.1 e.2 false) t0, s.2.clear)

/-- Modelled from the spec: the part of the absent `matrix_solver_t::setup` that
concerns net `k`; it calls `add_term(k, term)` for the terminals `ts` of the net in
their order. -/
def setup_row (pos : List (terminal_t × Int) → Int → Nat) (ts : List terminal_t)
    (s : terms_list_t × terms_list_t) : terms_list_t × terms_list_t :=
  ts.foldl (fun s term => add_term pos term s) s

/-- The part of `vsetup` that builds row `k`: both lists are cleared, `setup` adds
the terminals `ts` of net `k`, and the rail terms are appended. -/
def vsetup_row (pos : List (terminal_t × Int) → Int → Nat)
    (old : terms_list_t × terms_list_t) (ts : List terminal_t) : terms_list_t × terms_list_t :=
  vsetup_rails pos (setup_row pos ts (old.1.clear, old.2.clear))

/-- The capacity check at the head of `vsetup`, `if (m_dim < nets.size())`: `none`
when the error "Dimension ... less than ..." is raised.  `m_dim` is `unsigned` and
`nets.size()` a `size_t`; the comparison is made in the wider unsigned type and is
the comparison of the two numbers. -/
def vsetup_check (m_dim nets_size : Nat) : Option Unit :=
  if m_dim < nets_size then none else some ()

end matrix_solver_direct_t

namespace matrix_solver_w_t

/-- The loop body of the Woodbury `vsetup` that appends the rail terms of row `k`;
it is the same code as in the direct solver. -/
def vsetup_rails (pos : List (terminal_t × Int) → Int → Nat)
    (s : terms_list_t × terms_list_t) : terms_list_t × terms_list_t :=
  let t0 := { s.1 with m_railstart := s.1.count }
  (s.2.terms.foldl (fun t e => t.add pos e.1 e.2 false) t0, s.2.clear)

/-- The capacity check at the head of the Woodbury `vsetup`, `if (m_dim < nets.size())`:
`none` when `log().fatal` is called. -/
def vsetup_check (m_dim nets_size : Nat) : Option Unit :=
  if m_dim < nets_size then none else some ()

end matrix_solver_w_t

/-! ## Reordering of the rows -/

/-- The array `a` after `std::swap(a[i], a[j])`. -/
def swap_at {α : Type} (a : Nat → α) (i j : Nat) : Nat → α :=
  fun k => if k = i then a j else if k = j then a i else a k

namespace matrix_solver_direct_t

/-- Body of the reordering loop of `vsetup` at position `i`; the state is the row
array `m_terms` and the net list `m_nets`.  The two are swapped at `i`, `i + 1` when
`(m_terms[i]->m_railstart - m_terms[i+1]->m_railstart) * sort_order < 0`.  The
difference is taken as a signed number, which is how the spec describes the loop
(the declaration of `m_railstart` is in the absent `nld_solver.h`).  The method
`m_nets.swap(i, i + 1)` of the list class is not part of the sources at hand either;
it is taken to exchange the two entries, as `std::swap` does for `m_terms`. -/
def vsetup_sort_step {α : Type} (sort_order : Int) (i : Nat)
    (s : (Nat → terms_list_t) × (Nat → α)) : (Nat → terms_list_t) × (Nat → α) :=
  if (((s.1 i).m_railstart : Int) - ((s.1 (i + 1)).m_railstart : Int)) * sort_order < 0 then
    (swap_at s.1 i (i + 1), swap_at s.2 i (i + 1))
  else s

/-- The reordering loop of `vsetup`: `N / 2` passes over the positions
`0 .. N - 2`, with `sort_order = 1` for `GAUSS_SEIDEL` and `-1` otherwise. -/
def vsetup_sort {α : Type} (N : Nat) (gauss_seidel : Bool)
    (s : (Nat → terms_list_t) × (Nat → α)) : (Nat → terms_list_t) × (Nat → α) :=
  let sort_order : Int := if gauss_seidel then 1 else -1
  (List.range (N / 2)).foldl
    (fun s _ => (List.range (N - 1)).foldl (fun s i => vsetup_sort_step sort_order i s) s) s

end matrix_solver_direct_t

/-- A row with `n` matrix-coupled terms and no rail term. -/
def row_of_railstart (n : Nat) : terms_list_t :=
  { terms := List.replicate n (⟨0, false, 0⟩, 0), m_railstart := n }

/-! ## Timestep controller -/

/-- Modelled from the spec: the fields of a net (`analog_net_t`, absent `nl_base.h`)
that the timestep controller reads and writes: the current voltage, the previous
step size and the previous first difference. -/
structure analog_net_t where
  m_cur_Analog : ℚ
  m_h_n_m_1 : ℚ
  m_DD_n_m_1 : ℚ

/-- Modelled from the spec: the fields of `solver_parameters_t` (absent
`nld_solver.h`) that the timestep controller reads. -/
structure solver_parameters_t where
  m_max_timestep : ℚ
  m_min_timestep : ℚ
  m_lte : ℚ
  m_dynamic : Bool

namespace matrix_solver_direct_t

/-- The second divided difference `DD2` that `compute_next_timestep` forms for net
`n`, `hn` being `current_timestep()` and `last_V` the entry `m_last_V[k]`. -/
def DD2 (hn last_V : ℚ) (n : analog_net_t) : ℚ :=
  ((n.m_cur_Analog - last_V) / hn - n.m_DD_n_m_1 / n.m_h_n_m_1) / (hn + n.m_h_n_m_1)

/-- The candidate step `new_net_timestep` of net `n`.  `sqrt` stands for
`nl_math::sqrt`, which is not part of the sources at hand. -/
def new_net_timestep (sqrt : ℚ → ℚ) (m_params : solver_parameters_t) (hn last_V : ℚ)
    (n : analog_net_t) : ℚ :=
  if |DD2 hn last_V n| > 1 / 10 ^ 30 then sqrt (m_params.m_lte / |(1 / 2) * DD2 hn last_V n|)
  else m_params.m_max_timestep

/-- Body of the loop of `compute_next_timestep` for net `k`; the state is
`new_solver_timestep` and the nets.  `none` when one of the divisors `hn`,
`m_h_n_m_1`, `hn + m_h_n_m_1` is zero. -/
def compute_next_timestep_net (sqrt : ℚ → ℚ) (m_params : solver_parameters_t) (hn : ℚ)
    (m_last_V : Vec) (k : Nat) (st : ℚ × (Nat → analog_net_t)) :
    Option (ℚ × (Nat → analog_net_t)) :=
  let n := st.2 k
  let DD_n := n.m_cur_Analog - m_last_V k
  if hn = 0 ∨ n.m_h_n_m_1 = 0 ∨ hn + n.m_h_n_m_1 = 0 then none
  else
    let t := new_net_timestep sqrt m_params hn (m_last_V k) n
    some (if t < st.1 then t else st.1,
      Function.update st.2 k { n with m_h_n_m_1 := hn, m_DD_n_m_1 := DD_n })

/-- Method `compute_next_timestep`; the result is the returned step and the nets
after the call. -/
def compute_next_timestep (sqrt : ℚ → ℚ) (m_params : solver_parameters_t) (iN : Nat) (hn : ℚ)
    (m_last_V : Vec) (m_nets : Nat → analog_net_t) : Option (ℚ × (Nat → analog_net_t)) :=
  if m_params.m_dynamic then
    ((List.range iN).foldlM (fun st k => compute_next_timestep_net sqrt m_params hn m_last_V k st)
        (m_params.m_max_timestep, m_nets)).map
      fun st => (if st.1 < m_params.m_min_timestep then m_params.m_min_timestep else st.1, st.2)
  else some (m_params.m_max_timestep, m_nets)

end matrix_solver_direct_t

/-- A value for `nl_math::sqrt` that is exact on the squares of rationals: the
quotient of the integer square roots of numerator and denominator. -/
def sqrt_exact (q : ℚ) : ℚ := (Nat.sqrt q.num.toNat : ℚ) / (Nat.sqrt q.den : ℚ)

/-- A direct solver for `one_net_rows` after `LE_solve` (`m_A = [[1]]`, `m_RHS = [1]`),
the net voltage still at 0. -/
def one_net_direct : matrix_solver_direct_t :=
  { N := 1, m_A := fun _ _ => 1, m_RHS := fun _ => 1, m_last_RHS := fun _ => 1
    m_last_V := fun _ => 0
    m_terms := matrix_solver_direct_t.vsetup_nz 1 one_net_rows
    cur_Analog := fun _ => 0, m_accuracy := 1 / 1000000 }

/-! ## Notions used in the statements -/

/-- The matrix that elimination has reached after `n` pivots: the entries below
the diagonal in the columns `c < n` count as zero (the solvers leave stale values
there and never read them again). -/
def upperPart (n : Nat) (A : Mat) : Mat := fun r c => if c < n ∧ c < r then 0 else A r c

/-- The properties of the lists `m_nzrd` that the sparse elimination relies on: no
duplicates, entries right of the diagonal and inside the matrix, and every entry
of an earlier row that lies right of the diagonal of a later row is in the list
of the later row. -/
structure NzrdOK (kN : Nat) (m_terms : Nat → terms_t) : Prop where
  nodup : ∀ i, i < kN → (m_terms i).m_nzrd.Nodup
  bounds : ∀ i, i < kN → ∀ c, c ∈ (m_terms i).m_nzrd → i < c ∧ c < kN
  mono : ∀ i r c, i ≤ r → r < kN → c ∈ (m_terms i).m_nzrd → r < c → c ∈ (m_terms r).m_nzrd

/-- Column `c` is the other net of one of the first `n` terms of the row `t`. -/
def coupled (t : terms_t) (n : Nat) (c : Nat) : Prop :=
  ∃ i, i < n ∧ (t.net_other i).toNat = c

/-- One step of the closure of `touched` in `vsetup`, for pivot `k`: every row
`r > k` that has column `k` touched inherits the touched columns `c >= k` of row `k`. -/
def touched_step (N k : Nat) (T : BMat) : BMat :=
  fun r c => T r c || (decide (k < r ∧ r < N) && T r k && decide (k ≤ c ∧ c < N) && T k c)

/-- The array `touched` of `vsetup` after the closure steps for the pivots below `n`. -/
def touched_upto (N : Nat) (T0 : BMat) : Nat → BMat
  | 0 => T0
  | n + 1 => touched_step N n (touched_upto N T0 n)

/-- The `N × N` block of a two-dimensional array as a matrix. -/
def toMatrix (N : Nat) (P : Mat) : Matrix (Fin N) (Fin N) ℚ := Matrix.of fun i j => P i j

/-- The properties of the lists `m_nzbd` that the downward pass of `LE_invert`
relies on: no duplicates, and row `j` is in the list of pivot `i` exactly when it
lies below row `i` and has column `i` touched when the closure reaches pivot `i`. -/
structure NzbdOK (kN : Nat) (m_terms : Nat → terms_t) : Prop where
  nodup : ∀ i, i < kN → (m_terms i).m_nzbd.Nodup
  mem : ∀ i, i < kN → ∀ j, j ∈ (m_terms i).m_nzbd ↔
    (i < j ∧ j < kN) ∧
      touched_upto kN (matrix_solver_w_t.vsetup_touched kN m_terms) i j i = true

/-- Two results of a computation that may divide by zero agree up to `R`: both are
missing, or both are present and related by `R`. -/
def OptRel {σ : Type} (R : σ → σ → Prop) (a b : Option σ) : Prop :=
  (a = none ∧ b = none) ∨ ∃ t t1, a = some t ∧ b = some t1 ∧ R t t1

/-- Two matrices agree on the `N × N` block. -/
def BlockEq (N : Nat) (P Q : Mat) : Prop := ∀ i j, i < N → j < N → P i j = Q i j

/-- Two triples of work matrices agree on the `N × N` block. -/
def InvertEq (N : Nat) (s t : invert_state) : Prop :=
  BlockEq N s.W t.W ∧ BlockEq N s.lA t.lA ∧ BlockEq N s.Ainv t.Ainv

/-- A table of rows whose lists `m_nzrd` hold all the columns right of the diagonal
of an `m × m` matrix; with it the sparse elimination of the direct solver is the
dense elimination that the fast path applies to `H`. -/
def dense_terms (m : Nat) : Nat → terms_t := fun i =>
  { count := 0, m_railstart := 0
    gt := fun _ => 0
    go := fun _ => 0
    Idr := fun _ => 0
    net_other := fun _ => -1
    other_curanalog := fun _ => 0
    m_nz := [], m_nzrd := List.range' (i + 1) (m - (i + 1)), m_nzbd := [] }

namespace matrix_solver_direct_t

/-- Reference for the sparse elimination: `LE_solve` (pivot search disabled) with the
full-row loop `for (k = i + 1; k < kN; k++)` that the source gives as the original
implementation; it is `LE_solve` run with the lists of `dense_terms`. -/
def LE_solve_full (kN : Nat) (s : Mat × Vec) : Option (Mat × Vec) :=
  LE_solve false kN (dense_terms kN) s

/-- Reference for the sparse back substitution: `LE_back_subst` with the full-row
loop `for (k = j + 1; k < kN; k++)` of the source's disabled branch. -/
def LE_back_subst_full (kN : Nat) (s : Mat × Vec) (x : Vec) : Option Vec :=
  LE_back_subst kN (dense_terms kN) s x

end matrix_solver_direct_t

namespace matrix_solver_w_t

/-- Reference for the downward pass of `LE_invert`: the sweep of pivot `i` over all
rows `j = i + 1 .. kN - 1` instead of the rows in `m_nzbd`. -/
def LE_invert_down_elim_all (kN : Nat) (m_terms : Nat → terms_t) (i : Nat) (s : invert_state) :
    invert_state :=
  let f := 1 / s.W i i
  (List.range' (i + 1) (kN - (i + 1))).foldl
    (fun s j => LE_invert_down_row (m_terms i).m_nzrd i f j s) s

/-- Reference for the downward pass of `LE_invert` with the sweeps over all rows;
`none` when a pivot `W(i,i)` is zero. -/
def LE_invert_down_all (kN : Nat) (m_terms : Nat → terms_t) (s : invert_state) :
    Option invert_state :=
  (List.range kN).foldlM
    (fun s i => if s.W i i = 0 then none else some (LE_invert_down_elim_all kN m_terms i s)) s

end matrix_solver_w_t

/-- Rows of a chain of three nets 0 - 1 - 2 with terminal values that are not
diagonally dominant: net 0 is coupled to net 1 (`gt = 1`, `go = 2`) and carries
`Idr = 1` in a rail term without conductance; net 1 is coupled to net 0
(`gt = 1`, `go = 2`) and to net 2 (`gt = go = 1`); net 2 is coupled to net 1
(`gt = go = 1`) and has a rail term (`gt = go = 1`, rail at 0 V).  The assembled
system is `[[1,-2,0],[-2,2,-1],[0,-1,2]] x = [1,0,0]`. -/
def chain_rows : Nat → terms_t := fun k =>
  if k = 0 then
    { count := 2, m_railstart := 1
      gt := fun i => if i = 0 then 1 else 0
      go := fun i => if i = 0 then 2 else 0
      Idr := fun i => if i = 0 then 0 else 1
      net_other := fun i => if i = 0 then 1 else -1
      other_curanalog := fun _ => 0
      m_nz := [], m_nzrd := [], m_nzbd := [] }
  else if k = 1 then
    { count := 2, m_railstart := 2
      gt := fun _ => 1
      go := fun i => if i = 0 then 2 else 1
      Idr := fun _ => 0
      net_other := fun i => if i = 0 then 0 else 2
      other_curanalog := fun _ => 0
      m_nz := [], m_nzrd := [], m_nzbd := [] }
  else
    { count := 2, m_railstart := 1
      gt := fun _ => 1
      go := fun _ => 1
      Idr := fun _ => 0
      net_other := fun i => if i = 0 then 1 else -1
      other_curanalog := fun _ => 0
      m_nz := [], m_nzrd := [], m_nzbd := [] }

/-- The vector `x` solves the `N`-dimensional system `A x = b`. -/
def IsSolution (N : Nat) (A : Mat) (b x : Vec) : Prop :=
  ∀ j, j < N → ∑ c in Finset.range N, A j c * x c = b j

/-- The `N`-dimensional product `P Q` is the identity matrix. -/
def IsInverse (N : Nat) (P Q : Mat) : Prop :=
  ∀ i, i < N → ∀ j, j < N → ∑ c in Finset.range N, P i c * Q c j = if i = j then 1 else 0

/-- The `N`-dimensional matrix `A` is non-singular: only the zero vector is mapped
to zero. -/
def NonSingular (N : Nat) (A : Mat) : Prop :=
  ∀ z : Vec, IsSolution N A (fun _ => 0) z → ∀ c, c < N → z c = 0


/-! ## Basic facts on arrays and loops -/

@[simp] theorem Vec_set_apply (v : Vec) (i : Nat) (x : ℚ) (k : Nat) :
    Vec.set v i x k = if k = i then x else v k := rfl

@[simp] theorem Mat_set_apply (M : Mat) (r c : Nat) (x : ℚ) (r1 c1 : Nat) :
    Mat.set M r c x r1 c1 = if r1 = r ∧ c1 = c then x else M r1 c1 := rfl

@[simp] theorem Mat_setRow_apply (M : Mat) (r : Nat) (d : Vec) (r1 c1 : Nat) :
    Mat.setRow M r d r1 c1 = if r1 = r then d c1 else M r1 c1 := rfl

@[simp] theorem BMat_mark_apply (T : BMat) (r c r1 c1 : Nat) :
    BMat.mark T r c r1 c1 = if r1 = r ∧ c1 = c then true else T r1 c1 := rfl

theorem foldl_add_range (f : Nat → ℚ) (n : Nat) (a : ℚ) :
    (List.range n).foldl (fun a i => a + f i) a = a + ∑ i in Finset.range n, f i := by
  induction n with
  | zero => simp
  | succ n ih => simp [List.range_succ, List.foldl_append, ih, Finset.sum_range_succ, add_assoc]

theorem foldl_add_range' (f : Nat → ℚ) (lo n : Nat) (a : ℚ) :
    (List.range' lo n).foldl (fun a i => a + f i) a
      = a + ∑ i in Finset.Ico lo (lo + n), f i := by
  induction n with
  | zero => simp
  | succ n ih =>
    rw [List.range'_1_concat, List.foldl_append, ih, ← add_assoc lo n 1,
      Finset.sum_Ico_succ_top (Nat.le_add_right lo n)]
    simp [add_assoc]

/-! ## Assembly of the direct solver -/

namespace matrix_solver_direct_t

theorem foldl_zero_row (k n : Nat) (A : Mat) (r c : Nat) :
    (List.range n).foldl (fun A i => Mat.set A k i 0) A r c
      = if r = k ∧ c < n then 0 else A r c := by
  induction n generalizing r c with
  | zero => simp
  | succ n ih =>
    simp only [List.range_succ, List.foldl_append, List.foldl_cons, List.foldl_nil,
      Mat_set_apply, ih]
    have h1 : c < n + 1 ↔ (c = n ∨ c < n) := by omega
    by_cases hr : r = k <;> by_cases hc : c = n <;> by_cases hc2 : c < n <;>
      simp [hr, hc, hc2, h1]

theorem foldl_sub_go (k : Nat) (o : Nat → Nat) (g : Nat → ℚ) (n : Nat) (A : Mat) (r c : Nat) :
    (List.range n).foldl (fun A i => Mat.set A k (o i) (A k (o i) - g i)) A r c =
      if r = k then A r c - ∑ i in (Finset.range n).filter (fun i => o i = c), g i
      else A r c := by
  induction n generalizing r c with
  | zero => simp
  | succ n ih =>
    simp only [List.range_succ, List.foldl_append, List.foldl_cons, List.foldl_nil,
      Mat_set_apply, ih, Finset.range_succ, Finset.filter_insert]
    by_cases hr : r = k
    · subst hr
      by_cases hc : c = o n
      · subst hc; simp [sub_sub, add_comm]
      · have : ¬ o n = c := fun h => hc h.symm
        simp [hc, this]
    · simp [hr]

/-- Closed form of one row of `build_LE_A`. -/
theorem build_LE_A_row_apply (iN : Nat) (t : terms_t) (k : Nat) (A : Mat) (r c : Nat) :
    build_LE_A_row iN t k A r c =
      if r = k then
        ((if c = k then (if k < iN then 0 else A k k) + ∑ i in Finset.range t.count, t.gt i
          else if c < iN then 0 else A k c)
          - ∑ i in (Finset.range t.m_railstart).filter
              (fun i => (t.net_other i).toNat = c), t.go i)
      else A r c := by
  unfold build_LE_A_row
  simp only [foldl_sub_go (o := fun i => (t.net_other i).toNat), foldl_add_range,
    Mat_set_apply, foldl_zero_row]
  by_cases hr : r = k
  · subst hr
    by_cases hc : c = r
    · subst hc; simp
    · simp [hc]
  · simp [hr]

theorem build_LE_A_fold_apply (iN : Nat) (m_terms : Nat → terms_t) (A : Mat) (n r c : Nat) :
    (List.range n).foldl (fun A k => build_LE_A_row iN (m_terms k) k A) A r c =
      if r < n then build_LE_A_row iN (m_terms r) r A r c else A r c := by
  induction n generalizing r c with
  | zero => simp
  | succ n ih =>
    rw [List.range_succ, List.foldl_append, List.foldl_cons, List.foldl_nil,
      build_LE_A_row_apply]
    by_cases hr : r = n
    · subst hr
      simp only [if_true, Nat.lt_succ_self, ih, Nat.lt_irrefl, if_false]
      rw [build_LE_A_row_apply]; simp
    · simp only [hr, if_false, ih]
      by_cases h2 : r < n
      · simp [h2, Nat.lt_succ_of_lt h2]
      · have : ¬ r < n + 1 := by omega
        simp [h2, this]

/-- Closed form of `build_LE_A` inside the `iN × iN` block. -/
theorem build_LE_A_apply (iN : Nat) (m_terms : Nat → terms_t) (A : Mat) (k c : Nat)
    (hk : k < iN) (hc : c < iN) :
    build_LE_A iN m_terms A k c =
      (if c = k then ∑ i in Finset.range (m_terms k).count, (m_terms k).gt i else 0)
        - ∑ i in (Finset.range (m_terms k).m_railstart).filter
            (fun i => ((m_terms k).net_other i).toNat = c), (m_terms k).go i := by
  unfold build_LE_A
  rw [build_LE_A_fold_apply, if_pos hk, build_LE_A_row_apply]
  by_cases h : c = k
  · subst h; simp [hk]
  · simp [h, hc]

theorem foldl_set_range (g : Nat → ℚ) (v : Vec) (n k : Nat) :
    (List.range n).foldl (fun v k => Vec.set v k (g k)) v k = if k < n then g k else v k := by
  induction n generalizing k with
  | zero => simp
  | succ n ih =>
    rw [List.range_succ, List.foldl_append, List.foldl_cons, List.foldl_nil, Vec_set_apply, ih]
    by_cases hk : k = n
    · subst hk; simp
    · by_cases h2 : k < n
      · simp [hk, h2, Nat.lt_succ_of_lt h2]
      · have : ¬ k < n + 1 := by omega
        simp [hk, h2, this]

/-- Closed form of `build_LE_RHS`. -/
theorem build_LE_RHS_apply (iN : Nat) (m_terms : Nat → terms_t) (rhs : Vec) (k : Nat) :
    build_LE_RHS iN m_terms rhs k =
      if k < iN then
        ∑ i in Finset.range (m_terms k).count, (m_terms k).Idr i
          + ∑ i in Finset.Ico (m_terms k).m_railstart (m_terms k).count,
              (m_terms k).go i * (m_terms k).other_curanalog i
      else rhs k := by
  unfold build_LE_RHS
  rw [foldl_set_range
    (fun k => (List.range (m_terms k).count).foldl (fun a i => a + (m_terms k).Idr i) 0
      + (List.range' (m_terms k).m_railstart ((m_terms k).count - (m_terms k).m_railstart)).foldl
        (fun b i => b + (m_terms k).go i * (m_terms k).other_curanalog i) 0)]
  by_cases hk : k < iN
  · simp only [hk, if_true, foldl_add_range, foldl_add_range', zero_add]
    by_cases hle : (m_terms k).m_railstart ≤ (m_terms k).count
    · rw [Nat.add_sub_cancel' hle]
    · have h1 : (m_terms k).count - (m_terms k).m_railstart = 0 := by omega
      have h2 : (m_terms k).count ≤ (m_terms k).m_railstart := by omega
      simp [h1, Finset.Ico_eq_empty_of_le h2]
  · simp [hk]

end matrix_solver_direct_t

/-! ## Elimination and back substitution of the direct solver -/

theorem IsSolution_rowop (N : Nat) (U U1 : Mat) (b b1 : Vec) (n : Nat) (hn : n < N)
    (φ : Nat → ℚ)
    (hU : ∀ r, r < N → ∀ c, c < N → U1 r c = if n < r then U r c + φ r * U n c else U r c)
    (hb : ∀ r, r < N → b1 r = if n < r then b r + φ r * b n else b r) (x : Vec) :
    IsSolution N U1 b1 x ↔ IsSolution N U b x := by
  have hsum : ∀ r, r < N → ∑ c in Finset.range N, U1 r c * x c
      = if n < r then ∑ c in Finset.range N, U r c * x c
          + φ r * ∑ c in Finset.range N, U n c * x c
        else ∑ c in Finset.range N, U r c * x c := by
    intro r hr
    by_cases h : n < r
    · rw [if_pos h, Finset.mul_sum, ← Finset.sum_add_distrib]
      apply Finset.sum_congr rfl
      intro c hc
      rw [hU r hr c (Finset.mem_range.mp hc), if_pos h]; ring
    · rw [if_neg h]
      apply Finset.sum_congr rfl
      intro c hc
      rw [hU r hr c (Finset.mem_range.mp hc), if_neg h]
  constructor
  · intro h r hr
    have hn1 := h n hn
    rw [hsum n hn, if_neg (Nat.lt_irrefl n), hb n hn, if_neg (Nat.lt_irrefl n)] at hn1
    have hr1 := h r hr
    rw [hsum r hr, hb r hr] at hr1
    by_cases hnr : n < r
    · rw [if_pos hnr, if_pos hnr, hn1] at hr1
      linarith
    · rw [if_neg hnr, if_neg hnr] at hr1
      exact hr1
  · intro h r hr
    rw [hsum r hr, hb r hr]
    by_cases hnr : n < r
    · rw [if_pos hnr, if_pos hnr, h r hr, h n hn]
    · rw [if_neg hnr, if_neg hnr, h r hr]

namespace matrix_solver_direct_t

theorem foldl_axpy (a : Vec) (f1 : ℚ) (p : List Nat) (hp : p.Nodup) (d : Vec) (c : Nat) :
    p.foldl (fun d pk => Vec.set d pk (d pk + a pk * f1)) d c
      = if c ∈ p then d c + a c * f1 else d c := by
  induction p generalizing d with
  | nil => simp
  | cons q p ih =>
    have hq : q ∉ p := (List.nodup_cons.mp hp).1
    rw [List.foldl_cons, ih (List.nodup_cons.mp hp).2]
    by_cases hc : c = q
    · subst hc; simp [hq]
    · by_cases hcp : c ∈ p <;> simp [hc, hcp]

theorem LE_solve_row_fst (p : List Nat) (hp : p.Nodup) (i : Nat) (f : ℚ) (j : Nat)
    (s : Mat × Vec) (r c : Nat) :
    (LE_solve_row p i f j s).1 r c
      = if r = j ∧ c ∈ p then s.1 j c + s.1 i c * (- s.1 j i * f) else s.1 r c := by
  unfold LE_solve_row
  by_cases h : - s.1 j i * f = 0
  · simp only [h, ne_eq, not_true_eq_false, if_false, mul_zero, add_zero]
    by_cases h2 : r = j ∧ c ∈ p
    · simp [h2.1, h2.2]
    · simp [h2]
  · simp only [h, ne_eq, not_false_eq_true, if_true, Mat_setRow_apply, foldl_axpy _ _ p hp]
    by_cases hr : r = j
    · subst hr; simp
    · simp [hr]

theorem LE_solve_row_snd (p : List Nat) (i : Nat) (f : ℚ) (j : Nat) (s : Mat × Vec) (r : Nat) :
    (LE_solve_row p i f j s).2 r
      = if r = j then s.2 j + s.2 i * (- s.1 j i * f) else s.2 r := by
  unfold LE_solve_row
  by_cases h : - s.1 j i * f = 0
  · simp only [h, ne_eq, not_true_eq_false, if_false, mul_zero, add_zero]
    by_cases h2 : r = j
    · simp [h2]
    · simp [h2]
  · simp only [h, ne_eq, not_false_eq_true, if_true, Vec_set_apply]

theorem LE_solve_rows_fold (p : List Nat) (hp : p.Nodup) (i : Nat) (f : ℚ) (L : List Nat)
    (hL : L.Nodup) (hi : i ∉ L) (s : Mat × Vec) :
    (∀ r c, (L.foldl (fun s j => LE_solve_row p i f j s) s).1 r c
      = if r ∈ L ∧ c ∈ p then s.1 r c + s.1 i c * (- s.1 r i * f) else s.1 r c) ∧
    (∀ r, (L.foldl (fun s j => LE_solve_row p i f j s) s).2 r
      = if r ∈ L then s.2 r + s.2 i * (- s.1 r i * f) else s.2 r) := by
  induction L generalizing s with
  | nil => simp
  | cons j L ih =>
    have hj : j ∉ L := (List.nodup_cons.mp hL).1
    have hij : i ≠ j := fun h => hi (h ▸ List.mem_cons_self _ _)
    have hiL : i ∉ L := fun h => hi (List.mem_cons_of_mem _ h)
    obtain ⟨ih1, ih2⟩ := ih (List.nodup_cons.mp hL).2 hiL (LE_solve_row p i f j s)
    rw [List.foldl_cons]
    constructor
    · intro r c
      rw [ih1, LE_solve_row_fst p hp, LE_solve_row_fst p hp, LE_solve_row_fst p hp]
      by_cases hrj : r = j
      · subst hrj; simp [hj]
      · by_cases hrL : r ∈ L
        · simp [hrj, hrL, hij]
        · simp [hrj, hrL]
    · intro r
      rw [ih2, LE_solve_row_snd, LE_solve_row_snd, LE_solve_row_fst p hp]
      by_cases hrj : r = j
      · subst hrj; simp [hj]
      · by_cases hrL : r ∈ L
        · simp [hrj, hrL, hij]
        · simp [hrj, hrL]

theorem mem_range'_succ (i kN r : Nat) :
    r ∈ List.range' (i + 1) (kN - (i + 1)) ↔ i < r ∧ r < kN := by
  rw [List.mem_range'_1]; omega

theorem LE_solve_elim_fst (kN : Nat) (m_terms : Nat → terms_t) (i : Nat)
    (hp : (m_terms i).m_nzrd.Nodup) (s : Mat × Vec) (r c : Nat) :
    (LE_solve_elim kN m_terms i s).1 r c
      = if (i < r ∧ r < kN) ∧ c ∈ (m_terms i).m_nzrd
        then s.1 r c + s.1 i c * (- s.1 r i * (1 / s.1 i i)) else s.1 r c := by
  unfold LE_solve_elim
  have h := (LE_solve_rows_fold (m_terms i).m_nzrd hp i (1 / s.1 i i)
    (List.range' (i + 1) (kN - (i + 1))) (List.nodup_range' _ _)
    (by rw [mem_range'_succ]; omega) s).1 r c
  simp only [mem_range'_succ] at h
  exact h

theorem LE_solve_elim_snd (kN : Nat) (m_terms : Nat → terms_t) (i : Nat)
    (hp : (m_terms i).m_nzrd.Nodup) (s : Mat × Vec) (r : Nat) :
    (LE_solve_elim kN m_terms i s).2 r
      = if i < r ∧ r < kN then s.2 r + s.2 i * (- s.1 r i * (1 / s.1 i i)) else s.2 r := by
  unfold LE_solve_elim
  have h := (LE_solve_rows_fold (m_terms i).m_nzrd hp i (1 / s.1 i i)
    (List.range' (i + 1) (kN - (i + 1))) (List.nodup_range' _ _)
    (by rw [mem_range'_succ]; omega) s).2 r
  simp only [mem_range'_succ] at h
  exact h

theorem LE_solve_upto_succ (piv : Bool) (kN : Nat) (m_terms : Nat → terms_t) (n : Nat)
    (s : Mat × Vec) :
    LE_solve_upto piv kN m_terms (n + 1) s
      = LE_solve_elim kN m_terms n (LE_solve_pre piv kN n (LE_solve_upto piv kN m_terms n s)) := by
  simp [LE_solve_upto, List.range_succ, List.foldl_append]

theorem LE_solve_fold_eq_upto (piv : Bool) (kN : Nat) (m_terms : Nat → terms_t) (s : Mat × Vec)
    (n : Nat) (hpiv : ∀ i, i < n → LE_pivot piv kN m_terms s i ≠ 0) :
    (List.range n).foldlM (fun s i => LE_solve_step piv kN m_terms i s) s
      = some (LE_solve_upto piv kN m_terms n s) := by
  induction n with
  | zero => simp [LE_solve_upto]
  | succ n ih =>
    rw [List.range_succ, List.foldlM_append, ih (fun i hi => hpiv i (Nat.lt_succ_of_lt hi))]
    have h := hpiv n (Nat.lt_succ_self n)
    unfold LE_pivot at h
    simp [LE_solve_step, h, LE_solve_upto_succ]


theorem LE_solve_pre_false (kN i : Nat) (s : Mat × Vec) : LE_solve_pre false kN i s = s := by
  simp [LE_solve_pre]

/-- Invariant of the elimination without pivot search: the reached system has the
solutions of the original one, and the nonzeros right of the diagonal stay inside
the lists `m_nzrd`. -/
theorem LE_solve_upto_inv (kN : Nat) (m_terms : Nat → terms_t) (ok : NzrdOK kN m_terms)
    (A0 : Mat) (b0 : Vec)
    (hpat : ∀ r c, r < kN → r < c → c < kN → A0 r c ≠ 0 → c ∈ (m_terms r).m_nzrd)
    (n : Nat) (hn : n ≤ kN)
    (hpiv : ∀ i, i < n → LE_pivot false kN m_terms (A0, b0) i ≠ 0) :
    (∀ x, IsSolution kN (upperPart n (LE_solve_upto false kN m_terms n (A0, b0)).1)
        (LE_solve_upto false kN m_terms n (A0, b0)).2 x ↔ IsSolution kN A0 b0 x) ∧
    (∀ r c, r < kN → r < c → c < kN →
      (LE_solve_upto false kN m_terms n (A0, b0)).1 r c ≠ 0 → c ∈ (m_terms r).m_nzrd) := by
  induction n with
  | zero =>
    refine ⟨fun x => ?_, ?_⟩
    · have h0 : upperPart 0 A0 = A0 := by funext r c; simp [upperPart]
      simp [LE_solve_upto, h0]
    · simpa [LE_solve_upto] using hpat
  | succ n ih =>
    have hn1 : n < kN := hn
    obtain ⟨ih1, ih2⟩ := ih (Nat.le_of_lt hn1) (fun i hi => hpiv i (Nat.lt_succ_of_lt hi))
    have hp := hpiv n (Nat.lt_succ_self n)
    simp only [LE_pivot, LE_solve_pre_false] at hp
    rw [LE_solve_upto_succ, LE_solve_pre_false]
    generalize LE_solve_upto false kN m_terms n (A0, b0) = S at ih1 ih2 hp
    have hnd := ok.nodup n hn1
    constructor
    · intro x
      rw [← ih1 x]
      apply IsSolution_rowop kN _ _ _ _ n hn1 (fun r => - S.1 r n * (1 / S.1 n n))
      · intro r hr c hc
        simp only [upperPart, LE_solve_elim_fst kN m_terms n hnd]
        by_cases hnr : n < r
        · simp only [hnr, hr, and_self, true_and, if_true, Nat.lt_irrefl, and_false, if_false]
          by_cases hcn : c < n
          · have h1 : c < n + 1 ∧ c < r := ⟨by omega, by omega⟩
            have h2 : c < n ∧ c < r := ⟨hcn, by omega⟩
            simp [h1, h2, hcn]
          · by_cases hcn2 : c = n
            · subst hcn2
              have h1 : c < c + 1 ∧ c < r := ⟨by omega, hnr⟩
              simp only [h1, and_self, if_true, Nat.lt_irrefl, false_and, if_false]
              field_simp
            · have h1 : ¬ (c < n + 1 ∧ c < r) := by omega
              have h2 : ¬ (c < n ∧ c < r) := by omega
              simp only [h1, h2, if_false, hcn]
              by_cases hcm : c ∈ (m_terms n).m_nzrd
              · simp only [hcm, if_true, false_and, if_false]; ring
              · have hz : S.1 n c = 0 := by
                  by_contra hne
                  exact hcm (ih2 n c hn1 (by omega) hc hne)
                simp [hcm, hz]
        · have h0 : ¬ ((n < r ∧ r < kN) ∧ c ∈ (m_terms n).m_nzrd) := fun h => hnr h.1.1
          have h3 : (c < n + 1 ∧ c < r) ↔ (c < n ∧ c < r) := by omega
          simp [hnr, h3]
      · intro r hr
        rw [LE_solve_elim_snd kN m_terms n hnd]
        by_cases hnr : n < r
        · simp only [hnr, hr, and_self, if_true]; ring
        · simp [hnr]
    · intro r c hr hrc hc hne
      rw [LE_solve_elim_fst kN m_terms n hnd] at hne
      by_cases h : (n < r ∧ r < kN) ∧ c ∈ (m_terms n).m_nzrd
      · exact ok.mono n r c (Nat.le_of_lt h.1.1) hr h.2 hrc
      · rw [if_neg h] at hne
        exact ih2 r c hr hrc hc hne

end matrix_solver_direct_t

theorem foldl_add_list (f : Nat → ℚ) (l : List Nat) (a : ℚ) :
    l.foldl (fun t k => t + f k) a = a + (l.map f).sum := by
  induction l generalizing a with
  | nil => simp
  | cons k l ih => simp [ih, add_assoc]

/-- The sparse dot product over `m_nzrd` equals the dense one right of the diagonal. -/
theorem foldl_nzrd_eq_sum (kN : Nat) (p : List Nat) (j : Nat) (hnd : p.Nodup)
    (hb : ∀ c, c ∈ p → j < c ∧ c < kN) (u x : Vec)
    (hpat : ∀ c, j < c → c < kN → u c ≠ 0 → c ∈ p) :
    p.foldl (fun tmp pk => tmp + u pk * x pk) 0
      = ∑ c in (Finset.range kN).filter (fun c => j < c), u c * x c := by
  rw [foldl_add_list (fun c => u c * x c), zero_add, ← List.sum_toFinset _ hnd]
  apply Finset.sum_subset
  · intro c hc
    rw [List.mem_toFinset] at hc
    simp [hb c hc]
  · intro c hc hnc
    rw [Finset.mem_filter, Finset.mem_range] at hc
    rw [List.mem_toFinset] at hnc
    have : u c = 0 := by
      by_contra h
      exact hnc (hpat c hc.2 hc.1 h)
    simp [this]

theorem upperPart_sum (kN : Nat) (U : Mat) (x : Vec) (j : Nat) (hj : j < kN) :
    ∑ c in Finset.range kN, upperPart kN U j c * x c
      = U j j * x j + ∑ c in (Finset.range kN).filter (fun c => j < c), U j c * x c := by
  have h1 : ∀ c ∈ Finset.range kN, upperPart kN U j c * x c
      = if j ≤ c then U j c * x c else 0 := by
    intro c hc
    have hc1 := Finset.mem_range.mp hc
    by_cases h : j ≤ c
    · have : ¬ (c < kN ∧ c < j) := by omega
      simp [upperPart, h, this]
    · have : c < kN ∧ c < j := by omega
      simp [upperPart, h, this]
  rw [Finset.sum_congr rfl h1, ← Finset.sum_filter]
  have h2 : (Finset.range kN).filter (fun c => j ≤ c)
      = insert j ((Finset.range kN).filter (fun c => j < c)) := by
    ext c
    simp only [Finset.mem_filter, Finset.mem_range, Finset.mem_insert]
    omega
  rw [h2, Finset.sum_insert (by simp)]

namespace matrix_solver_direct_t

theorem LE_back_subst_fold (kN : Nat) (m_terms : Nat → terms_t) (ok : NzrdOK kN m_terms)
    (U : Mat) (b : Vec)
    (hpat : ∀ r c, r < kN → r < c → c < kN → U r c ≠ 0 → c ∈ (m_terms r).m_nzrd)
    (hdiag : ∀ j, j < kN → U j j ≠ 0) (n : Nat) (hn : n ≤ kN) (x : Vec) :
    ∃ x1, (List.range n).reverse.foldlM (fun x j => LE_back_subst_row m_terms (U, b) j x) x
        = some x1 ∧
      (∀ c, n ≤ c → x1 c = x c) ∧
      ∀ j, j < n →
        U j j * x1 j + ∑ c in (Finset.range kN).filter (fun c => j < c), U j c * x1 c = b j := by
  induction n generalizing x with
  | zero => exact ⟨x, by simp, fun c _ => rfl, fun j hj => absurd hj (Nat.not_lt_zero j)⟩
  | succ n ih =>
    have hn1 : n < kN := hn
    have htmp := foldl_nzrd_eq_sum kN (m_terms n).m_nzrd n (ok.nodup n hn1) (ok.bounds n hn1)
      (U n) x (fun c h1 h2 h3 => hpat n c hn1 h1 h2 h3)
    obtain ⟨x1, hx1, hag, hrows⟩ := ih (Nat.le_of_lt hn1)
      (Vec.set x n ((b n - ∑ c in (Finset.range kN).filter (fun c => n < c), U n c * x c) / U n n))
    refine ⟨x1, ?_, ?_, ?_⟩
    · rw [List.range_succ, List.reverse_append, List.reverse_singleton, List.singleton_append,
        List.foldlM_cons]
      simp only [LE_back_subst_row, hdiag n hn1, if_false, htmp]
      exact hx1
    · intro c hc
      rw [hag c (by omega)]
      have : c ≠ n := by omega
      simp [this]
    · intro j hj
      by_cases hjn : j = n
      · subst hjn
        have hs : ∑ c in (Finset.range kN).filter (fun c => j < c), U j c * x1 c
            = ∑ c in (Finset.range kN).filter (fun c => j < c), U j c * x c := by
          apply Finset.sum_congr rfl
          intro c hc
          rw [Finset.mem_filter] at hc
          rw [hag c (Nat.le_of_lt hc.2)]
          have : c ≠ j := by omega
          simp [this]
        rw [hs, hag j (Nat.le_refl j)]
        simp only [Vec_set_apply, if_true]
        field_simp [hdiag j hn1]
      · exact hrows j (by omega)

theorem LE_solve_upto_row_stable (kN : Nat) (m_terms : Nat → terms_t) (ok : NzrdOK kN m_terms)
    (s : Mat × Vec) (n m : Nat) (hnm : n ≤ m) (hm : m ≤ kN) (r c : Nat) (hr : r ≤ n) :
    (LE_solve_upto false kN m_terms m s).1 r c = (LE_solve_upto false kN m_terms n s).1 r c := by
  induction m with
  | zero =>
    have : n = 0 := by omega
    subst this; rfl
  | succ m ih =>
    by_cases h : n = m + 1
    · subst h; rfl
    · have hm1 : m < kN := hm
      rw [LE_solve_upto_succ, LE_solve_pre_false, LE_solve_elim_fst kN m_terms m (ok.nodup m hm1)]
      have : ¬ ((m < r ∧ r < kN) ∧ c ∈ (m_terms m).m_nzrd) := by omega
      rw [if_neg this]
      exact ih (by omega) (by omega)

/-- Correctness of the direct solver without pivot search, for index lists
satisfying `NzrdOK`. -/
theorem LE_solve_back_subst_correct (kN : Nat) (m_terms : Nat → terms_t)
    (ok : NzrdOK kN m_terms) (A0 : Mat) (b0 x0 : Vec)
    (hpat : ∀ r c, r < kN → r < c → c < kN → A0 r c ≠ 0 → c ∈ (m_terms r).m_nzrd)
    (hpiv : ∀ i, i < kN → LE_pivot false kN m_terms (A0, b0) i ≠ 0) :
    ∃ s x, LE_solve false kN m_terms (A0, b0) = some s ∧
      LE_back_subst kN m_terms s x0 = some x ∧
      IsSolution kN A0 b0 x ∧ ∀ y, IsSolution kN A0 b0 y → ∀ j, j < kN → y j = x j := by
  obtain ⟨inv1, inv2⟩ := LE_solve_upto_inv kN m_terms ok A0 b0 hpat kN (Nat.le_refl kN) hpiv
  have hdiag : ∀ j, j < kN → (LE_solve_upto false kN m_terms kN (A0, b0)).1 j j ≠ 0 := by
    intro j hj
    rw [LE_solve_upto_row_stable kN m_terms ok (A0, b0) j kN (Nat.le_of_lt hj) (Nat.le_refl kN)
      j j (Nat.le_refl j)]
    have := hpiv j hj
    simpa [LE_pivot, LE_solve_pre_false] using this
  generalize hS : LE_solve_upto false kN m_terms kN (A0, b0) = S at inv1 inv2 hdiag
  obtain ⟨x, hx, -, hrows⟩ := LE_back_subst_fold kN m_terms ok S.1 S.2 inv2 hdiag kN
    (Nat.le_refl kN) x0
  have hsol : IsSolution kN (upperPart kN S.1) S.2 x := by
    intro j hj
    rw [upperPart_sum kN S.1 x j hj]
    exact hrows j hj
  refine ⟨S, x, ?_, ?_, (inv1 x).mp hsol, ?_⟩
  · unfold LE_solve
    rw [LE_solve_fold_eq_upto false kN m_terms (A0, b0) kN hpiv, hS]
  · exact hx
  · intro y hy
    have hy1 := (inv1 y).mpr hy
    -- descending induction on the row
    have key : ∀ d j, j < kN → kN - j ≤ d → y j = x j := by
      intro d
      induction d with
      | zero => intro j hj hd; omega
      | succ d ihd =>
        intro j hj hd
        have e1 := hy1 j hj
        have e2 := hsol j hj
        rw [upperPart_sum kN S.1 _ j hj] at e1 e2
        have hs : ∑ c in (Finset.range kN).filter (fun c => j < c), S.1 j c * y c
            = ∑ c in (Finset.range kN).filter (fun c => j < c), S.1 j c * x c := by
          apply Finset.sum_congr rfl
          intro c hc
          rw [Finset.mem_filter, Finset.mem_range] at hc
          rw [ihd c hc.1 (by omega)]
        rw [hs] at e1
        have h3 : S.1 j j * y j = S.1 j j * x j := by linarith
        exact mul_left_cancel₀ (hdiag j hj) h3
    intro j hj
    exact key (kN - j) j hj (Nat.le_refl _)

end matrix_solver_direct_t

/-! ## The index lists computed by `vsetup` (direct solver) -/

theorem mem_psort_list (l : List Nat) (c : Nat) : c ∈ psort_list l ↔ c ∈ l :=
  (List.perm_insertionSort _ l).mem_iff

theorem nodup_psort_list (l : List Nat) : (psort_list l).Nodup ↔ l.Nodup :=
  (List.perm_insertionSort _ l).nodup_iff

theorem mem_add_absent (l : List Nat) (o : Nat) (b : Bool) (c : Nat) :
    c ∈ (if (!l.contains o && b) = true then l ++ [o] else l) ↔ c ∈ l ∨ (c = o ∧ b = true) := by
  by_cases h : o ∈ l <;> cases b <;> simp [h]
  intro hc; rw [hc]; exact h

theorem nodup_add_absent (l : List Nat) (o : Nat) (b : Bool) (hl : l.Nodup) :
    (if (!l.contains o && b) = true then l ++ [o] else l).Nodup := by
  by_cases hc : (!l.contains o && b) = true
  · rw [if_pos hc]
    have h : o ∉ l := by
      intro hm
      simp [hm] at hc
    exact List.Nodup.append hl (List.nodup_singleton o) (by simpa using h)
  · rw [if_neg hc]; exact hl

/-- A scan that appends `g i` when it is absent and accepted by `q`. -/
theorem scan_fold (g : Nat → Nat) (q : Nat → Bool) (n : Nat) (l : List Nat) :
    (∀ c, c ∈ (List.range n).foldl
        (fun l i => if (!l.contains (g i) && q (g i)) = true then l ++ [g i] else l) l
      ↔ c ∈ l ∨ ((∃ i, i < n ∧ g i = c) ∧ q c = true)) ∧
    (l.Nodup → ((List.range n).foldl
        (fun l i => if (!l.contains (g i) && q (g i)) = true then l ++ [g i] else l) l).Nodup) := by
  induction n with
  | zero => simp
  | succ n ih =>
    obtain ⟨ih1, ih2⟩ := ih
    simp only [List.range_succ, List.foldl_append, List.foldl_cons, List.foldl_nil]
    constructor
    · intro c
      rw [mem_add_absent, ih1]
      constructor
      · rintro ((h | ⟨⟨i, hi, h⟩, hq⟩) | ⟨h, hq⟩)
        · exact Or.inl h
        · exact Or.inr ⟨⟨i, by omega, h⟩, hq⟩
        · subst h; exact Or.inr ⟨⟨n, by omega, rfl⟩, hq⟩
      · rintro (h | ⟨⟨i, hi, h⟩, hq⟩)
        · exact Or.inl (Or.inl h)
        · by_cases hin : i = n
          · subst hin; subst h; exact Or.inr ⟨rfl, hq⟩
          · exact Or.inl (Or.inr ⟨⟨i, by omega, h⟩, hq⟩)
    · intro hl
      exact nodup_add_absent _ _ _ (ih2 hl)

namespace matrix_solver_direct_t

theorem vsetup_scan_fst (t : terms_t) (k : Nat) (acc : List Nat × List Nat) :
    (vsetup_scan t k acc).1 = (List.range t.m_railstart).foldl
      (fun l i => if (!l.contains (t.net_other i).toNat
        && decide (k + 1 ≤ (t.net_other i).toNat)) = true then l ++ [(t.net_other i).toNat] else l)
      acc.1 := by
  unfold vsetup_scan
  generalize t.m_railstart = n
  induction n with
  | zero => simp
  | succ n ih => simp only [List.range_succ, List.foldl_append, List.foldl_cons, List.foldl_nil, ih]

theorem vsetup_scan_snd (t : terms_t) (k : Nat) (acc : List Nat × List Nat) :
    (vsetup_scan t k acc).2 = (List.range t.m_railstart).foldl
      (fun l i => if (!l.contains (t.net_other i).toNat && true) = true
        then l ++ [(t.net_other i).toNat] else l) acc.2 := by
  unfold vsetup_scan
  generalize t.m_railstart = n
  induction n with
  | zero => simp
  | succ n ih =>
    simp only [List.range_succ, List.foldl_append, List.foldl_cons, List.foldl_nil, ih,
      Bool.and_true]

theorem vsetup_scan_spec (t : terms_t) (k : Nat) (acc : List Nat × List Nat) :
    (∀ c, c ∈ (vsetup_scan t k acc).1 ↔ c ∈ acc.1 ∨ (coupled t t.m_railstart c ∧ k + 1 ≤ c)) ∧
    (acc.1.Nodup → (vsetup_scan t k acc).1.Nodup) ∧
    (∀ c, c ∈ (vsetup_scan t k acc).2 ↔ c ∈ acc.2 ∨ coupled t t.m_railstart c) ∧
    (acc.2.Nodup → (vsetup_scan t k acc).2.Nodup) := by
  rw [vsetup_scan_fst, vsetup_scan_snd]
  have h1 := scan_fold (fun i => (t.net_other i).toNat) (fun c => decide (k + 1 ≤ c))
    t.m_railstart acc.1
  have h2 := scan_fold (fun i => (t.net_other i).toNat) (fun _ => true) t.m_railstart acc.2
  refine ⟨fun c => ?_, h1.2, fun c => ?_, h2.2⟩
  · rw [h1.1 c]; simp [coupled]
  · rw [h2.1 c]; simp [coupled]

/-- The effect of scanning the terms `n` times. -/
theorem vsetup_scan_repeat (t : terms_t) (k n : Nat) (acc : List Nat × List Nat) :
    (∀ c, c ∈ ((List.range n).foldl (fun acc _ => vsetup_scan t k acc) acc).1
      ↔ c ∈ acc.1 ∨ (0 < n ∧ coupled t t.m_railstart c ∧ k + 1 ≤ c)) ∧
    (acc.1.Nodup → ((List.range n).foldl (fun acc _ => vsetup_scan t k acc) acc).1.Nodup) ∧
    (∀ c, c ∈ ((List.range n).foldl (fun acc _ => vsetup_scan t k acc) acc).2
      ↔ c ∈ acc.2 ∨ (0 < n ∧ coupled t t.m_railstart c)) ∧
    (acc.2.Nodup → ((List.range n).foldl (fun acc _ => vsetup_scan t k acc) acc).2.Nodup) := by
  induction n with
  | zero => simp
  | succ n ih =>
    obtain ⟨ih1, ih2, ih3, ih4⟩ := ih
    simp only [List.range_succ, List.foldl_append, List.foldl_cons, List.foldl_nil]
    obtain ⟨s1, s2, s3, s4⟩ := vsetup_scan_spec t k
      ((List.range n).foldl (fun acc _ => vsetup_scan t k acc) acc)
    refine ⟨fun c => ?_, fun h => s2 (ih2 h), fun c => ?_, fun h => s4 (ih4 h)⟩
    · rw [s1, ih1]
      constructor
      · rintro ((h | h) | h)
        · exact Or.inl h
        · exact Or.inr ⟨Nat.succ_pos n, h.2⟩
        · exact Or.inr ⟨Nat.succ_pos n, h⟩
      · rintro (h | h)
        · exact Or.inl (Or.inl h)
        · exact Or.inr h.2
    · rw [s3, ih3]
      constructor
      · rintro ((h | h) | h)
        · exact Or.inl h
        · exact Or.inr ⟨Nat.succ_pos n, h.2⟩
        · exact Or.inr ⟨Nat.succ_pos n, h⟩
      · rintro (h | h)
        · exact Or.inl (Or.inl h)
        · exact Or.inr h.2

end matrix_solver_direct_t

namespace matrix_solver_direct_t

theorem vsetup_nz_fold (N : Nat) (rows : Nat → terms_t) (n : Nat) (hn : n ≤ N) :
    (∀ k, (List.range n).foldl (fun m k => vsetup_nz_row N m k) rows k
      = { rows k with
          m_nz := ((List.range n).foldl (fun m k => vsetup_nz_row N m k) rows k).m_nz
          m_nzrd := ((List.range n).foldl (fun m k => vsetup_nz_row N m k) rows k).m_nzrd }) ∧
    (∀ k, n ≤ k → (List.range n).foldl (fun m k => vsetup_nz_row N m k) rows k = rows k) ∧
    (∀ k, k < n →
      ((List.range n).foldl (fun m k => vsetup_nz_row N m k) rows k).m_nzrd.Nodup ∧
      (∀ c, c ∈ ((List.range n).foldl (fun m k => vsetup_nz_row N m k) rows k).m_nzrd
        ↔ k < c ∧ ∃ j, j ≤ k ∧ coupled (rows j) (rows j).m_railstart c) ∧
      (∀ c, c ∈ ((List.range n).foldl (fun m k => vsetup_nz_row N m k) rows k).m_nz
        ↔ c = k ∨ coupled (rows k) (rows k).m_railstart c)) := by
  induction n with
  | zero =>
    refine ⟨fun k => ?_, fun k _ => ?_, fun k hk => absurd hk (Nat.not_lt_zero k)⟩ <;> simp
  | succ n ih =>
    obtain ⟨ih1, ih2, ih3⟩ := ih (Nat.le_of_succ_le hn)
    have hN : 0 < N := by omega
    rw [List.range_succ, List.foldl_append, List.foldl_cons, List.foldl_nil]
    generalize (List.range n).foldl (fun m k => vsetup_nz_row N m k) rows = M at ih1 ih2 ih3
    have hMn : M n = rows n := ih2 n (Nat.le_refl n)
    refine ⟨fun k => ?_, fun k hk => ?_, fun k hk => ?_⟩
    · unfold vsetup_nz_row
      by_cases hkn : k = n
      · subst hkn; simp only [Function.update_same, hMn]
      · simp only [Function.update_noteq hkn]; exact ih1 k
    · unfold vsetup_nz_row
      have hkn : k ≠ n := by omega
      simp only [Function.update_noteq hkn]
      exact ih2 k (by omega)
    · by_cases hkn : k = n
      · subst hkn
        unfold vsetup_nz_row
        simp only [Function.update_same, hMn]
        obtain ⟨r1, r2, r3, -⟩ := vsetup_scan_repeat (rows k) k N
          (if k = 0 then [] else (M (k - 1)).m_nzrd.filter (fun c => !decide (c < k + 1)), [])
        have hnd0 : (if k = 0 then ([] : List Nat)
            else (M (k - 1)).m_nzrd.filter (fun c => !decide (c < k + 1))).Nodup := by
          by_cases hk0 : k = 0
          · simp [hk0]
          · rw [if_neg hk0]
            exact ((ih3 (k - 1) (by omega)).1).filter _
        have hmem0 : ∀ c, c ∈ (if k = 0 then ([] : List Nat)
            else (M (k - 1)).m_nzrd.filter (fun c => !decide (c < k + 1)))
            ↔ k < c ∧ ∃ j, j < k ∧ coupled (rows j) (rows j).m_railstart c := by
          intro c
          by_cases hk0 : k = 0
          · subst hk0; simp
          · rw [if_neg hk0, List.mem_filter, (ih3 (k - 1) (by omega)).2.1 c]
            simp only [Bool.not_eq_true', decide_eq_false_iff_not, not_lt]
            constructor
            · rintro ⟨⟨-, j, hj, hc⟩, h3⟩
              exact ⟨by omega, j, by omega, hc⟩
            · rintro ⟨h1, j, hj, hc⟩
              exact ⟨⟨by omega, j, by omega, hc⟩, by omega⟩
        refine ⟨(nodup_psort_list _).mpr (r2 hnd0), fun c => ?_, fun c => ?_⟩
        · rw [mem_psort_list, r1 c, hmem0 c]
          constructor
          · rintro (⟨h1, j, hj, hc⟩ | ⟨-, hc, h1⟩)
            · exact ⟨h1, j, by omega, hc⟩
            · exact ⟨by omega, k, Nat.le_refl k, hc⟩
          · rintro ⟨h1, j, hj, hc⟩
            by_cases hjk : j = k
            · subst hjk; exact Or.inr ⟨hN, hc, by omega⟩
            · exact Or.inl ⟨h1, j, by omega, hc⟩
        · rw [mem_psort_list, List.mem_append, r3 c]
          simp only [List.not_mem_nil, false_or, List.mem_singleton]
          constructor
          · rintro (⟨-, hc⟩ | hc)
            · exact Or.inr hc
            · exact Or.inl hc
          · rintro (hc | hc)
            · exact Or.inr hc
            · exact Or.inl ⟨hN, hc⟩
      · unfold vsetup_nz_row
        simp only [Function.update_noteq hkn]
        exact ih3 k (by omega)

/-- What `vsetup` leaves in the index lists of the direct solver. -/
theorem vsetup_nz_spec (N : Nat) (rows : Nat → terms_t) (k : Nat) (hk : k < N) :
    (vsetup_nz N rows k).m_railstart = (rows k).m_railstart ∧
    (vsetup_nz N rows k).net_other = (rows k).net_other ∧
    (vsetup_nz N rows k).m_nzrd.Nodup ∧
    (∀ c, c ∈ (vsetup_nz N rows k).m_nzrd
      ↔ k < c ∧ ∃ j, j ≤ k ∧ coupled (rows j) (rows j).m_railstart c) ∧
    (∀ c, c ∈ (vsetup_nz N rows k).m_nz ↔ c = k ∨ coupled (rows k) (rows k).m_railstart c) := by
  obtain ⟨h1, -, h3⟩ := vsetup_nz_fold N rows N (Nat.le_refl N)
  unfold vsetup_nz
  refine ⟨?_, ?_, (h3 k hk).1, (h3 k hk).2.1, (h3 k hk).2.2⟩
  · rw [h1 k]
  · rw [h1 k]

theorem coupled_lt (N : Nat) (t : terms_t) (hwf : t.wf N) (c : Nat)
    (h : coupled t t.m_railstart c) : c < N := by
  obtain ⟨i, hi, hc⟩ := h
  have := hwf.2 i hi
  omega

theorem vsetup_nz_ok (N : Nat) (rows : Nat → terms_t) (hwf : ∀ k, k < N → (rows k).wf N) :
    NzrdOK N (vsetup_nz N rows) := by
  refine ⟨fun i hi => (vsetup_nz_spec N rows i hi).2.2.1, fun i hi c hc => ?_,
    fun i r c hir hr hc hrc => ?_⟩
  · obtain ⟨h1, j, hj, hcj⟩ := ((vsetup_nz_spec N rows i hi).2.2.2.1 c).mp hc
    exact ⟨h1, coupled_lt N (rows j) (hwf j (by omega)) c hcj⟩
  · obtain ⟨h1, j, hj, hcj⟩ := ((vsetup_nz_spec N rows i (by omega)).2.2.2.1 c).mp hc
    exact ((vsetup_nz_spec N rows r hr).2.2.2.1 c).mpr ⟨hrc, j, by omega, hcj⟩

theorem vsetup_nz_covers (N : Nat) (rows : Nat → terms_t) (r c : Nat) (hr : r < N) (hrc : r < c)
    (h : c ∈ (vsetup_nz N rows r).m_nz) : c ∈ (vsetup_nz N rows r).m_nzrd := by
  rcases ((vsetup_nz_spec N rows r hr).2.2.2.2 c).mp h with h1 | h1
  · omega
  · exact ((vsetup_nz_spec N rows r hr).2.2.2.1 c).mpr ⟨hrc, r, Nat.le_refl r, h1⟩

end matrix_solver_direct_t

/-! ## Facts on the scenarios -/

theorem scenario_rows_wf : ∀ k, k < 2 → (scenario_rows k).wf 2 := by
  intro k hk
  refine ⟨?_, ?_⟩
  · by_cases h : k = 0 <;> simp [scenario_rows, scenario_row0, scenario_row1, h]
  · intro i hi
    by_cases h : k = 0
    · have hi0 : i = 0 := by simpa [scenario_rows, scenario_row0, h] using hi
      simp [scenario_rows, scenario_row0, h, hi0]
    · have hi0 : i = 0 := by simpa [scenario_rows, scenario_row1, h] using hi
      simp [scenario_rows, scenario_row1, h, hi0]

/-! ## Matrices, row operations -/

theorem IsInverse_iff_mul (N : Nat) (P Q : Mat) :
    IsInverse N P Q ↔ toMatrix N P * toMatrix N Q = 1 := by
  constructor
  · intro h
    ext i j
    rw [Matrix.mul_apply, Matrix.one_apply]
    have := h i i.2 j j.2
    rw [Finset.sum_range] at this
    simp only [toMatrix, Matrix.of_apply]
    rw [this]
    simp [Fin.ext_iff]
  · intro h i hi j hj
    have := congrFun (congrFun h ⟨i, hi⟩) ⟨j, hj⟩
    rw [Matrix.mul_apply, Matrix.one_apply] at this
    rw [Finset.sum_range]
    simp only [toMatrix, Matrix.of_apply] at this
    rw [this]
    simp [Fin.ext_iff]

theorem IsInverse_comm (N : Nat) (P Q : Mat) (h : IsInverse N P Q) : IsInverse N Q P := by
  rw [IsInverse_iff_mul] at h ⊢
  exact Matrix.mul_eq_one_comm.mp h

/-- A fold that adds a multiple of row `i` to row `j` over a list of columns. -/
theorem foldl_row_axpy (i j : Nat) (hij : i ≠ j) (f1 : ℚ) (cols : List Nat) (hnd : cols.Nodup)
    (M : Mat) (r c : Nat) :
    cols.foldl (fun M k => Mat.set M j k (M j k + M i k * f1)) M r c
      = if r = j ∧ c ∈ cols then M j c + M i c * f1 else M r c := by
  induction cols generalizing M with
  | nil => simp
  | cons q cols ih =>
    have hq : q ∉ cols := (List.nodup_cons.mp hnd).1
    rw [List.foldl_cons, ih (List.nodup_cons.mp hnd).2]
    simp only [Mat_set_apply]
    by_cases hr : r = j
    · subst hr
      by_cases hc : c = q
      · subst hc; simp [hq, hij]
      · by_cases hcc : c ∈ cols <;> simp [hc, hcc, hij]
    · simp [hr]

/-- The effect of one elimination step on the matrix reached so far, in the form
shared by the direct solver and the downward pass of `LE_invert`. -/
theorem upperPart_step (kN n : Nat) (p : List Nat) (A A1 : Mat)
    (hstep : ∀ r c, r < kN → c < kN → A1 r c
      = if n < r ∧ c ∈ p then A r c + A n c * (- A r n * (1 / A n n)) else A r c)
    (hpiv : A n n ≠ 0) (hb : ∀ c, c ∈ p → n < c)
    (hpat : ∀ c, n < c → c < kN → A n c ≠ 0 → c ∈ p) (hn : n < kN)
    (r c : Nat) (hr : r < kN) (hc : c < kN) :
    upperPart (n + 1) A1 r c
      = if n < r then upperPart n A r c + (- A r n * (1 / A n n)) * upperPart n A n c
        else upperPart n A r c := by
  simp only [upperPart, hstep r c hr hc]
  by_cases hnr : n < r
  · simp only [hnr, true_and, if_true, Nat.lt_irrefl, and_false, if_false]
    by_cases hcn : c < n
    · have h1 : c < n + 1 ∧ c < r := ⟨by omega, by omega⟩
      have h2 : c < n ∧ c < r := ⟨hcn, by omega⟩
      simp [h1, h2, hcn]
    · by_cases hcn2 : c = n
      · subst hcn2
        have h1 : c < c + 1 ∧ c < r := ⟨by omega, hnr⟩
        simp only [h1, and_self, if_true, Nat.lt_irrefl, false_and, if_false]
        field_simp
      · have h1 : ¬ (c < n + 1 ∧ c < r) := by omega
        have h2 : ¬ (c < n ∧ c < r) := by omega
        simp only [h1, h2, if_false, hcn]
        by_cases hcm : c ∈ p
        · simp only [hcm, if_true, false_and, if_false]; ring
        · have hz : A n c = 0 := by
            by_contra hne
            exact hcm (hpat c (by omega) hc hne)
          simp [hcm, hz]
  · have h3 : (c < n + 1 ∧ c < r) ↔ (c < n ∧ c < r) := by omega
    simp [hnr, h3]


/-! ## The index lists computed by `vsetup` (Woodbury solver) -/

theorem foldl_update_rows (g : terms_t → Nat → terms_t) (n : Nat) (m : Nat → terms_t) (k : Nat) :
    (List.range n).foldl (fun m k => Function.update m k (g (m k) k)) m k
      = if k < n then g (m k) k else m k := by
  induction n generalizing k with
  | zero => simp
  | succ n ih =>
    rw [List.range_succ, List.foldl_append, List.foldl_cons, List.foldl_nil]
    by_cases hk : k = n
    · subst hk
      rw [Function.update_same, ih]
      simp
    · rw [Function.update_noteq hk, ih]
      by_cases h2 : k < n
      · simp [h2, Nat.lt_succ_of_lt h2]
      · have : ¬ k < n + 1 := by omega
        simp [h2, this]

namespace matrix_solver_w_t

/-- The rows after the first loop of `vsetup`. -/
theorem vsetup_nz_rows_apply (N : Nat) (rows : Nat → terms_t) (k : Nat) :
    (List.range N).foldl vsetup_nz_row rows k
      = if k < N then
          { rows k with
            m_nz := psort_list ((List.range (rows k).m_railstart).foldl
              (fun nz i => if !nz.contains ((rows k).net_other i).toNat
                then nz ++ [((rows k).net_other i).toNat] else nz) [] ++ [k]) }
        else rows k :=
  foldl_update_rows
    (fun t k => { t with
      m_nz := psort_list ((List.range t.m_railstart).foldl
        (fun nz i => if !nz.contains (t.net_other i).toNat
          then nz ++ [(t.net_other i).toNat] else nz) [] ++ [k]) }) N rows k

theorem nz_scan_mem (t : terms_t) (c : Nat) :
    c ∈ (List.range t.m_railstart).foldl
        (fun nz i => if !nz.contains (t.net_other i).toNat
          then nz ++ [(t.net_other i).toNat] else nz) []
      ↔ coupled t t.m_railstart c := by
  have h := (scan_fold (fun i => (t.net_other i).toNat) (fun _ => true) t.m_railstart []).1 c
  simp only [Bool.and_true, List.not_mem_nil, false_or, and_true] at h
  exact h

theorem vsetup_nzrd_fold (rows : Nat → terms_t) (n : Nat) :
    (∀ k, (List.range n).foldl vsetup_nzrd_row rows k
      = { rows k with m_nzrd := ((List.range n).foldl vsetup_nzrd_row rows k).m_nzrd }) ∧
    (∀ k, n ≤ k → (List.range n).foldl vsetup_nzrd_row rows k = rows k) ∧
    (∀ k, k < n →
      ((List.range n).foldl vsetup_nzrd_row rows k).m_nzrd.Nodup ∧
      (∀ c, c ∈ ((List.range n).foldl vsetup_nzrd_row rows k).m_nzrd
        ↔ k < c ∧ ∃ j, j ≤ k ∧ coupled (rows j) (rows j).m_railstart c)) := by
  induction n with
  | zero =>
    refine ⟨fun k => ?_, fun k _ => ?_, fun k hk => absurd hk (Nat.not_lt_zero k)⟩ <;> simp
  | succ n ih =>
    obtain ⟨ih1, ih2, ih3⟩ := ih
    rw [List.range_succ, List.foldl_append, List.foldl_cons, List.foldl_nil]
    generalize (List.range n).foldl vsetup_nzrd_row rows = M at ih1 ih2 ih3
    have hMn : M n = rows n := ih2 n (Nat.le_refl n)
    refine ⟨fun k => ?_, fun k hk => ?_, fun k hk => ?_⟩
    · unfold vsetup_nzrd_row
      by_cases hkn : k = n
      · subst hkn; simp only [Function.update_same, hMn]
      · simp only [Function.update_noteq hkn]; exact ih1 k
    · unfold vsetup_nzrd_row
      have hkn : k ≠ n := by omega
      simp only [Function.update_noteq hkn]
      exact ih2 k (by omega)
    · by_cases hkn : k = n
      · subst hkn
        unfold vsetup_nzrd_row
        simp only [Function.update_same, hMn]
        obtain ⟨r1, r2⟩ := scan_fold (fun i => ((rows k).net_other i).toNat)
          (fun c => decide (k + 1 ≤ c)) (rows k).m_railstart
          (if k = 0 then [] else (M (k - 1)).m_nzrd.filter (fun c => !decide (c < k + 1)))
        have hnd0 : (if k = 0 then ([] : List Nat)
            else (M (k - 1)).m_nzrd.filter (fun c => !decide (c < k + 1))).Nodup := by
          by_cases hk0 : k = 0
          · simp [hk0]
          · rw [if_neg hk0]
            exact ((ih3 (k - 1) (by omega)).1).filter _
        have hmem0 : ∀ c, c ∈ (if k = 0 then ([] : List Nat)
            else (M (k - 1)).m_nzrd.filter (fun c => !decide (c < k + 1)))
            ↔ k < c ∧ ∃ j, j < k ∧ coupled (rows j) (rows j).m_railstart c := by
          intro c
          by_cases hk0 : k = 0
          · subst hk0; simp
          · rw [if_neg hk0, List.mem_filter, (ih3 (k - 1) (by omega)).2 c]
            simp only [Bool.not_eq_true', decide_eq_false_iff_not, not_lt]
            constructor
            · rintro ⟨⟨-, j, hj, hc⟩, h3⟩
              exact ⟨by omega, j, by omega, hc⟩
            · rintro ⟨h1, j, hj, hc⟩
              exact ⟨⟨by omega, j, by omega, hc⟩, by omega⟩
        refine ⟨(nodup_psort_list _).mpr (r2 hnd0), fun c => ?_⟩
        rw [mem_psort_list, r1 c, hmem0 c]
        simp only [decide_eq_true_eq]
        constructor
        · rintro (⟨h1, j, hj, hc⟩ | ⟨hc, h1⟩)
          · exact ⟨h1, j, by omega, hc⟩
          · exact ⟨by omega, k, Nat.le_refl k, hc⟩
        · rintro ⟨h1, j, hj, hc⟩
          by_cases hjk : j = k
          · subst hjk; exact Or.inr ⟨hc, by omega⟩
          · exact Or.inl ⟨h1, j, by omega, hc⟩
      · unfold vsetup_nzrd_row
        simp only [Function.update_noteq hkn]
        exact ih3 k (by omega)

theorem touched_init_inner (k : Nat) (nz : List Nat) (T : BMat) (r c : Nat) :
    nz.foldl (fun T c => BMat.mark T k c) T r c = (T r c || (decide (r = k) && decide (c ∈ nz))) := by
  induction nz generalizing T with
  | nil => simp
  | cons q nz ih =>
    rw [List.foldl_cons, ih, BMat_mark_apply]
    by_cases hr : r = k <;> by_cases hc : c = q <;> by_cases hm : c ∈ nz <;>
      simp [hr, hc, hm]

theorem touched_init_fold (m_terms : Nat → terms_t) (n : Nat) (r c : Nat) :
    (List.range n).foldl
        (fun T k => (m_terms k).m_nz.foldl (fun T c => BMat.mark T k c) T) (fun _ _ => false) r c
      = (decide (r < n) && decide (c ∈ (m_terms r).m_nz)) := by
  induction n with
  | zero => simp
  | succ n ih =>
    rw [List.range_succ, List.foldl_append, List.foldl_cons, List.foldl_nil, touched_init_inner, ih]
    by_cases hr : r = n
    · subst hr; simp
    · by_cases h2 : r < n
      · simp [hr, h2, Nat.lt_succ_of_lt h2]
      · have : ¬ r < n + 1 := by omega
        simp [hr, h2, this]

theorem vsetup_touched_apply (N : Nat) (m_terms : Nat → terms_t) (r c : Nat) :
    vsetup_touched N m_terms r c = (decide (r < N) && decide (c ∈ (m_terms r).m_nz)) :=
  touched_init_fold m_terms N r c

end matrix_solver_w_t

namespace matrix_solver_w_t

theorem nzbd_col_fold (k row : Nat) (hrow : row ≠ k) (cols : List Nat) (T : BMat) (r c : Nat) :
    cols.foldl (fun T col => if T k col then BMat.mark T row col else T) T r c
      = (T r c || (decide (r = row) && decide (c ∈ cols) && T k c)) := by
  induction cols generalizing T with
  | nil => simp
  | cons q cols ih =>
    rw [List.foldl_cons, ih]
    have hk : ∀ c1, (if T k q = true then BMat.mark T row q else T) k c1 = T k c1 := by
      intro c1
      by_cases h : T k q = true
      · rw [if_pos h, BMat_mark_apply]
        have : ¬ (k = row ∧ c1 = q) := fun h2 => hrow h2.1.symm
        rw [if_neg this]
      · rw [if_neg h]
    rw [hk]
    by_cases h : T k q = true
    · rw [if_pos h, BMat_mark_apply]
      by_cases hr : r = row <;> by_cases hc : c = q <;> by_cases hm : c ∈ cols <;>
        simp [hr, hc, hm, h]
    · rw [if_neg h]
      by_cases hr : r = row <;> by_cases hc : c = q <;> by_cases hm : c ∈ cols <;>
        simp [hr, hc, hm, h]

theorem vsetup_nzbd_row_apply (N k row : Nat) (hrow : row ≠ k) (s : BMat × List Nat) :
    (∀ r c, (vsetup_nzbd_row N k row s).1 r c
      = (s.1 r c || (decide (r = row) && s.1 row k && decide (k ≤ c ∧ c < N) && s.1 k c))) ∧
    (∀ j, j ∈ (vsetup_nzbd_row N k row s).2 ↔ j ∈ s.2 ∨ (j = row ∧ s.1 row k = true)) ∧
    (s.2.Nodup → (vsetup_nzbd_row N k row s).2.Nodup) := by
  unfold vsetup_nzbd_row
  by_cases h : s.1 row k = true
  · simp only [h, if_true]
    refine ⟨fun r c => ?_, fun j => ?_, fun hnd => ?_⟩
    · rw [nzbd_col_fold k row hrow]
      have hm : c ∈ List.range' k (N - k) ↔ (k ≤ c ∧ c < N) := by
        rw [List.mem_range'_1]; omega
      simp [hm]
    · have := mem_add_absent s.2 row true j
      simp only [Bool.and_true] at this
      rw [this]
    · have := nodup_add_absent s.2 row true hnd
      simpa using this
  · simp only [h, if_false]
    refine ⟨fun r c => ?_, fun j => ?_, fun hnd => hnd⟩
    · simp at h; simp [h]
    · simp [h]

theorem vsetup_nzbd_rows_fold (N k : Nat) (L : List Nat) (hL : L.Nodup) (hk : ∀ j ∈ L, j ≠ k)
    (s : BMat × List Nat) :
    (∀ r c, (L.foldl (fun s row => vsetup_nzbd_row N k row s) s).1 r c
      = (s.1 r c || (decide (r ∈ L) && s.1 r k && decide (k ≤ c ∧ c < N) && s.1 k c))) ∧
    (∀ j, j ∈ (L.foldl (fun s row => vsetup_nzbd_row N k row s) s).2
      ↔ j ∈ s.2 ∨ (j ∈ L ∧ s.1 j k = true)) ∧
    (s.2.Nodup → (L.foldl (fun s row => vsetup_nzbd_row N k row s) s).2.Nodup) := by
  induction L generalizing s with
  | nil => simp
  | cons q L ih =>
    have hq : q ∉ L := (List.nodup_cons.mp hL).1
    have hqk : q ≠ k := hk q (List.mem_cons_self _ _)
    obtain ⟨a1, a2, a3⟩ := vsetup_nzbd_row_apply N k q hqk s
    obtain ⟨b1, b2, b3⟩ := ih (List.nodup_cons.mp hL).2
      (fun j hj => hk j (List.mem_cons_of_mem _ hj)) (vsetup_nzbd_row N k q s)
    rw [List.foldl_cons]
    have hkk : ∀ c, (vsetup_nzbd_row N k q s).1 k c = s.1 k c := by
      intro c
      rw [a1]
      have : ¬ k = q := fun h => hqk h.symm
      simp [this]
    refine ⟨fun r c => ?_, fun j => ?_, fun hnd => b3 (a3 hnd)⟩
    · rw [b1, hkk, a1 r c, a1 r k]
      by_cases hr : r = q
      · subst hr
        by_cases h1 : s.1 r k = true <;> by_cases h2 : s.1 k c = true <;>
          by_cases h3 : s.1 r c = true <;> by_cases h4 : (k ≤ c ∧ c < N) <;>
          simp [hq, h1, h2, h3, h4]
      · by_cases hm : r ∈ L <;> simp [hr, hm]
    · rw [b2, a2, a1 j k]
      by_cases hj : j = q
      · subst hj
        simp [hq]
      · simp [hj]

theorem vsetup_nzbd_step_apply (N k : Nat) (s : BMat × (Nat → terms_t)) :
    (vsetup_nzbd_step N k s).1 = touched_step N k s.1 ∧
    (∀ i, i ≠ k → (vsetup_nzbd_step N k s).2 i = s.2 i) ∧
    (vsetup_nzbd_step N k s).2 k
      = { s.2 k with m_nzbd := ((vsetup_nzbd_step N k s).2 k).m_nzbd } ∧
    (∀ j, j ∈ ((vsetup_nzbd_step N k s).2 k).m_nzbd
      ↔ j ∈ (s.2 k).m_nzbd ∨ ((k < j ∧ j < N) ∧ s.1 j k = true)) ∧
    ((s.2 k).m_nzbd.Nodup → ((vsetup_nzbd_step N k s).2 k).m_nzbd.Nodup) := by
  have hm : ∀ r, r ∈ List.range' (k + 1) (N - (k + 1)) ↔ (k < r ∧ r < N) := by
    intro r; rw [List.mem_range'_1]; omega
  obtain ⟨a1, a2, a3⟩ := vsetup_nzbd_rows_fold N k (List.range' (k + 1) (N - (k + 1)))
    (List.nodup_range' _ _) (fun j hj => by have := (hm j).mp hj; omega) (s.1, (s.2 k).m_nzbd)
  unfold vsetup_nzbd_step
  refine ⟨?_, fun i hi => ?_, ?_, fun j => ?_, fun hnd => ?_⟩
  · funext r c
    simp only [a1, touched_step, hm]
  · simp only [Function.update_noteq hi]
  · simp only [Function.update_same]
  · simp only [Function.update_same]
    rw [a2]; simp only [hm]
  · simp only [Function.update_same]
    exact a3 hnd

theorem vsetup_nzbd_fold (N : Nat) (T0 : BMat) (m : Nat → terms_t) (n : Nat) :
    ((List.range n).foldl (fun s k => vsetup_nzbd_step N k s) (T0, m)).1 = touched_upto N T0 n ∧
    (∀ i, n ≤ i →
      ((List.range n).foldl (fun s k => vsetup_nzbd_step N k s) (T0, m)).2 i = m i) ∧
    (∀ i, ((List.range n).foldl (fun s k => vsetup_nzbd_step N k s) (T0, m)).2 i
      = { m i with
          m_nzbd := (((List.range n).foldl (fun s k => vsetup_nzbd_step N k s) (T0, m)).2 i).m_nzbd }) ∧
    (∀ i, i < n → ∀ j,
      j ∈ (((List.range n).foldl (fun s k => vsetup_nzbd_step N k s) (T0, m)).2 i).m_nzbd
        ↔ j ∈ (m i).m_nzbd ∨ ((i < j ∧ j < N) ∧ touched_upto N T0 i j i = true)) ∧
    (∀ i, i < n → (m i).m_nzbd.Nodup →
      (((List.range n).foldl (fun s k => vsetup_nzbd_step N k s) (T0, m)).2 i).m_nzbd.Nodup) := by
  induction n with
  | zero =>
    refine ⟨rfl, fun i _ => rfl, fun i => rfl, fun i hi => absurd hi (Nat.not_lt_zero i),
      fun i hi => absurd hi (Nat.not_lt_zero i)⟩
  | succ n ih =>
    obtain ⟨ih1, ih2, ih3, ih4, ih5⟩ := ih
    rw [List.range_succ, List.foldl_append, List.foldl_cons, List.foldl_nil]
    generalize (List.range n).foldl (fun s k => vsetup_nzbd_step N k s) (T0, m) = S
      at ih1 ih2 ih3 ih4 ih5
    obtain ⟨a1, a2, a3, a4, a5⟩ := vsetup_nzbd_step_apply N n S
    have hSn : S.2 n = m n := ih2 n (Nat.le_refl n)
    refine ⟨?_, fun i hi => ?_, fun i => ?_, fun i hi j => ?_, fun i hi hnd => ?_⟩
    · rw [a1, ih1]; rfl
    · rw [a2 i (by omega)]; exact ih2 i (by omega)
    · by_cases hin : i = n
      · subst hin; rw [a3, hSn]
      · rw [a2 i hin]; exact ih3 i
    · by_cases hin : i = n
      · subst hin; rw [a4, hSn, ih1]
      · rw [a2 i hin]; exact ih4 i (by omega) j
    · by_cases hin : i = n
      · subst hin; apply a5; rw [hSn]; exact hnd
      · rw [a2 i hin]; exact ih5 i (by omega) hnd

end matrix_solver_w_t

namespace matrix_solver_w_t

theorem vsetup_nz_frame (N : Nat) (rows : Nat → terms_t) (k : Nat) :
    (vsetup_nz N rows k).m_railstart = (rows k).m_railstart ∧
    (vsetup_nz N rows k).net_other = (rows k).net_other ∧
    (vsetup_nz N rows k).m_nz = ((List.range N).foldl vsetup_nz_row rows k).m_nz ∧
    (vsetup_nz N rows k).m_nzrd
      = ((List.range N).foldl vsetup_nzrd_row ((List.range N).foldl vsetup_nz_row rows) k).m_nzrd := by
  unfold vsetup_nz
  simp only
  obtain ⟨-, -, h3, -, -⟩ := vsetup_nzbd_fold N
    (vsetup_touched N ((List.range N).foldl vsetup_nzrd_row ((List.range N).foldl vsetup_nz_row rows)))
    ((List.range N).foldl (fun m k => Function.update m k { m k with m_nzbd := [] })
      ((List.range N).foldl vsetup_nzrd_row ((List.range N).foldl vsetup_nz_row rows))) N
  rw [h3 k]
  have hc := foldl_update_rows (fun t _ => { t with m_nzbd := [] }) N
    ((List.range N).foldl vsetup_nzrd_row ((List.range N).foldl vsetup_nz_row rows)) k
  simp only at hc
  rw [hc]
  obtain ⟨b1, -, -⟩ := vsetup_nzrd_fold ((List.range N).foldl vsetup_nz_row rows) N
  have ha := vsetup_nz_rows_apply N rows k
  by_cases hk : k < N
  · simp only [hk, if_true]
    rw [b1 k, ha]
    simp [hk]
  · simp only [hk, if_false]
    rw [b1 k, ha]
    simp [hk]

/-- What `vsetup` leaves in the index lists of the Woodbury solver. -/
theorem w_vsetup_nz_spec (N : Nat) (rows : Nat → terms_t) (k : Nat) (hk : k < N) :
    (∀ c, c ∈ (vsetup_nz N rows k).m_nz ↔ c = k ∨ coupled (rows k) (rows k).m_railstart c) ∧
    (vsetup_nz N rows k).m_nzrd.Nodup ∧
    (∀ c, c ∈ (vsetup_nz N rows k).m_nzrd
      ↔ k < c ∧ ∃ j, j ≤ k ∧ coupled (rows j) (rows j).m_railstart c) ∧
    (vsetup_nz N rows k).m_nzbd.Nodup ∧
    (∀ j, j ∈ (vsetup_nz N rows k).m_nzbd
      ↔ (k < j ∧ j < N) ∧
        touched_upto N (vsetup_touched N (vsetup_nz N rows)) k j k = true) := by
  obtain ⟨-, -, f3, f4⟩ := vsetup_nz_frame N rows k
  have hT : vsetup_touched N (vsetup_nz N rows)
      = vsetup_touched N
        ((List.range N).foldl vsetup_nzrd_row ((List.range N).foldl vsetup_nz_row rows)) := by
    funext r c
    rw [vsetup_touched_apply, vsetup_touched_apply, (vsetup_nz_frame N rows r).2.2.1]
    obtain ⟨b1, -, -⟩ := vsetup_nzrd_fold ((List.range N).foldl vsetup_nz_row rows) N
    rw [b1 r]
  obtain ⟨b1, -, b3⟩ := vsetup_nzrd_fold ((List.range N).foldl vsetup_nz_row rows) N
  have hrows : ∀ j, coupled (((List.range N).foldl vsetup_nz_row rows) j)
      (((List.range N).foldl vsetup_nz_row rows) j).m_railstart
      = coupled (rows j) (rows j).m_railstart := by
    intro j
    rw [vsetup_nz_rows_apply]
    by_cases hj : j < N
    · simp only [hj, if_true]; rfl
    · simp only [hj, if_false]
  refine ⟨fun c => ?_, ?_, fun c => ?_, ?_, fun j => ?_⟩
  · rw [f3, vsetup_nz_rows_apply, if_pos hk]
    simp only [mem_psort_list, List.mem_append, nz_scan_mem, List.mem_singleton]
    tauto
  · rw [f4]; exact (b3 k hk).1
  · rw [f4, (b3 k hk).2 c]
    simp only [hrows]
  · unfold vsetup_nz
    simp only
    obtain ⟨-, -, -, -, h5⟩ := vsetup_nzbd_fold N
      (vsetup_touched N ((List.range N).foldl vsetup_nzrd_row ((List.range N).foldl vsetup_nz_row rows)))
      ((List.range N).foldl (fun m k => Function.update m k { m k with m_nzbd := [] })
        ((List.range N).foldl vsetup_nzrd_row ((List.range N).foldl vsetup_nz_row rows))) N
    apply h5 k hk
    have hc := foldl_update_rows (fun t _ => { t with m_nzbd := [] }) N
      ((List.range N).foldl vsetup_nzrd_row ((List.range N).foldl vsetup_nz_row rows)) k
    simp only at hc
    rw [hc, if_pos hk]
    exact List.nodup_nil
  · rw [hT]
    unfold vsetup_nz
    simp only
    obtain ⟨-, -, -, h4, -⟩ := vsetup_nzbd_fold N
      (vsetup_touched N ((List.range N).foldl vsetup_nzrd_row ((List.range N).foldl vsetup_nz_row rows)))
      ((List.range N).foldl (fun m k => Function.update m k { m k with m_nzbd := [] })
        ((List.range N).foldl vsetup_nzrd_row ((List.range N).foldl vsetup_nz_row rows))) N
    rw [h4 k hk j]
    have hc := foldl_update_rows (fun t _ => { t with m_nzbd := [] }) N
      ((List.range N).foldl vsetup_nzrd_row ((List.range N).foldl vsetup_nz_row rows)) k
    simp only at hc
    rw [hc, if_pos hk]
    simp

theorem w_vsetup_nz_ok (N : Nat) (rows : Nat → terms_t) (hwf : ∀ k, k < N → (rows k).wf N) :
    NzrdOK N (vsetup_nz N rows) := by
  refine ⟨fun i hi => (w_vsetup_nz_spec N rows i hi).2.1, fun i hi c hc => ?_,
    fun i r c hir hr hc hrc => ?_⟩
  · obtain ⟨h1, j, hj, hcj⟩ := ((w_vsetup_nz_spec N rows i hi).2.2.1 c).mp hc
    exact ⟨h1, matrix_solver_direct_t.coupled_lt N (rows j) (hwf j (by omega)) c hcj⟩
  · obtain ⟨h1, j, hj, hcj⟩ := ((w_vsetup_nz_spec N rows i (by omega)).2.2.1 c).mp hc
    exact ((w_vsetup_nz_spec N rows r hr).2.2.1 c).mpr ⟨hrc, j, by omega, hcj⟩

theorem w_vsetup_nz_covers (N : Nat) (rows : Nat → terms_t) (r c : Nat) (hr : r < N) (hrc : r < c)
    (h : c ∈ (vsetup_nz N rows r).m_nz) : c ∈ (vsetup_nz N rows r).m_nzrd := by
  rcases ((w_vsetup_nz_spec N rows r hr).1 c).mp h with h1 | h1
  · omega
  · exact ((w_vsetup_nz_spec N rows r hr).2.2.1 c).mpr ⟨hrc, r, Nat.le_refl r, h1⟩

end matrix_solver_w_t

/-! ## The passes of `LE_invert` -/

namespace matrix_solver_w_t

theorem LE_invert_down_row_apply (p : List Nat) (hp : p.Nodup) (i : Nat) (f : ℚ) (j : Nat)
    (hij : i ≠ j) (s : invert_state) :
    (∀ r c, (LE_invert_down_row p i f j s).W r c
      = if r = j ∧ c ∈ p then s.W j c + s.W i c * (- s.W j i * f) else s.W r c) ∧
    (∀ r c, (LE_invert_down_row p i f j s).Ainv r c
      = if r = j ∧ c ≤ i then s.Ainv j c + s.Ainv i c * (- s.W j i * f) else s.Ainv r c) ∧
    (LE_invert_down_row p i f j s).lA = s.lA := by
  unfold LE_invert_down_row
  have hm : ∀ c, c ∈ List.range (i + 1) ↔ c ≤ i := by
    intro c; rw [List.mem_range]; omega
  by_cases h : - s.W j i * f = 0
  · simp only [h, ne_eq, not_true_eq_false, if_false, mul_zero, add_zero]
    refine ⟨fun r c => ?_, fun r c => ?_, trivial⟩
    · by_cases h2 : r = j ∧ c ∈ p
      · simp [h2.1, h2.2]
      · simp [h2]
    · by_cases h2 : r = j ∧ c ≤ i
      · simp [h2.1, h2.2]
      · simp [h2]
  · simp only [h, ne_eq, not_false_eq_true, if_true]
    refine ⟨fun r c => ?_, fun r c => ?_, trivial⟩
    · rw [foldl_row_axpy i j hij _ p hp]
    · rw [foldl_row_axpy i j hij _ _ (List.nodup_range _)]
      simp only [hm]

theorem LE_invert_down_rows_fold (p : List Nat) (hp : p.Nodup) (i : Nat) (f : ℚ) (L : List Nat)
    (hL : L.Nodup) (hi : i ∉ L) (s : invert_state) :
    (∀ r c, (L.foldl (fun s j => LE_invert_down_row p i f j s) s).W r c
      = if r ∈ L ∧ c ∈ p then s.W r c + s.W i c * (- s.W r i * f) else s.W r c) ∧
    (∀ r c, (L.foldl (fun s j => LE_invert_down_row p i f j s) s).Ainv r c
      = if r ∈ L ∧ c ≤ i then s.Ainv r c + s.Ainv i c * (- s.W r i * f) else s.Ainv r c) ∧
    (L.foldl (fun s j => LE_invert_down_row p i f j s) s).lA = s.lA := by
  induction L generalizing s with
  | nil => simp
  | cons j L ih =>
    have hj : j ∉ L := (List.nodup_cons.mp hL).1
    have hij : i ≠ j := fun h => hi (h ▸ List.mem_cons_self _ _)
    have hiL : i ∉ L := fun h => hi (List.mem_cons_of_mem _ h)
    obtain ⟨ih1, ih2, ih3⟩ := ih (List.nodup_cons.mp hL).2 hiL (LE_invert_down_row p i f j s)
    obtain ⟨a1, a2, a3⟩ := LE_invert_down_row_apply p hp i f j hij s
    rw [List.foldl_cons]
    refine ⟨fun r c => ?_, fun r c => ?_, by rw [ih3, a3]⟩
    · rw [ih1, a1, a1, a1]
      by_cases hrj : r = j
      · subst hrj; simp [hj]
      · by_cases hrL : r ∈ L
        · simp [hrj, hrL, hij]
        · simp [hrj, hrL]
    · rw [ih2, a2, a2, a1]
      by_cases hrj : r = j
      · subst hrj; simp [hj]
      · by_cases hrL : r ∈ L
        · simp [hrj, hrL, hij]
        · simp [hrj, hrL]

theorem LE_invert_down_elim_apply (m_terms : Nat → terms_t) (i : Nat)
    (hp : (m_terms i).m_nzrd.Nodup) (hL : (m_terms i).m_nzbd.Nodup)
    (hi : i ∉ (m_terms i).m_nzbd) (s : invert_state) :
    (∀ r c, (LE_invert_down_elim m_terms i s).W r c
      = if r ∈ (m_terms i).m_nzbd ∧ c ∈ (m_terms i).m_nzrd
        then s.W r c + s.W i c * (- s.W r i * (1 / s.W i i)) else s.W r c) ∧
    (∀ r c, (LE_invert_down_elim m_terms i s).Ainv r c
      = if r ∈ (m_terms i).m_nzbd ∧ c ≤ i
        then s.Ainv r c + s.Ainv i c * (- s.W r i * (1 / s.W i i)) else s.Ainv r c) ∧
    (LE_invert_down_elim m_terms i s).lA = s.lA :=
  LE_invert_down_rows_fold (m_terms i).m_nzrd hp i (1 / s.W i i) (m_terms i).m_nzbd hL hi s

theorem LE_invert_up_row_apply (kN i : Nat) (f : ℚ) (j : Nat) (hij : i ≠ j) (s : invert_state) :
    (∀ r c, (LE_invert_up_row kN i f j s).W r c
      = if r = j ∧ (i ≤ c ∧ c < kN) then s.W j c + s.W i c * (- s.W j i * f) else s.W r c) ∧
    (∀ r c, (LE_invert_up_row kN i f j s).Ainv r c
      = if r = j ∧ c < kN then s.Ainv j c + s.Ainv i c * (- s.W j i * f) else s.Ainv r c) ∧
    (LE_invert_up_row kN i f j s).lA = s.lA := by
  unfold LE_invert_up_row
  have hm : ∀ c, c ∈ List.range' i (kN - i) ↔ (i ≤ c ∧ c < kN) := by
    intro c; rw [List.mem_range'_1]; omega
  by_cases h : - s.W j i * f = 0
  · simp only [h, ne_eq, not_true_eq_false, if_false, mul_zero, add_zero]
    refine ⟨fun r c => ?_, fun r c => ?_, trivial⟩
    · by_cases h2 : r = j ∧ (i ≤ c ∧ c < kN)
      · simp [h2.1, h2.2]
      · simp [h2]
    · by_cases h2 : r = j ∧ c < kN
      · simp [h2.1, h2.2]
      · simp [h2]
  · simp only [h, ne_eq, not_false_eq_true, if_true]
    refine ⟨fun r c => ?_, fun r c => ?_, trivial⟩
    · rw [foldl_row_axpy i j hij _ _ (List.nodup_range' _ _)]
      simp only [hm]
    · rw [foldl_row_axpy i j hij _ _ (List.nodup_range _)]
      simp only [List.mem_range]

theorem LE_invert_up_rows_fold (kN i : Nat) (f : ℚ) (L : List Nat)
    (hL : L.Nodup) (hi : i ∉ L) (s : invert_state) :
    (∀ r c, (L.foldl (fun s j => LE_invert_up_row kN i f j s) s).W r c
      = if r ∈ L ∧ (i ≤ c ∧ c < kN) then s.W r c + s.W i c * (- s.W r i * f) else s.W r c) ∧
    (∀ r c, (L.foldl (fun s j => LE_invert_up_row kN i f j s) s).Ainv r c
      = if r ∈ L ∧ c < kN then s.Ainv r c + s.Ainv i c * (- s.W r i * f) else s.Ainv r c) ∧
    (L.foldl (fun s j => LE_invert_up_row kN i f j s) s).lA = s.lA := by
  induction L generalizing s with
  | nil => simp
  | cons j L ih =>
    have hj : j ∉ L := (List.nodup_cons.mp hL).1
    have hij : i ≠ j := fun h => hi (h ▸ List.mem_cons_self _ _)
    have hiL : i ∉ L := fun h => hi (List.mem_cons_of_mem _ h)
    obtain ⟨ih1, ih2, ih3⟩ := ih (List.nodup_cons.mp hL).2 hiL (LE_invert_up_row kN i f j s)
    obtain ⟨a1, a2, a3⟩ := LE_invert_up_row_apply kN i f j hij s
    rw [List.foldl_cons]
    refine ⟨fun r c => ?_, fun r c => ?_, by rw [ih3, a3]⟩
    · rw [ih1, a1, a1, a1]
      by_cases hrj : r = j
      · subst hrj; simp [hj]
      · by_cases hrL : r ∈ L
        · simp [hrj, hrL, hij]
        · simp [hrj, hrL]
    · rw [ih2, a2, a2, a1]
      by_cases hrj : r = j
      · subst hrj; simp [hj]
      · by_cases hrL : r ∈ L
        · simp [hrj, hrL, hij]
        · simp [hrj, hrL]

theorem foldl_scale_row (i : Nat) (f : ℚ) (n : Nat) (M : Mat) (r c : Nat) :
    (List.range n).foldl (fun Ai k => Mat.set Ai i k (Ai i k * f)) M r c
      = if r = i ∧ c < n then M i c * f else M r c := by
  induction n generalizing r c with
  | zero => simp
  | succ n ih =>
    rw [List.range_succ, List.foldl_append, List.foldl_cons, List.foldl_nil, Mat_set_apply, ih, ih]
    by_cases hr : r = i
    · subst hr
      by_cases hc : c = n
      · subst hc; simp
      · by_cases h2 : c < n
        · simp [hc, h2, Nat.lt_succ_of_lt h2]
        · have : ¬ c < n + 1 := by omega
          simp [hc, h2, this]
    · simp [hr]

theorem LE_invert_up_elim_apply (kN i : Nat) (s : invert_state) :
    (∀ r c, (LE_invert_up_elim kN i s).W r c
      = if r < i ∧ (i ≤ c ∧ c < kN) then s.W r c + s.W i c * (- s.W r i * (1 / s.W i i))
        else s.W r c) ∧
    (∀ r c, (LE_invert_up_elim kN i s).Ainv r c
      = if c < kN then
          (if r < i then s.Ainv r c + s.Ainv i c * (- s.W r i * (1 / s.W i i))
           else if r = i then s.Ainv i c * (1 / s.W i i) else s.Ainv r c)
        else s.Ainv r c) ∧
    (LE_invert_up_elim kN i s).lA = s.lA := by
  have hm : ∀ r, r ∈ (List.range i).reverse ↔ r < i := by
    intro r; rw [List.mem_reverse, List.mem_range]
  obtain ⟨a1, a2, a3⟩ := LE_invert_up_rows_fold kN i (1 / s.W i i) (List.range i).reverse
    (List.nodup_reverse.mpr (List.nodup_range i)) (by rw [hm]; omega) s
  unfold LE_invert_up_elim
  refine ⟨fun r c => ?_, fun r c => ?_, a3⟩
  · simp only [a1, hm]
  · simp only [foldl_scale_row, a2, hm]
    by_cases hc : c < kN
    · by_cases hr : r = i
      · subst hr; simp [hc]
      · by_cases hr2 : r < i <;> simp [hc, hr, hr2]
    · simp [hc]

end matrix_solver_w_t

namespace matrix_solver_w_t

theorem LE_invert_init_inner (A : Mat) (i n : Nat) (s : invert_state) :
    (∀ r c, ((List.range n).foldl
        (fun s j => invert_state.mk (Mat.set s.W i j (A i j)) (Mat.set s.lA i j (A i j))
            (Mat.set s.Ainv i j 0)) s).W r c
      = if r = i ∧ c < n then A r c else s.W r c) ∧
    (∀ r c, ((List.range n).foldl
        (fun s j => invert_state.mk (Mat.set s.W i j (A i j)) (Mat.set s.lA i j (A i j))
            (Mat.set s.Ainv i j 0)) s).lA r c
      = if r = i ∧ c < n then A r c else s.lA r c) ∧
    (∀ r c, ((List.range n).foldl
        (fun s j => invert_state.mk (Mat.set s.W i j (A i j)) (Mat.set s.lA i j (A i j))
            (Mat.set s.Ainv i j 0)) s).Ainv r c
      = if r = i ∧ c < n then 0 else s.Ainv r c) := by
  induction n with
  | zero => simp
  | succ n ih =>
    obtain ⟨ih1, ih2, ih3⟩ := ih
    rw [List.range_succ, List.foldl_append, List.foldl_cons, List.foldl_nil]
    have h1 : ∀ c, c < n + 1 ↔ (c = n ∨ c < n) := by intro c; omega
    refine ⟨fun r c => ?_, fun r c => ?_, fun r c => ?_⟩
    · simp only [Mat_set_apply, ih1, h1]
      by_cases hr : r = i <;> by_cases hc : c = n <;> by_cases hc2 : c < n <;>
        simp [hr, hc, hc2]
    · simp only [Mat_set_apply, ih2, h1]
      by_cases hr : r = i <;> by_cases hc : c = n <;> by_cases hc2 : c < n <;>
        simp [hr, hc, hc2]
    · simp only [Mat_set_apply, ih3, h1]
      by_cases hr : r = i <;> by_cases hc : c = n <;> by_cases hc2 : c < n <;>
        simp [hr, hc, hc2]

theorem LE_invert_init_fold (kN : Nat) (A : Mat) (n : Nat) (s : invert_state) :
    (∀ r c, ((List.range n).foldl
      (fun s i =>
        let s1 := (List.range kN).foldl
          (fun s j =>
            invert_state.mk (Mat.set s.W i j (A i j)) (Mat.set s.lA i j (A i j))
              (Mat.set s.Ainv i j 0)) s
        { s1 with Ainv := Mat.set s1.Ainv i i 1 }) s).W r c
      = if r < n ∧ c < kN then A r c else s.W r c) ∧
    (∀ r c, ((List.range n).foldl
      (fun s i =>
        let s1 := (List.range kN).foldl
          (fun s j =>
            invert_state.mk (Mat.set s.W i j (A i j)) (Mat.set s.lA i j (A i j))
              (Mat.set s.Ainv i j 0)) s
        { s1 with Ainv := Mat.set s1.Ainv i i 1 }) s).lA r c
      = if r < n ∧ c < kN then A r c else s.lA r c) ∧
    (∀ r c, ((List.range n).foldl
      (fun s i =>
        let s1 := (List.range kN).foldl
          (fun s j =>
            invert_state.mk (Mat.set s.W i j (A i j)) (Mat.set s.lA i j (A i j))
              (Mat.set s.Ainv i j 0)) s
        { s1 with Ainv := Mat.set s1.Ainv i i 1 }) s).Ainv r c
      = if r < n ∧ c = r then 1 else if r < n ∧ c < kN then 0 else s.Ainv r c) := by
  induction n with
  | zero => simp
  | succ n ih =>
    obtain ⟨ih1, ih2, ih3⟩ := ih
    rw [List.range_succ, List.foldl_append, List.foldl_cons, List.foldl_nil]
    generalize (List.range n).foldl
      (fun s i =>
        let s1 := (List.range kN).foldl
          (fun s j =>
            invert_state.mk (Mat.set s.W i j (A i j)) (Mat.set s.lA i j (A i j))
              (Mat.set s.Ainv i j 0)) s
        { s1 with Ainv := Mat.set s1.Ainv i i 1 }) s = S at ih1 ih2 ih3
    obtain ⟨a1, a2, a3⟩ := LE_invert_init_inner A n kN S
    have h1 : ∀ r, r < n + 1 ↔ (r = n ∨ r < n) := by intro r; omega
    refine ⟨fun r c => ?_, fun r c => ?_, fun r c => ?_⟩
    · simp only [a1, ih1, h1]
      by_cases hr : r = n <;> by_cases hr2 : r < n <;> by_cases hc : c < kN <;>
        simp [hr, hr2, hc]
    · simp only [a2, ih2, h1]
      by_cases hr : r = n <;> by_cases hr2 : r < n <;> by_cases hc : c < kN <;>
        simp [hr, hr2, hc]
    · simp only [Mat_set_apply, a3, ih3, h1]
      by_cases hr : r = n
      · subst hr
        by_cases hc : c = r
        · subst hc; simp
        · by_cases hc2 : c < kN <;> simp [hc, hc2]
      · by_cases hr2 : r < n <;> by_cases hc : c < kN <;> by_cases hc2 : c = r <;>
          simp [hr, hr2, hc, hc2]

/-- Closed form of the initialisation of `LE_invert`. -/
theorem LE_invert_init_apply (kN : Nat) (A : Mat) (s : invert_state) :
    (∀ r c, (LE_invert_init kN A s).W r c = if r < kN ∧ c < kN then A r c else s.W r c) ∧
    (∀ r c, (LE_invert_init kN A s).lA r c = if r < kN ∧ c < kN then A r c else s.lA r c) ∧
    (∀ r c, (LE_invert_init kN A s).Ainv r c
      = if r < kN ∧ c = r then 1 else if r < kN ∧ c < kN then 0 else s.Ainv r c) :=
  LE_invert_init_fold kN A kN s


theorem LE_invert_down_upto_succ (m_terms : Nat → terms_t) (n : Nat) (s : invert_state) :
    LE_invert_down_upto m_terms (n + 1) s
      = LE_invert_down_elim m_terms n (LE_invert_down_upto m_terms n s) := by
  simp [LE_invert_down_upto, List.range_succ, List.foldl_append]

theorem sum_row_axpy (kN : Nat) (a b : Vec) (φ : ℚ) (A0 : Mat) (c : Nat) :
    ∑ k in Finset.range kN, (a k + b k * φ) * A0 k c
      = ∑ k in Finset.range kN, a k * A0 k c + φ * ∑ k in Finset.range kN, b k * A0 k c := by
  rw [Finset.mul_sum, ← Finset.sum_add_distrib]
  apply Finset.sum_congr rfl
  intro k _
  ring

/-- Invariant of the downward pass of `LE_invert`. -/
theorem LE_invert_down_inv (kN : Nat) (m_terms : Nat → terms_t) (ok : NzrdOK kN m_terms)
    (okb : NzbdOK kN m_terms) (A0 : Mat) (s0 : invert_state)
    (hpatA : ∀ r c, r < kN → c < kN → A0 r c ≠ 0 → c ∈ (m_terms r).m_nz)
    (hcov : ∀ r c, r < kN → r < c → c ∈ (m_terms r).m_nz → c ∈ (m_terms r).m_nzrd)
    (n : Nat) (hn : n ≤ kN)
    (hpiv : ∀ i, i < n → LE_invert_pivot_down kN m_terms A0 s0 i ≠ 0) :
    ∀ S, S = LE_invert_down_upto m_terms n (LE_invert_init kN A0 s0) →
      (∀ r c, r < kN → c < kN →
        ∑ k in Finset.range kN, S.Ainv r k * A0 k c = upperPart n S.W r c) ∧
      (∀ r k, r < kN → k < kN → r < k → S.Ainv r k = 0) ∧
      (∀ r c, r < kN → r < c → c < kN → S.W r c ≠ 0 → c ∈ (m_terms r).m_nzrd) ∧
      (∀ r c, r < kN → c < kN → S.W r c ≠ 0 →
        touched_upto kN (vsetup_touched kN m_terms) n r c = true) ∧
      S.lA = (LE_invert_init kN A0 s0).lA := by
  induction n with
  | zero =>
    intro S hS
    obtain ⟨i1, -, i3⟩ := LE_invert_init_apply kN A0 s0
    have hS0 : S = LE_invert_init kN A0 s0 := by rw [hS]; rfl
    subst hS0
    refine ⟨fun r c hr hc => ?_, fun r k hr hk hrk => ?_, fun r c hr hrc hc hne => ?_,
      fun r c hr hc hne => ?_, rfl⟩
    · have h1 : ∀ k ∈ Finset.range kN, (LE_invert_init kN A0 s0).Ainv r k * A0 k c
          = if k = r then A0 r c else 0 := by
        intro k hk
        rw [i3]
        by_cases hkr : k = r
        · subst hkr; simp [hr]
        · simp [hkr, hr, Finset.mem_range.mp hk]
      rw [Finset.sum_congr rfl h1, Finset.sum_ite_eq' (Finset.range kN) r]
      simp [hr, upperPart, i1, hc]
    · rw [i3]
      have : ¬ k = r := by omega
      simp [this, hr, hk]
    · rw [i1] at hne
      simp only [hr, hc, and_self, if_true] at hne
      exact hcov r c hr hrc (hpatA r c hr hc hne)
    · rw [i1] at hne
      simp only [hr, hc, and_self, if_true] at hne
      simp only [touched_upto, vsetup_touched_apply]
      simp [hr, hpatA r c hr hc hne]
  | succ n ih =>
    intro S1 hS1
    have hn1 : n < kN := hn
    obtain ⟨d1, d2, d3, d4, d5⟩ := ih (Nat.le_of_lt hn1)
      (fun i hi => hpiv i (Nat.lt_succ_of_lt hi)) _ rfl
    have hp := hpiv n (Nat.lt_succ_self n)
    unfold LE_invert_pivot_down at hp
    rw [LE_invert_down_upto_succ] at hS1
    generalize LE_invert_down_upto m_terms n (LE_invert_init kN A0 s0) = S at d1 d2 d3 d4 d5 hp hS1
    have hnn : n ∉ (m_terms n).m_nzbd := by
      intro h
      have := ((okb.mem n hn1 n).mp h).1.1
      omega
    obtain ⟨e1, e2, e3⟩ := LE_invert_down_elim_apply m_terms n (ok.nodup n hn1)
      (okb.nodup n hn1) hnn S
    subst hS1
    -- rows outside `m_nzbd` have a zero in column `n`
    have hz : ∀ r, n < r → r < kN → r ∉ (m_terms n).m_nzbd → S.W r n = 0 := by
      intro r h1 h2 h3
      by_contra hne
      exact h3 ((okb.mem n hn1 r).mpr ⟨⟨h1, h2⟩, d4 r n h2 hn1 hne⟩)
    have hW : ∀ r c, r < kN → c < kN → (LE_invert_down_elim m_terms n S).W r c
        = if n < r ∧ c ∈ (m_terms n).m_nzrd
          then S.W r c + S.W n c * (- S.W r n * (1 / S.W n n)) else S.W r c := by
      intro r c hr hc
      rw [e1]
      by_cases hm : r ∈ (m_terms n).m_nzbd
      · have hnr : n < r := ((okb.mem n hn1 r).mp hm).1.1
        simp [hm, hnr]
      · by_cases hnr : n < r
        · simp [hm, hnr, hz r hnr hr hm]
        · simp [hm, hnr]
    have hA : ∀ r c, r < kN → c < kN → (LE_invert_down_elim m_terms n S).Ainv r c
        = if n < r then S.Ainv r c + S.Ainv n c * (- S.W r n * (1 / S.W n n))
          else S.Ainv r c := by
      intro r c hr hc
      rw [e2]
      by_cases hm : r ∈ (m_terms n).m_nzbd
      · have hnr : n < r := ((okb.mem n hn1 r).mp hm).1.1
        by_cases hcn : c ≤ n
        · simp [hm, hnr, hcn]
        · simp [hm, hnr, hcn, d2 n c hn1 hc (by omega)]
      · by_cases hnr : n < r
        · simp [hm, hnr, hz r hnr hr hm]
        · simp [hm, hnr]
    refine ⟨fun r c hr hc => ?_, fun r k hr hk hrk => ?_, fun r c hr hrc hc hne => ?_,
      fun r c hr hc hne => ?_, by rw [e3, d5]⟩
    · rw [upperPart_step kN n (m_terms n).m_nzrd S.W _ hW hp
        (fun c hc => (ok.bounds n hn1 c hc).1)
        (fun c h1 h2 h3 => d3 n c hn1 h1 h2 h3) hn1 r c hr hc]
      have hsum : ∑ k in Finset.range kN, (LE_invert_down_elim m_terms n S).Ainv r k * A0 k c
          = ∑ k in Finset.range kN,
            (if n < r then S.Ainv r k + S.Ainv n k * (- S.W r n * (1 / S.W n n))
              else S.Ainv r k) * A0 k c := by
        apply Finset.sum_congr rfl
        intro k hk
        rw [hA r k hr (Finset.mem_range.mp hk)]
      rw [hsum]
      by_cases hnr : n < r
      · simp only [hnr, if_true]
        rw [sum_row_axpy, d1 r c hr hc, d1 n c hn1 hc]
      · simp only [hnr, if_false]
        exact d1 r c hr hc
    · rw [hA r k hr hk]
      by_cases hnr : n < r
      · simp [hnr, d2 r k hr hk hrk, d2 n k hn1 hk (by omega)]
      · simp [hnr, d2 r k hr hk hrk]
    · rw [hW r c hr hc] at hne
      by_cases h : n < r ∧ c ∈ (m_terms n).m_nzrd
      · exact ok.mono n r c (Nat.le_of_lt h.1) hr h.2 hrc
      · rw [if_neg h] at hne
        exact d3 r c hr hrc hc hne
    · rw [hW r c hr hc] at hne
      simp only [touched_upto, touched_step]
      by_cases h : n < r ∧ c ∈ (m_terms n).m_nzrd
      · rw [if_pos h] at hne
        by_cases h0 : S.W r c = 0
        · rw [h0, zero_add] at hne
          have hnc : S.W n c ≠ 0 := fun hx => hne (by rw [hx, zero_mul])
          have hrn : S.W r n ≠ 0 := fun hx => hne (by rw [hx]; ring)
          have hb := ok.bounds n hn1 c h.2
          simp [h.1, hr, d4 r n hr hn1 hrn, d4 n c hn1 hc hnc, Nat.le_of_lt hb.1, hc]
        · simp [d4 r c hr hc h0]
      · rw [if_neg h] at hne
        simp [d4 r c hr hc hne]

end matrix_solver_w_t

namespace matrix_solver_w_t

theorem LE_invert_up_upto_succ (kN d : Nat) (hd : d < kN) (s : invert_state) :
    LE_invert_up_upto kN (d + 1) s
      = LE_invert_up_elim kN (kN - d - 1) (LE_invert_up_upto kN d s) := by
  unfold LE_invert_up_upto
  have h1 : kN - (d + 1) = kN - d - 1 := by omega
  have h2 : kN - d - 1 + 1 = kN - d := by omega
  rw [h1, List.range'_succ, List.reverse_cons, List.foldl_append, h2]
  rfl

theorem sum_row_scale (kN : Nat) (a : Vec) (f : ℚ) (A0 : Mat) (c : Nat) :
    ∑ k in Finset.range kN, (a k * f) * A0 k c = f * ∑ k in Finset.range kN, a k * A0 k c := by
  rw [Finset.mul_sum]
  apply Finset.sum_congr rfl
  intro k _
  ring

/-- Invariant of the upward pass of `LE_invert`, started from matrices `SD` whose
product `Ainv A0` is the upper triangular part of `W`. -/
theorem LE_invert_up_inv (kN : Nat) (A0 : Mat) (SD : invert_state)
    (hD : ∀ r c, r < kN → c < kN →
      ∑ k in Finset.range kN, SD.Ainv r k * A0 k c = upperPart kN SD.W r c)
    (d : Nat) (hd : d ≤ kN)
    (hpiv : ∀ e, e < d → (LE_invert_up_upto kN e SD).W (kN - e - 1) (kN - e - 1) ≠ 0) :
    ∀ S, S = LE_invert_up_upto kN d SD →
      (∀ r c, r < kN → c < kN →
        ∑ k in Finset.range kN, S.Ainv r k * A0 k c
          = if kN - d ≤ r then (if r = c then 1 else 0) else (if c < r then 0 else S.W r c)) ∧
      (∀ r c, r < kN → c < kN → r < c → kN - d ≤ c → S.W r c = 0) ∧
      S.lA = SD.lA := by
  induction d with
  | zero =>
    intro S hS
    have hS0 : S = SD := by rw [hS]; simp [LE_invert_up_upto]
    subst hS0
    refine ⟨fun r c hr hc => ?_, fun r c hr hc hrc h => ?_, rfl⟩
    · rw [hD r c hr hc]
      have h1 : ¬ kN ≤ r := by omega
      simp [h1, upperPart, hc]
    · omega
  | succ d ih =>
    intro S1 hS1
    have hd1 : d < kN := hd
    obtain ⟨u1, u2, u3⟩ := ih (Nat.le_of_lt hd1) (fun e he => hpiv e (Nat.lt_succ_of_lt he)) _ rfl
    have hp := hpiv d (Nat.lt_succ_self d)
    rw [LE_invert_up_upto_succ kN d hd1] at hS1
    generalize LE_invert_up_upto kN d SD = S at u1 u2 u3 hp hS1
    obtain ⟨e1, e2, e3⟩ := LE_invert_up_elim_apply kN (kN - d - 1) S
    subst hS1
    have hi : kN - d - 1 < kN := by omega
    have hrowi : ∀ c, c < kN → ∑ k in Finset.range kN, S.Ainv (kN - d - 1) k * A0 k c
        = if c < kN - d - 1 then 0 else S.W (kN - d - 1) c := by
      intro c hc
      rw [u1 _ c hi hc]
      have : ¬ kN - d ≤ kN - d - 1 := by omega
      simp [this]
    refine ⟨fun r c hr hc => ?_, fun r c hr hc hrc h => ?_, by rw [e3, u3]⟩
    · have hsum : ∑ k in Finset.range kN,
            (LE_invert_up_elim kN (kN - d - 1) S).Ainv r k * A0 k c
          = ∑ k in Finset.range kN,
            (if r < kN - d - 1 then
                S.Ainv r k + S.Ainv (kN - d - 1) k
                  * (- S.W r (kN - d - 1) * (1 / S.W (kN - d - 1) (kN - d - 1)))
              else if r = kN - d - 1 then
                S.Ainv (kN - d - 1) k * (1 / S.W (kN - d - 1) (kN - d - 1))
              else S.Ainv r k) * A0 k c := by
        apply Finset.sum_congr rfl
        intro k hk
        rw [e2, if_pos (Finset.mem_range.mp hk)]
      rw [hsum]
      by_cases hr1 : r < kN - d - 1
      · have hnot : ¬ kN - (d + 1) ≤ r := by omega
        have hnot2 : ¬ kN - d ≤ r := by omega
        simp only [hr1, if_true, hnot, if_false]
        rw [sum_row_axpy, u1 r c hr hc, hrowi c hc, e1]
        simp only [hnot2, if_false, hr1, true_and]
        by_cases hcr : c < r
        · have : c < kN - d - 1 := by omega
          rw [if_pos hcr, if_pos this, if_pos hcr]
          ring
        · by_cases hci : c < kN - d - 1
          · have h3 : ¬ (kN - d - 1 ≤ c ∧ c < kN) := by omega
            rw [if_neg hcr, if_pos hci, if_neg hcr, if_neg h3]
            ring
          · have h3 : kN - d - 1 ≤ c ∧ c < kN := by omega
            rw [if_neg hcr, if_neg hci, if_neg hcr, if_pos h3]
            ring
      · by_cases hr2 : r = kN - d - 1
        · subst hr2
          have hyes : kN - (d + 1) ≤ kN - d - 1 := by omega
          simp only [Nat.lt_irrefl, if_false, if_true, hyes]
          rw [sum_row_scale, hrowi c hc]
          by_cases hci : c < kN - d - 1
          · have : ¬ kN - d - 1 = c := by omega
            simp [hci, this]
          · by_cases hci2 : c = kN - d - 1
            · rw [hci2]
              simp only [Nat.lt_irrefl, if_false, if_true]
              field_simp
            · have hz := u2 (kN - d - 1) c hi hc (by omega) (by omega)
              have : ¬ kN - d - 1 = c := fun h => hci2 h.symm
              simp [hci, hz, this]
        · have hyes : kN - (d + 1) ≤ r := by omega
          have hyes2 : kN - d ≤ r := by omega
          simp only [hr1, hr2, if_false, hyes, if_true]
          rw [u1 r c hr hc]
          simp [hyes2]
    · rw [e1]
      by_cases hci : c = kN - d - 1
      · subst hci
        have h3 : r < kN - d - 1 ∧ (kN - d - 1 ≤ kN - d - 1 ∧ kN - d - 1 < kN) := by omega
        rw [if_pos h3]
        field_simp
        ring
      · have hc2 : kN - d ≤ c := by omega
        by_cases hr1 : r < kN - d - 1
        · have h3 : r < kN - d - 1 ∧ (kN - d - 1 ≤ c ∧ c < kN) := by omega
          rw [if_pos h3, u2 r c hr hc hrc hc2, u2 (kN - d - 1) c hi hc (by omega) hc2]
          simp
        · have h3 : ¬ (r < kN - d - 1 ∧ (kN - d - 1 ≤ c ∧ c < kN)) := by omega
          rw [if_neg h3]
          exact u2 r c hr hc hrc hc2

end matrix_solver_w_t

namespace matrix_solver_w_t

theorem LE_invert_down_fold_eq (m_terms : Nat → terms_t) (s : invert_state) (n : Nat)
    (hpiv : ∀ i, i < n → (LE_invert_down_upto m_terms i s).W i i ≠ 0) :
    (List.range n).foldlM (fun s i => LE_invert_down_step m_terms i s) s
      = some (LE_invert_down_upto m_terms n s) := by
  induction n with
  | zero => simp [LE_invert_down_upto]
  | succ n ih =>
    rw [List.range_succ, List.foldlM_append, ih (fun i hi => hpiv i (Nat.lt_succ_of_lt hi))]
    have h := hpiv n (Nat.lt_succ_self n)
    simp [LE_invert_down_step, h, LE_invert_down_upto_succ]

theorem LE_invert_up_fold_eq (kN : Nat) (s : invert_state) (d : Nat) (hd : d ≤ kN)
    (hpiv : ∀ e, e < d → (LE_invert_up_upto kN e s).W (kN - e - 1) (kN - e - 1) ≠ 0) :
    (List.range' (kN - d) d).reverse.foldlM (fun s i => LE_invert_up_step kN i s) s
      = some (LE_invert_up_upto kN d s) := by
  induction d with
  | zero => simp [LE_invert_up_upto]
  | succ d ih =>
    have hd1 : d < kN := hd
    have h1 : kN - (d + 1) = kN - d - 1 := by omega
    have h2 : kN - d - 1 + 1 = kN - d := by omega
    rw [h1, List.range'_succ, List.reverse_cons, List.foldlM_append, h2,
      ih (Nat.le_of_lt hd1) (fun e he => hpiv e (Nat.lt_succ_of_lt he))]
    have h := hpiv d (Nat.lt_succ_self d)
    simp [LE_invert_up_step, h, LE_invert_up_upto_succ kN d hd1]

theorem LE_invert_eq (kN : Nat) (m_terms : Nat → terms_t) (A : Mat) (s : invert_state)
    (hdown : ∀ i, i < kN → LE_invert_pivot_down kN m_terms A s i ≠ 0)
    (hup : ∀ i, i < kN → LE_invert_pivot_up kN m_terms A s i ≠ 0) :
    LE_invert kN m_terms A s
      = some (LE_invert_up_upto kN kN
          (LE_invert_down_upto m_terms kN (LE_invert_init kN A s))) := by
  unfold LE_invert
  rw [LE_invert_down_fold_eq m_terms _ kN hdown, Option.some_bind]
  have h := LE_invert_up_fold_eq kN
    (LE_invert_down_upto m_terms kN (LE_invert_init kN A s)) kN (Nat.le_refl kN)
    (fun e he => by
      have := hup (kN - e - 1) (by omega)
      unfold LE_invert_pivot_up at this
      have h3 : kN - 1 - (kN - e - 1) = e := by omega
      rw [h3] at this
      exact this)
  rw [Nat.sub_self] at h
  rw [List.range_eq_range']
  exact h

/-- `LE_invert` produces the exact inverse when the index lists are those of
`vsetup` and no pivot is zero. -/
theorem LE_invert_correct (N : Nat) (rows : Nat → terms_t)
    (hwf : ∀ k, k < N → (rows k).wf N) (A : Mat) (s : invert_state)
    (hA : ∀ r c, r < N → c < N → A r c ≠ 0 → c ∈ (vsetup_nz N rows r).m_nz)
    (hdown : ∀ i, i < N → LE_invert_pivot_down N (vsetup_nz N rows) A s i ≠ 0)
    (hup : ∀ i, i < N → LE_invert_pivot_up N (vsetup_nz N rows) A s i ≠ 0) :
    ∃ s1, LE_invert N (vsetup_nz N rows) A s = some s1 ∧
      IsInverse N s1.Ainv A ∧ IsInverse N A s1.Ainv ∧
      ∀ r c, r < N → c < N → s1.lA r c = A r c := by
  have ok := w_vsetup_nz_ok N rows hwf
  have okb : NzbdOK N (vsetup_nz N rows) :=
    ⟨fun i hi => (w_vsetup_nz_spec N rows i hi).2.2.2.1,
      fun i hi j => (w_vsetup_nz_spec N rows i hi).2.2.2.2 j⟩
  obtain ⟨d1, -, -, -, d5⟩ := LE_invert_down_inv N (vsetup_nz N rows) ok okb A s hA
    (fun r c hr hrc h => w_vsetup_nz_covers N rows r c hr hrc h) N (Nat.le_refl N) hdown _ rfl
  obtain ⟨u1, -, u3⟩ := LE_invert_up_inv N A
    (LE_invert_down_upto (vsetup_nz N rows) N (LE_invert_init N A s)) d1 N (Nat.le_refl N)
    (fun e he => by
      have := hup (N - e - 1) (by omega)
      unfold LE_invert_pivot_up at this
      have h3 : N - 1 - (N - e - 1) = e := by omega
      rw [h3] at this
      exact this) _ rfl
  have hinv : IsInverse N (LE_invert_up_upto N N
      (LE_invert_down_upto (vsetup_nz N rows) N (LE_invert_init N A s))).Ainv A := by
    intro r hr c hc
    rw [u1 r c hr hc]
    simp
  refine ⟨_, LE_invert_eq N (vsetup_nz N rows) A s hdown hup, hinv, IsInverse_comm N _ _ hinv, ?_⟩
  intro r c hr hc
  rw [u3, d5, (LE_invert_init_apply N A s).2.1]
  simp [hr, hc]

end matrix_solver_w_t

theorem foldlM_rel {σ : Type} (R : σ → σ → Prop) (f : σ → Nat → Option σ) (l : List Nat)
    (hstep : ∀ i, i ∈ l → ∀ s t, R s t → OptRel R (f s i) (f t i)) :
    ∀ s t, R s t → OptRel R (l.foldlM f s) (l.foldlM f t) := by
  induction l with
  | nil =>
    intro s t h
    exact Or.inr ⟨s, t, rfl, rfl, h⟩
  | cons i l ih =>
    intro s t h
    rw [List.foldlM_cons, List.foldlM_cons]
    rcases hstep i (List.mem_cons_self _ _) s t h with ⟨h1, h2⟩ | ⟨u, v, h1, h2, h3⟩
    · rw [h1, h2]; exact Or.inl ⟨rfl, rfl⟩
    · rw [h1, h2]
      exact ih (fun j hj => hstep j (List.mem_cons_of_mem _ hj)) u v h3

namespace matrix_solver_w_t

theorem LE_invert_down_step_rel (N : Nat) (m_terms : Nat → terms_t) (ok : NzrdOK N m_terms)
    (okb : NzbdOK N m_terms) (i : Nat) (hi : i < N) (s t : invert_state) (h : InvertEq N s t) :
    OptRel (InvertEq N) (LE_invert_down_step m_terms i s) (LE_invert_down_step m_terms i t) := by
  obtain ⟨hW, hL, hAi⟩ := h
  have hnn : i ∉ (m_terms i).m_nzbd := by
    intro h
    have := ((okb.mem i hi i).mp h).1.1
    omega
  unfold LE_invert_down_step
  rw [← hW i i hi hi]
  by_cases hp : s.W i i = 0
  · simp only [hp, if_true]; exact Or.inl ⟨rfl, rfl⟩
  · simp only [hp, if_false]
    refine Or.inr ⟨_, _, rfl, rfl, ?_⟩
    obtain ⟨a1, a2, a3⟩ := LE_invert_down_elim_apply m_terms i (ok.nodup i hi) (okb.nodup i hi) hnn s
    obtain ⟨b1, b2, b3⟩ := LE_invert_down_elim_apply m_terms i (ok.nodup i hi) (okb.nodup i hi) hnn t
    refine ⟨fun r c hr hc => ?_, fun r c hr hc => ?_, fun r c hr hc => ?_⟩
    · rw [a1, b1, hW r c hr hc, hW i c hi hc, hW r i hr hi, hW i i hi hi]
    · rw [a3, b3]; exact hL r c hr hc
    · rw [a2, b2, hAi r c hr hc, hAi i c hi hc, hW r i hr hi, hW i i hi hi]

theorem LE_invert_up_step_rel (N : Nat) (i : Nat) (hi : i < N) (s t : invert_state)
    (h : InvertEq N s t) :
    OptRel (InvertEq N) (LE_invert_up_step N i s) (LE_invert_up_step N i t) := by
  obtain ⟨hW, hL, hAi⟩ := h
  unfold LE_invert_up_step
  rw [← hW i i hi hi]
  by_cases hp : s.W i i = 0
  · simp only [hp, if_true]; exact Or.inl ⟨rfl, rfl⟩
  · simp only [hp, if_false]
    refine Or.inr ⟨_, _, rfl, rfl, ?_⟩
    obtain ⟨a1, a2, a3⟩ := LE_invert_up_elim_apply N i s
    obtain ⟨b1, b2, b3⟩ := LE_invert_up_elim_apply N i t
    refine ⟨fun r c hr hc => ?_, fun r c hr hc => ?_, fun r c hr hc => ?_⟩
    · rw [a1, b1, hW r c hr hc, hW i c hi hc, hW r i hr hi, hW i i hi hi]
    · rw [a3, b3]; exact hL r c hr hc
    · rw [a2, b2, hAi r c hr hc, hAi i c hi hc, hW r i hr hi, hW i i hi hi]

/-- The result of `LE_invert` on the `N × N` block does not depend on what the work
matrices held before. -/
theorem LE_invert_rel (N : Nat) (m_terms : Nat → terms_t) (ok : NzrdOK N m_terms)
    (okb : NzbdOK N m_terms) (A : Mat) (s t : invert_state) :
    OptRel (InvertEq N) (LE_invert N m_terms A s) (LE_invert N m_terms A t) := by
  have h0 : InvertEq N (LE_invert_init N A s) (LE_invert_init N A t) := by
    obtain ⟨a1, a2, a3⟩ := LE_invert_init_apply N A s
    obtain ⟨b1, b2, b3⟩ := LE_invert_init_apply N A t
    refine ⟨fun r c hr hc => ?_, fun r c hr hc => ?_, fun r c hr hc => ?_⟩
    · rw [a1, b1]; simp [hr, hc]
    · rw [a2, b2]; simp [hr, hc]
    · rw [a3, b3]; simp [hr, hc]
  unfold LE_invert
  rcases foldlM_rel (InvertEq N) (fun s i => LE_invert_down_step m_terms i s) (List.range N)
    (fun i hi s t h => LE_invert_down_step_rel N m_terms ok okb i (List.mem_range.mp hi) s t h)
    _ _ h0 with ⟨h1, h2⟩ | ⟨u, v, h1, h2, h3⟩
  · rw [h1, h2]; exact Or.inl ⟨rfl, rfl⟩
  · rw [h1, h2, Option.some_bind, Option.some_bind]
    exact foldlM_rel (InvertEq N) (fun s i => LE_invert_up_step N i s) (List.range N).reverse
      (fun i hi s t h => LE_invert_up_step_rel N i
        (List.mem_range.mp (List.mem_reverse.mp hi)) s t h) u v h3

theorem LE_compute_x_inner (Ainv : Mat) (f : ℚ) (k n : Nat) (x : Vec) (i : Nat) :
    (List.range n).foldl (fun x i => Vec.set x i (x i + Ainv i k * f)) x i
      = if i < n then x i + Ainv i k * f else x i := by
  induction n generalizing i with
  | zero => simp
  | succ n ih =>
    rw [List.range_succ, List.foldl_append, List.foldl_cons, List.foldl_nil, Vec_set_apply, ih, ih]
    by_cases hi : i = n
    · subst hi; simp
    · by_cases h2 : i < n
      · simp [hi, h2, Nat.lt_succ_of_lt h2]
      · have : ¬ i < n + 1 := by omega
        simp [hi, h2, this]

theorem LE_compute_x_outer (kN : Nat) (Ainv : Mat) (RHS : Vec) (n : Nat) (x : Vec) (i : Nat) :
    (List.range n).foldl
      (fun x k =>
        let f := RHS k
        (List.range kN).foldl (fun x i => Vec.set x i (x i + Ainv i k * f)) x) x i
      = if i < kN then x i + ∑ k in Finset.range n, Ainv i k * RHS k else x i := by
  induction n generalizing i with
  | zero => simp
  | succ n ih =>
    rw [List.range_succ, List.foldl_append, List.foldl_cons, List.foldl_nil]
    simp only [LE_compute_x_inner, ih, Finset.sum_range_succ]
    by_cases hi : i < kN
    · simp [hi, add_assoc]
    · simp [hi]

/-- Closed form of `LE_compute_x`. -/
theorem LE_compute_x_apply (kN : Nat) (Ainv : Mat) (RHS : Vec) (x : Vec) (i : Nat) :
    LE_compute_x kN Ainv RHS x i
      = if i < kN then ∑ k in Finset.range kN, Ainv i k * RHS k else x i := by
  unfold LE_compute_x
  simp only
  rw [LE_compute_x_outer]
  have h0 : ∀ (n : Nat) (x : Vec) (i : Nat),
      (List.range n).foldl (fun x i => Vec.set x i 0) x i = if i < n then 0 else x i := by
    intro n x i
    exact matrix_solver_direct_t.foldl_set_range (fun _ => 0) x n i
  rw [h0]
  by_cases hi : i < kN
  · simp [hi]
  · simp [hi]

theorem store_apply (iN : Nat) (V cur : Vec) (i : Nat) :
    store iN V cur i = if i < iN then V i else cur i := by
  unfold store matrix_solver_direct_t.store
  exact matrix_solver_direct_t.foldl_set_range V cur iN i

/-- With an exact inverse, `LE_compute_x` solves the system. -/
theorem LE_compute_x_solves (N : Nat) (A Ainv : Mat) (RHS x : Vec) (h : IsInverse N A Ainv) :
    IsSolution N A RHS (LE_compute_x N Ainv RHS x) := by
  intro j hj
  have h1 : ∀ c ∈ Finset.range N, A j c * LE_compute_x N Ainv RHS x c
      = ∑ k in Finset.range N, (A j c * Ainv c k) * RHS k := by
    intro c hc
    rw [LE_compute_x_apply, if_pos (Finset.mem_range.mp hc), Finset.mul_sum]
    apply Finset.sum_congr rfl
    intro k _
    ring
  rw [Finset.sum_congr rfl h1, Finset.sum_comm]
  have h2 : ∀ k ∈ Finset.range N, ∑ c in Finset.range N, (A j c * Ainv c k) * RHS k
      = if k = j then RHS j else 0 := by
    intro k hk
    rw [← Finset.sum_mul, h j hj k (Finset.mem_range.mp hk)]
    by_cases hjk : j = k
    · subst hjk; simp
    · have : ¬ k = j := fun h => hjk h.symm
      simp [hjk, this]
  rw [Finset.sum_congr rfl h2, Finset.sum_ite_eq' (Finset.range N) j]
  simp [hj]

end matrix_solver_w_t

namespace matrix_solver_w_t

theorem solve_commit_fields (s : matrix_solver_w_t) (v : Vec) (nr : Bool) :
    (solve_commit s v nr).2.inv = s.inv ∧ (solve_commit s v nr).2.m_A = s.m_A ∧
    (solve_commit s v nr).2.cur_Analog = store s.N v s.cur_Analog ∧
    (solve_commit s v nr).2.N = s.N := by
  unfold solve_commit
  cases nr <;> simp

theorem w_vsetup_nzbd_ok (N : Nat) (rows : Nat → terms_t) : NzbdOK N (vsetup_nz N rows) :=
  ⟨fun i hi => (w_vsetup_nz_spec N rows i hi).2.2.2.1,
    fun i hi j => (w_vsetup_nz_spec N rows i hi).2.2.2.2 j⟩

end matrix_solver_w_t


/-! ## The fast path -/

namespace matrix_solver_w_t

theorem changed_cols_fold (A lA : Mat) (row : Nat) (nz acc : List Nat) :
    nz.foldl (fun cs col => if A row col ≠ lA row col then cs ++ [col] else cs) acc
      = acc ++ nz.filter (fun col => decide (A row col ≠ lA row col)) := by
  induction nz generalizing acc with
  | nil => simp
  | cons q nz ih =>
    rw [List.foldl_cons, ih]
    by_cases h : A row q = lA row q
    · simp [h]
    · simp [h]

theorem changed_rows_fold (F : Nat → List Nat) (n : Nat) :
    (List.range n).foldl
      (fun acc row => if (F row).length > 0 then acc ++ [(row, F row)] else acc) []
      = ((List.range n).filter (fun row => decide ((F row).length > 0))).map
          (fun row => (row, F row)) := by
  induction n with
  | zero => simp
  | succ n ih =>
    rw [List.range_succ, List.foldl_append, List.foldl_cons, List.foldl_nil, ih,
      List.filter_append, List.map_append]
    by_cases h : (F n).length > 0
    · simp [h]
    · simp [h]

/-- Closed form of the loop that determines the changed rows. -/
theorem changed_rows_eq (iN : Nat) (m_terms : Nat → terms_t) (A lA : Mat) :
    changed_rows iN m_terms A lA
      = ((List.range iN).filter (fun row => decide
          (((m_terms row).m_nz.filter (fun col => decide (A row col ≠ lA row col))).length > 0))).map
          (fun row => (row, (m_terms row).m_nz.filter (fun col => decide (A row col ≠ lA row col)))) := by
  unfold changed_rows
  simp only [changed_cols_fold, List.nil_append]
  exact changed_rows_fold
    (fun row => (m_terms row).m_nz.filter (fun col => decide (A row col ≠ lA row col))) iN

/-- The facts on `rows` and `cols` that the fast path uses. -/
theorem changed_rows_spec (iN : Nat) (m_terms : Nat → terms_t) (A lA : Mat) :
    (∀ i, i < (changed_rows iN m_terms A lA).length →
      ((changed_rows iN m_terms A lA).getD i (0, [])).1 < iN) ∧
    (∀ i j, i < (changed_rows iN m_terms A lA).length →
      j < (changed_rows iN m_terms A lA).length →
      ((changed_rows iN m_terms A lA).getD i (0, [])).1
        = ((changed_rows iN m_terms A lA).getD j (0, [])).1 → i = j) ∧
    (∀ i, i < (changed_rows iN m_terms A lA).length →
      ((changed_rows iN m_terms A lA).getD i (0, [])).2
        = (m_terms ((changed_rows iN m_terms A lA).getD i (0, [])).1).m_nz.filter
            (fun col => decide (A ((changed_rows iN m_terms A lA).getD i (0, [])).1 col
              ≠ lA ((changed_rows iN m_terms A lA).getD i (0, [])).1 col))) ∧
    (∀ ρ, ρ < iN →
      (∀ i, i < (changed_rows iN m_terms A lA).length →
        ((changed_rows iN m_terms A lA).getD i (0, [])).1 ≠ ρ) →
      ∀ c, c ∈ (m_terms ρ).m_nz → A ρ c = lA ρ c) := by
  rw [changed_rows_eq]
  generalize hL : (List.range iN).filter (fun row => decide
    (((m_terms row).m_nz.filter (fun col => decide (A row col ≠ lA row col))).length > 0)) = L
  have hnd : L.Nodup := by rw [← hL]; exact (List.nodup_range iN).filter _
  have hmemL : ∀ ρ, ρ ∈ L ↔ ρ < iN ∧
      (m_terms ρ).m_nz.filter (fun col => decide (A ρ col ≠ lA ρ col)) ≠ [] := by
    intro ρ
    rw [← hL, List.mem_filter, List.mem_range]
    simp only [gt_iff_lt, decide_eq_true_eq, List.length_pos]
  have hget : ∀ i (hi : i < L.length),
      (L.map (fun row => (row, (m_terms row).m_nz.filter
        (fun col => decide (A row col ≠ lA row col))))).getD i (0, [])
      = (L[i], (m_terms L[i]).m_nz.filter (fun col => decide (A L[i] col ≠ lA L[i] col))) := by
    intro i hi
    rw [List.getD_eq_getElem _ _ (by rw [List.length_map]; exact hi), List.getElem_map]
  simp only [List.length_map]
  refine ⟨fun i hi => ?_, fun i j hi hj h => ?_, fun i hi => ?_, fun ρ hρ hno c hc => ?_⟩
  · rw [hget i hi]
    exact ((hmemL _).mp (List.getElem_mem hi)).1
  · rw [hget i hi, hget j hj] at h
    exact (hnd.getElem_inj_iff).mp h
  · rw [hget i hi]
  · by_contra hne
    have hmem : ρ ∈ L := by
      rw [hmemL]
      refine ⟨hρ, ?_⟩
      intro hnil
      have : c ∈ (m_terms ρ).m_nz.filter (fun col => decide (A ρ col ≠ lA ρ col)) := by
        rw [List.mem_filter]
        exact ⟨hc, by simpa using hne⟩
      rw [hnil] at this
      exact List.not_mem_nil _ this
    obtain ⟨i, hi, hiρ⟩ := List.mem_iff_getElem.mp hmem
    apply hno i hi
    rw [hget i hi]
    exact hiρ

end matrix_solver_w_t

theorem foldl_vec_entries (G : Nat → ℚ → ℚ) (n : Nat) (v : Vec) (r : Nat) :
    (List.range n).foldl (fun v i => Vec.set v i (G i (v i))) v r
      = if r < n then G r (v r) else v r := by
  induction n generalizing r with
  | zero => simp
  | succ n ih =>
    rw [List.range_succ, List.foldl_append, List.foldl_cons, List.foldl_nil, Vec_set_apply, ih, ih]
    by_cases hr : r = n
    · subst hr; simp
    · by_cases h2 : r < n
      · simp [hr, h2, Nat.lt_succ_of_lt h2]
      · have : ¬ r < n + 1 := by omega
        simp [hr, h2, this]

theorem foldl_vec_acc (i : Nat) (g : Nat → ℚ) (n : Nat) (v : Vec) :
    (List.range n).foldl (fun w k => Vec.set w i (w i + g k)) v
      = Vec.set v i (v i + ∑ k in Finset.range n, g k) := by
  induction n with
  | zero => funext r; by_cases h : r = i <;> simp [h]
  | succ n ih =>
    rw [List.range_succ, List.foldl_append, List.foldl_cons, List.foldl_nil, ih]
    funext r
    by_cases h : r = i <;> simp [h, Finset.sum_range_succ, add_assoc]

theorem foldl_mat_rows (G : Nat → Vec → Vec) (step : Mat → Nat → Mat)
    (hstep : ∀ M i r c, step M i r c = if r = i then G i (M i) c else M r c)
    (n : Nat) (M : Mat) (r c : Nat) :
    (List.range n).foldl step M r c = if r < n then G r (M r) c else M r c := by
  induction n generalizing r c with
  | zero => simp
  | succ n ih =>
    rw [List.range_succ, List.foldl_append, List.foldl_cons, List.foldl_nil, hstep]
    by_cases hr : r = n
    · subst hr
      have : (List.range r).foldl step M r = M r := by
        funext c1; rw [ih]; simp
      simp [this]
    · rw [if_neg hr, ih]
      by_cases h2 : r < n
      · simp [h2, Nat.lt_succ_of_lt h2]
      · have : ¬ r < n + 1 := by omega
        simp [h2, this]

namespace matrix_solver_w_t

/-- Closed form of the local `w` of the fast path. -/
theorem fast_w_apply (iN rowcount : Nat) (rows : Nat → Nat) (A lA : Mat) (new_V : Vec) (i : Nat) :
    fast_w iN rowcount rows A lA new_V i
      = if i < rowcount then
          ∑ k in Finset.range iN, (A (rows i) k - lA (rows i) k) * new_V k
        else 0 := by
  unfold fast_w
  have h : ∀ (w : Vec) (i : Nat),
      (List.range iN).foldl
        (fun w k => Vec.set w i (w i + (A (rows i) k - lA (rows i) k) * new_V k)) w
      = Vec.set w i (w i + ∑ k in Finset.range iN, (A (rows i) k - lA (rows i) k) * new_V k) :=
    fun w i => foldl_vec_acc i _ iN w
  simp only [h]
  rw [foldl_vec_entries
    (fun i wi => wi + ∑ k in Finset.range iN, (A (rows i) k - lA (rows i) k) * new_V k)]
  simp

/-- Closed form of the correction `x = y - Zt` of the fast path. -/
theorem fast_correct_apply (iN rowcount : Nat) (rows : Nat → Nat) (Ainv : Mat) (t new_V : Vec)
    (i : Nat) :
    fast_correct iN rowcount rows Ainv t new_V i
      = if i < iN then new_V i - ∑ j in Finset.range rowcount, Ainv i (rows j) * t j
        else new_V i := by
  unfold fast_correct
  simp only [foldl_add_range, zero_add]
  rw [foldl_vec_entries
    (fun i xi => xi - ∑ j in Finset.range rowcount, Ainv i (rows j) * t j)]

theorem fast_H_inner (i : Nat) (f : ℚ) (z : Nat → ℚ) (n : Nat) (H : Mat) (r c : Nat) :
    (List.range n).foldl (fun H j => Mat.set H i j (H i j + f * z j)) H r c
      = if r = i ∧ c < n then H i c + f * z c else H r c := by
  induction n generalizing r c with
  | zero => simp
  | succ n ih =>
    rw [List.range_succ, List.foldl_append, List.foldl_cons, List.foldl_nil, Mat_set_apply, ih, ih]
    by_cases hr : r = i
    · subst hr
      by_cases hc : c = n
      · subst hc; simp
      · by_cases h2 : c < n
        · simp [hc, h2, Nat.lt_succ_of_lt h2]
        · have : ¬ c < n + 1 := by omega
          simp [hc, h2, this]
    · simp [hr]

theorem fast_H_cols (rowcount : Nat) (rows : Nat → Nat) (A lA Ainv : Mat) (i : Nat)
    (cols : List Nat) (H : Mat) (r c : Nat) :
    cols.foldl
      (fun H col =>
        let f := A (rows i) col - lA (rows i) col
        if f ≠ 0 then
          (List.range rowcount).foldl
            (fun H j => Mat.set H i j (H i j + f * Ainv col (rows j))) H
        else H) H r c
      = if r = i ∧ c < rowcount then
          H i c + (cols.map
            (fun col => (A (rows i) col - lA (rows i) col) * Ainv col (rows c))).sum
        else H r c := by
  induction cols generalizing H r c with
  | nil =>
    by_cases h : r = i ∧ c < rowcount
    · simp [h.1, h.2]
    · simp [h]
  | cons q cols ih =>
    rw [List.foldl_cons, ih]
    simp only [List.map_cons, List.sum_cons]
    by_cases hf : A (rows i) q - lA (rows i) q = 0
    · simp only [hf, ne_eq, not_true_eq_false, if_false, zero_mul, zero_add]
    · simp only [hf, ne_eq, not_false_eq_true, if_true, fast_H_inner]
      by_cases h : r = i ∧ c < rowcount
      · obtain ⟨h1, h2⟩ := h
        subst h1
        simp only [h2, and_self, if_true]
        ring
      · by_cases hr : r = i
        · subst hr
          have hc : ¬ c < rowcount := fun hc => h ⟨rfl, hc⟩
          simp [hc]
        · simp [hr]

theorem fast_H_zero (rowcount : Nat) (H : Mat) (r c : Nat) :
    (List.range rowcount).foldl
      (fun H i => (List.range rowcount).foldl (fun H k => Mat.set H i k 0) H) H r c
      = if r < rowcount ∧ c < rowcount then 0 else H r c := by
  rw [foldl_mat_rows (fun _ row c => if c < rowcount then 0 else row c)
    (fun H i => (List.range rowcount).foldl (fun H k => Mat.set H i k 0) H)]
  · by_cases hr : r < rowcount <;> by_cases hc : c < rowcount <;> simp [hr, hc]
  · intro M i r c
    rw [matrix_solver_direct_t.foldl_zero_row]
    by_cases hr : r = i
    · subst hr; simp
    · simp [hr]

/-- Closed form of the matrix `H` of the fast path on its `rowcount × rowcount` block. -/
theorem fast_H_apply (rowcount : Nat) (rows : Nat → Nat) (cols : Nat → List Nat)
    (A lA Ainv : Mat) (H : Mat) (r c : Nat) (hr : r < rowcount) (hc : c < rowcount) :
    fast_H rowcount rows cols A lA Ainv H r c
      = (if r = c then 1 else 0)
        + ((cols r).map
            (fun col => (A (rows r) col - lA (rows r) col) * Ainv col (rows c))).sum := by
  unfold fast_H
  simp only
  rw [foldl_mat_rows
    (fun i row c => if c < rowcount then row c + ((cols i).map
      (fun col => (A (rows i) col - lA (rows i) col) * Ainv col (rows c))).sum else row c)
    (fun H i => (cols i).foldl
      (fun H col =>
        let f := A (rows i) col - lA (rows i) col
        if f ≠ 0 then
          (List.range rowcount).foldl
            (fun H j => Mat.set H i j (H i j + f * Ainv col (rows j))) H
        else H) H)
    (fun M i r c => by
      beta_reduce
      rw [fast_H_cols]
      by_cases h1 : r = i
      · subst h1
        by_cases h2 : c < rowcount <;> simp [h2]
      · simp [h1])]
  simp only [hr, hc, if_true]
  congr 1
  rw [foldl_mat_rows (fun i row c => if c = i then row c + 1 else row c)
    (fun H i => Mat.set H i i (H i i + 1))
    (fun M i r c => by
      beta_reduce
      rw [Mat_set_apply]
      by_cases h1 : r = i
      · subst h1
        by_cases h2 : c = r
        · subst h2; simp
        · simp [h2]
      · simp [h1])]
  simp only [hr, if_true, fast_H_zero, hc, and_self]
  by_cases h : r = c
  · subst h; simp
  · have : ¬ c = r := fun h2 => h h2.symm
    simp [h, this]

end matrix_solver_w_t

theorem dense_terms_ok (m : Nat) : NzrdOK m (dense_terms m) := by
  refine ⟨fun i _ => List.nodup_range' _ _, fun i hi c hc => ?_, fun i r c hir hr hc hrc => ?_⟩
  · simp only [dense_terms, List.mem_range'_1] at hc
    omega
  · simp only [dense_terms, List.mem_range'_1] at hc ⊢
    omega

namespace matrix_solver_w_t

theorem fast_elim_row_eq (rowcount i : Nat) (f : ℚ) (j : Nat) (hij : i ≠ j) (s : Mat × Vec) :
    fast_elim_row rowcount i f j s
      = matrix_solver_direct_t.LE_solve_row (dense_terms rowcount i).m_nzrd i f j s := by
  unfold fast_elim_row matrix_solver_direct_t.LE_solve_row
  have hf : - f * s.1 j i = - s.1 j i * f := by ring
  simp only [hf]
  by_cases h : - s.1 j i * f = 0
  · simp [h]
  · simp only [h, ne_eq, not_false_eq_true, if_true]
    have hfun : (fun (H : Mat) (k : Nat) =>
          Mat.set H j (i + 1 + k) (H j (i + 1 + k) + (- s.1 j i * f) * H i (i + 1 + k)))
        = (fun (H : Mat) (k : Nat) =>
          (fun (M : Mat) (c : Nat) => Mat.set M j c (M j c + M i c * (- s.1 j i * f)))
            H (i + 1 + k)) := by
      funext H k
      simp only [mul_comm]
    have hmap : (List.range (rowcount - i - 1)).map (fun k => i + 1 + k)
        = List.range' (i + 1) (rowcount - (i + 1)) := by
      rw [List.range_eq_range', List.map_add_range']
      simp [Nat.sub_sub]
    congr 1
    · funext r c
      rw [hfun, ← List.foldl_map (fun k => i + 1 + k)
        (fun (M : Mat) (c : Nat) => Mat.set M j c (M j c + M i c * (- s.1 j i * f))), hmap,
        foldl_row_axpy i j hij _ _ (List.nodup_range' _ _), Mat_setRow_apply]
      have hd : (dense_terms rowcount i).m_nzrd = List.range' (i + 1) (rowcount - (i + 1)) := rfl
      rw [hd, matrix_solver_direct_t.foldl_axpy _ _ _ (List.nodup_range' _ _)]
      by_cases hr : r = j
      · subst hr; simp
      · simp [hr]
    · funext r
      simp only [Vec_set_apply, mul_comm]

theorem fast_elim_rows_eq (rowcount i : Nat) (s : Mat × Vec) :
    fast_elim_rows rowcount i s
      = matrix_solver_direct_t.LE_solve_elim rowcount (dense_terms rowcount) i s := by
  unfold fast_elim_rows matrix_solver_direct_t.LE_solve_elim
  apply List.foldl_ext
  intro a j hj
  rw [List.mem_range'_1] at hj
  exact fast_elim_row_eq rowcount i _ j (by omega) a

theorem fast_elim_step_eq (rowcount i : Nat) (s : Mat × Vec) :
    fast_elim_step rowcount i s
      = matrix_solver_direct_t.LE_solve_step false rowcount (dense_terms rowcount) i s := by
  unfold fast_elim_step matrix_solver_direct_t.LE_solve_step
  simp only [matrix_solver_direct_t.LE_solve_pre_false, fast_elim_rows_eq]

theorem fast_elim_eq (rowcount : Nat) (s : Mat × Vec) :
    fast_elim rowcount s
      = matrix_solver_direct_t.LE_solve false rowcount (dense_terms rowcount) s := by
  unfold fast_elim matrix_solver_direct_t.LE_solve
  simp only [fast_elim_step_eq]

theorem fast_elim_upto_eq (rowcount n : Nat) (s : Mat × Vec) :
    fast_elim_upto rowcount n s
      = matrix_solver_direct_t.LE_solve_upto false rowcount (dense_terms rowcount) n s := by
  unfold fast_elim_upto matrix_solver_direct_t.LE_solve_upto
  simp only [matrix_solver_direct_t.LE_solve_pre_false, fast_elim_rows_eq]

theorem fast_back_row_eq (rowcount : Nat) (s : Mat × Vec) (j : Nat) (t : Vec) :
    fast_back_row rowcount s j t
      = matrix_solver_direct_t.LE_back_subst_row (dense_terms rowcount) s j t := by
  unfold fast_back_row matrix_solver_direct_t.LE_back_subst_row
  have hmap : (List.range (rowcount - j - 1)).map (fun k => j + 1 + k)
      = List.range' (j + 1) (rowcount - (j + 1)) := by
    rw [List.range_eq_range', List.map_add_range']
    simp [Nat.sub_sub]
  have h : (List.range (rowcount - j - 1)).foldl
        (fun tmp k => tmp + s.1 j (j + 1 + k) * t (j + 1 + k)) 0
      = (dense_terms rowcount j).m_nzrd.foldl (fun tmp pk => tmp + s.1 j pk * t pk) 0 := by
    simp only [dense_terms]
    rw [← hmap, List.foldl_map]
  simp only [h]

theorem fast_back_eq (rowcount : Nat) (s : Mat × Vec) (t : Vec) :
    fast_back rowcount s t
      = matrix_solver_direct_t.LE_back_subst rowcount (dense_terms rowcount) s t := by
  unfold fast_back matrix_solver_direct_t.LE_back_subst
  simp only [fast_back_row_eq]

/-- The elimination and back substitution of the fast path solve `H t = w` when no
pivot is zero. -/
theorem fast_elim_back_correct (rowcount : Nat) (H : Mat) (w t0 : Vec)
    (hpiv : ∀ i, i < rowcount → (fast_elim_upto rowcount i (H, w)).1 i i ≠ 0) :
    ∃ r t, fast_elim rowcount (H, w) = some r ∧ fast_back rowcount r t0 = some t ∧
      IsSolution rowcount H w t := by
  obtain ⟨r, t, h1, h2, h3, -⟩ := matrix_solver_direct_t.LE_solve_back_subst_correct rowcount
    (dense_terms rowcount) (dense_terms_ok rowcount) H w t0
    (fun r c hr hrc hc _ => by
      simp only [dense_terms, List.mem_range'_1]
      omega)
    (fun i hi => by
      have := hpiv i hi
      rw [fast_elim_upto_eq] at this
      simpa [matrix_solver_direct_t.LE_pivot, matrix_solver_direct_t.LE_solve_pre_false]
        using this)
  exact ⟨r, t, by rw [fast_elim_eq]; exact h1, by rw [fast_back_eq]; exact h2, h3⟩

end matrix_solver_w_t

/-- The Woodbury identity in the form the fast path uses it: `lA` with right
inverse `Ainv`, `A` equal to `lA` outside the rows `R 0, ..., R (m-1)`,
`H = I + VT Z`, `w = VT y`, `H t = w` and `x = y - Z t` give `A x = RHS`. -/
theorem woodbury_identity (N m : Nat) (A lA Ainv H : Mat) (RHS y w t x : Vec) (R : Nat → Nat)
    (hinv : IsInverse N lA Ainv) (hy : IsSolution N lA RHS y)
    (hR1 : ∀ i, i < m → R i < N)
    (hR2 : ∀ i j, i < m → j < m → R i = R j → i = j)
    (hun : ∀ ρ, ρ < N → (∀ i, i < m → R i ≠ ρ) → ∀ c, c < N → A ρ c = lA ρ c)
    (hH : ∀ i j, i < m → j < m → H i j = (if i = j then 1 else 0)
      + ∑ c in Finset.range N, (A (R i) c - lA (R i) c) * Ainv c (R j))
    (hw : ∀ i, i < m → w i = ∑ c in Finset.range N, (A (R i) c - lA (R i) c) * y c)
    (ht : IsSolution m H w t)
    (hx : ∀ c, c < N → x c = y c - ∑ j in Finset.range m, Ainv c (R j) * t j) :
    IsSolution N A RHS x := by
  intro ρ hρ
  -- split the product
  have hsplit : ∑ c in Finset.range N, A ρ c * x c
      = ∑ c in Finset.range N, lA ρ c * y c
        + ∑ c in Finset.range N, (A ρ c - lA ρ c) * y c
        - ∑ j in Finset.range m, (∑ c in Finset.range N, lA ρ c * Ainv c (R j)) * t j
        - ∑ j in Finset.range m, (∑ c in Finset.range N, (A ρ c - lA ρ c) * Ainv c (R j)) * t j := by
    have e3 : ∑ j in Finset.range m, (∑ c in Finset.range N, lA ρ c * Ainv c (R j)) * t j
        = ∑ c in Finset.range N, lA ρ c * ∑ j in Finset.range m, Ainv c (R j) * t j := by
      simp only [Finset.sum_mul, Finset.mul_sum]
      rw [Finset.sum_comm]
      apply Finset.sum_congr rfl
      intro c _
      apply Finset.sum_congr rfl
      intro j _
      ring
    have e4 : ∑ j in Finset.range m,
          (∑ c in Finset.range N, (A ρ c - lA ρ c) * Ainv c (R j)) * t j
        = ∑ c in Finset.range N, (A ρ c - lA ρ c) * ∑ j in Finset.range m, Ainv c (R j) * t j := by
      simp only [Finset.sum_mul, Finset.mul_sum]
      rw [Finset.sum_comm]
      apply Finset.sum_congr rfl
      intro c _
      apply Finset.sum_congr rfl
      intro j _
      ring
    rw [e3, e4, ← Finset.sum_add_distrib, ← Finset.sum_sub_distrib, ← Finset.sum_sub_distrib]
    apply Finset.sum_congr rfl
    intro c hc
    rw [hx c (Finset.mem_range.mp hc)]
    ring
  have h3 : ∀ j ∈ Finset.range m, (∑ c in Finset.range N, lA ρ c * Ainv c (R j)) * t j
      = (if ρ = R j then 1 else 0) * t j := by
    intro j hj
    rw [hinv ρ hρ (R j) (hR1 j (Finset.mem_range.mp hj))]
  rw [hsplit, hy ρ hρ, Finset.sum_congr rfl h3]
  by_cases hex : ∃ i, i < m ∧ R i = ρ
  · obtain ⟨i, hi, hiρ⟩ := hex
    subst hiρ
    have s3 : ∑ j in Finset.range m, (if R i = R j then (1 : ℚ) else 0) * t j = t i := by
      have : ∀ j ∈ Finset.range m, (if R i = R j then (1 : ℚ) else 0) * t j
          = if j = i then t i else 0 := by
        intro j hj
        by_cases hji : j = i
        · subst hji; simp
        · have : ¬ R i = R j := fun h => hji (hR2 i j hi (Finset.mem_range.mp hj) h).symm
          simp [hji, this]
      rw [Finset.sum_congr rfl this, Finset.sum_ite_eq' (Finset.range m) i]
      simp [hi]
    have s4 : ∑ j in Finset.range m,
          (∑ c in Finset.range N, (A (R i) c - lA (R i) c) * Ainv c (R j)) * t j
        = w i - t i := by
      have : ∀ j ∈ Finset.range m,
          (∑ c in Finset.range N, (A (R i) c - lA (R i) c) * Ainv c (R j)) * t j
          = H i j * t j - (if j = i then t i else 0) := by
        intro j hj
        rw [hH i j hi (Finset.mem_range.mp hj)]
        by_cases hji : j = i
        · subst hji; simp; ring
        · have : ¬ i = j := fun h => hji h.symm
          simp [hji, this]
      rw [Finset.sum_congr rfl this, Finset.sum_sub_distrib, ht i hi,
        Finset.sum_ite_eq' (Finset.range m) i]
      simp [hi]
    rw [s3, s4, ← hw i hi]
    ring
  · have hno : ∀ i, i < m → R i ≠ ρ := fun i hi h => hex ⟨i, hi, h⟩
    have hz : ∀ c ∈ Finset.range N, A ρ c - lA ρ c = 0 := by
      intro c hc
      rw [hun ρ hρ hno c (Finset.mem_range.mp hc)]
      ring
    have s2 : ∑ c in Finset.range N, (A ρ c - lA ρ c) * y c = 0 := by
      apply Finset.sum_eq_zero
      intro c hc
      rw [hz c hc, zero_mul]
    have s3 : ∑ j in Finset.range m, (if ρ = R j then (1 : ℚ) else 0) * t j = 0 := by
      apply Finset.sum_eq_zero
      intro j hj
      have : ¬ ρ = R j := fun h => hno j (Finset.mem_range.mp hj) h.symm
      simp [this]
    have s4 : ∑ j in Finset.range m,
          (∑ c in Finset.range N, (A ρ c - lA ρ c) * Ainv c (R j)) * t j = 0 := by
      apply Finset.sum_eq_zero
      intro j _
      have : ∑ c in Finset.range N, (A ρ c - lA ρ c) * Ainv c (R j) = 0 := by
        apply Finset.sum_eq_zero
        intro c hc
        rw [hz c hc, zero_mul]
      rw [this, zero_mul]
    rw [s2, s3, s4]
    ring

/-- A sum over the changed columns of a row equals the sum over all columns. -/
theorem sum_changed_cols (N : Nat) (nz : List Nat) (hnd : nz.Nodup) (hlt : ∀ c, c ∈ nz → c < N)
    (a la : Vec) (hdiff : ∀ c, c < N → a c ≠ la c → c ∈ nz) (g : Vec) :
    ((nz.filter (fun col => decide (a col ≠ la col))).map
      (fun col => (a col - la col) * g col)).sum
      = ∑ c in Finset.range N, (a c - la c) * g c := by
  rw [← List.sum_toFinset _ (hnd.filter _)]
  apply Finset.sum_subset
  · intro c hc
    rw [List.mem_toFinset, List.mem_filter] at hc
    exact Finset.mem_range.mpr (hlt c hc.1)
  · intro c hc hnc
    rw [List.mem_toFinset, List.mem_filter] at hnc
    have : a c = la c := by
      by_contra hne
      exact hnc ⟨hdiff c (Finset.mem_range.mp hc) hne, by simpa using hne⟩
    rw [this, sub_self, zero_mul]


namespace matrix_solver_w_t

/-- Every row that the detection loop records has a changed entry. -/
theorem changed_rows_nonempty (iN : Nat) (m_terms : Nat → terms_t) (A lA : Mat) (i : Nat)
    (hi : i < (changed_rows iN m_terms A lA).length) :
    ∃ c, c ∈ (m_terms ((changed_rows iN m_terms A lA).getD i (0, [])).1).m_nz ∧
      A ((changed_rows iN m_terms A lA).getD i (0, [])).1 c
        ≠ lA ((changed_rows iN m_terms A lA).getD i (0, [])).1 c := by
  revert hi
  rw [changed_rows_eq]
  generalize hL : (List.range iN).filter (fun row => decide
    (((m_terms row).m_nz.filter (fun col => decide (A row col ≠ lA row col))).length > 0)) = L
  have hmemL : ∀ ρ, ρ ∈ L →
      (m_terms ρ).m_nz.filter (fun col => decide (A ρ col ≠ lA ρ col)) ≠ [] := by
    intro ρ
    rw [← hL, List.mem_filter, List.mem_range]
    simp only [gt_iff_lt, decide_eq_true_eq, List.length_pos]
    exact fun h => h.2
  intro hi
  rw [List.length_map] at hi
  rw [List.getD_eq_getElem _ _ (by rw [List.length_map]; exact hi), List.getElem_map]
  have hne := hmemL _ (List.getElem_mem hi)
  obtain ⟨c, hc⟩ := List.exists_mem_of_ne_nil _ hne
  rw [List.mem_filter] at hc
  exact ⟨c, hc.1, by simpa using hc.2⟩

/-- The fast path solves the current system when the `nz` lists are duplicate-free
and in range, `A` differs from `lA` only inside them, `Ainv` is a right inverse of
`lA`, and no pivot of `H` is zero. -/
theorem solve_fast_correct (s : matrix_solver_w_t) (new_V t : Vec)
    (hnd : ∀ r, r < s.N → (s.m_terms r).m_nz.Nodup)
    (hlt : ∀ r, r < s.N → ∀ c, c ∈ (s.m_terms r).m_nz → c < s.N)
    (hdiff : ∀ r c, r < s.N → c < s.N → s.m_A r c ≠ s.inv.lA r c → c ∈ (s.m_terms r).m_nz)
    (hinv : IsInverse s.N s.inv.lA s.inv.Ainv)
    (hpiv : ∀ i, i < (changed_rows s.N s.m_terms s.m_A s.inv.lA).length →
      solve_fast_pivot s new_V i ≠ 0) :
    ∃ r, solve_fast s new_V t = some r ∧ IsSolution s.N s.m_A s.m_RHS r.2 ∧
      r.1.N = s.N ∧ r.1.m_A = s.m_A ∧ r.1.m_RHS = s.m_RHS ∧ r.1.inv = s.inv ∧
      r.1.cur_Analog = s.cur_Analog ∧ r.1.m_accuracy = s.m_accuracy := by
  obtain ⟨R1, R2, R3, R4⟩ := changed_rows_spec s.N s.m_terms s.m_A s.inv.lA
  have hy := LE_compute_x_solves s.N s.inv.lA s.inv.Ainv s.m_RHS new_V hinv
  have hun : ∀ ρ, ρ < s.N →
      (∀ i, i < (changed_rows s.N s.m_terms s.m_A s.inv.lA).length →
        ((changed_rows s.N s.m_terms s.m_A s.inv.lA).getD i (0, [])).1 ≠ ρ) →
      ∀ c, c < s.N → s.m_A ρ c = s.inv.lA ρ c := by
    intro ρ hρ hno c hc
    by_contra hne
    exact hne (R4 ρ hρ hno c (hdiff ρ c hρ hc hne))
  have hH : ∀ i j, i < (changed_rows s.N s.m_terms s.m_A s.inv.lA).length →
      j < (changed_rows s.N s.m_terms s.m_A s.inv.lA).length →
      fast_H (changed_rows s.N s.m_terms s.m_A s.inv.lA).length
        (fun i => ((changed_rows s.N s.m_terms s.m_A s.inv.lA).getD i (0, [])).1)
        (fun i => ((changed_rows s.N s.m_terms s.m_A s.inv.lA).getD i (0, [])).2)
        s.m_A s.inv.lA s.inv.Ainv s.H i j
      = (if i = j then 1 else 0)
        + ∑ c in Finset.range s.N,
          (s.m_A ((changed_rows s.N s.m_terms s.m_A s.inv.lA).getD i (0, [])).1 c
            - s.inv.lA ((changed_rows s.N s.m_terms s.m_A s.inv.lA).getD i (0, [])).1 c)
          * s.inv.Ainv c ((changed_rows s.N s.m_terms s.m_A s.inv.lA).getD j (0, [])).1 := by
    intro i j hi hj
    rw [fast_H_apply _ _ _ _ _ _ _ i j hi hj]
    rw [R3 i hi]
    rw [sum_changed_cols s.N _ (hnd _ (R1 i hi)) (hlt _ (R1 i hi))
      (s.m_A ((changed_rows s.N s.m_terms s.m_A s.inv.lA).getD i (0, [])).1)
      (s.inv.lA ((changed_rows s.N s.m_terms s.m_A s.inv.lA).getD i (0, [])).1)
      (fun c hc hne => hdiff _ c (R1 i hi) hc hne)
      (fun c => s.inv.Ainv c ((changed_rows s.N s.m_terms s.m_A s.inv.lA).getD j (0, [])).1)]
  unfold solve_fast
  simp only
  by_cases hm : (changed_rows s.N s.m_terms s.m_A s.inv.lA).length > 0
  · rw [if_pos hm]
    obtain ⟨r, t1, h1, h2, h3⟩ := fast_elim_back_correct
      (changed_rows s.N s.m_terms s.m_A s.inv.lA).length
      (fast_H (changed_rows s.N s.m_terms s.m_A s.inv.lA).length
        (fun i => ((changed_rows s.N s.m_terms s.m_A s.inv.lA).getD i (0, [])).1)
        (fun i => ((changed_rows s.N s.m_terms s.m_A s.inv.lA).getD i (0, [])).2)
        s.m_A s.inv.lA s.inv.Ainv s.H)
      (fast_w s.N (changed_rows s.N s.m_terms s.m_A s.inv.lA).length
        (fun i => ((changed_rows s.N s.m_terms s.m_A s.inv.lA).getD i (0, [])).1)
        s.m_A s.inv.lA (LE_compute_x s.N s.inv.Ainv s.m_RHS new_V)) t hpiv
    rw [h1, Option.some_bind, h2, Option.map_some']
    refine ⟨_, rfl, ?_, rfl, rfl, rfl, rfl, rfl, rfl⟩
    exact woodbury_identity s.N (changed_rows s.N s.m_terms s.m_A s.inv.lA).length
      s.m_A s.inv.lA s.inv.Ainv _ s.m_RHS _ _ t1 _
      (fun i => ((changed_rows s.N s.m_terms s.m_A s.inv.lA).getD i (0, [])).1)
      hinv hy R1 R2 hun hH
      (fun i hi => by rw [fast_w_apply, if_pos hi])
      h3
      (fun c hc => by
        show fast_correct _ _ _ _ _ _ c = _
        rw [fast_correct_apply, if_pos hc])
  · rw [if_neg hm]
    have hm0 : (changed_rows s.N s.m_terms s.m_A s.inv.lA).length = 0 := by omega
    refine ⟨_, rfl, ?_, rfl, rfl, rfl, rfl, rfl, rfl⟩
    exact woodbury_identity s.N 0 s.m_A s.inv.lA s.inv.Ainv (fun _ _ => 0) s.m_RHS _
      (fun _ => 0) (fun _ => 0) _ (fun _ => 0) hinv hy
      (fun i hi => absurd hi (Nat.not_lt_zero i))
      (fun i j hi => absurd hi (Nat.not_lt_zero i))
      (fun ρ hρ _ c hc => hun ρ hρ (fun i hi => by rw [hm0] at hi; omega) c hc)
      (fun i j hi => absurd hi (Nat.not_lt_zero i))
      (fun i hi => absurd hi (Nat.not_lt_zero i))
      (fun i hi => absurd hi (Nat.not_lt_zero i))
      (fun c hc => by simp)

end matrix_solver_w_t

/-- Fast-path result for a single changed row. -/
theorem single_row_pivot (s : matrix_solver_w_t) (new_V : Vec)
    (hnd : ∀ r, r < s.N → (s.m_terms r).m_nz.Nodup)
    (hlt : ∀ r, r < s.N → ∀ c, c ∈ (s.m_terms r).m_nz → c < s.N)
    (hdiff : ∀ r c, r < s.N → c < s.N → s.m_A r c ≠ s.inv.lA r c → c ∈ (s.m_terms r).m_nz)
    (hinv : IsInverse s.N s.inv.lA s.inv.Ainv)
    (ρ : Nat) (hρ : ρ < s.N) (hch : ∃ c, c < s.N ∧ s.m_A ρ c ≠ s.inv.lA ρ c)
    (hother : ∀ r, r < s.N → r ≠ ρ → ∀ c, c < s.N → s.m_A r c = s.inv.lA r c)
    (hns : NonSingular s.N s.m_A) :
    (matrix_solver_w_t.changed_rows s.N s.m_terms s.m_A s.inv.lA).length = 1 ∧
    matrix_solver_w_t.solve_fast_pivot s new_V 0 ≠ 0 := by
  obtain ⟨R1, R2, R3, R4⟩ := matrix_solver_w_t.changed_rows_spec s.N s.m_terms s.m_A s.inv.lA
  have R5 := matrix_solver_w_t.changed_rows_nonempty s.N s.m_terms s.m_A s.inv.lA
  have hrow : ∀ i, i < (matrix_solver_w_t.changed_rows s.N s.m_terms s.m_A s.inv.lA).length →
      ((matrix_solver_w_t.changed_rows s.N s.m_terms s.m_A s.inv.lA).getD i (0, [])).1 = ρ := by
    intro i hi
    by_contra hne
    obtain ⟨c, hc, hcne⟩ := R5 i hi
    exact hcne (hother _ (R1 i hi) hne c (hlt _ (R1 i hi) c hc))
  have hlen : (matrix_solver_w_t.changed_rows s.N s.m_terms s.m_A s.inv.lA).length = 1 := by
    have h1 : (matrix_solver_w_t.changed_rows s.N s.m_terms s.m_A s.inv.lA).length ≤ 1 := by
      by_contra hgt
      have := R2 0 1 (by omega) (by omega) ((hrow 0 (by omega)).trans (hrow 1 (by omega)).symm)
      omega
    have h2 : 0 < (matrix_solver_w_t.changed_rows s.N s.m_terms s.m_A s.inv.lA).length := by
      by_contra h0
      obtain ⟨c, hc, hcne⟩ := hch
      exact hcne (R4 ρ hρ (fun i hi => absurd hi (by omega)) c (hdiff ρ c hρ hc hcne))
    omega
  refine ⟨hlen, ?_⟩
  have h0 : 0 < (matrix_solver_w_t.changed_rows s.N s.m_terms s.m_A s.inv.lA).length := by omega
  have hpiv : matrix_solver_w_t.solve_fast_pivot s new_V 0
      = 1 + ∑ c in Finset.range s.N, (s.m_A ρ c - s.inv.lA ρ c) * s.inv.Ainv c ρ := by
    unfold matrix_solver_w_t.solve_fast_pivot matrix_solver_w_t.fast_elim_upto
    simp only [List.range_zero, List.foldl_nil]
    rw [matrix_solver_w_t.fast_H_apply _ _ _ _ _ _ _ 0 0 h0 h0, R3 0 h0, hrow 0 h0]
    rw [sum_changed_cols s.N _ (hnd _ hρ) (hlt _ hρ) (s.m_A ρ) (s.inv.lA ρ)
      (fun c hc hne => hdiff _ c hρ hc hne) (fun c => s.inv.Ainv c ρ)]
    simp
  rw [hpiv]
  intro hz
  have hsol : IsSolution s.N s.m_A (fun _ => 0) (fun c => s.inv.Ainv c ρ) := by
    intro r hr
    have hsplit : ∑ c in Finset.range s.N, s.m_A r c * s.inv.Ainv c ρ
        = ∑ c in Finset.range s.N, s.inv.lA r c * s.inv.Ainv c ρ
          + ∑ c in Finset.range s.N, (s.m_A r c - s.inv.lA r c) * s.inv.Ainv c ρ := by
      rw [← Finset.sum_add_distrib]
      exact Finset.sum_congr rfl (fun c _ => by ring)
    rw [hsplit, hinv r hr ρ hρ]
    by_cases hrρ : r = ρ
    · subst hrρ
      rw [if_pos rfl]
      exact hz
    · rw [if_neg hrρ, zero_add]
      exact Finset.sum_eq_zero (fun c hc => by
        rw [hother r hr hrρ c (Finset.mem_range.mp hc)]; ring)
  have hzero := hns _ hsol
  have h1 := hinv ρ hρ ρ hρ
  rw [if_pos rfl] at h1
  have h2 : ∑ c in Finset.range s.N, s.inv.lA ρ c * s.inv.Ainv c ρ = 0 :=
    Finset.sum_eq_zero (fun c hc => by
      have := hzero c (Finset.mem_range.mp hc)
      simp only at this
      rw [this]; ring)
  rw [h2] at h1
  exact zero_ne_one h1

/-- Lifting of `solve_fast_correct` to `solve_non_dynamic`. -/
theorem solve_non_dynamic_fast (s : matrix_solver_w_t) (new_V t : Vec) (newton_raphson : Bool)
    (hc : s.m_cnt % 100 ≠ 0)
    (hnd : ∀ r, r < s.N → (s.m_terms r).m_nz.Nodup)
    (hlt : ∀ r, r < s.N → ∀ c, c ∈ (s.m_terms r).m_nz → c < s.N)
    (hdiff : ∀ r c, r < s.N → c < s.N → s.m_A r c ≠ s.inv.lA r c → c ∈ (s.m_terms r).m_nz)
    (hinv : IsInverse s.N s.inv.lA s.inv.Ainv)
    (hpiv : ∀ i, i < (matrix_solver_w_t.changed_rows s.N s.m_terms s.m_A s.inv.lA).length →
      matrix_solver_w_t.solve_fast_pivot s new_V i ≠ 0) :
    ∃ code s1, matrix_solver_w_t.solve_non_dynamic s new_V t newton_raphson = some (code, s1) ∧
      IsSolution s.N s.m_A s.m_RHS s1.cur_Analog := by
  obtain ⟨r, h1, h2, h3, h4, h5, h6, h7, h8⟩ :=
    matrix_solver_w_t.solve_fast_correct s new_V t hnd hlt hdiff hinv hpiv
  unfold matrix_solver_w_t.solve_non_dynamic
  rw [if_neg hc, h1, Option.map_some']
  refine ⟨(matrix_solver_w_t.solve_commit r.1 r.2 newton_raphson).1,
    (matrix_solver_w_t.solve_commit r.1 r.2 newton_raphson).2, rfl, ?_⟩
  obtain ⟨-, -, g3, -⟩ := matrix_solver_w_t.solve_commit_fields r.1 r.2 newton_raphson
  rw [g3, h3]
  intro j hj
  rw [← h2 j hj]
  exact Finset.sum_congr rfl (fun c hc => by
    rw [matrix_solver_w_t.store_apply, if_pos (Finset.mem_range.mp hc)])


/-! ## The call counter of the Woodbury solver -/

namespace matrix_solver_w_t

theorem solve_commit_m_cnt (s : matrix_solver_w_t) (v : Vec) (nr : Bool) :
    (solve_commit s v nr).2.m_cnt = (s.m_cnt + 1) % 2 ^ 32 := by
  unfold solve_commit
  cases nr <;> simp

theorem solve_refresh_m_cnt (s s1 : matrix_solver_w_t) (v x : Vec)
    (h : solve_refresh s v = some (s1, x)) : s1.m_cnt = s.m_cnt := by
  unfold solve_refresh at h
  cases hi : LE_invert s.N s.m_terms s.m_A s.inv with
  | none => simp [hi] at h
  | some inv =>
    simp only [hi, Option.map_some', Option.some.injEq, Prod.mk.injEq] at h
    rw [← h.1]

theorem solve_fast_m_cnt (s s1 : matrix_solver_w_t) (v t x : Vec)
    (h : solve_fast s v t = some (s1, x)) : s1.m_cnt = s.m_cnt := by
  unfold solve_fast at h
  simp only at h
  split at h
  · simp only [Option.bind_eq_some, Option.map_eq_some', Prod.mk.injEq] at h
    obtain ⟨r, -, t1, -, heq, -⟩ := h
    rw [← heq]
  · simp only [Option.some.injEq, Prod.mk.injEq] at h
    rw [← h.1]

theorem solve_non_dynamic_m_cnt (s s1 : matrix_solver_w_t) (v t : Vec) (nr : Bool) (code : Nat)
    (h : solve_non_dynamic s v t nr = some (code, s1)) : s1.m_cnt = (s.m_cnt + 1) % 2 ^ 32 := by
  unfold solve_non_dynamic at h
  by_cases hc : s.m_cnt % 100 = 0
  · rw [if_pos hc] at h
    cases hr : solve_refresh s v with
    | none => simp [hr] at h
    | some r =>
      obtain ⟨r1, r2⟩ := r
      simp only [hr, Option.map_some', Option.some.injEq] at h
      have := solve_commit_m_cnt r1 r2 nr
      rw [h] at this
      rw [this, solve_refresh_m_cnt s r1 v r2 hr]
  · rw [if_neg hc] at h
    cases hr : solve_fast s v t with
    | none => simp [hr] at h
    | some r =>
      obtain ⟨r1, r2⟩ := r
      simp only [hr, Option.map_some', Option.some.injEq] at h
      have := solve_commit_m_cnt r1 r2 nr
      rw [h] at this
      rw [this, solve_fast_m_cnt s r1 v t r2 hr]

theorem w_run_m_cnt (n : Nat) (s : matrix_solver_w_t) (h : w_run n s) :
    s.m_cnt = n % 2 ^ 32 := by
  induction h with
  | fresh s h => simp [h]
  | call n s v t nr code s1 s2 hr hc hk ih =>
    rw [hk, solve_non_dynamic_m_cnt s s1 v t nr code hc, ih]
    omega

end matrix_solver_w_t


namespace matrix_solver_w_t

/-- A call on the one-net solver succeeds and keeps the one-net system. -/
theorem one_net_call (s : matrix_solver_w_t) (hN : s.N = 1) (hA : s.m_A 0 0 = 1)
    (hT : s.m_terms = vsetup_nz 1 one_net_rows)
    (hl : s.m_cnt % 100 ≠ 0 → s.inv.lA 0 0 = 1) :
    ∃ code s1, solve_non_dynamic s (fun _ => 0) (fun _ => 0) true = some (code, s1) ∧
      s1.N = 1 ∧ s1.m_A 0 0 = 1 ∧ s1.m_terms = vsetup_nz 1 one_net_rows ∧ s1.inv.lA 0 0 = 1 := by
  have h0 : (vsetup_nz 1 one_net_rows 0).m_nzrd = [] := by decide
  have h1 : (vsetup_nz 1 one_net_rows 0).m_nzbd = [] := by decide
  have h2 : (vsetup_nz 1 one_net_rows 0).m_nz = [0] := by decide
  have key : ∃ r, (if s.m_cnt % 100 = 0 then solve_refresh s (fun _ => 0)
        else solve_fast s (fun _ => 0) (fun _ => 0)) = some r ∧
      r.1.N = 1 ∧ r.1.m_A 0 0 = 1 ∧ r.1.m_terms = vsetup_nz 1 one_net_rows ∧
      r.1.inv.lA 0 0 = 1 := by
    by_cases hc : s.m_cnt % 100 = 0
    · rw [if_pos hc]
      simp [solve_refresh, LE_invert, LE_invert_init, LE_invert_down_step,
        LE_invert_down_elim, LE_invert_up_step, LE_invert_up_elim, hN, hA, hT, h0, h1,
        List.range_succ]
    · rw [if_neg hc]
      simp [solve_fast, changed_rows, hN, hA, hT, h2, hl hc, List.range_succ]
  obtain ⟨r, hr, p1, p2, p3, p4⟩ := key
  refine ⟨(solve_commit r.1 r.2 true).1, (solve_commit r.1 r.2 true).2, ?_, ?_⟩
  · unfold solve_non_dynamic
    rw [hr]; rfl
  · simp [solve_commit, p1, p2, p3, p4]

theorem one_net_run (n : Nat) :
    ∃ s, w_run n s ∧ s.N = 1 ∧ s.m_A 0 0 = 1 ∧ s.m_terms = vsetup_nz 1 one_net_rows ∧
      (s.m_cnt % 100 ≠ 0 → s.inv.lA 0 0 = 1) := by
  induction n with
  | zero =>
    exact ⟨one_net_w, w_run.fresh _ rfl, rfl, rfl, rfl, fun h => absurd rfl h⟩
  | succ n ih =>
    obtain ⟨s, hr, hN, hA, hT, hl⟩ := ih
    obtain ⟨code, s1, hc, hN1, hA1, hT1, hl1⟩ := one_net_call s hN hA hT hl
    exact ⟨s1, w_run.call n s _ _ _ code s1 s1 hr hc rfl, hN1, hA1, hT1, fun _ => hl1⟩

end matrix_solver_w_t

/-! ## Claims -/

/-- C1: in the two-net scenario `build_LE_A` and `build_LE_RHS` produce
`A = [[3,-2],[-2,3]]` and `RHS = [1,0]` whatever the arrays held before, and
`LE_solve` followed by `LE_back_subst` (pivot search disabled) succeeds and returns
`x[0] = 3/5`, `x[1] = 2/5`, whatever the local `new_v` held before. -/
theorem direct_two_net_scenario (junkA : Mat) (junkV new_v : Vec) :
    (matrix_solver_direct_t.build_LE_A 2 scenario_rows junkA 0 0 = 3 ∧
      matrix_solver_direct_t.build_LE_A 2 scenario_rows junkA 0 1 = -2 ∧
      matrix_solver_direct_t.build_LE_A 2 scenario_rows junkA 1 0 = -2 ∧
      matrix_solver_direct_t.build_LE_A 2 scenario_rows junkA 1 1 = 3) ∧
    (matrix_solver_direct_t.build_LE_RHS 2 scenario_rows junkV 0 = 1 ∧
      matrix_solver_direct_t.build_LE_RHS 2 scenario_rows junkV 1 = 0) ∧
    ((matrix_solver_direct_t.LE_solve false 2
          (matrix_solver_direct_t.vsetup_nz 2 scenario_rows)
          (matrix_solver_direct_t.build_LE_A 2 scenario_rows junkA,
            matrix_solver_direct_t.build_LE_RHS 2 scenario_rows junkV)).bind
        (fun s => matrix_solver_direct_t.LE_back_subst 2
          (matrix_solver_direct_t.vsetup_nz 2 scenario_rows) s new_v)).map
      (fun x => (x 0, x 1)) = some (3 / 5, 2 / 5) := by
  have h0 : (matrix_solver_direct_t.vsetup_nz 2 scenario_rows 0).m_nzrd = [1] := by decide
  have h1 : (matrix_solver_direct_t.vsetup_nz 2 scenario_rows 1).m_nzrd = [] := by decide
  refine ⟨?_, ?_, ?_⟩
  · simp [matrix_solver_direct_t.build_LE_A, matrix_solver_direct_t.build_LE_A_row,
      List.range_succ, scenario_rows, scenario_row0, scenario_row1]
    norm_num
  · simp [matrix_solver_direct_t.build_LE_RHS, List.range_succ, scenario_rows, scenario_row0,
      scenario_row1, List.range']
  · simp [matrix_solver_direct_t.LE_solve, matrix_solver_direct_t.LE_solve_step,
      matrix_solver_direct_t.LE_solve_pre, matrix_solver_direct_t.LE_solve_elim,
      matrix_solver_direct_t.LE_solve_row, matrix_solver_direct_t.LE_back_subst,
      matrix_solver_direct_t.LE_back_subst_row, h0, h1, matrix_solver_direct_t.build_LE_A,
      matrix_solver_direct_t.build_LE_A_row, matrix_solver_direct_t.build_LE_RHS,
      List.range_succ, scenario_rows, scenario_row0, scenario_row1, List.range']
    norm_num

/-- C2: on the first call (`m_cnt = 0`, full refresh) in the two-net scenario the
Woodbury `solve_non_dynamic` succeeds, leaves `Ainv = (1/5) [[3,2],[2,3]]`, commits
`v0 = 3/5`, `v1 = 2/5` to the net voltages and sets `m_cnt = 1`, whatever the work
matrices, the locals and the net voltages held before; the index lists computed by
`vsetup` are `nz[0] = nz[1] = [0,1]`, `nzrd[0] = [1]`, `nzbd[0] = [1]`. -/
theorem woodbury_two_net_scenario (inv : invert_state) (H : Mat) (v new_V t : Vec)
    (newton_raphson : Bool) :
    ((matrix_solver_w_t.vsetup_nz 2 scenario_rows 0).m_nz = [0, 1] ∧
      (matrix_solver_w_t.vsetup_nz 2 scenario_rows 1).m_nz = [0, 1] ∧
      (matrix_solver_w_t.vsetup_nz 2 scenario_rows 0).m_nzrd = [1] ∧
      (matrix_solver_w_t.vsetup_nz 2 scenario_rows 0).m_nzbd = [1]) ∧
    (matrix_solver_w_t.solve_non_dynamic (scenario_w inv H v) new_V t newton_raphson).map
      (fun r => ((r.2.inv.Ainv 0 0, r.2.inv.Ainv 0 1, r.2.inv.Ainv 1 0, r.2.inv.Ainv 1 1),
        (r.2.cur_Analog 0, r.2.cur_Analog 1), r.2.m_cnt))
      = some ((3 / 5, 2 / 5, 2 / 5, 3 / 5), (3 / 5, 2 / 5), 1) := by
  have h0 : (matrix_solver_w_t.vsetup_nz 2 scenario_rows 0).m_nzrd = [1] := by decide
  have h1 : (matrix_solver_w_t.vsetup_nz 2 scenario_rows 1).m_nzrd = [] := by decide
  have h2 : (matrix_solver_w_t.vsetup_nz 2 scenario_rows 0).m_nzbd = [1] := by decide
  have h3 : (matrix_solver_w_t.vsetup_nz 2 scenario_rows 1).m_nzbd = [] := by decide
  refine ⟨⟨by decide, by decide, h0, h2⟩, ?_⟩
  simp [matrix_solver_w_t.solve_non_dynamic, matrix_solver_w_t.solve_commit,
    matrix_solver_w_t.solve_refresh, scenario_w,
    matrix_solver_w_t.LE_invert, matrix_solver_w_t.LE_invert_init,
    matrix_solver_w_t.LE_invert_down_step, matrix_solver_w_t.LE_invert_down_elim,
    matrix_solver_w_t.LE_invert_down_row, matrix_solver_w_t.LE_invert_up_step,
    matrix_solver_w_t.LE_invert_up_elim, matrix_solver_w_t.LE_invert_up_row,
    matrix_solver_w_t.LE_compute_x, matrix_solver_w_t.store, matrix_solver_direct_t.store,
    h0, h1, h2, h3, List.range_succ, List.range']
  norm_num
  cases newton_raphson <;> simp [List.range_succ]

/-- C9: after `build_LE_A`, for a well-formed row `k` none of whose matrix-coupled
terms points to column `k`, the diagonal is the sum of `gt` over all terminals of
the row, every entry `A[k][c]` with `c ≠ k` is minus the sum of `go` over the
matrix-coupled terms with `net_other = c` (so it is `0` when there is none), and
the previous contents of the matrix have no influence. -/
theorem build_LE_A_entries (iN : Nat) (m_terms : Nat → terms_t) (m_A : Mat) (k : Nat)
    (hk : k < iN) (hwf : (m_terms k).wf iN)
    (hself : ∀ i, i < (m_terms k).m_railstart → (m_terms k).net_other i ≠ (k : Int)) :
    matrix_solver_direct_t.build_LE_A iN m_terms m_A k k
        = ∑ i in Finset.range (m_terms k).count, (m_terms k).gt i ∧
    (∀ c, c < iN → c ≠ k →
      matrix_solver_direct_t.build_LE_A iN m_terms m_A k c
        = - ∑ i in (Finset.range (m_terms k).m_railstart).filter
            (fun i => (m_terms k).net_other i = (c : Int)), (m_terms k).go i) ∧
    (∀ c, c < iN → c ≠ k →
      (∀ i, i < (m_terms k).m_railstart → (m_terms k).net_other i ≠ (c : Int)) →
      matrix_solver_direct_t.build_LE_A iN m_terms m_A k c = 0) ∧
    (∀ (m_A2 : Mat) (c : Nat), c < iN →
      matrix_solver_direct_t.build_LE_A iN m_terms m_A k c
        = matrix_solver_direct_t.build_LE_A iN m_terms m_A2 k c) := by
  have hfil : ∀ c : Nat,
      (Finset.range (m_terms k).m_railstart).filter
          (fun i => ((m_terms k).net_other i).toNat = c)
        = (Finset.range (m_terms k).m_railstart).filter
          (fun i => (m_terms k).net_other i = (c : Int)) := by
    intro c
    apply Finset.filter_congr
    intro i hi
    have h0 := (hwf.2 i (Finset.mem_range.mp hi)).1
    constructor
    · intro h; rw [← h]; exact (Int.toNat_of_nonneg h0).symm
    · intro h; rw [h]; exact Int.toNat_natCast c
  have hempty : ∀ c : Nat,
      (∀ i, i < (m_terms k).m_railstart → (m_terms k).net_other i ≠ (c : Int)) →
      (Finset.range (m_terms k).m_railstart).filter
          (fun i => (m_terms k).net_other i = (c : Int)) = ∅ := by
    intro c hc
    apply Finset.filter_eq_empty_iff.mpr
    intro i hi
    exact hc i (Finset.mem_range.mp hi)
  refine ⟨?_, ?_, ?_, ?_⟩
  · rw [matrix_solver_direct_t.build_LE_A_apply iN m_terms m_A k k hk hk, hfil, hempty k hself]
    simp
  · intro c hc hck
    rw [matrix_solver_direct_t.build_LE_A_apply iN m_terms m_A k c hk hc, hfil]
    simp [hck]
  · intro c hc hck hno
    rw [matrix_solver_direct_t.build_LE_A_apply iN m_terms m_A k c hk hc, hfil, hempty c hno]
    simp [hck]
  · intro m_A2 c hc
    rw [matrix_solver_direct_t.build_LE_A_apply iN m_terms m_A k c hk hc,
      matrix_solver_direct_t.build_LE_A_apply iN m_terms m_A2 k c hk hc]

/-- C10: after `build_LE_RHS`, for every row `k < N`, `rhs[k]` is the sum of `Idr`
over all terminals of the row plus the sum over the rail terms only
(`railstart ≤ i < count`) of `go[i]` times the voltage of the term's other net. -/
theorem build_LE_RHS_entries (iN : Nat) (m_terms : Nat → terms_t) (rhs : Vec) (k : Nat)
    (hk : k < iN) :
    matrix_solver_direct_t.build_LE_RHS iN m_terms rhs k
      = ∑ i in Finset.range (m_terms k).count, (m_terms k).Idr i
        + ∑ i in Finset.Ico (m_terms k).m_railstart (m_terms k).count,
            (m_terms k).go i * (m_terms k).other_curanalog i := by
  rw [matrix_solver_direct_t.build_LE_RHS_apply, if_pos hk]

/-- C3 (amended): direct solver, pivot search disabled.  For well-formed rows, every
matrix `A` whose nonzeros lie in the `nz` lists computed by `vsetup` and every
`RHS`, if every pivot that `LE_solve` reads is nonzero, then `LE_solve` followed by
`LE_back_subst` succeeds, `A` is non-singular and the returned `x` is the unique
solution of `A x = RHS`. -/
theorem direct_solver_unique_solution (N : Nat) (rows : Nat → terms_t)
    (hwf : ∀ k, k < N → (rows k).wf N) (A : Mat) (RHS new_v : Vec)
    (hA : ∀ r c, r < N → c < N → A r c ≠ 0 →
      c ∈ (matrix_solver_direct_t.vsetup_nz N rows r).m_nz)
    (hpiv : ∀ i, i < N →
      matrix_solver_direct_t.LE_pivot false N (matrix_solver_direct_t.vsetup_nz N rows)
        (A, RHS) i ≠ 0) :
    ∃ s x,
      matrix_solver_direct_t.LE_solve false N (matrix_solver_direct_t.vsetup_nz N rows)
        (A, RHS) = some s ∧
      matrix_solver_direct_t.LE_back_subst N (matrix_solver_direct_t.vsetup_nz N rows) s new_v
        = some x ∧
      IsSolution N A RHS x ∧ NonSingular N A ∧
      ∀ y, IsSolution N A RHS y → ∀ j, j < N → y j = x j := by
  obtain ⟨s, x, h1, h2, h3, h4⟩ := matrix_solver_direct_t.LE_solve_back_subst_correct N
    (matrix_solver_direct_t.vsetup_nz N rows)
    (matrix_solver_direct_t.vsetup_nz_ok N rows hwf) A RHS new_v
    (fun r c hr hrc hc hne =>
      matrix_solver_direct_t.vsetup_nz_covers N rows r c hr hrc (hA r c hr hc hne)) hpiv
  refine ⟨s, x, h1, h2, h3, ?_, h4⟩
  intro z hz c hc
  have hy : IsSolution N A RHS (fun k => x k + z k) := by
    intro j hj
    have e1 := h3 j hj
    have e2 := hz j hj
    simp only [mul_add, Finset.sum_add_distrib, e1, e2, add_zero]
  have := h4 _ hy c hc
  simp only at this
  linarith

/-- Witness of `direct_solver_unique_solution`: the two-net scenario. -/
theorem direct_solver_unique_solution_witness :
    ∃ s x,
      matrix_solver_direct_t.LE_solve false 2 (matrix_solver_direct_t.vsetup_nz 2 scenario_rows)
        (fun r c => if r = c then 3 else -2, fun i => if i = 0 then 1 else 0) = some s ∧
      matrix_solver_direct_t.LE_back_subst 2 (matrix_solver_direct_t.vsetup_nz 2 scenario_rows)
        s (fun _ => 0) = some x ∧
      IsSolution 2 (fun r c => if r = c then 3 else -2) (fun i => if i = 0 then 1 else 0) x ∧
      NonSingular 2 (fun r c => if r = c then 3 else -2) ∧
      ∀ y, IsSolution 2 (fun r c => if r = c then 3 else -2) (fun i => if i = 0 then 1 else 0) y →
        ∀ j, j < 2 → y j = x j :=
  direct_solver_unique_solution 2 scenario_rows scenario_rows_wf
    (fun r c => if r = c then 3 else -2) (fun i => if i = 0 then 1 else 0) (fun _ => 0)
    (by
      intro r c hr hc _
      have h0 : (matrix_solver_direct_t.vsetup_nz 2 scenario_rows 0).m_nz = [0, 1] := by decide
      have h1 : (matrix_solver_direct_t.vsetup_nz 2 scenario_rows 1).m_nz = [0, 1] := by decide
      have hr2 : r = 0 ∨ r = 1 := by omega
      have hc2 : c = 0 ∨ c = 1 := by omega
      rcases hr2 with h | h <;> rcases hc2 with h' | h' <;> subst h <;> subst h' <;>
        simp [h0, h1])
    (by
      intro i hi
      have h0 : (matrix_solver_direct_t.vsetup_nz 2 scenario_rows 0).m_nzrd = [1] := by decide
      have hi2 : i = 0 ∨ i = 1 := by omega
      rcases hi2 with h | h <;> subst h
      · simp [matrix_solver_direct_t.LE_pivot, matrix_solver_direct_t.LE_solve_pre,
          matrix_solver_direct_t.LE_solve_upto]
      · simp [matrix_solver_direct_t.LE_pivot, matrix_solver_direct_t.LE_solve_pre,
          matrix_solver_direct_t.LE_solve_upto, matrix_solver_direct_t.LE_solve_elim,
          matrix_solver_direct_t.LE_solve_row, h0, List.range_succ, List.range']
        norm_num)

/-- C3 (counterexample): for the well-formed rows `zero_pivot_rows` the assembled
matrix `[[0,-1],[-1,0]]` has its nonzeros inside the `nz` lists and is
non-singular, the system has the solution `(0, -1)`, yet `LE_solve` without pivot
search divides by the zero pivot `m_A[0][0]` and produces no finite result. -/
theorem direct_solver_zero_pivot :
    (∀ k, k < 2 → (zero_pivot_rows k).wf 2) ∧
    (∀ r c, r < 2 → c < 2 →
      matrix_solver_direct_t.build_LE_A 2 zero_pivot_rows (fun _ _ => 0) r c ≠ 0 →
      c ∈ (matrix_solver_direct_t.vsetup_nz 2 zero_pivot_rows r).m_nz) ∧
    NonSingular 2 (matrix_solver_direct_t.build_LE_A 2 zero_pivot_rows (fun _ _ => 0)) ∧
    IsSolution 2 (matrix_solver_direct_t.build_LE_A 2 zero_pivot_rows (fun _ _ => 0))
      (matrix_solver_direct_t.build_LE_RHS 2 zero_pivot_rows (fun _ => 0))
      (fun i => if i = 0 then 0 else -1) ∧
    matrix_solver_direct_t.LE_solve false 2
      (matrix_solver_direct_t.vsetup_nz 2 zero_pivot_rows)
      (matrix_solver_direct_t.build_LE_A 2 zero_pivot_rows (fun _ _ => 0),
        matrix_solver_direct_t.build_LE_RHS 2 zero_pivot_rows (fun _ => 0)) = none := by
  have hA : ∀ r c, r < 2 → c < 2 →
      matrix_solver_direct_t.build_LE_A 2 zero_pivot_rows (fun _ _ => 0) r c
        = if r = c then 0 else -1 := by
    intro r c hr hc
    have hr2 : r = 0 ∨ r = 1 := by omega
    have hc2 : c = 0 ∨ c = 1 := by omega
    rcases hr2 with h | h <;> rcases hc2 with h' | h' <;> subst h <;> subst h' <;>
      simp [matrix_solver_direct_t.build_LE_A, matrix_solver_direct_t.build_LE_A_row,
        List.range_succ, zero_pivot_rows]
  have hb : ∀ r, r < 2 →
      matrix_solver_direct_t.build_LE_RHS 2 zero_pivot_rows (fun _ => 0) r
        = if r = 0 then 1 else 0 := by
    intro r hr
    have hr2 : r = 0 ∨ r = 1 := by omega
    rcases hr2 with h | h <;> subst h <;>
      simp [matrix_solver_direct_t.build_LE_RHS, List.range_succ, zero_pivot_rows, List.range']
  have h0 : (matrix_solver_direct_t.vsetup_nz 2 zero_pivot_rows 0).m_nz = [0, 1] := by decide
  have h1 : (matrix_solver_direct_t.vsetup_nz 2 zero_pivot_rows 1).m_nz = [0, 1] := by decide
  refine ⟨?_, ?_, ?_, ?_, ?_⟩
  · intro k hk
    refine ⟨by simp [zero_pivot_rows], ?_⟩
    intro i _
    by_cases h : k = 0 <;> simp [zero_pivot_rows, h]
  · intro r c hr hc _
    have hr2 : r = 0 ∨ r = 1 := by omega
    have hc2 : c = 0 ∨ c = 1 := by omega
    rcases hr2 with h | h <;> rcases hc2 with h' | h' <;> subst h <;> subst h' <;>
      simp [h0, h1]
  · intro z hz c hc
    have e0 := hz 0 (by omega)
    have e1 := hz 1 (by omega)
    simp only [Finset.sum_range_succ, Finset.sum_range_zero, hA 0 0 (by omega) (by omega),
      hA 0 1 (by omega) (by omega), hA 1 0 (by omega) (by omega), hA 1 1 (by omega) (by omega)]
      at e0 e1
    have hc2 : c = 0 ∨ c = 1 := by omega
    rcases hc2 with h | h <;> subst h <;> simp at e0 e1 <;> linarith
  · intro j hj
    have hj2 : j = 0 ∨ j = 1 := by omega
    rcases hj2 with h | h <;> subst h <;>
      simp [Finset.sum_range_succ, hA, hb]
  · simp [matrix_solver_direct_t.LE_solve, matrix_solver_direct_t.LE_solve_step,
      matrix_solver_direct_t.LE_solve_pre, List.range_succ, hA]


/-- Witness of `build_LE_A_entries`: row 0 of the two-net scenario. -/
theorem build_LE_A_entries_witness :
    matrix_solver_direct_t.build_LE_A 2 scenario_rows (fun _ _ => 7) 0 0
      = ∑ i in Finset.range (scenario_rows 0).count, (scenario_rows 0).gt i :=
  (build_LE_A_entries 2 scenario_rows (fun _ _ => 7) 0 (by decide)
    (scenario_rows_wf 0 (by decide))
    (by
      intro i hi
      have hi0 : i = 0 := by simpa [scenario_rows, scenario_row0] using hi
      simp [scenario_rows, scenario_row0, hi0])).1

/-- Witness of `build_LE_RHS_entries`: row 0 of the two-net scenario. -/
theorem build_LE_RHS_entries_witness :
    matrix_solver_direct_t.build_LE_RHS 2 scenario_rows (fun _ => 7) 0
      = ∑ i in Finset.range (scenario_rows 0).count, (scenario_rows 0).Idr i
        + ∑ i in Finset.Ico (scenario_rows 0).m_railstart (scenario_rows 0).count,
            (scenario_rows 0).go i * (scenario_rows 0).other_curanalog i :=
  build_LE_RHS_entries 2 scenario_rows (fun _ => 7) 0 (by decide)

/-- C8 (amended): refresh schedule.  At the entry of call number `n` counted from a
freshly constructed Woodbury solver, `m_cnt` is `n mod 2^32` (the counter is an
`unsigned`); the call takes the full-refresh path (`LE_invert`, `LE_compute_x`) when
`(n mod 2^32) mod 100 = 0` and the fast path otherwise; for `n < 2^32` this is the
test `n mod 100 = 0`; the first call always refreshes; and every call that returns
leaves `m_cnt` incremented by one modulo `2^32`. -/
theorem refresh_schedule (n : Nat) (s : matrix_solver_w_t) (h : matrix_solver_w_t.w_run n s) :
    s.m_cnt = n % 2 ^ 32 ∧
    (n % 2 ^ 32 % 100 = 0 → ∀ new_V t nr,
      matrix_solver_w_t.solve_non_dynamic s new_V t nr
        = (matrix_solver_w_t.solve_refresh s new_V).map
            (fun r => matrix_solver_w_t.solve_commit r.1 r.2 nr)) ∧
    (n % 2 ^ 32 % 100 ≠ 0 → ∀ new_V t nr,
      matrix_solver_w_t.solve_non_dynamic s new_V t nr
        = (matrix_solver_w_t.solve_fast s new_V t).map
            (fun r => matrix_solver_w_t.solve_commit r.1 r.2 nr)) ∧
    (n < 2 ^ 32 → (s.m_cnt % 100 = 0 ↔ n % 100 = 0)) ∧
    (n = 0 → s.m_cnt % 100 = 0) ∧
    (∀ new_V t nr code s1,
      matrix_solver_w_t.solve_non_dynamic s new_V t nr = some (code, s1) →
      s1.m_cnt = (s.m_cnt + 1) % 2 ^ 32) := by
  have hc := matrix_solver_w_t.w_run_m_cnt n s h
  refine ⟨hc, ?_, ?_, ?_, ?_, ?_⟩
  · intro h0 v t nr
    unfold matrix_solver_w_t.solve_non_dynamic
    rw [hc, if_pos h0]
  · intro h0 v t nr
    unfold matrix_solver_w_t.solve_non_dynamic
    rw [hc, if_neg h0]
  · intro hlt
    rw [hc, Nat.mod_eq_of_lt hlt]
  · intro h0
    rw [hc, h0]; rfl
  · intro v t nr code s1 h1
    exact matrix_solver_w_t.solve_non_dynamic_m_cnt s s1 v t nr code h1


/-- C8 (counterexample): the run of `2^32` consecutive calls on the one-net solver
reaches a solver with `m_cnt = 0`, so call number `2^32` takes the full-refresh path
although `2^32 mod 100 = 96`. -/
theorem refresh_schedule_wraps :
    ∃ s, matrix_solver_w_t.w_run (2 ^ 32) s ∧ s.m_cnt = 0 ∧
      (∀ new_V t nr, matrix_solver_w_t.solve_non_dynamic s new_V t nr
        = (matrix_solver_w_t.solve_refresh s new_V).map
            (fun r => matrix_solver_w_t.solve_commit r.1 r.2 nr)) ∧
      ¬ ((2 ^ 32) % 100 = 0) := by
  obtain ⟨s, hr, -⟩ := matrix_solver_w_t.one_net_run (2 ^ 32)
  have hc := matrix_solver_w_t.w_run_m_cnt _ s hr
  have hc0 : s.m_cnt = 0 := by rw [hc]; norm_num
  refine ⟨s, hr, hc0, ?_, by norm_num⟩
  intro v t nr
  unfold matrix_solver_w_t.solve_non_dynamic
  rw [hc0]; rfl

/-- Witness of `refresh_schedule`: the freshly constructed one-net solver at its
first call. -/
theorem refresh_schedule_witness : one_net_w.m_cnt = 0 % 2 ^ 32 :=
  (refresh_schedule 0 one_net_w (matrix_solver_w_t.w_run.fresh one_net_w rfl)).1

/-- C6: full refresh.  For well-formed rows, index lists computed by `vsetup`, a
matrix `A` whose nonzeros lie inside the `nz` lists, and nonzero pivots `W(i,i)` in
the downward and the upward pass, the full-refresh branch succeeds and leaves an
exact inverse (`Ainv A = I` and `A Ainv = I`), the snapshot `lA` equal to `A` on the
`N × N` block, and `A` unchanged. -/
theorem full_refresh_exact_inverse (rows : Nat → terms_t) (st : matrix_solver_w_t) (new_V : Vec)
    (hwf : ∀ k, k < st.N → (rows k).wf st.N)
    (hT : st.m_terms = matrix_solver_w_t.vsetup_nz st.N rows)
    (hA : ∀ r c, r < st.N → c < st.N → st.m_A r c ≠ 0 → c ∈ (st.m_terms r).m_nz)
    (hdown : ∀ i, i < st.N →
      matrix_solver_w_t.LE_invert_pivot_down st.N st.m_terms st.m_A st.inv i ≠ 0)
    (hup : ∀ i, i < st.N →
      matrix_solver_w_t.LE_invert_pivot_up st.N st.m_terms st.m_A st.inv i ≠ 0) :
    ∃ st1 x, matrix_solver_w_t.solve_refresh st new_V = some (st1, x) ∧
      IsInverse st.N st1.inv.Ainv st.m_A ∧ IsInverse st.N st.m_A st1.inv.Ainv ∧
      (∀ r c, r < st.N → c < st.N → st1.inv.lA r c = st.m_A r c) ∧
      st1.m_A = st.m_A := by
  rw [hT] at hA hdown hup
  obtain ⟨s1, h1, h2, h3, h4⟩ := matrix_solver_w_t.LE_invert_correct st.N rows hwf st.m_A st.inv
    hA hdown hup
  refine ⟨{ st with inv := s1 }, matrix_solver_w_t.LE_compute_x st.N s1.Ainv st.m_RHS new_V,
    ?_, h2, h3, h4, rfl⟩
  unfold matrix_solver_w_t.solve_refresh
  rw [hT, h1]
  rfl

/-- Witness of `full_refresh_exact_inverse`: the two-net scenario with arbitrary old
contents of the work matrices. -/
theorem full_refresh_exact_inverse_witness :
    ∃ st1 x, matrix_solver_w_t.solve_refresh
        (scenario_w ⟨fun _ _ => 7, fun _ _ => 8, fun _ _ => 9⟩ (fun _ _ => 0) (fun _ => 0))
        (fun _ => 0) = some (st1, x) ∧
      IsInverse 2 st1.inv.Ainv (fun r c => if r = c then 3 else -2) ∧
      IsInverse 2 (fun r c => if r = c then 3 else -2) st1.inv.Ainv ∧
      (∀ r c, r < 2 → c < 2 → st1.inv.lA r c = (fun r c => if r = c then 3 else -2) r c) ∧
      st1.m_A = fun r c => if r = c then 3 else -2 :=
  full_refresh_exact_inverse scenario_rows
    (scenario_w ⟨fun _ _ => 7, fun _ _ => 8, fun _ _ => 9⟩ (fun _ _ => 0) (fun _ => 0))
    (fun _ => 0) scenario_rows_wf rfl
    (by
      intro r c hr hc _
      have h0 : (matrix_solver_w_t.vsetup_nz 2 scenario_rows 0).m_nz = [0, 1] := by decide
      have h1 : (matrix_solver_w_t.vsetup_nz 2 scenario_rows 1).m_nz = [0, 1] := by decide
      have hr1 : r < 2 := hr
      have hc1 : c < 2 := hc
      have hr2 : r = 0 ∨ r = 1 := by omega
      have hc2 : c = 0 ∨ c = 1 := by omega
      rcases hr2 with h | h <;> rcases hc2 with h' | h' <;> subst h <;> subst h' <;>
        simp [scenario_w, h0, h1])
    (by
      intro i hi
      have h0 : (matrix_solver_w_t.vsetup_nz 2 scenario_rows 0).m_nzrd = [1] := by decide
      have h2 : (matrix_solver_w_t.vsetup_nz 2 scenario_rows 0).m_nzbd = [1] := by decide
      have hi1 : i < 2 := hi
      have hi2 : i = 0 ∨ i = 1 := by omega
      rcases hi2 with h | h <;> subst h
      · simp [matrix_solver_w_t.LE_invert_pivot_down, matrix_solver_w_t.LE_invert_down_upto,
          matrix_solver_w_t.LE_invert_init, scenario_w, List.range_succ]
      · simp [matrix_solver_w_t.LE_invert_pivot_down, matrix_solver_w_t.LE_invert_down_upto,
          matrix_solver_w_t.LE_invert_init, matrix_solver_w_t.LE_invert_down_elim,
          matrix_solver_w_t.LE_invert_down_row, scenario_w, h0, h2, List.range_succ]
        norm_num)
    (by
      intro i hi
      have h0 : (matrix_solver_w_t.vsetup_nz 2 scenario_rows 0).m_nzrd = [1] := by decide
      have h1 : (matrix_solver_w_t.vsetup_nz 2 scenario_rows 1).m_nzrd = [] := by decide
      have h2 : (matrix_solver_w_t.vsetup_nz 2 scenario_rows 0).m_nzbd = [1] := by decide
      have h3 : (matrix_solver_w_t.vsetup_nz 2 scenario_rows 1).m_nzbd = [] := by decide
      have hi1 : i < 2 := hi
      have hi2 : i = 0 ∨ i = 1 := by omega
      rcases hi2 with h | h <;> subst h
      · simp [matrix_solver_w_t.LE_invert_pivot_up, matrix_solver_w_t.LE_invert_up_upto,
          matrix_solver_w_t.LE_invert_up_elim, matrix_solver_w_t.LE_invert_up_row,
          matrix_solver_w_t.LE_invert_down_upto,
          matrix_solver_w_t.LE_invert_init, matrix_solver_w_t.LE_invert_down_elim,
          matrix_solver_w_t.LE_invert_down_row, scenario_w, h0, h1, h2, h3, List.range_succ,
          List.range']
        norm_num
      · simp [matrix_solver_w_t.LE_invert_pivot_up, matrix_solver_w_t.LE_invert_up_upto,
          matrix_solver_w_t.LE_invert_down_upto,
          matrix_solver_w_t.LE_invert_init, matrix_solver_w_t.LE_invert_down_elim,
          matrix_solver_w_t.LE_invert_down_row, scenario_w, h0, h1, h2, h3, List.range_succ]
        norm_num)

/-- C7: no drift across a refresh.  Two Woodbury solvers that are due for a full
refresh and agree on `N`, `A`, `RHS` and the index lists (computed by `vsetup` from
well-formed rows), but hold arbitrary `Ainv`, `lA`, `W`, `H`, voltages and locals,
either both hit a zero pivot or both return with the same `Ainv`, `lA` (on the
`N × N` block) and the same committed `new_V`; and when the nonzeros of `A` lie
inside the `nz` lists and all pivots are nonzero, the call returns and the committed
`new_V` solves `A new_V = RHS`. -/
theorem refresh_no_drift (rows : Nat → terms_t) (s1 s2 : matrix_solver_w_t)
    (v1 v2 t1 t2 : Vec) (nr1 nr2 : Bool)
    (hwf : ∀ k, k < s1.N → (rows k).wf s1.N)
    (hT : s1.m_terms = matrix_solver_w_t.vsetup_nz s1.N rows)
    (hN : s2.N = s1.N) (hA : s2.m_A = s1.m_A) (hR : s2.m_RHS = s1.m_RHS)
    (hT2 : s2.m_terms = s1.m_terms)
    (hc1 : s1.m_cnt % 100 = 0) (hc2 : s2.m_cnt % 100 = 0) :
    OptRel
      (fun r1 r2 : Nat × matrix_solver_w_t =>
        BlockEq s1.N r1.2.inv.Ainv r2.2.inv.Ainv ∧ BlockEq s1.N r1.2.inv.lA r2.2.inv.lA ∧
        ∀ i, i < s1.N → r1.2.cur_Analog i = r2.2.cur_Analog i)
      (matrix_solver_w_t.solve_non_dynamic s1 v1 t1 nr1)
      (matrix_solver_w_t.solve_non_dynamic s2 v2 t2 nr2) ∧
    ((∀ r c, r < s1.N → c < s1.N → s1.m_A r c ≠ 0 → c ∈ (s1.m_terms r).m_nz) →
      (∀ i, i < s1.N →
        matrix_solver_w_t.LE_invert_pivot_down s1.N s1.m_terms s1.m_A s1.inv i ≠ 0) →
      (∀ i, i < s1.N →
        matrix_solver_w_t.LE_invert_pivot_up s1.N s1.m_terms s1.m_A s1.inv i ≠ 0) →
      ∃ r, matrix_solver_w_t.solve_non_dynamic s1 v1 t1 nr1 = some r ∧
        IsSolution s1.N s1.m_A s1.m_RHS r.2.cur_Analog) := by
  constructor
  · unfold matrix_solver_w_t.solve_non_dynamic
    rw [if_pos hc1, if_pos hc2]
    unfold matrix_solver_w_t.solve_refresh
    rw [hN, hA, hR, hT2, hT]
    rcases matrix_solver_w_t.LE_invert_rel s1.N (matrix_solver_w_t.vsetup_nz s1.N rows)
      (matrix_solver_w_t.w_vsetup_nz_ok s1.N rows hwf)
      (matrix_solver_w_t.w_vsetup_nzbd_ok s1.N rows) s1.m_A s1.inv s2.inv
      with ⟨h1, h2⟩ | ⟨u, v, h1, h2, h3⟩
    · rw [h1, h2]; exact Or.inl ⟨rfl, rfl⟩
    · rw [h1, h2]
      refine Or.inr ⟨_, _, rfl, rfl, ?_⟩
      obtain ⟨-, hl, ha⟩ := h3
      refine ⟨?_, ?_, ?_⟩
      · intro i j hi hj
        rw [(matrix_solver_w_t.solve_commit_fields _ _ _).1,
          (matrix_solver_w_t.solve_commit_fields _ _ _).1]
        exact ha i j hi hj
      · intro i j hi hj
        rw [(matrix_solver_w_t.solve_commit_fields _ _ _).1,
          (matrix_solver_w_t.solve_commit_fields _ _ _).1]
        exact hl i j hi hj
      · intro i hi
        rw [(matrix_solver_w_t.solve_commit_fields _ _ _).2.2.1,
          (matrix_solver_w_t.solve_commit_fields _ _ _).2.2.1]
        simp only [matrix_solver_w_t.store_apply, hN, hi, if_true,
          matrix_solver_w_t.LE_compute_x_apply]
        apply Finset.sum_congr rfl
        intro k hk
        rw [ha i k hi (Finset.mem_range.mp hk)]
  · intro hpat hdown hup
    obtain ⟨st1, x, h1, -, h3, -, -⟩ :=
      full_refresh_exact_inverse rows s1 v1 hwf hT hpat hdown hup
    refine ⟨matrix_solver_w_t.solve_commit st1 x nr1, ?_, ?_⟩
    · unfold matrix_solver_w_t.solve_non_dynamic
      rw [if_pos hc1, h1]
      rfl
    · have hx : x = matrix_solver_w_t.LE_compute_x s1.N st1.inv.Ainv s1.m_RHS v1 ∧ st1.N = s1.N := by
        unfold matrix_solver_w_t.solve_refresh at h1
        cases hi : matrix_solver_w_t.LE_invert s1.N s1.m_terms s1.m_A s1.inv with
        | none => simp [hi] at h1
        | some inv =>
          simp only [hi, Option.map_some', Option.some.injEq, Prod.mk.injEq] at h1
          rw [← h1.1, ← h1.2]
          exact ⟨rfl, rfl⟩
      have hsol := matrix_solver_w_t.LE_compute_x_solves s1.N s1.m_A st1.inv.Ainv s1.m_RHS v1 h3
      rw [← hx.1] at hsol
      intro j hj
      rw [← hsol j hj]
      apply Finset.sum_congr rfl
      intro c hc
      rw [(matrix_solver_w_t.solve_commit_fields _ _ _).2.2.1, matrix_solver_w_t.store_apply,
        hx.2, if_pos (Finset.mem_range.mp hc)]


/-- Witness of `refresh_no_drift`: the two-net scenario started from two different
contents of the work matrices. -/
theorem refresh_no_drift_witness :
    OptRel
      (fun r1 r2 : Nat × matrix_solver_w_t =>
        BlockEq 2 r1.2.inv.Ainv r2.2.inv.Ainv ∧ BlockEq 2 r1.2.inv.lA r2.2.inv.lA ∧
        ∀ i, i < 2 → r1.2.cur_Analog i = r2.2.cur_Analog i)
      (matrix_solver_w_t.solve_non_dynamic
        (scenario_w ⟨fun _ _ => 7, fun _ _ => 8, fun _ _ => 9⟩ (fun _ _ => 0) (fun _ => 0))
        (fun _ => 0) (fun _ => 0) true)
      (matrix_solver_w_t.solve_non_dynamic
        (scenario_w ⟨fun _ _ => 1, fun _ _ => 2, fun _ _ => 3⟩ (fun _ _ => 4) (fun _ => 5))
        (fun _ => 6) (fun _ => 7) false) :=
  (refresh_no_drift scenario_rows
    (scenario_w ⟨fun _ _ => 7, fun _ _ => 8, fun _ _ => 9⟩ (fun _ _ => 0) (fun _ => 0))
    (scenario_w ⟨fun _ _ => 1, fun _ _ => 2, fun _ _ => 3⟩ (fun _ _ => 4) (fun _ => 5))
    (fun _ => 0) (fun _ => 6) (fun _ => 0) (fun _ => 7) true false
    scenario_rows_wf rfl rfl rfl rfl rfl rfl rfl).1

/-- The fast path of the Woodbury `solve_non_dynamic` (`m_cnt % 100 ≠ 0`) with lists
`m_nz` that are duplicate-free and inside the matrix: when `Ainv` is the exact
inverse of the snapshot `lA`, the current `A` differs from `lA` only at entries of
the `m_nz` lists, and no pivot of the elimination of `H` is zero, the call succeeds
and the committed voltages `x` satisfy `A x = RHS`, for any number of changed rows,
any `RHS` and any previous contents of `H`, `new_V` and `t`. -/
theorem woodbury_fast_path (s : matrix_solver_w_t) (new_V t : Vec) (newton_raphson : Bool)
    (hc : s.m_cnt % 100 ≠ 0)
    (hnd : ∀ r, r < s.N → (s.m_terms r).m_nz.Nodup)
    (hlt : ∀ r, r < s.N → ∀ c, c ∈ (s.m_terms r).m_nz → c < s.N)
    (hdiff : ∀ r c, r < s.N → c < s.N → s.m_A r c ≠ s.inv.lA r c → c ∈ (s.m_terms r).m_nz)
    (hinv : IsInverse s.N s.inv.lA s.inv.Ainv)
    (hpiv : ∀ i, i < (matrix_solver_w_t.changed_rows s.N s.m_terms s.m_A s.inv.lA).length →
      matrix_solver_w_t.solve_fast_pivot s new_V i ≠ 0) :
    ∃ code s1, matrix_solver_w_t.solve_non_dynamic s new_V t newton_raphson = some (code, s1) ∧
      IsSolution s.N s.m_A s.m_RHS s1.cur_Analog :=
  solve_non_dynamic_fast s new_V t newton_raphson hc hnd hlt hdiff hinv hpiv

/-- Witness of `woodbury_fast_path`: the second call of the two-net scenario after
the coupling conductance has changed from 2 to 3, so that both rows have changed
(`A = [[4,-3],[-3,4]]`). -/
theorem woodbury_fast_path_witness :
    ∃ code s1, matrix_solver_w_t.solve_non_dynamic
        (scenario_w_second (fun r c => if r = c then 4 else -3) (fun _ _ => 7) (fun _ _ => 8)
          (fun _ => 9)) (fun _ => 5) (fun _ => 6) true = some (code, s1) ∧
      IsSolution 2 (fun r c => if r = c then 4 else -3) (fun i => if i = 0 then 1 else 0)
        s1.cur_Analog := by
  have h0 : (matrix_solver_w_t.vsetup_nz 2 scenario_rows 0).m_nz = [0, 1] := by decide
  have h1 : (matrix_solver_w_t.vsetup_nz 2 scenario_rows 1).m_nz = [0, 1] := by decide
  have hch : matrix_solver_w_t.changed_rows 2 (matrix_solver_w_t.vsetup_nz 2 scenario_rows)
      (fun r c => if r = c then 4 else -3) (fun r c => if r = c then 3 else -2)
      = [(0, [0, 1]), (1, [0, 1])] := by
    simp [matrix_solver_w_t.changed_rows, h0, h1, List.range_succ]
  refine woodbury_fast_path
    (scenario_w_second (fun r c => if r = c then 4 else -3) (fun _ _ => 7) (fun _ _ => 8)
      (fun _ => 9)) (fun _ => 5) (fun _ => 6) true (by decide) ?_ ?_ ?_ ?_ ?_
  · intro r hr
    have hr2 : r < 2 := hr
    interval_cases r
    · exact h0 ▸ (by decide)
    · exact h1 ▸ (by decide)
  · intro r hr c hc
    have hr2 : r < 2 := hr
    show c < 2
    interval_cases r
    · rw [show (scenario_w_second (fun r c => if r = c then 4 else -3) (fun _ _ => 7)
        (fun _ _ => 8) (fun _ => 9)).m_terms 0 = matrix_solver_w_t.vsetup_nz 2 scenario_rows 0
        from rfl, h0] at hc
      simp at hc
      omega
    · rw [show (scenario_w_second (fun r c => if r = c then 4 else -3) (fun _ _ => 7)
        (fun _ _ => 8) (fun _ => 9)).m_terms 1 = matrix_solver_w_t.vsetup_nz 2 scenario_rows 1
        from rfl, h1] at hc
      simp at hc
      omega
  · intro r c hr hc _
    have hr2 : r < 2 := hr
    have hc2 : c < 2 := hc
    interval_cases r
    · show c ∈ (matrix_solver_w_t.vsetup_nz 2 scenario_rows 0).m_nz
      rw [h0]
      interval_cases c <;> simp
    · show c ∈ (matrix_solver_w_t.vsetup_nz 2 scenario_rows 1).m_nz
      rw [h1]
      interval_cases c <;> simp
  · intro i hi j hj
    have hi2 : i < 2 := hi
    have hj2 : j < 2 := hj
    interval_cases i <;> interval_cases j <;>
      simp [scenario_w_second, Finset.sum_range_succ] <;> norm_num
  · intro i hi
    have hi2 : i < 2 := by
      have : (matrix_solver_w_t.changed_rows 2 (matrix_solver_w_t.vsetup_nz 2 scenario_rows)
        (fun r c => if r = c then 4 else -3) (fun r c => if r = c then 3 else -2)).length = 2 := by
        rw [hch]; rfl
      exact this ▸ hi
    interval_cases i
    · simp [matrix_solver_w_t.solve_fast_pivot, matrix_solver_w_t.fast_elim_upto,
        scenario_w_second, matrix_solver_w_t.changed_rows,
        matrix_solver_w_t.fast_w, matrix_solver_w_t.fast_H,
        matrix_solver_w_t.fast_elim_rows, matrix_solver_w_t.fast_elim_row,
        matrix_solver_w_t.LE_compute_x, h0, h1, List.range_succ, List.range']
      norm_num
    · simp [matrix_solver_w_t.solve_fast_pivot, matrix_solver_w_t.fast_elim_upto,
        scenario_w_second, matrix_solver_w_t.changed_rows,
        matrix_solver_w_t.fast_w, matrix_solver_w_t.fast_H,
        matrix_solver_w_t.fast_elim_rows, matrix_solver_w_t.fast_elim_row,
        matrix_solver_w_t.LE_compute_x, h0, h1, List.range_succ, List.range']
      norm_num

/-- C4: the fast path on a topology with a device whose two terminals are on the
same net.  In the two-net scenario with such a device at node 0, `vsetup` leaves
`nz[0] = [0,0,1]`; on the second call (`m_cnt = 1`) after the coupling conductance
has changed from 2 to 3, `Ainv` is the exact inverse of `lA = [[3,-2],[-2,3]]`, the
assembled `A = [[4,-3],[-3,4]]` differs from `lA` only inside the `nz` lists, both
rows have changed and the two pivots of `H` are `9/5` and `11/9`; the call commits
`v0 = 32/55`, `v1 = 24/55`, which does not solve `A x = RHS` (the solution is
`(4/7, 3/7)`). -/
theorem woodbury_fast_path_shorted_device :
    (matrix_solver_w_t.vsetup_nz 2 (shorted_scenario_rows 2) 0).m_nz = [0, 0, 1] ∧
    (matrix_solver_w_t.vsetup_nz 2 (shorted_scenario_rows 2) 1).m_nz = [0, 1] ∧
    (∀ junk r c, r < 2 → c < 2 →
      matrix_solver_direct_t.build_LE_A 2 (shorted_scenario_rows 2) junk r c
        = shorted_scenario_w.inv.lA r c ∧
      matrix_solver_direct_t.build_LE_A 2 (shorted_scenario_rows 3) junk r c
        = shorted_scenario_w.m_A r c) ∧
    shorted_scenario_w.m_cnt % 100 ≠ 0 ∧
    IsInverse 2 shorted_scenario_w.inv.lA shorted_scenario_w.inv.Ainv ∧
    IsInverse 2 shorted_scenario_w.inv.Ainv shorted_scenario_w.inv.lA ∧
    (∀ r c, r < 2 → c < 2 → shorted_scenario_w.m_A r c ≠ shorted_scenario_w.inv.lA r c →
      c ∈ (shorted_scenario_w.m_terms r).m_nz) ∧
    matrix_solver_w_t.changed_rows 2 shorted_scenario_w.m_terms shorted_scenario_w.m_A
      shorted_scenario_w.inv.lA = [(0, [0, 0, 1]), (1, [0, 1])] ∧
    matrix_solver_w_t.solve_fast_pivot shorted_scenario_w (fun _ => 0) 0 = 9 / 5 ∧
    matrix_solver_w_t.solve_fast_pivot shorted_scenario_w (fun _ => 0) 1 = 11 / 9 ∧
    (matrix_solver_w_t.solve_non_dynamic shorted_scenario_w (fun _ => 0) (fun _ => 0) true).map
      (fun r => (r.2.cur_Analog 0, r.2.cur_Analog 1)) = some (32 / 55, 24 / 55) ∧
    ∀ code s1, matrix_solver_w_t.solve_non_dynamic shorted_scenario_w (fun _ => 0) (fun _ => 0)
        true = some (code, s1) →
      ¬ IsSolution 2 shorted_scenario_w.m_A shorted_scenario_w.m_RHS s1.cur_Analog := by
  have h0 : (matrix_solver_w_t.vsetup_nz 2 (shorted_scenario_rows 2) 0).m_nz = [0, 0, 1] := by
    decide
  have h1 : (matrix_solver_w_t.vsetup_nz 2 (shorted_scenario_rows 2) 1).m_nz = [0, 1] := by
    decide
  have hev : (matrix_solver_w_t.solve_non_dynamic shorted_scenario_w (fun _ => 0) (fun _ => 0)
      true).map (fun r => (r.2.cur_Analog 0, r.2.cur_Analog 1)) = some (32 / 55, 24 / 55) := by
    simp [matrix_solver_w_t.solve_non_dynamic, matrix_solver_w_t.solve_commit,
      matrix_solver_w_t.solve_fast, shorted_scenario_w, matrix_solver_w_t.changed_rows,
      matrix_solver_w_t.fast_w, matrix_solver_w_t.fast_H, matrix_solver_w_t.fast_elim,
      matrix_solver_w_t.fast_elim_step, matrix_solver_w_t.fast_elim_rows,
      matrix_solver_w_t.fast_elim_row, matrix_solver_w_t.fast_back,
      matrix_solver_w_t.fast_back_row, matrix_solver_w_t.fast_correct,
      matrix_solver_w_t.LE_compute_x, matrix_solver_w_t.store, matrix_solver_direct_t.store,
      h0, h1, List.range_succ, List.range']
    norm_num
    simp [List.range_succ]
  refine ⟨h0, h1, ?_, by decide, ?_, ?_, ?_, ?_, ?_, ?_, hev, ?_⟩
  · intro junk r c hr hc
    interval_cases r <;> interval_cases c <;>
      simp [matrix_solver_direct_t.build_LE_A, matrix_solver_direct_t.build_LE_A_row,
        shorted_scenario_rows, shorted_scenario_row0, shorted_scenario_row1,
        shorted_scenario_w, List.range_succ] <;> norm_num
  · intro i hi j hj
    interval_cases i <;> interval_cases j <;>
      simp [shorted_scenario_w, Finset.sum_range_succ] <;> norm_num
  · intro i hi j hj
    interval_cases i <;> interval_cases j <;>
      simp [shorted_scenario_w, Finset.sum_range_succ] <;> norm_num
  · intro r c hr hc _
    interval_cases r
    · show c ∈ (matrix_solver_w_t.vsetup_nz 2 (shorted_scenario_rows 2) 0).m_nz
      rw [h0]
      interval_cases c <;> simp
    · show c ∈ (matrix_solver_w_t.vsetup_nz 2 (shorted_scenario_rows 2) 1).m_nz
      rw [h1]
      interval_cases c <;> simp
  · simp [shorted_scenario_w, matrix_solver_w_t.changed_rows, h0, h1, List.range_succ]
  · simp [matrix_solver_w_t.solve_fast_pivot, matrix_solver_w_t.fast_elim_upto,
      shorted_scenario_w, matrix_solver_w_t.changed_rows,
      matrix_solver_w_t.fast_w, matrix_solver_w_t.fast_H,
      matrix_solver_w_t.fast_elim_rows, matrix_solver_w_t.fast_elim_row,
      matrix_solver_w_t.LE_compute_x, h0, h1, List.range_succ, List.range']
    norm_num
  · simp [matrix_solver_w_t.solve_fast_pivot, matrix_solver_w_t.fast_elim_upto,
      shorted_scenario_w, matrix_solver_w_t.changed_rows,
      matrix_solver_w_t.fast_w, matrix_solver_w_t.fast_H,
      matrix_solver_w_t.fast_elim_rows, matrix_solver_w_t.fast_elim_row,
      matrix_solver_w_t.LE_compute_x, h0, h1, List.range_succ, List.range']
    norm_num
  · intro code s1 hs hsol
    rw [hs] at hev
    simp only [Option.map_some', Option.some.injEq, Prod.mk.injEq] at hev
    have e0 := hsol 0 (by decide)
    simp [shorted_scenario_w, Finset.sum_range_succ, hev.1, hev.2] at e0
    norm_num at e0

/-- The fast path with exactly one changed row, with lists `m_nz` that are
duplicate-free and inside the matrix: when `Ainv` is the exact inverse of `lA`, the
current `A` differs from `lA` in the single row `ρ` only, there only at entries of
`nz[ρ]`, and `A` is non-singular, then `rowcount = 1`, the `1 × 1` matrix `H` is
nonzero, the call succeeds and the committed voltages `x` satisfy `A x = RHS`. -/
theorem sherman_morrison_fast_path (s : matrix_solver_w_t) (new_V t : Vec)
    (newton_raphson : Bool) (hc : s.m_cnt % 100 ≠ 0)
    (hnd : ∀ r, r < s.N → (s.m_terms r).m_nz.Nodup)
    (hlt : ∀ r, r < s.N → ∀ c, c ∈ (s.m_terms r).m_nz → c < s.N)
    (hinv : IsInverse s.N s.inv.lA s.inv.Ainv)
    (ρ : Nat) (hρ : ρ < s.N) (hch : ∃ c, c < s.N ∧ s.m_A ρ c ≠ s.inv.lA ρ c)
    (hdiff : ∀ c, c < s.N → s.m_A ρ c ≠ s.inv.lA ρ c → c ∈ (s.m_terms ρ).m_nz)
    (hother : ∀ r, r < s.N → r ≠ ρ → ∀ c, c < s.N → s.m_A r c = s.inv.lA r c)
    (hns : NonSingular s.N s.m_A) :
    (matrix_solver_w_t.changed_rows s.N s.m_terms s.m_A s.inv.lA).length = 1 ∧
    matrix_solver_w_t.solve_fast_pivot s new_V 0 ≠ 0 ∧
    ∃ code s1, matrix_solver_w_t.solve_non_dynamic s new_V t newton_raphson = some (code, s1) ∧
      IsSolution s.N s.m_A s.m_RHS s1.cur_Analog := by
  have hdiff2 : ∀ r c, r < s.N → c < s.N → s.m_A r c ≠ s.inv.lA r c →
      c ∈ (s.m_terms r).m_nz := by
    intro r c hr hc hne
    by_cases hrρ : r = ρ
    · subst hrρ
      exact hdiff c hc hne
    · exact absurd (hother r hr hrρ c hc) hne
  obtain ⟨hlen, hp⟩ := single_row_pivot s new_V hnd hlt hdiff2 hinv ρ hρ hch hother hns
  refine ⟨hlen, hp, solve_non_dynamic_fast s new_V t newton_raphson hc hnd hlt hdiff2 hinv ?_⟩
  intro i hi
  have hi0 : i = 0 := by omega
  rw [hi0]
  exact hp

/-- Witness of `sherman_morrison_fast_path`: the second call of the two-net scenario
after the coupling conductance of node 0 has changed from 2 to 3
(`A = [[4,-3],[-2,3]]`). -/
theorem sherman_morrison_fast_path_witness :
    (matrix_solver_w_t.changed_rows 2 (matrix_solver_w_t.vsetup_nz 2 scenario_rows)
      (fun r c => if r = 0 then (if c = 0 then 4 else -3) else (if c = 0 then -2 else 3))
      (fun r c => if r = c then 3 else -2)).length = 1 ∧
    matrix_solver_w_t.solve_fast_pivot
      (scenario_w_second
        (fun r c => if r = 0 then (if c = 0 then 4 else -3) else (if c = 0 then -2 else 3))
        (fun _ _ => 7) (fun _ _ => 8) (fun _ => 9)) (fun _ => 5) 0 ≠ 0 ∧
    ∃ code s1, matrix_solver_w_t.solve_non_dynamic
        (scenario_w_second
          (fun r c => if r = 0 then (if c = 0 then 4 else -3) else (if c = 0 then -2 else 3))
          (fun _ _ => 7) (fun _ _ => 8) (fun _ => 9)) (fun _ => 5) (fun _ => 6) true
        = some (code, s1) ∧
      IsSolution 2
        (fun r c => if r = 0 then (if c = 0 then 4 else -3) else (if c = 0 then -2 else 3))
        (fun i => if i = 0 then 1 else 0) s1.cur_Analog := by
  have h0 : (matrix_solver_w_t.vsetup_nz 2 scenario_rows 0).m_nz = [0, 1] := by decide
  have h1 : (matrix_solver_w_t.vsetup_nz 2 scenario_rows 1).m_nz = [0, 1] := by decide
  refine sherman_morrison_fast_path
    (scenario_w_second
      (fun r c => if r = 0 then (if c = 0 then 4 else -3) else (if c = 0 then -2 else 3))
      (fun _ _ => 7) (fun _ _ => 8) (fun _ => 9)) (fun _ => 5) (fun _ => 6) true (by decide)
    ?_ ?_ ?_ 0 (by decide) ⟨0, by decide, by simp [scenario_w_second]⟩ ?_ ?_ ?_
  · intro r hr
    have hr2 : r < 2 := hr
    interval_cases r
    · exact h0 ▸ (by decide)
    · exact h1 ▸ (by decide)
  · intro r hr c hc
    have hr2 : r < 2 := hr
    show c < 2
    interval_cases r
    · have hc0 : c ∈ (matrix_solver_w_t.vsetup_nz 2 scenario_rows 0).m_nz := hc
      rw [h0] at hc0
      simp at hc0
      omega
    · have hc1 : c ∈ (matrix_solver_w_t.vsetup_nz 2 scenario_rows 1).m_nz := hc
      rw [h1] at hc1
      simp at hc1
      omega
  · intro i hi j hj
    have hi2 : i < 2 := hi
    have hj2 : j < 2 := hj
    interval_cases i <;> interval_cases j <;>
      simp [scenario_w_second, Finset.sum_range_succ] <;> norm_num
  · intro c hc _
    have hc2 : c < 2 := hc
    show c ∈ (matrix_solver_w_t.vsetup_nz 2 scenario_rows 0).m_nz
    rw [h0]
    interval_cases c <;> simp
  · intro r hr hr0 c hc
    have hr2 : r < 2 := hr
    have hc2 : c < 2 := hc
    interval_cases r
    · exact absurd rfl hr0
    · interval_cases c <;> simp [scenario_w_second]
  · intro z hz c hc
    have hc2 : c < 2 := hc
    have e0 := hz 0 (by decide)
    have e1 := hz 1 (by decide)
    simp [scenario_w_second, Finset.sum_range_succ] at e0 e1
    interval_cases c <;> linarith

/-- C5: the fast path with one changed row on a topology with a device whose two
terminals are on the same net.  For the one-net system `shorted_rows`, `vsetup`
leaves `nz[0] = [0,0]`; on the second call (`m_cnt = 1`) after the rail conductance
has changed from 1 to 2, `Ainv = [[1]]` is the exact inverse of `lA = [[1]]`, the
assembled `A = [[2]]` is non-singular and differs from `lA` in the single row 0 at
an entry of `nz[0]`, and the `1 × 1` matrix `H` is `3`, not zero; the call commits
`v0 = 4/3`, which does not solve `A x = RHS = [2]` (the solution is `1`). -/
theorem sherman_morrison_shorted_device :
    (matrix_solver_w_t.vsetup_nz 1 (shorted_rows 1) 0).m_nz = [0, 0] ∧
    (∀ junk, matrix_solver_direct_t.build_LE_A 1 (shorted_rows 1) junk 0 0
        = shorted_w.inv.lA 0 0 ∧
      matrix_solver_direct_t.build_LE_A 1 (shorted_rows 2) junk 0 0 = shorted_w.m_A 0 0) ∧
    shorted_w.m_cnt % 100 ≠ 0 ∧
    IsInverse 1 shorted_w.inv.lA shorted_w.inv.Ainv ∧
    IsInverse 1 shorted_w.inv.Ainv shorted_w.inv.lA ∧
    shorted_w.m_A 0 0 ≠ shorted_w.inv.lA 0 0 ∧ 0 ∈ (shorted_w.m_terms 0).m_nz ∧
    NonSingular 1 shorted_w.m_A ∧
    matrix_solver_w_t.changed_rows 1 shorted_w.m_terms shorted_w.m_A shorted_w.inv.lA
      = [(0, [0, 0])] ∧
    matrix_solver_w_t.solve_fast_pivot shorted_w (fun _ => 0) 0 = 3 ∧
    (matrix_solver_w_t.solve_non_dynamic shorted_w (fun _ => 0) (fun _ => 0) true).map
      (fun r => r.2.cur_Analog 0) = some (4 / 3) ∧
    ∀ code s1, matrix_solver_w_t.solve_non_dynamic shorted_w (fun _ => 0) (fun _ => 0) true
        = some (code, s1) →
      ¬ IsSolution 1 shorted_w.m_A shorted_w.m_RHS s1.cur_Analog := by
  have h0 : (matrix_solver_w_t.vsetup_nz 1 (shorted_rows 1) 0).m_nz = [0, 0] := by decide
  have hev : (matrix_solver_w_t.solve_non_dynamic shorted_w (fun _ => 0) (fun _ => 0) true).map
      (fun r => r.2.cur_Analog 0) = some (4 / 3) := by
    simp [matrix_solver_w_t.solve_non_dynamic, matrix_solver_w_t.solve_commit,
      matrix_solver_w_t.solve_fast, shorted_w, matrix_solver_w_t.changed_rows,
      matrix_solver_w_t.fast_w, matrix_solver_w_t.fast_H, matrix_solver_w_t.fast_elim,
      matrix_solver_w_t.fast_elim_step, matrix_solver_w_t.fast_elim_rows,
      matrix_solver_w_t.fast_elim_row, matrix_solver_w_t.fast_back,
      matrix_solver_w_t.fast_back_row, matrix_solver_w_t.fast_correct,
      matrix_solver_w_t.LE_compute_x, matrix_solver_w_t.store, matrix_solver_direct_t.store,
      h0, List.range_succ, List.range']
    norm_num
    simp [List.range_succ]
  refine ⟨h0, ?_, by decide, ?_, ?_, ?_, ?_, ?_, ?_, ?_, hev, ?_⟩
  · intro junk
    constructor <;>
      simp [matrix_solver_direct_t.build_LE_A, matrix_solver_direct_t.build_LE_A_row,
        shorted_rows, shorted_row, shorted_w, List.range_succ]
  · intro i hi j hj
    interval_cases i
    interval_cases j
    simp [shorted_w]
  · intro i hi j hj
    interval_cases i
    interval_cases j
    simp [shorted_w]
  · simp [shorted_w]
  · show 0 ∈ (matrix_solver_w_t.vsetup_nz 1 (shorted_rows 1) 0).m_nz
    rw [h0]
    simp
  · intro z hz c hc
    have e0 := hz 0 (by decide)
    simp [shorted_w] at e0
    interval_cases c
    exact e0
  · simp [shorted_w, matrix_solver_w_t.changed_rows, h0, List.range_succ]
  · simp [matrix_solver_w_t.solve_fast_pivot, matrix_solver_w_t.fast_elim_upto,
      shorted_w, matrix_solver_w_t.changed_rows,
      matrix_solver_w_t.fast_w, matrix_solver_w_t.fast_H,
      matrix_solver_w_t.LE_compute_x, h0, List.range_succ, List.range']
    norm_num
  · intro code s1 hs hsol
    rw [hs] at hev
    simp only [Option.map_some', Option.some.injEq] at hev
    have e0 := hsol 0 (by decide)
    simp [shorted_w, hev] at e0
    norm_num at e0

/-! ## Return code and commit -/

/-- The value of `delta` is the largest `|V[i] - m_cur_Analog|` over the nets, and
`0` when there is no net. -/
theorem delta_spec (iN : Nat) (V cur : Vec) :
    (∀ i, i < iN → |V i - cur i| ≤ matrix_solver_direct_t.delta iN V cur) ∧
    (iN = 0 → matrix_solver_direct_t.delta iN V cur = 0) ∧
    (0 < iN → ∃ i, i < iN ∧ matrix_solver_direct_t.delta iN V cur = |V i - cur i|) := by
  unfold matrix_solver_direct_t.delta
  induction iN with
  | zero => simp
  | succ n ih =>
    obtain ⟨ih1, ih2, ih3⟩ := ih
    rw [List.range_succ, List.foldl_append, List.foldl_cons, List.foldl_nil]
    refine ⟨fun i hi => ?_, fun h => absurd h (Nat.succ_ne_zero n), fun _ => ?_⟩
    · by_cases hin : i = n
      · subst hin; exact le_max_right _ _
      · exact le_trans (ih1 i (by omega)) (le_max_left _ _)
    · by_cases hle : (List.range n).foldl (fun cerr i => max cerr |V i - cur i|) 0
          ≤ |V n - cur n|
      · exact ⟨n, Nat.lt_succ_self n, max_eq_right hle⟩
      · have hlt := lt_of_not_le hle
        rw [max_eq_left (le_of_lt hlt)]
        by_cases hn : n = 0
        · subst hn
          rw [ih2 rfl] at hlt
          exact absurd hlt (not_lt.mpr (abs_nonneg _))
        · obtain ⟨i, hi, he⟩ := ih3 (Nat.pos_of_ne_zero hn)
          exact ⟨i, by omega, he⟩

namespace matrix_solver_w_t

/-- Both paths of the Woodbury `solve_non_dynamic` leave `N`, the net voltages and
the accuracy as they are. -/
theorem solve_path_frame (s : matrix_solver_w_t) (new_V t : Vec) (r : matrix_solver_w_t × Vec)
    (h : (if s.m_cnt % 100 = 0 then solve_refresh s new_V else solve_fast s new_V t) = some r) :
    r.1.N = s.N ∧ r.1.cur_Analog = s.cur_Analog ∧ r.1.m_accuracy = s.m_accuracy := by
  by_cases hc : s.m_cnt % 100 = 0
  · rw [if_pos hc] at h
    unfold solve_refresh at h
    cases hi : LE_invert s.N s.m_terms s.m_A s.inv with
    | none => simp [hi] at h
    | some inv =>
      simp only [hi, Option.map_some', Option.some.injEq] at h
      rw [← h]
      exact ⟨rfl, rfl, rfl⟩
  · rw [if_neg hc] at h
    unfold solve_fast at h
    simp only at h
    split at h
    · simp only [Option.bind_eq_some, Option.map_eq_some'] at h
      obtain ⟨r1, -, t1, -, heq⟩ := h
      rw [← heq]
      exact ⟨rfl, rfl, rfl⟩
    · simp only [Option.some.injEq] at h
      rw [← h]
      exact ⟨rfl, rfl, rfl⟩

end matrix_solver_w_t

namespace matrix_solver_direct_t

/-- The direct `solve_non_dynamic` in closed form, given the result of the back
substitution. -/
theorem solve_non_dynamic_eq (s : matrix_solver_direct_t) (new_v x : Vec) (newton_raphson : Bool)
    (hx : LE_back_subst s.N s.m_terms (s.m_A, s.m_RHS) new_v = some x) :
    solve_non_dynamic s new_v newton_raphson
      = some (if newton_raphson = true ∧ delta s.N x s.cur_Analog > s.m_accuracy then 2 else 1,
          { s with cur_Analog := store s.N x s.cur_Analog }) := by
  unfold solve_non_dynamic
  rw [hx, Option.map_some']
  cases newton_raphson <;> simp

end matrix_solver_direct_t

namespace matrix_solver_w_t

/-- The Woodbury `solve_non_dynamic` in closed form, given the result of the path
taken. -/
theorem solve_non_dynamic_eq_w (s : matrix_solver_w_t) (new_V t : Vec) (newton_raphson : Bool)
    (r : matrix_solver_w_t × Vec)
    (hr : (if s.m_cnt % 100 = 0 then solve_refresh s new_V else solve_fast s new_V t) = some r) :
    solve_non_dynamic s new_V t newton_raphson
      = some (if newton_raphson = true ∧ delta s.N r.2 s.cur_Analog > s.m_accuracy then 2 else 1,
          { r.1 with m_cnt := (r.1.m_cnt + 1) % 2 ^ 32
                     cur_Analog := store s.N r.2 s.cur_Analog }) := by
  obtain ⟨f1, f2, f3⟩ := solve_path_frame s new_V t r hr
  unfold solve_non_dynamic
  rw [hr, Option.map_some']
  unfold solve_commit
  simp only [f1, f2, f3]
  cases newton_raphson <;> simp

end matrix_solver_w_t

/-- The return code `if newton_raphson && err > accuracy then 2 else 1`. -/
theorem return_code_spec (newton_raphson : Bool) (p : Prop) [Decidable p] :
    ((if newton_raphson = true ∧ p then 2 else 1 : Nat) = 1 ∨
      (if newton_raphson = true ∧ p then 2 else 1 : Nat) = 2) ∧
    ((if newton_raphson = true ∧ p then 2 else 1 : Nat) = 2 ↔ newton_raphson = true ∧ p) ∧
    (newton_raphson = false → (if newton_raphson = true ∧ p then 2 else 1 : Nat) = 1) := by
  by_cases h : newton_raphson = true ∧ p
  · rw [if_pos h]
    refine ⟨Or.inr rfl, ⟨fun _ => h, fun _ => rfl⟩, fun hf => ?_⟩
    rw [hf] at h
    exact absurd h.1 (by decide)
  · rw [if_neg h]
    exact ⟨Or.inl rfl, ⟨fun h1 => absurd h1 (by decide), fun h1 => absurd h1 h⟩, fun _ => rfl⟩

/-- C11: the convergence report of both solvers.  Once the solve part of the call has
produced `x` (the back substitution of the direct solver, the path taken by the
Woodbury solver), `solve_non_dynamic` returns; the code is 1 or 2; it is 2 exactly
when `newton_raphson` is true and `delta > accuracy`; it is 1 whenever
`newton_raphson` is false; and `delta` is the largest `|x[i] - voltage of net i|`
over the nets `i < N`, taken on the voltages before the commit, and 0 for `N = 0`. -/
theorem convergence_report (newton_raphson : Bool) :
    (∀ (s : matrix_solver_direct_t) (new_v x : Vec),
      matrix_solver_direct_t.LE_back_subst s.N s.m_terms (s.m_A, s.m_RHS) new_v = some x →
      ∃ code s1, matrix_solver_direct_t.solve_non_dynamic s new_v newton_raphson = some (code, s1) ∧
        (code = 1 ∨ code = 2) ∧
        (code = 2 ↔ newton_raphson = true ∧
          matrix_solver_direct_t.delta s.N x s.cur_Analog > s.m_accuracy) ∧
        (newton_raphson = false → code = 1)) ∧
    (∀ (s : matrix_solver_w_t) (new_V t : Vec) (r : matrix_solver_w_t × Vec),
      (if s.m_cnt % 100 = 0 then matrix_solver_w_t.solve_refresh s new_V
        else matrix_solver_w_t.solve_fast s new_V t) = some r →
      ∃ code s1, matrix_solver_w_t.solve_non_dynamic s new_V t newton_raphson = some (code, s1) ∧
        (code = 1 ∨ code = 2) ∧
        (code = 2 ↔ newton_raphson = true ∧
          matrix_solver_w_t.delta s.N r.2 s.cur_Analog > s.m_accuracy) ∧
        (newton_raphson = false → code = 1)) ∧
    (∀ (iN : Nat) (V cur : Vec),
      matrix_solver_w_t.delta iN V cur = matrix_solver_direct_t.delta iN V cur ∧
      (∀ i, i < iN → |V i - cur i| ≤ matrix_solver_direct_t.delta iN V cur) ∧
      (iN = 0 → matrix_solver_direct_t.delta iN V cur = 0) ∧
      (0 < iN → ∃ i, i < iN ∧ matrix_solver_direct_t.delta iN V cur = |V i - cur i|)) := by
  refine ⟨?_, ?_, fun iN V cur => ⟨rfl, delta_spec iN V cur⟩⟩
  · intro s new_v x hx
    exact ⟨_, _, matrix_solver_direct_t.solve_non_dynamic_eq s new_v x newton_raphson hx,
      return_code_spec newton_raphson _⟩
  · intro s new_V t r hr
    exact ⟨_, _, matrix_solver_w_t.solve_non_dynamic_eq_w s new_V t newton_raphson r hr,
      return_code_spec newton_raphson _⟩

/-- C12: the unconditional commit of both solvers.  Once the solve part of the call
has produced `x`, `solve_non_dynamic` returns and leaves a solver in which the
voltage of every net `i < N` is `x[i]`, for either value of `newton_raphson` and
either return code; no other voltage is written. -/
theorem unconditional_commit (newton_raphson : Bool) :
    (∀ (s : matrix_solver_direct_t) (new_v x : Vec),
      matrix_solver_direct_t.LE_back_subst s.N s.m_terms (s.m_A, s.m_RHS) new_v = some x →
      ∃ code s1, matrix_solver_direct_t.solve_non_dynamic s new_v newton_raphson = some (code, s1) ∧
        (∀ i, i < s.N → s1.cur_Analog i = x i) ∧
        (∀ i, s.N ≤ i → s1.cur_Analog i = s.cur_Analog i)) ∧
    (∀ (s : matrix_solver_w_t) (new_V t : Vec) (r : matrix_solver_w_t × Vec),
      (if s.m_cnt % 100 = 0 then matrix_solver_w_t.solve_refresh s new_V
        else matrix_solver_w_t.solve_fast s new_V t) = some r →
      ∃ code s1, matrix_solver_w_t.solve_non_dynamic s new_V t newton_raphson = some (code, s1) ∧
        (∀ i, i < s.N → s1.cur_Analog i = r.2 i) ∧
        (∀ i, s.N ≤ i → s1.cur_Analog i = s.cur_Analog i)) := by
  refine ⟨?_, ?_⟩
  · intro s new_v x hx
    refine ⟨_, _, matrix_solver_direct_t.solve_non_dynamic_eq s new_v x newton_raphson hx,
      fun i hi => ?_, fun i hi => ?_⟩
    · show matrix_solver_direct_t.store s.N x s.cur_Analog i = x i
      have := matrix_solver_w_t.store_apply s.N x s.cur_Analog i
      unfold matrix_solver_w_t.store at this
      rw [this, if_pos hi]
    · show matrix_solver_direct_t.store s.N x s.cur_Analog i = s.cur_Analog i
      have := matrix_solver_w_t.store_apply s.N x s.cur_Analog i
      unfold matrix_solver_w_t.store at this
      rw [this, if_neg (by omega)]
  · intro s new_V t r hr
    refine ⟨_, _, matrix_solver_w_t.solve_non_dynamic_eq_w s new_V t newton_raphson r hr,
      fun i hi => ?_, fun i hi => ?_⟩
    · show matrix_solver_w_t.store s.N r.2 s.cur_Analog i = r.2 i
      rw [matrix_solver_w_t.store_apply, if_pos hi]
    · show matrix_solver_w_t.store s.N r.2 s.cur_Analog i = s.cur_Analog i
      rw [matrix_solver_w_t.store_apply, if_neg (by omega)]


/-- The back substitution of `one_net_direct` gives `x[0] = 1`. -/
theorem one_net_direct_back_subst :
    matrix_solver_direct_t.LE_back_subst one_net_direct.N one_net_direct.m_terms
      (one_net_direct.m_A, one_net_direct.m_RHS) (fun _ => 0)
      = some (Vec.set (fun _ => 0) 0 1) := by
  have h0 : (matrix_solver_direct_t.vsetup_nz 1 one_net_rows 0).m_nzrd = [] := by decide
  simp [matrix_solver_direct_t.LE_back_subst, matrix_solver_direct_t.LE_back_subst_row,
    one_net_direct, h0, List.range_succ]

/-- Witness of `convergence_report`: the one-net direct solver with the net at 0 V
and the solved value 1. -/
theorem convergence_report_witness :
    ∃ code s1, matrix_solver_direct_t.solve_non_dynamic one_net_direct (fun _ => 0) true
        = some (code, s1) ∧
      (code = 1 ∨ code = 2) ∧
      (code = 2 ↔ true = true ∧
        matrix_solver_direct_t.delta one_net_direct.N (Vec.set (fun _ => 0) 0 1)
          one_net_direct.cur_Analog > one_net_direct.m_accuracy) ∧
      (true = false → code = 1) :=
  (convergence_report true).1 one_net_direct (fun _ => 0) (Vec.set (fun _ => 0) 0 1)
    one_net_direct_back_subst

/-- Witness of `unconditional_commit`: the one-net direct solver. -/
theorem unconditional_commit_witness :
    ∃ code s1, matrix_solver_direct_t.solve_non_dynamic one_net_direct (fun _ => 0) true
        = some (code, s1) ∧
      (∀ i, i < one_net_direct.N → s1.cur_Analog i = Vec.set (fun _ => 0) 0 1 i) ∧
      (∀ i, one_net_direct.N ≤ i → s1.cur_Analog i = one_net_direct.cur_Analog i) :=
  (unconditional_commit true).1 one_net_direct (fun _ => 0) (Vec.set (fun _ => 0) 0 1)
    one_net_direct_back_subst

/-! ## The index lists after `vsetup` -/

theorem sorted_psort_list (l : List Nat) : (psort_list l).Sorted (fun a b => a ≤ b) :=
  List.sorted_insertionSort (fun a b => a ≤ b) l

/-- For a well-formed row, being the other net of a matrix-coupled term can be read
off the signed entries of `net_other`. -/
theorem coupled_iff (N : Nat) (t : terms_t) (hwf : t.wf N) (c : Nat) :
    coupled t t.m_railstart c ↔ ∃ i, i < t.m_railstart ∧ t.net_other i = (c : Int) := by
  constructor
  · rintro ⟨i, hi, hc⟩
    refine ⟨i, hi, ?_⟩
    have := (hwf.2 i hi).1
    omega
  · rintro ⟨i, hi, hc⟩
    exact ⟨i, hi, by omega⟩

namespace matrix_solver_direct_t

/-- Both lists of every row that `vsetup` has visited are sorted. -/
theorem vsetup_nz_sorted_fold (N : Nat) (rows : Nat → terms_t) (n : Nat) (k : Nat) (hk : k < n) :
    ((List.range n).foldl (fun m k => vsetup_nz_row N m k) rows k).m_nzrd.Sorted
        (fun a b => a ≤ b) ∧
    ((List.range n).foldl (fun m k => vsetup_nz_row N m k) rows k).m_nz.Sorted
        (fun a b => a ≤ b) := by
  induction n with
  | zero => exact absurd hk (Nat.not_lt_zero k)
  | succ n ih =>
    rw [List.range_succ, List.foldl_append, List.foldl_cons, List.foldl_nil]
    unfold vsetup_nz_row
    by_cases hkn : k = n
    · subst hkn
      simp only [Function.update_same]
      exact ⟨sorted_psort_list _, sorted_psort_list _⟩
    · simp only [Function.update_noteq hkn]
      exact ih (by omega)

/-- The list `m_nz` of a visited row is the sorted scan result with the diagonal
added at the end, and the scan result has no duplicates and holds the other nets of
the matrix-coupled terms. -/
theorem vsetup_nz_list_fold (N : Nat) (rows : Nat → terms_t) (n : Nat) (hn : n ≤ N) (k : Nat)
    (hk : k < n) :
    ∃ l : List Nat, l.Nodup ∧ (∀ c, c ∈ l ↔ coupled (rows k) (rows k).m_railstart c) ∧
      ((List.range n).foldl (fun m k => vsetup_nz_row N m k) rows k).m_nz
        = psort_list (l ++ [k]) := by
  induction n with
  | zero => exact absurd hk (Nat.not_lt_zero k)
  | succ n ih =>
    obtain ⟨-, h2, -⟩ := vsetup_nz_fold N rows n (Nat.le_of_succ_le hn)
    have ih1 := ih (Nat.le_of_succ_le hn)
    rw [List.range_succ, List.foldl_append, List.foldl_cons, List.foldl_nil]
    generalize (List.range n).foldl (fun m k => vsetup_nz_row N m k) rows = M at h2 ih1
    have hMn : M n = rows n := h2 n (Nat.le_refl n)
    unfold vsetup_nz_row
    by_cases hkn : k = n
    · subst hkn
      simp only [Function.update_same, hMn]
      obtain ⟨-, -, r3, r4⟩ := vsetup_scan_repeat (rows k) k N
        (if k = 0 then [] else (M (k - 1)).m_nzrd.filter (fun c => !decide (c < k + 1)), [])
      refine ⟨_, r4 List.nodup_nil, fun c => ?_, rfl⟩
      rw [r3 c]
      simp only [List.not_mem_nil, false_or, and_iff_right_iff_imp]
      intro _
      omega
    · simp only [Function.update_noteq hkn]
      exact ih1 (by omega)

end matrix_solver_direct_t

namespace matrix_solver_w_t

theorem vsetup_nzrd_sorted_fold (rows : Nat → terms_t) (n : Nat) (k : Nat) (hk : k < n) :
    ((List.range n).foldl vsetup_nzrd_row rows k).m_nzrd.Sorted (fun a b => a ≤ b) := by
  induction n with
  | zero => exact absurd hk (Nat.not_lt_zero k)
  | succ n ih =>
    rw [List.range_succ, List.foldl_append, List.foldl_cons, List.foldl_nil]
    unfold vsetup_nzrd_row
    by_cases hkn : k = n
    · subst hkn
      simp only [Function.update_same]
      exact sorted_psort_list _
    · simp only [Function.update_noteq hkn]
      exact ih (by omega)

/-- The list `m_nz` that the Woodbury `vsetup` leaves in row `k`. -/
theorem w_vsetup_nz_list (N : Nat) (rows : Nat → terms_t) (k : Nat) (hk : k < N) :
    ∃ l : List Nat, l.Nodup ∧ (∀ c, c ∈ l ↔ coupled (rows k) (rows k).m_railstart c) ∧
      (vsetup_nz N rows k).m_nz = psort_list (l ++ [k]) := by
  obtain ⟨-, -, f3, -⟩ := vsetup_nz_frame N rows k
  rw [f3, vsetup_nz_rows_apply, if_pos hk]
  refine ⟨_, ?_, fun c => nz_scan_mem (rows k) c, rfl⟩
  have h := (scan_fold (fun i => ((rows k).net_other i).toNat) (fun _ => true)
    (rows k).m_railstart []).2 List.nodup_nil
  simpa only [Bool.and_true] using h

end matrix_solver_w_t

/-- A sorted scan result with the diagonal added has no duplicates exactly when the
diagonal was not in the scan result. -/
theorem nodup_psort_diag (l : List Nat) (hl : l.Nodup) (k : Nat) :
    (psort_list (l ++ [k])).Nodup ↔ k ∉ l := by
  rw [nodup_psort_list, List.nodup_append]
  constructor
  · rintro ⟨-, -, hd⟩ hk
    exact hd hk (List.mem_singleton_self k)
  · intro hk
    refine ⟨hl, List.nodup_singleton k, ?_⟩
    intro a ha hb
    rw [List.mem_singleton] at hb
    subst hb
    exact hk ha


/-- C13: after `vsetup`, for well-formed rows (the matrix-coupled terms name nets of
the solver) and every row `k < N`, in the direct solver and in the Woodbury solver
alike the list `nzrd[k]` holds only columns `c` with `k < c < N`, is sorted in
ascending order and has no duplicates. -/
theorem nzrd_right_of_diagonal_sorted (N : Nat) (rows : Nat → terms_t)
    (hwf : ∀ k, k < N → (rows k).wf N) (k : Nat) (hk : k < N) :
    ((∀ c, c ∈ (matrix_solver_direct_t.vsetup_nz N rows k).m_nzrd → k < c ∧ c < N) ∧
      (matrix_solver_direct_t.vsetup_nz N rows k).m_nzrd.Sorted (fun a b => a ≤ b) ∧
      (matrix_solver_direct_t.vsetup_nz N rows k).m_nzrd.Nodup) ∧
    ((∀ c, c ∈ (matrix_solver_w_t.vsetup_nz N rows k).m_nzrd → k < c ∧ c < N) ∧
      (matrix_solver_w_t.vsetup_nz N rows k).m_nzrd.Sorted (fun a b => a ≤ b) ∧
      (matrix_solver_w_t.vsetup_nz N rows k).m_nzrd.Nodup) := by
  refine ⟨⟨(matrix_solver_direct_t.vsetup_nz_ok N rows hwf).bounds k hk,
      (matrix_solver_direct_t.vsetup_nz_sorted_fold N rows N k hk).1,
      (matrix_solver_direct_t.vsetup_nz_ok N rows hwf).nodup k hk⟩,
    (matrix_solver_w_t.w_vsetup_nz_ok N rows hwf).bounds k hk, ?_,
    (matrix_solver_w_t.w_vsetup_nz_ok N rows hwf).nodup k hk⟩
  rw [(matrix_solver_w_t.vsetup_nz_frame N rows k).2.2.2]
  exact matrix_solver_w_t.vsetup_nzrd_sorted_fold _ N k hk

/-- Witness of `nzrd_right_of_diagonal_sorted`: row 0 of the two-net scenario. -/
theorem nzrd_right_of_diagonal_sorted_witness :
    ((∀ c, c ∈ (matrix_solver_direct_t.vsetup_nz 2 scenario_rows 0).m_nzrd → 0 < c ∧ c < 2) ∧
      (matrix_solver_direct_t.vsetup_nz 2 scenario_rows 0).m_nzrd.Sorted (fun a b => a ≤ b) ∧
      (matrix_solver_direct_t.vsetup_nz 2 scenario_rows 0).m_nzrd.Nodup) ∧
    ((∀ c, c ∈ (matrix_solver_w_t.vsetup_nz 2 scenario_rows 0).m_nzrd → 0 < c ∧ c < 2) ∧
      (matrix_solver_w_t.vsetup_nz 2 scenario_rows 0).m_nzrd.Sorted (fun a b => a ≤ b) ∧
      (matrix_solver_w_t.vsetup_nz 2 scenario_rows 0).m_nzrd.Nodup) :=
  nzrd_right_of_diagonal_sorted 2 scenario_rows scenario_rows_wf 0 (by decide)

/-- C14: after `vsetup`, for well-formed rows and every row `k < N`, in the direct
solver and in the Woodbury solver alike the list `nz[k]` contains the row's own
index `k` and the `net_other` column of every matrix-coupled term of row `k`
(`vsetup` leaves `m_railstart` and `net_other` as they were). -/
theorem nz_contains_diagonal_and_terms (N : Nat) (rows : Nat → terms_t)
    (hwf : ∀ k, k < N → (rows k).wf N) (k : Nat) (hk : k < N) :
    (k ∈ (matrix_solver_direct_t.vsetup_nz N rows k).m_nz ∧
      ∀ i, i < (matrix_solver_direct_t.vsetup_nz N rows k).m_railstart →
        ∃ c, c ∈ (matrix_solver_direct_t.vsetup_nz N rows k).m_nz ∧
          (c : Int) = (matrix_solver_direct_t.vsetup_nz N rows k).net_other i) ∧
    (k ∈ (matrix_solver_w_t.vsetup_nz N rows k).m_nz ∧
      ∀ i, i < (matrix_solver_w_t.vsetup_nz N rows k).m_railstart →
        ∃ c, c ∈ (matrix_solver_w_t.vsetup_nz N rows k).m_nz ∧
          (c : Int) = (matrix_solver_w_t.vsetup_nz N rows k).net_other i) := by
  obtain ⟨d1, d2, -, -, d5⟩ := matrix_solver_direct_t.vsetup_nz_spec N rows k hk
  obtain ⟨w1, w2, -, -⟩ := matrix_solver_w_t.vsetup_nz_frame N rows k
  have w5 := (matrix_solver_w_t.w_vsetup_nz_spec N rows k hk).1
  refine ⟨⟨(d5 k).mpr (Or.inl rfl), fun i hi => ?_⟩, (w5 k).mpr (Or.inl rfl), fun i hi => ?_⟩
  · rw [d1] at hi
    rw [d2]
    refine ⟨((rows k).net_other i).toNat, (d5 _).mpr (Or.inr ⟨i, hi, rfl⟩), ?_⟩
    have := ((hwf k hk).2 i hi).1
    omega
  · rw [w1] at hi
    rw [w2]
    refine ⟨((rows k).net_other i).toNat, (w5 _).mpr (Or.inr ⟨i, hi, rfl⟩), ?_⟩
    have := ((hwf k hk).2 i hi).1
    omega

/-- Witness of `nz_contains_diagonal_and_terms`: row 0 of the two-net scenario. -/
theorem nz_contains_diagonal_and_terms_witness :
    (0 ∈ (matrix_solver_direct_t.vsetup_nz 2 scenario_rows 0).m_nz ∧
      ∀ i, i < (matrix_solver_direct_t.vsetup_nz 2 scenario_rows 0).m_railstart →
        ∃ c, c ∈ (matrix_solver_direct_t.vsetup_nz 2 scenario_rows 0).m_nz ∧
          (c : Int) = (matrix_solver_direct_t.vsetup_nz 2 scenario_rows 0).net_other i) ∧
    (0 ∈ (matrix_solver_w_t.vsetup_nz 2 scenario_rows 0).m_nz ∧
      ∀ i, i < (matrix_solver_w_t.vsetup_nz 2 scenario_rows 0).m_railstart →
        ∃ c, c ∈ (matrix_solver_w_t.vsetup_nz 2 scenario_rows 0).m_nz ∧
          (c : Int) = (matrix_solver_w_t.vsetup_nz 2 scenario_rows 0).net_other i) :=
  nz_contains_diagonal_and_terms 2 scenario_rows scenario_rows_wf 0 (by decide)

/-- The list `nz[k]` is always sorted, and it is free of duplicates exactly when no
matrix-coupled term of row `k` has the row's own net as its other net. -/
theorem nz_sorted_nodup_iff (N : Nat) (rows : Nat → terms_t) (k : Nat) (hk : k < N) :
    ((matrix_solver_direct_t.vsetup_nz N rows k).m_nz.Sorted (fun a b => a ≤ b) ∧
      ((matrix_solver_direct_t.vsetup_nz N rows k).m_nz.Nodup
        ↔ ¬ coupled (rows k) (rows k).m_railstart k)) ∧
    ((matrix_solver_w_t.vsetup_nz N rows k).m_nz.Sorted (fun a b => a ≤ b) ∧
      ((matrix_solver_w_t.vsetup_nz N rows k).m_nz.Nodup
        ↔ ¬ coupled (rows k) (rows k).m_railstart k)) := by
  obtain ⟨l, hl, hm, he⟩ := matrix_solver_direct_t.vsetup_nz_list_fold N rows N (Nat.le_refl N) k hk
  obtain ⟨l1, hl1, hm1, he1⟩ := matrix_solver_w_t.w_vsetup_nz_list N rows k hk
  refine ⟨⟨(matrix_solver_direct_t.vsetup_nz_sorted_fold N rows N k hk).2, ?_⟩, ?_, ?_⟩
  · unfold matrix_solver_direct_t.vsetup_nz
    rw [he, nodup_psort_diag l hl k, hm k]
  · rw [he1]
    exact sorted_psort_list _
  · rw [he1, nodup_psort_diag l1 hl1 k, hm1 k]

/-- C15: on a row with a matrix-coupled term whose other net is the row's own net
the list `nz[k]` has a duplicate.  For the one-net system `shorted_rows` (a
well-formed row) `vsetup` leaves `nz[0] = [0,0]` in the direct solver and in the
Woodbury solver, and for the two-net scenario with such a device at node 0 it leaves
`nz[0] = [0,0,1]`; the lists are sorted but not free of duplicates. -/
theorem nz_duplicate_diagonal :
    (shorted_rows 1 0).wf 1 ∧
    (matrix_solver_direct_t.vsetup_nz 1 (shorted_rows 1) 0).m_nz = [0, 0] ∧
    (matrix_solver_w_t.vsetup_nz 1 (shorted_rows 1) 0).m_nz = [0, 0] ∧
    ¬ (matrix_solver_direct_t.vsetup_nz 1 (shorted_rows 1) 0).m_nz.Nodup ∧
    ¬ (matrix_solver_w_t.vsetup_nz 1 (shorted_rows 1) 0).m_nz.Nodup ∧
    (matrix_solver_direct_t.vsetup_nz 2 (shorted_scenario_rows 2) 0).m_nz = [0, 0, 1] ∧
    (matrix_solver_w_t.vsetup_nz 2 (shorted_scenario_rows 2) 0).m_nz = [0, 0, 1] ∧
    ¬ (matrix_solver_direct_t.vsetup_nz 2 (shorted_scenario_rows 2) 0).m_nz.Nodup ∧
    ¬ (matrix_solver_w_t.vsetup_nz 2 (shorted_scenario_rows 2) 0).m_nz.Nodup := by
  have a1 : (matrix_solver_direct_t.vsetup_nz 1 (shorted_rows 1) 0).m_nz = [0, 0] := by decide
  have a2 : (matrix_solver_w_t.vsetup_nz 1 (shorted_rows 1) 0).m_nz = [0, 0] := by decide
  have a3 : (matrix_solver_direct_t.vsetup_nz 2 (shorted_scenario_rows 2) 0).m_nz = [0, 0, 1] := by
    decide
  have a4 : (matrix_solver_w_t.vsetup_nz 2 (shorted_scenario_rows 2) 0).m_nz = [0, 0, 1] := by
    decide
  refine ⟨⟨by decide, fun i hi => ?_⟩, a1, a2, ?_, ?_, a3, a4, ?_, ?_⟩
  · have hi0 : i = 0 := by
      have : i < 1 := hi
      omega
    subst hi0
    exact ⟨by decide, by decide⟩
  · rw [a1]; decide
  · rw [a2]; decide
  · rw [a3]; decide
  · rw [a4]; decide

/-- C16: the recurrence of `nzrd`.  After `vsetup`, for well-formed rows, in the
direct solver and in the Woodbury solver alike: `nzrd[0]` holds exactly the other
nets `c >= 1` of the matrix-coupled terms of row 0; for `1 <= k < N` the list
`nzrd[k]` holds exactly the entries `c >= k + 1` of `nzrd[k-1]` and the other nets
`c >= k + 1` of the matrix-coupled terms of row `k`; hence for every `k < N` it
holds exactly the columns `c > k` that are the other net of a matrix-coupled term
of some row `j <= k`. -/
theorem nzrd_recurrence (N : Nat) (rows : Nat → terms_t) (hwf : ∀ k, k < N → (rows k).wf N) :
    ((0 < N → ∀ c, c ∈ (matrix_solver_direct_t.vsetup_nz N rows 0).m_nzrd
        ↔ 1 ≤ c ∧ ∃ i, i < (rows 0).m_railstart ∧ (rows 0).net_other i = (c : Int)) ∧
      (∀ k, 1 ≤ k → k < N → ∀ c, c ∈ (matrix_solver_direct_t.vsetup_nz N rows k).m_nzrd
        ↔ (c ∈ (matrix_solver_direct_t.vsetup_nz N rows (k - 1)).m_nzrd ∧ k + 1 ≤ c) ∨
          (k + 1 ≤ c ∧ ∃ i, i < (rows k).m_railstart ∧ (rows k).net_other i = (c : Int))) ∧
      (∀ k, k < N → ∀ c, c ∈ (matrix_solver_direct_t.vsetup_nz N rows k).m_nzrd
        ↔ k < c ∧ ∃ j, j ≤ k ∧ ∃ i, i < (rows j).m_railstart ∧
            (rows j).net_other i = (c : Int))) ∧
    ((0 < N → ∀ c, c ∈ (matrix_solver_w_t.vsetup_nz N rows 0).m_nzrd
        ↔ 1 ≤ c ∧ ∃ i, i < (rows 0).m_railstart ∧ (rows 0).net_other i = (c : Int)) ∧
      (∀ k, 1 ≤ k → k < N → ∀ c, c ∈ (matrix_solver_w_t.vsetup_nz N rows k).m_nzrd
        ↔ (c ∈ (matrix_solver_w_t.vsetup_nz N rows (k - 1)).m_nzrd ∧ k + 1 ≤ c) ∨
          (k + 1 ≤ c ∧ ∃ i, i < (rows k).m_railstart ∧ (rows k).net_other i = (c : Int))) ∧
      (∀ k, k < N → ∀ c, c ∈ (matrix_solver_w_t.vsetup_nz N rows k).m_nzrd
        ↔ k < c ∧ ∃ j, j ≤ k ∧ ∃ i, i < (rows j).m_railstart ∧
            (rows j).net_other i = (c : Int))) := by
  have key : ∀ V : Nat → terms_t,
      (∀ k, k < N → ∀ c, c ∈ (V k).m_nzrd
        ↔ k < c ∧ ∃ j, j ≤ k ∧ coupled (rows j) (rows j).m_railstart c) →
      (0 < N → ∀ c, c ∈ (V 0).m_nzrd
        ↔ 1 ≤ c ∧ ∃ i, i < (rows 0).m_railstart ∧ (rows 0).net_other i = (c : Int)) ∧
      (∀ k, 1 ≤ k → k < N → ∀ c, c ∈ (V k).m_nzrd
        ↔ (c ∈ (V (k - 1)).m_nzrd ∧ k + 1 ≤ c) ∨
          (k + 1 ≤ c ∧ ∃ i, i < (rows k).m_railstart ∧ (rows k).net_other i = (c : Int))) ∧
      (∀ k, k < N → ∀ c, c ∈ (V k).m_nzrd
        ↔ k < c ∧ ∃ j, j ≤ k ∧ ∃ i, i < (rows j).m_railstart ∧
            (rows j).net_other i = (c : Int)) := by
    intro V hV
    refine ⟨fun h0 c => ?_, fun k h1 hk c => ?_, fun k hk c => ?_⟩
    · rw [hV 0 h0 c]
      constructor
      · rintro ⟨hc, j, hj, hcj⟩
        have hj0 : j = 0 := by omega
        subst hj0
        exact ⟨hc, (coupled_iff N _ (hwf 0 h0) c).mp hcj⟩
      · rintro ⟨hc, hi⟩
        exact ⟨hc, 0, Nat.le_refl 0, (coupled_iff N _ (hwf 0 h0) c).mpr hi⟩
    · rw [hV k hk c, hV (k - 1) (by omega) c]
      constructor
      · rintro ⟨hc, j, hj, hcj⟩
        by_cases hjk : j = k
        · subst hjk
          exact Or.inr ⟨hc, (coupled_iff N _ (hwf j hk) c).mp hcj⟩
        · exact Or.inl ⟨⟨by omega, j, by omega, hcj⟩, hc⟩
      · rintro (⟨⟨-, j, hj, hcj⟩, hc⟩ | ⟨hc, hi⟩)
        · exact ⟨hc, j, by omega, hcj⟩
        · exact ⟨hc, k, Nat.le_refl k, (coupled_iff N _ (hwf k hk) c).mpr hi⟩
    · rw [hV k hk c]
      constructor
      · rintro ⟨hc, j, hj, hcj⟩
        exact ⟨hc, j, hj, (coupled_iff N _ (hwf j (by omega)) c).mp hcj⟩
      · rintro ⟨hc, j, hj, hi⟩
        exact ⟨hc, j, hj, (coupled_iff N _ (hwf j (by omega)) c).mpr hi⟩
  exact ⟨key _ (fun k hk => (matrix_solver_direct_t.vsetup_nz_spec N rows k hk).2.2.2.1),
    key _ (fun k hk => (matrix_solver_w_t.w_vsetup_nz_spec N rows k hk).2.2.1)⟩

/-- Witness of `nzrd_recurrence`: column 1 and row 0 of the two-net scenario in the
Woodbury solver. -/
theorem nzrd_recurrence_witness :
    1 ∈ (matrix_solver_w_t.vsetup_nz 2 scenario_rows 0).m_nzrd
      ↔ 1 ≤ 1 ∧ ∃ i, i < (scenario_rows 0).m_railstart ∧
          (scenario_rows 0).net_other i = ((1 : Nat) : Int) :=
  (nzrd_recurrence 2 scenario_rows scenario_rows_wf).2.1 (by decide) 1

/-! ## Setup of the rows: partition and capacity -/

namespace terms_list_t

theorem add_railstart (pos : List (terminal_t × Int) → Int → Nat) (t : terms_list_t)
    (term : terminal_t) (o : Int) (sorted : Bool) :
    (add pos t term o sorted).m_railstart = t.m_railstart := by
  unfold add
  cases sorted <;> simp

theorem add_perm (pos : List (terminal_t × Int) → Int → Nat) (t : terms_list_t)
    (term : terminal_t) (o : Int) (sorted : Bool) :
    (add pos t term o sorted).terms.Perm ((term, o) :: t.terms) := by
  unfold add
  cases sorted
  · simp only [Bool.false_eq_true, if_false]
    exact List.perm_append_singleton _ _
  · simp only [if_true]
    have h1 : (t.terms.take (pos t.terms o) ++ [(term, o)] ++ t.terms.drop (pos t.terms o)).Perm
        ((term, o) :: (t.terms.take (pos t.terms o) ++ t.terms.drop (pos t.terms o))) := by
      rw [List.append_assoc]
      exact List.perm_middle
    rw [List.take_append_drop] at h1
    exact h1

theorem add_mem (pos : List (terminal_t × Int) → Int → Nat) (t : terms_list_t)
    (term : terminal_t) (o : Int) (sorted : Bool) (e : terminal_t × Int) :
    e ∈ (add pos t term o sorted).terms ↔ e = (term, o) ∨ e ∈ t.terms := by
  rw [(add_perm pos t term o sorted).mem_iff, List.mem_cons]

end terms_list_t

namespace matrix_solver_direct_t

/-- What the calls of `add_term` for the terminals `ts` leave in the two lists. -/
theorem setup_row_spec (pos : List (terminal_t × Int) → Int → Nat) (ts : List terminal_t)
    (s : terms_list_t × terms_list_t) :
    (∀ e, e ∈ (setup_row pos ts s).1.terms → e ∈ s.1.terms ∨
      (e.1 ∈ ts ∧ e.1.otherterm_isRailNet = false ∧ 0 ≤ e.1.otherterm_net_idx ∧
        e.2 = e.1.otherterm_net_idx)) ∧
    (∀ e, e ∈ (setup_row pos ts s).2.terms → e ∈ s.2.terms ∨
      (e.1 ∈ ts ∧ (e.1.otherterm_isRailNet = true ∨ e.1.otherterm_net_idx < 0) ∧ e.2 < 0)) ∧
    (((setup_row pos ts s).1.terms ++ (setup_row pos ts s).2.terms).map Prod.fst).Perm
      ((s.1.terms ++ s.2.terms).map Prod.fst ++ ts) := by
  unfold setup_row
  induction ts generalizing s with
  | nil => simp
  | cons term ts ih =>
    rw [List.foldl_cons]
    obtain ⟨ih1, ih2, ih3⟩ := ih (add_term pos term s)
    have hstep : (∀ e, e ∈ (add_term pos term s).1.terms → e ∈ s.1.terms ∨
          (e.1 = term ∧ e.1.otherterm_isRailNet = false ∧ 0 ≤ e.1.otherterm_net_idx ∧
            e.2 = e.1.otherterm_net_idx)) ∧
        (∀ e, e ∈ (add_term pos term s).2.terms → e ∈ s.2.terms ∨
          (e.1 = term ∧ (e.1.otherterm_isRailNet = true ∨ e.1.otherterm_net_idx < 0) ∧
            e.2 < 0)) ∧
        (((add_term pos term s).1.terms ++ (add_term pos term s).2.terms).map Prod.fst).Perm
          (term :: (s.1.terms ++ s.2.terms).map Prod.fst) := by
      unfold add_term
      by_cases hr : term.otherterm_isRailNet = true
      · rw [if_pos hr]
        refine ⟨fun e he => Or.inl he, fun e he => ?_, ?_⟩
        · rcases (terms_list_t.add_mem pos s.2 term (-1) false e).mp he with h | h
          · rw [h]; exact Or.inr ⟨rfl, Or.inl hr, show (-1 : Int) < 0 by decide⟩
          · exact Or.inl h
        · have hp := terms_list_t.add_perm pos s.2 term (-1) false
          have h1 : (s.1.terms ++ (terms_list_t.add pos s.2 term (-1) false).terms).Perm
              ((term, (-1 : Int)) :: (s.1.terms ++ s.2.terms)) :=
            (List.Perm.append_left s.1.terms hp).trans List.perm_middle
          exact h1.map Prod.fst
      · rw [if_neg hr]
        simp only
        have hr1 : term.otherterm_isRailNet = false := by
          cases h : term.otherterm_isRailNet
          · rfl
          · exact absurd h hr
        by_cases ho : term.otherterm_net_idx ≥ 0
        · rw [if_pos ho]
          refine ⟨fun e he => ?_, fun e he => Or.inl he, ?_⟩
          · rcases (terms_list_t.add_mem pos s.1 term _ true e).mp he with h | h
            · rw [h]; exact Or.inr ⟨rfl, hr1, ho, rfl⟩
            · exact Or.inl h
          · have hp := terms_list_t.add_perm pos s.1 term term.otherterm_net_idx true
            have h1 : ((terms_list_t.add pos s.1 term term.otherterm_net_idx true).terms
                ++ s.2.terms).Perm
                ((term, term.otherterm_net_idx) :: (s.1.terms ++ s.2.terms)) :=
              List.Perm.append_right s.2.terms hp
            exact h1.map Prod.fst
        · rw [if_neg ho]
          refine ⟨fun e he => Or.inl he, fun e he => ?_, ?_⟩
          · rcases (terms_list_t.add_mem pos s.2 term _ true e).mp he with h | h
            · rw [h]
              exact Or.inr ⟨rfl, Or.inr (show term.otherterm_net_idx < 0 by omega),
                show term.otherterm_net_idx < 0 by omega⟩
            · exact Or.inl h
          · have hp := terms_list_t.add_perm pos s.2 term term.otherterm_net_idx true
            have h1 : (s.1.terms
                ++ (terms_list_t.add pos s.2 term term.otherterm_net_idx true).terms).Perm
                ((term, term.otherterm_net_idx) :: (s.1.terms ++ s.2.terms)) :=
              (List.Perm.append_left s.1.terms hp).trans List.perm_middle
            exact h1.map Prod.fst
    obtain ⟨g1, g2, g3⟩ := hstep
    refine ⟨fun e he => ?_, fun e he => ?_, ?_⟩
    · rcases ih1 e he with h | ⟨h1, h2⟩
      · rcases g1 e h with h | ⟨h1, h2⟩
        · exact Or.inl h
        · exact Or.inr ⟨by rw [h1]; exact List.mem_cons_self _ _, h2⟩
      · exact Or.inr ⟨List.mem_cons_of_mem _ h1, h2⟩
    · rcases ih2 e he with h | ⟨h1, h2⟩
      · rcases g2 e h with h | ⟨h1, h2⟩
        · exact Or.inl h
        · exact Or.inr ⟨by rw [h1]; exact List.mem_cons_self _ _, h2⟩
      · exact Or.inr ⟨List.mem_cons_of_mem _ h1, h2⟩
    · refine ih3.trans ?_
      refine (List.Perm.append_right ts g3).trans ?_
      rw [List.cons_append]
      exact List.perm_middle.symm

/-- The loop that appends the rail terms puts the entries of `m_rails_temp[k]`
behind those of `m_terms[k]`, in their order. -/
theorem vsetup_rails_spec (pos : List (terminal_t × Int) → Int → Nat)
    (s : terms_list_t × terms_list_t) :
    (vsetup_rails pos s).1.terms = s.1.terms ++ s.2.terms ∧
    (vsetup_rails pos s).1.m_railstart = s.1.terms.length ∧
    (vsetup_rails pos s).2.terms = [] := by
  have key : ∀ (l : List (terminal_t × Int)) (t : terms_list_t),
      (l.foldl (fun t e => terms_list_t.add pos t e.1 e.2 false) t).terms = t.terms ++ l ∧
      (l.foldl (fun t e => terms_list_t.add pos t e.1 e.2 false) t).m_railstart
        = t.m_railstart := by
    intro l
    induction l with
    | nil => intro t; simp
    | cons e l ih =>
      intro t
      rw [List.foldl_cons]
      obtain ⟨h1, h2⟩ := ih (terms_list_t.add pos t e.1 e.2 false)
      rw [h1, h2]
      unfold terms_list_t.add
      simp
  unfold vsetup_rails
  simp only
  obtain ⟨h1, h2⟩ := key s.2.terms { s.1 with m_railstart := s.1.count }
  exact ⟨h1, h2, rfl⟩

end matrix_solver_direct_t

/-- C17: the row partition.  For the row that `vsetup` builds from the terminals
`ts` of a net, whatever the lists held before and wherever a sorted insert puts a
term: `m_railstart <= count`; every entry at an index below `m_railstart` is a
terminal of `ts` whose other net is no rail and has an index `>= 0`, stored with
that index; every entry at an index from `m_railstart` up to `count` is a terminal
of `ts` whose other net is a rail or is missing, stored with a negative `net_other`;
the terminals of the row are those of `ts`, each as often as in `ts`;
`m_rails_temp` is empty afterwards; and the appending loop of the direct and of the
Woodbury solver puts the rail list behind the matrix list as it is and sets
`m_railstart` to the former `count`. -/
theorem row_partition (pos : List (terminal_t × Int) → Int → Nat)
    (old : terms_list_t × terms_list_t) (ts : List terminal_t) :
    (matrix_solver_direct_t.vsetup_row pos old ts).1.m_railstart
      ≤ (matrix_solver_direct_t.vsetup_row pos old ts).1.count ∧
    (∀ i, i < (matrix_solver_direct_t.vsetup_row pos old ts).1.m_railstart →
      ∃ e, (matrix_solver_direct_t.vsetup_row pos old ts).1.terms[i]? = some e ∧ e.1 ∈ ts ∧
        e.1.otherterm_isRailNet = false ∧ 0 ≤ e.1.otherterm_net_idx ∧
        e.2 = e.1.otherterm_net_idx) ∧
    (∀ i, (matrix_solver_direct_t.vsetup_row pos old ts).1.m_railstart ≤ i →
      i < (matrix_solver_direct_t.vsetup_row pos old ts).1.count →
      ∃ e, (matrix_solver_direct_t.vsetup_row pos old ts).1.terms[i]? = some e ∧ e.1 ∈ ts ∧
        (e.1.otherterm_isRailNet = true ∨ e.1.otherterm_net_idx < 0) ∧ e.2 < 0) ∧
    ((matrix_solver_direct_t.vsetup_row pos old ts).1.terms.map Prod.fst).Perm ts ∧
    (matrix_solver_direct_t.vsetup_row pos old ts).2.terms = [] ∧
    (∀ s : terms_list_t × terms_list_t,
      (matrix_solver_direct_t.vsetup_rails pos s).1.terms = s.1.terms ++ s.2.terms ∧
      (matrix_solver_direct_t.vsetup_rails pos s).1.m_railstart = s.1.count ∧
      (matrix_solver_w_t.vsetup_rails pos s).1.terms = s.1.terms ++ s.2.terms ∧
      (matrix_solver_w_t.vsetup_rails pos s).1.m_railstart = s.1.count) := by
  obtain ⟨p1, p2, p3⟩ := matrix_solver_direct_t.setup_row_spec pos ts
    (old.1.clear, old.2.clear)
  obtain ⟨r1, r2, r3⟩ := matrix_solver_direct_t.vsetup_rails_spec pos
    (matrix_solver_direct_t.setup_row pos ts (old.1.clear, old.2.clear))
  unfold matrix_solver_direct_t.vsetup_row
  unfold terms_list_t.count
  rw [r1, r2, r3]
  refine ⟨?_, fun i hi => ?_, fun i hi hi2 => ?_, ?_, rfl, fun s => ?_⟩
  · rw [List.length_append]
    exact Nat.le_add_right _ _
  · rw [List.getElem?_append_left hi, List.getElem?_eq_getElem hi]
    refine ⟨_, rfl, ?_⟩
    rcases p1 _ (List.getElem_mem hi) with h | h
    · exact absurd h (by simp [terms_list_t.clear])
    · exact h
  · rw [List.length_append] at hi2
    have hlt : i - (matrix_solver_direct_t.setup_row pos ts
        (old.1.clear, old.2.clear)).1.terms.length
        < (matrix_solver_direct_t.setup_row pos ts (old.1.clear, old.2.clear)).2.terms.length := by
      omega
    rw [List.getElem?_append_right hi, List.getElem?_eq_getElem hlt]
    refine ⟨_, rfl, ?_⟩
    rcases p2 _ (List.getElem_mem hlt) with h | h
    · exact absurd h (by simp [terms_list_t.clear])
    · exact h
  · simpa [terms_list_t.clear] using p3
  · obtain ⟨q1, q2, -⟩ := matrix_solver_direct_t.vsetup_rails_spec pos s
    exact ⟨q1, q2, q1, q2⟩

/-- C18: the capacity check at the head of `vsetup`, in the direct and in the
Woodbury solver, raises its error exactly when the number of nets passed in is
greater than `m_dim`; with `nets.size() <= m_dim`, equality included, it passes. -/
theorem capacity_check (m_dim nets_size : Nat) :
    (matrix_solver_direct_t.vsetup_check m_dim nets_size = none ↔ m_dim < nets_size) ∧
    (matrix_solver_w_t.vsetup_check m_dim nets_size = none ↔ m_dim < nets_size) ∧
    (nets_size ≤ m_dim → matrix_solver_direct_t.vsetup_check m_dim nets_size = some () ∧
      matrix_solver_w_t.vsetup_check m_dim nets_size = some ()) := by
  unfold matrix_solver_direct_t.vsetup_check matrix_solver_w_t.vsetup_check
  by_cases h : m_dim < nets_size
  · simp [h]
  · simp [h]

/-! ## Timestep controller: the next step -/

namespace matrix_solver_direct_t

/-- The loop of `compute_next_timestep` over the first `n` nets when no divisor is
zero: the running step is the least of the start value and the candidates of the
nets visited, and every visited net has its history updated. -/
theorem compute_next_timestep_fold (sqrt : ℚ → ℚ) (p : solver_parameters_t) (hn : ℚ)
    (m_last_V : Vec) (m_nets : Nat → analog_net_t) (T0 : ℚ) (hhn : hn ≠ 0) (n : Nat)
    (hh : ∀ k, k < n → (m_nets k).m_h_n_m_1 ≠ 0 ∧ hn + (m_nets k).m_h_n_m_1 ≠ 0) :
    ∃ r nets1, (List.range n).foldlM
        (fun st k => compute_next_timestep_net sqrt p hn m_last_V k st) (T0, m_nets)
        = some (r, nets1) ∧
      r ≤ T0 ∧
      (∀ k, k < n → r ≤ new_net_timestep sqrt p hn (m_last_V k) (m_nets k)) ∧
      (r = T0 ∨ ∃ k, k < n ∧ r = new_net_timestep sqrt p hn (m_last_V k) (m_nets k)) ∧
      (∀ k, nets1 k = if k < n then
          { m_nets k with m_h_n_m_1 := hn, m_DD_n_m_1 := (m_nets k).m_cur_Analog - m_last_V k }
        else m_nets k) := by
  induction n with
  | zero =>
    exact ⟨T0, m_nets, rfl, le_refl _, fun k hk => absurd hk (Nat.not_lt_zero k), Or.inl rfl,
      fun k => by simp⟩
  | succ n ih =>
    obtain ⟨r, nets1, h1, h2, h3, h4, h5⟩ := ih (fun k hk => hh k (by omega))
    rw [List.range_succ, List.foldlM_append, h1]
    simp only [List.foldlM_cons, List.foldlM_nil, Option.pure_def, Option.bind_eq_bind,
      Option.some_bind]
    have hn5 : nets1 n = m_nets n := by rw [h5 n, if_neg (Nat.lt_irrefl n)]
    obtain ⟨g1, g2⟩ := hh n (Nat.lt_succ_self n)
    unfold compute_next_timestep_net
    simp only [hn5]
    rw [if_neg (by
      rintro (h | h | h)
      · exact hhn h
      · exact g1 h
      · exact g2 h)]
    simp only [Option.bind_some]
    refine ⟨_, _, rfl, ?_, fun k hk => ?_, ?_, fun k => ?_⟩
    · by_cases hlt : new_net_timestep sqrt p hn (m_last_V n) (m_nets n) < r
      · rw [if_pos hlt]; exact le_trans (le_of_lt hlt) h2
      · rw [if_neg hlt]; exact h2
    · by_cases hlt : new_net_timestep sqrt p hn (m_last_V n) (m_nets n) < r
      · rw [if_pos hlt]
        by_cases hkn : k = n
        · rw [hkn]
        · exact le_trans (le_of_lt hlt) (h3 k (by omega))
      · rw [if_neg hlt]
        by_cases hkn : k = n
        · rw [hkn]; exact not_lt.mp hlt
        · exact h3 k (by omega)
    · by_cases hlt : new_net_timestep sqrt p hn (m_last_V n) (m_nets n) < r
      · rw [if_pos hlt]
        exact Or.inr ⟨n, Nat.lt_succ_self n, rfl⟩
      · rw [if_neg hlt]
        rcases h4 with h | ⟨k, hk, h⟩
        · exact Or.inl h
        · exact Or.inr ⟨k, by omega, h⟩
    · by_cases hkn : k = n
      · subst hkn
        rw [Function.update_same, if_pos (Nat.lt_succ_self k)]
      · rw [Function.update_noteq hkn, h5 k]
        by_cases hk : k < n
        · rw [if_pos hk, if_pos (by omega)]
        · rw [if_neg hk, if_neg (by omega)]

end matrix_solver_direct_t

/-- C19: the timestep controller with dynamic stepping disabled.  For every net
state, every `current_timestep`, every `m_last_V` and every parameter set with
`m_dynamic = false` (whatever `m_min_timestep` is, also one above `m_max_timestep`),
`compute_next_timestep` returns exactly `m_max_timestep` and leaves the nets, and
with them every stored previous step size and first difference, unchanged. -/
theorem next_timestep_static (sqrt : ℚ → ℚ) (m_params : solver_parameters_t) (iN : Nat)
    (hn : ℚ) (m_last_V : Vec) (m_nets : Nat → analog_net_t)
    (hdyn : m_params.m_dynamic = false) :
    matrix_solver_direct_t.compute_next_timestep sqrt m_params iN hn m_last_V m_nets
      = some (m_params.m_max_timestep, m_nets) := by
  unfold matrix_solver_direct_t.compute_next_timestep
  rw [hdyn]
  rfl

/-- Witness of `next_timestep_static`. -/
theorem next_timestep_static_witness :
    matrix_solver_direct_t.compute_next_timestep sqrt_exact
      { m_max_timestep := 1, m_min_timestep := 5, m_lte := 2, m_dynamic := false } 1 0
      (fun _ => 0) (fun _ => { m_cur_Analog := 2, m_h_n_m_1 := 0, m_DD_n_m_1 := 7 })
      = some (1, fun _ => { m_cur_Analog := 2, m_h_n_m_1 := 0, m_DD_n_m_1 := 7 }) :=
  next_timestep_static sqrt_exact
    { m_max_timestep := 1, m_min_timestep := 5, m_lte := 2, m_dynamic := false } 1 0
    (fun _ => 0) (fun _ => { m_cur_Analog := 2, m_h_n_m_1 := 0, m_DD_n_m_1 := 7 }) rfl

/-- C20 (amended): the timestep controller with dynamic stepping enabled and at
least one net, in a call in which no divisor (`hn`, `m_h_n_m_1`, `hn + m_h_n_m_1`) is
zero.  The value returned is `max(min_timestep, min(max_timestep, m))`, where `m` is
the least candidate step over the nets `k < N`; the candidate of a net is
`sqrt(lte / (0.5 |DD2|))` when `|DD2| > 1e-30` and `max_timestep` otherwise, with
`DD2 = (DD_n / hn - DD_prev / h_prev) / (hn + h_prev)` and
`DD_n = m_cur_Analog - m_last_V[k]`. -/
theorem next_timestep_dynamic (sqrt : ℚ → ℚ) (m_params : solver_parameters_t) (iN : Nat)
    (hn : ℚ) (m_last_V : Vec) (m_nets : Nat → analog_net_t)
    (hdyn : m_params.m_dynamic = true) (hN : 0 < iN) (hhn : hn ≠ 0)
    (hh : ∀ k, k < iN → (m_nets k).m_h_n_m_1 ≠ 0 ∧ hn + (m_nets k).m_h_n_m_1 ≠ 0) :
    (∃ nets1, matrix_solver_direct_t.compute_next_timestep sqrt m_params iN hn m_last_V m_nets
      = some (max m_params.m_min_timestep (min m_params.m_max_timestep
          ((Finset.range iN).inf' ⟨0, Finset.mem_range.mpr hN⟩
            (fun k => matrix_solver_direct_t.new_net_timestep sqrt m_params hn (m_last_V k)
              (m_nets k)))), nets1)) ∧
    (∀ k, matrix_solver_direct_t.new_net_timestep sqrt m_params hn (m_last_V k) (m_nets k)
      = if |matrix_solver_direct_t.DD2 hn (m_last_V k) (m_nets k)| > 1 / 10 ^ 30 then
          sqrt (m_params.m_lte / ((1 / 2) * |matrix_solver_direct_t.DD2 hn (m_last_V k) (m_nets k)|))
        else m_params.m_max_timestep) ∧
    (∀ k, matrix_solver_direct_t.DD2 hn (m_last_V k) (m_nets k)
      = (((m_nets k).m_cur_Analog - m_last_V k) / hn - (m_nets k).m_DD_n_m_1 / (m_nets k).m_h_n_m_1)
          / (hn + (m_nets k).m_h_n_m_1)) := by
  refine ⟨?_, fun k => ?_, fun k => rfl⟩
  · obtain ⟨r, nets1, h1, h2, h3, h4, -⟩ :=
      matrix_solver_direct_t.compute_next_timestep_fold sqrt m_params hn m_last_V m_nets
        m_params.m_max_timestep hhn iN hh
    refine ⟨nets1, ?_⟩
    unfold matrix_solver_direct_t.compute_next_timestep
    rw [if_pos hdyn, h1, Option.map_some']
    have hr : r = min m_params.m_max_timestep
        ((Finset.range iN).inf' ⟨0, Finset.mem_range.mpr hN⟩
          (fun k => matrix_solver_direct_t.new_net_timestep sqrt m_params hn (m_last_V k)
            (m_nets k))) := by
      apply le_antisymm
      · refine le_min h2 ?_
        rw [Finset.le_inf'_iff]
        intro k hk
        exact h3 k (Finset.mem_range.mp hk)
      · rcases h4 with h | ⟨k, hk, h⟩
        · rw [h]; exact min_le_left _ _
        · rw [h]
          exact le_trans (min_le_right _ _) (Finset.inf'_le _ (Finset.mem_range.mpr hk))
    rw [← hr]
    by_cases hlt : r < m_params.m_min_timestep
    · simp only [if_pos hlt, max_eq_left (le_of_lt hlt)]
    · simp only [if_neg hlt, max_eq_right (not_lt.mp hlt)]
  · unfold matrix_solver_direct_t.new_net_timestep
    rw [abs_mul, abs_of_pos (by norm_num : (0 : ℚ) < 1 / 2)]


theorem sqrt_exact_four : sqrt_exact 4 = 2 := by
  have h1 : ((4 : ℚ)).num = 4 := rfl
  have h2 : ((4 : ℚ)).den = 1 := rfl
  have h3 : Nat.sqrt 4 = 2 := Nat.sqrt_eq 2
  unfold sqrt_exact
  rw [h1, h2, Nat.sqrt_one]
  simp [h3]

/-- Witness of `next_timestep_dynamic`: one net whose voltage has moved by 2 in a
step of 1 after a step of 1 without movement. -/
theorem next_timestep_dynamic_witness :
    ∃ nets1, matrix_solver_direct_t.compute_next_timestep sqrt_exact
        { m_max_timestep := 1, m_min_timestep := 1 / 10, m_lte := 2, m_dynamic := true } 1 1
        (fun _ => 0) (fun _ => { m_cur_Analog := 2, m_h_n_m_1 := 1, m_DD_n_m_1 := 0 })
      = some (max (1 / 10) (min 1
          ((Finset.range 1).inf' ⟨0, Finset.mem_range.mpr Nat.one_pos⟩
            (fun k => matrix_solver_direct_t.new_net_timestep sqrt_exact
              { m_max_timestep := 1, m_min_timestep := 1 / 10, m_lte := 2, m_dynamic := true } 1
              ((fun _ => 0 : Vec) k)
              ((fun _ => { m_cur_Analog := 2, m_h_n_m_1 := 1, m_DD_n_m_1 := 0 }
                : Nat → analog_net_t) k)))), nets1) :=
  (next_timestep_dynamic sqrt_exact
    { m_max_timestep := 1, m_min_timestep := 1 / 10, m_lte := 2, m_dynamic := true } 1 1
    (fun _ => 0) (fun _ => { m_cur_Analog := 2, m_h_n_m_1 := 1, m_DD_n_m_1 := 0 }) rfl
    Nat.one_pos one_ne_zero (fun _ _ => ⟨one_ne_zero, by norm_num⟩)).1

/-- C20 (counterexample): one net, `max_timestep = 1`, `min_timestep = 1/10`,
`lte = 2`, `hn = h_prev = 1`, `DD_prev = 0` and a voltage that has moved from 0 to 2.
Then `DD2 = 1`, the candidate step of the net is `sqrt(2 / 0.5) = 2`, and
`compute_next_timestep` returns `1`, the maximum timestep, not
`max(min_timestep, m) = 2`. -/
theorem next_timestep_capped :
    sqrt_exact 4 = 2 ∧
    matrix_solver_direct_t.DD2 1 0 { m_cur_Analog := 2, m_h_n_m_1 := 1, m_DD_n_m_1 := 0 } = 1 ∧
    matrix_solver_direct_t.new_net_timestep sqrt_exact
      { m_max_timestep := 1, m_min_timestep := 1 / 10, m_lte := 2, m_dynamic := true } 1 0
      { m_cur_Analog := 2, m_h_n_m_1 := 1, m_DD_n_m_1 := 0 } = 2 ∧
    (matrix_solver_direct_t.compute_next_timestep sqrt_exact
        { m_max_timestep := 1, m_min_timestep := 1 / 10, m_lte := 2, m_dynamic := true } 1 1
        (fun _ => 0) (fun _ => { m_cur_Analog := 2, m_h_n_m_1 := 1, m_DD_n_m_1 := 0 })).map
      Prod.fst = some 1 ∧
    max (1 / 10 : ℚ) ((Finset.range 1).inf' ⟨0, Finset.mem_range.mpr Nat.one_pos⟩
      (fun _ => matrix_solver_direct_t.new_net_timestep sqrt_exact
        { m_max_timestep := 1, m_min_timestep := 1 / 10, m_lte := 2, m_dynamic := true } 1 0
        { m_cur_Analog := 2, m_h_n_m_1 := 1, m_DD_n_m_1 := 0 })) = 2 := by
  have hD : matrix_solver_direct_t.DD2 1 0
      { m_cur_Analog := 2, m_h_n_m_1 := 1, m_DD_n_m_1 := 0 } = 1 := by
    unfold matrix_solver_direct_t.DD2
    norm_num
  have hT : matrix_solver_direct_t.new_net_timestep sqrt_exact
      { m_max_timestep := 1, m_min_timestep := 1 / 10, m_lte := 2, m_dynamic := true } 1 0
      { m_cur_Analog := 2, m_h_n_m_1 := 1, m_DD_n_m_1 := 0 } = 2 := by
    unfold matrix_solver_direct_t.new_net_timestep
    rw [hD]
    have h4 : (2 : ℚ) / |1 / 2 * 1| = 4 := by
      rw [abs_of_pos (by norm_num : (0 : ℚ) < 1 / 2 * 1)]
      norm_num
    rw [if_pos (by rw [abs_one]; norm_num)]
    show sqrt_exact ((2 : ℚ) / |1 / 2 * 1|) = 2
    rw [h4]
    exact sqrt_exact_four
  refine ⟨sqrt_exact_four, hD, hT, ?_, ?_⟩
  · unfold matrix_solver_direct_t.compute_next_timestep
    rw [if_pos rfl, show List.range 1 = [0] from rfl, List.foldlM_cons]
    have hstep : matrix_solver_direct_t.compute_next_timestep_net sqrt_exact
        { m_max_timestep := 1, m_min_timestep := 1 / 10, m_lte := 2, m_dynamic := true } 1
        (fun _ => 0) 0
        (({ m_max_timestep := 1, m_min_timestep := 1 / 10, m_lte := 2, m_dynamic := true }
            : solver_parameters_t).m_max_timestep,
          fun _ => { m_cur_Analog := 2, m_h_n_m_1 := 1, m_DD_n_m_1 := 0 })
        = some (1, Function.update
            (fun _ => { m_cur_Analog := 2, m_h_n_m_1 := 1, m_DD_n_m_1 := 0 }) 0
            { m_cur_Analog := 2, m_h_n_m_1 := 1, m_DD_n_m_1 := 2 - 0 }) := by
      unfold matrix_solver_direct_t.compute_next_timestep_net
      simp only [hT]
      norm_num
    rw [hstep]
    simp only [Option.bind_eq_bind, Option.some_bind, List.foldlM_nil, Option.pure_def,
      Option.map_some']
    norm_num
  · rw [Finset.inf'_const, hT]
    norm_num

/-! ## Timestep controller: limits and history -/

theorem sqrt_exact_le_one (x : ℚ) (h0 : 0 ≤ x) (h1 : x ≤ 1) : sqrt_exact x ≤ 1 := by
  unfold sqrt_exact
  have hd : 0 < x.den := x.den_pos
  have hnum : 0 ≤ x.num := Rat.num_nonneg.mpr h0
  have hle : x.num ≤ (x.den : Int) := by
    have h2 : (x.num : ℚ) / (x.den : ℚ) ≤ 1 := by rw [Rat.num_div_den]; exact h1
    have hdq : (0 : ℚ) < (x.den : ℚ) := by exact_mod_cast hd
    rw [div_le_one hdq] at h2
    exact_mod_cast h2
  have hn : x.num.toNat ≤ x.den := by omega
  have hs : Nat.sqrt x.num.toNat ≤ Nat.sqrt x.den := Nat.sqrt_le_sqrt hn
  have hp : 0 < Nat.sqrt x.den := Nat.sqrt_pos.mpr hd
  have hpq : (0 : ℚ) < (Nat.sqrt x.den : ℚ) := by exact_mod_cast hp
  rw [div_le_one hpq]
  exact_mod_cast hs

theorem sqrt_exact_one : sqrt_exact 1 = 1 := by
  have h1 : ((1 : ℚ)).num = 1 := rfl
  have h2 : ((1 : ℚ)).den = 1 := rfl
  unfold sqrt_exact
  rw [h1, h2]
  simp

/-- C21: the timestep controller with dynamic stepping enabled and
`min_timestep <= max_timestep`, in a call in which no divisor is zero: if `DD2 = 0`
for every net `k < N`, `compute_next_timestep` returns exactly `max_timestep`; and
`DD2` is 0 for a net whose voltage difference and previous difference are both 0. -/
theorem next_timestep_flat (sqrt : ℚ → ℚ) (m_params : solver_parameters_t) (iN : Nat) (hn : ℚ)
    (m_last_V : Vec) (m_nets : Nat → analog_net_t)
    (hdyn : m_params.m_dynamic = true)
    (hmm : m_params.m_min_timestep ≤ m_params.m_max_timestep) (hhn : hn ≠ 0)
    (hh : ∀ k, k < iN → (m_nets k).m_h_n_m_1 ≠ 0 ∧ hn + (m_nets k).m_h_n_m_1 ≠ 0)
    (hDD : ∀ k, k < iN → matrix_solver_direct_t.DD2 hn (m_last_V k) (m_nets k) = 0) :
    (∃ nets1, matrix_solver_direct_t.compute_next_timestep sqrt m_params iN hn m_last_V m_nets
      = some (m_params.m_max_timestep, nets1)) ∧
    (∀ (n : analog_net_t) (last_V : ℚ), n.m_cur_Analog - last_V = 0 → n.m_DD_n_m_1 = 0 →
      matrix_solver_direct_t.DD2 hn last_V n = 0) := by
  refine ⟨?_, fun n last_V h1 h2 => ?_⟩
  · obtain ⟨r, nets1, h1, h2, h3, h4, -⟩ :=
      matrix_solver_direct_t.compute_next_timestep_fold sqrt m_params hn m_last_V m_nets
        m_params.m_max_timestep hhn iN hh
    have hr : r = m_params.m_max_timestep := by
      rcases h4 with h | ⟨k, hk, h⟩
      · exact h
      · rw [h]
        unfold matrix_solver_direct_t.new_net_timestep
        rw [hDD k hk, abs_zero, if_neg (by norm_num)]
    refine ⟨nets1, ?_⟩
    unfold matrix_solver_direct_t.compute_next_timestep
    rw [if_pos hdyn, h1, Option.map_some', hr]
    simp only [if_neg (not_lt.mpr hmm)]
  · unfold matrix_solver_direct_t.DD2
    rw [h1, h2]
    simp

/-- Witness of `next_timestep_flat`. -/
theorem next_timestep_flat_witness :
    (∃ nets1, matrix_solver_direct_t.compute_next_timestep sqrt_exact
        { m_max_timestep := 2, m_min_timestep := 1, m_lte := 1 / 2, m_dynamic := true } 1 1
        (fun _ => 2) (fun _ => { m_cur_Analog := 2, m_h_n_m_1 := 1, m_DD_n_m_1 := 0 })
      = some (2, nets1)) ∧
    (∀ (n : analog_net_t) (last_V : ℚ), n.m_cur_Analog - last_V = 0 → n.m_DD_n_m_1 = 0 →
      matrix_solver_direct_t.DD2 1 last_V n = 0) :=
  next_timestep_flat sqrt_exact
    { m_max_timestep := 2, m_min_timestep := 1, m_lte := 1 / 2, m_dynamic := true } 1 1
    (fun _ => 2) (fun _ => { m_cur_Analog := 2, m_h_n_m_1 := 1, m_DD_n_m_1 := 0 }) rfl
    (by norm_num) one_ne_zero (fun _ _ => ⟨one_ne_zero, by norm_num⟩)
    (fun _ _ => by unfold matrix_solver_direct_t.DD2; norm_num)

/-- C22: the lower clamp of the timestep controller.  With dynamic stepping enabled,
`lte >= 0`, `0 < min_timestep`, a square root `sqrt` that returns at most
`min_timestep` on arguments in `[0, min_timestep^2]`, and no zero divisor in the
call: whenever some net `k0 < N` has `|DD2| >= max(2 lte / min_timestep^2, 1)`,
`compute_next_timestep` returns exactly `min_timestep`, whatever the other nets and
`max_timestep` are. -/
theorem next_timestep_lower_clamp (sqrt : ℚ → ℚ) (m_params : solver_parameters_t) (iN : Nat)
    (hn : ℚ) (m_last_V : Vec) (m_nets : Nat → analog_net_t)
    (hsqrt : ∀ x, 0 ≤ x → x ≤ m_params.m_min_timestep * m_params.m_min_timestep →
      sqrt x ≤ m_params.m_min_timestep)
    (hdyn : m_params.m_dynamic = true) (hlte : 0 ≤ m_params.m_lte)
    (hmin : 0 < m_params.m_min_timestep) (hhn : hn ≠ 0)
    (hh : ∀ k, k < iN → (m_nets k).m_h_n_m_1 ≠ 0 ∧ hn + (m_nets k).m_h_n_m_1 ≠ 0)
    (k0 : Nat) (hk0 : k0 < iN)
    (hB : max (2 * m_params.m_lte / m_params.m_min_timestep ^ 2) 1
      ≤ |matrix_solver_direct_t.DD2 hn (m_last_V k0) (m_nets k0)|) :
    ∃ nets1, matrix_solver_direct_t.compute_next_timestep sqrt m_params iN hn m_last_V m_nets
      = some (m_params.m_min_timestep, nets1) := by
  obtain ⟨r, nets1, h1, -, h3, -, -⟩ :=
    matrix_solver_direct_t.compute_next_timestep_fold sqrt m_params hn m_last_V m_nets
      m_params.m_max_timestep hhn iN hh
  have hB1 : 1 ≤ |matrix_solver_direct_t.DD2 hn (m_last_V k0) (m_nets k0)| :=
    le_trans (le_max_right _ _) hB
  have hB2 : 2 * m_params.m_lte / m_params.m_min_timestep ^ 2
      ≤ |matrix_solver_direct_t.DD2 hn (m_last_V k0) (m_nets k0)| :=
    le_trans (le_max_left _ _) hB
  have hcand : matrix_solver_direct_t.new_net_timestep sqrt m_params hn (m_last_V k0) (m_nets k0)
      ≤ m_params.m_min_timestep := by
    unfold matrix_solver_direct_t.new_net_timestep
    rw [if_pos (lt_of_lt_of_le (by norm_num) hB1)]
    have hd : 0 < |1 / 2 * matrix_solver_direct_t.DD2 hn (m_last_V k0) (m_nets k0)| := by
      rw [abs_mul, abs_of_pos (by norm_num : (0 : ℚ) < 1 / 2)]
      linarith
    apply hsqrt
    · exact div_nonneg hlte (le_of_lt hd)
    · rw [div_le_iff₀ hd, abs_mul, abs_of_pos (by norm_num : (0 : ℚ) < 1 / 2)]
      have hm2 : 0 < m_params.m_min_timestep ^ 2 := by positivity
      rw [div_le_iff₀ hm2] at hB2
      nlinarith
  have hr : r ≤ m_params.m_min_timestep := le_trans (h3 k0 hk0) hcand
  refine ⟨nets1, ?_⟩
  unfold matrix_solver_direct_t.compute_next_timestep
  rw [if_pos hdyn, h1, Option.map_some']
  by_cases hlt : r < m_params.m_min_timestep
  · simp only [if_pos hlt]
  · simp only [if_neg hlt]
    rw [le_antisymm hr (not_lt.mp hlt)]

/-- Witness of `next_timestep_lower_clamp`. -/
theorem next_timestep_lower_clamp_witness :
    ∃ nets1, matrix_solver_direct_t.compute_next_timestep sqrt_exact
        { m_max_timestep := 2, m_min_timestep := 1, m_lte := 1 / 2, m_dynamic := true } 1 1
        (fun _ => 0) (fun _ => { m_cur_Analog := 2, m_h_n_m_1 := 1, m_DD_n_m_1 := 0 })
      = some (1, nets1) :=
  next_timestep_lower_clamp sqrt_exact
    { m_max_timestep := 2, m_min_timestep := 1, m_lte := 1 / 2, m_dynamic := true } 1 1
    (fun _ => 0) (fun _ => { m_cur_Analog := 2, m_h_n_m_1 := 1, m_DD_n_m_1 := 0 })
    (fun x h0 h1 => sqrt_exact_le_one x h0 (by simpa using h1)) rfl (by norm_num) (by norm_num)
    one_ne_zero (fun _ _ => ⟨one_ne_zero, by norm_num⟩) 0 Nat.one_pos
    (by unfold matrix_solver_direct_t.DD2; norm_num)

/-- C23: the history update of the timestep controller.  With dynamic stepping
enabled and no zero divisor in the call, `compute_next_timestep` returns and leaves
in every net `k < N` the previous step size `hn` and the previous first difference
`m_cur_Analog - m_last_V[k]`; the net voltages are not modified, the nets from `N`
on are untouched, and the returned step is `max(min_timestep, r0)` with `r0` the
least of `max_timestep` and the candidates formed from the net values stored before
the update. -/
theorem timestep_history_update (sqrt : ℚ → ℚ) (m_params : solver_parameters_t) (iN : Nat)
    (hn : ℚ) (m_last_V : Vec) (m_nets : Nat → analog_net_t)
    (hdyn : m_params.m_dynamic = true) (hhn : hn ≠ 0)
    (hh : ∀ k, k < iN → (m_nets k).m_h_n_m_1 ≠ 0 ∧ hn + (m_nets k).m_h_n_m_1 ≠ 0) :
    ∃ r0 nets1,
      matrix_solver_direct_t.compute_next_timestep sqrt m_params iN hn m_last_V m_nets
        = some (max m_params.m_min_timestep r0, nets1) ∧
      (∀ k, k < iN → (nets1 k).m_h_n_m_1 = hn ∧
        (nets1 k).m_DD_n_m_1 = (m_nets k).m_cur_Analog - m_last_V k ∧
        (nets1 k).m_cur_Analog = (m_nets k).m_cur_Analog) ∧
      (∀ k, iN ≤ k → nets1 k = m_nets k) ∧
      r0 ≤ m_params.m_max_timestep ∧
      (∀ k, k < iN →
        r0 ≤ matrix_solver_direct_t.new_net_timestep sqrt m_params hn (m_last_V k) (m_nets k)) ∧
      (r0 = m_params.m_max_timestep ∨ ∃ k, k < iN ∧
        r0 = matrix_solver_direct_t.new_net_timestep sqrt m_params hn (m_last_V k) (m_nets k)) := by
  obtain ⟨r, nets1, h1, h2, h3, h4, h5⟩ :=
    matrix_solver_direct_t.compute_next_timestep_fold sqrt m_params hn m_last_V m_nets
      m_params.m_max_timestep hhn iN hh
  refine ⟨r, nets1, ?_, fun k hk => ?_, fun k hk => ?_, h2, h3, h4⟩
  · unfold matrix_solver_direct_t.compute_next_timestep
    rw [if_pos hdyn, h1, Option.map_some']
    by_cases hlt : r < m_params.m_min_timestep
    · simp only [if_pos hlt, max_eq_left (le_of_lt hlt)]
    · simp only [if_neg hlt, max_eq_right (not_lt.mp hlt)]
  · rw [h5 k, if_pos hk]
    exact ⟨rfl, rfl, rfl⟩
  · rw [h5 k, if_neg (by omega)]

/-- Witness of `timestep_history_update`. -/
theorem timestep_history_update_witness :
    ∃ r0 nets1,
      matrix_solver_direct_t.compute_next_timestep sqrt_exact
        { m_max_timestep := 2, m_min_timestep := 1, m_lte := 1 / 2, m_dynamic := true } 1 1
        (fun _ => 0) (fun _ => { m_cur_Analog := 2, m_h_n_m_1 := 3, m_DD_n_m_1 := 5 })
        = some (max 1 r0, nets1) ∧
      (nets1 0).m_h_n_m_1 = 1 ∧ (nets1 0).m_DD_n_m_1 = 2 - 0 ∧ (nets1 0).m_cur_Analog = 2 := by
  obtain ⟨r0, nets1, h1, h2, -⟩ := timestep_history_update sqrt_exact
    { m_max_timestep := 2, m_min_timestep := 1, m_lte := 1 / 2, m_dynamic := true } 1 1
    (fun _ => 0) (fun _ => { m_cur_Analog := 2, m_h_n_m_1 := 3, m_DD_n_m_1 := 5 }) rfl
    one_ne_zero (fun _ _ => ⟨by norm_num, by norm_num⟩)
  exact ⟨r0, nets1, h1, h2 0 Nat.one_pos⟩

/-! ## Reordering of the rows: one pass -/

/-- C24: the row reordering is not a guaranteed sort.  For `N = 3` with `m_railstart`
values 3, 2, 1 in elimination mode, the `N / 2 = 1` pass of adjacent swaps leaves
the values 2, 1, 3, which are not in ascending order; for `N = 2` the single pass
leaves the two rows in ascending order of `m_railstart` in elimination mode and in
descending order in Gauss-Seidel mode, whatever the rows are. -/
theorem reorder_not_a_sort :
    (((matrix_solver_direct_t.vsetup_sort 3 false
        (fun k => row_of_railstart (3 - k), fun k => k)).1 0).m_railstart = 2 ∧
      ((matrix_solver_direct_t.vsetup_sort 3 false
        (fun k => row_of_railstart (3 - k), fun k => k)).1 1).m_railstart = 1 ∧
      ((matrix_solver_direct_t.vsetup_sort 3 false
        (fun k => row_of_railstart (3 - k), fun k => k)).1 2).m_railstart = 3 ∧
      ¬ ((matrix_solver_direct_t.vsetup_sort 3 false
          (fun k => row_of_railstart (3 - k), fun k => k)).1 0).m_railstart
        ≤ ((matrix_solver_direct_t.vsetup_sort 3 false
          (fun k => row_of_railstart (3 - k), fun k => k)).1 1).m_railstart) ∧
    (∀ (s : (Nat → terms_list_t) × (Nat → Nat)),
      ((matrix_solver_direct_t.vsetup_sort 2 false s).1 0).m_railstart
        ≤ ((matrix_solver_direct_t.vsetup_sort 2 false s).1 1).m_railstart ∧
      ((matrix_solver_direct_t.vsetup_sort 2 true s).1 1).m_railstart
        ≤ ((matrix_solver_direct_t.vsetup_sort 2 true s).1 0).m_railstart) := by
  refine ⟨by decide, fun s => ⟨?_, ?_⟩⟩
  · have key : matrix_solver_direct_t.vsetup_sort 2 false s
        = matrix_solver_direct_t.vsetup_sort_step (-1) 0 s := rfl
    rw [key]
    unfold matrix_solver_direct_t.vsetup_sort_step
    by_cases h : (((s.1 0).m_railstart : Int) - ((s.1 (0 + 1)).m_railstart : Int)) * (-1) < 0
    · rw [if_pos h]
      simp only [swap_at] at h ⊢
      simp at h ⊢
      omega
    · rw [if_neg h]
      simp at h ⊢
      omega
  · have key : matrix_solver_direct_t.vsetup_sort 2 true s
        = matrix_solver_direct_t.vsetup_sort_step 1 0 s := rfl
    rw [key]
    unfold matrix_solver_direct_t.vsetup_sort_step
    by_cases h : (((s.1 0).m_railstart : Int) - ((s.1 (0 + 1)).m_railstart : Int)) * 1 < 0
    · rw [if_pos h]
      simp only [swap_at] at h ⊢
      simp at h ⊢
      omega
    · rw [if_neg h]
      simp at h ⊢
      omega

/-! ## Sparse elimination against the full-row loops -/

namespace matrix_solver_direct_t

/-- Off the diagonal, `build_LE_A` leaves zero in every column that is not the other
net of a matrix-coupled term of the row. -/
theorem build_LE_A_zero_off_pattern (iN : Nat) (m_terms : Nat → terms_t) (A : Mat) (k c : Nat)
    (hk : k < iN) (hc : c < iN) (hck : c ≠ k)
    (hnc : ¬ coupled (m_terms k) (m_terms k).m_railstart c) :
    build_LE_A iN m_terms A k c = 0 := by
  rw [build_LE_A_apply iN m_terms A k c hk hc, if_neg hck, zero_sub, neg_eq_zero]
  apply Finset.sum_eq_zero
  intro i hi
  rw [Finset.mem_filter, Finset.mem_range] at hi
  exact absurd ⟨i, hi.1, hi.2⟩ hnc

/-- The rows after `vsetup` differ from the rows before only in the index lists. -/
theorem vsetup_nz_row_eq (N : Nat) (rows : Nat → terms_t) (k : Nat) :
    vsetup_nz N rows k
      = { rows k with m_nz := (vsetup_nz N rows k).m_nz, m_nzrd := (vsetup_nz N rows k).m_nzrd } :=
  (vsetup_nz_fold N rows N (Nat.le_refl N)).1 k

/-- The matrix that `build_LE_A` assembles from the rows `vsetup` has processed has
its nonzeros inside the lists `m_nz`. -/
theorem build_LE_A_inside_nz (N : Nat) (rows : Nat → terms_t) (A : Mat) (r c : Nat)
    (hr : r < N) (hc : c < N) (hne : build_LE_A N (vsetup_nz N rows) A r c ≠ 0) :
    c ∈ (vsetup_nz N rows r).m_nz := by
  obtain ⟨d1, d2, -, -, d5⟩ := vsetup_nz_spec N rows r hr
  rw [d5 c]
  by_contra hno
  rw [not_or] at hno
  apply hne
  apply build_LE_A_zero_off_pattern N _ A r c hr hc hno.1
  rintro ⟨i, hi, hic⟩
  rw [d1] at hi
  rw [d2] at hic
  exact hno.2 ⟨i, hi, hic⟩

/-- A successful run of the first `n` steps of `LE_solve` has met no zero pivot and
has reached the state `LE_solve_upto`. -/
theorem LE_solve_fold_some (piv : Bool) (kN : Nat) (m_terms : Nat → terms_t) (s : Mat × Vec)
    (n : Nat) (S : Mat × Vec)
    (h : (List.range n).foldlM (fun s i => LE_solve_step piv kN m_terms i s) s = some S) :
    (∀ i, i < n → LE_pivot piv kN m_terms s i ≠ 0) ∧ S = LE_solve_upto piv kN m_terms n s := by
  induction n generalizing S with
  | zero =>
    simp only [List.range_zero, List.foldlM_nil, Option.pure_def, Option.some.injEq] at h
    exact ⟨fun i hi => absurd hi (Nat.not_lt_zero i), by rw [← h]; rfl⟩
  | succ n ih =>
    rw [List.range_succ, List.foldlM_append] at h
    simp only [Option.bind_eq_bind, Option.bind_eq_some, List.foldlM_cons, List.foldlM_nil,
      Option.pure_def] at h
    obtain ⟨S1, h1, S2, h2, h3⟩ := h
    obtain ⟨ih1, ih2⟩ := ih S1 h1
    unfold LE_solve_step at h2
    simp only at h2
    by_cases hz : (LE_solve_pre piv kN n S1).1 n n = 0
    · rw [if_pos hz] at h2
      exact absurd h2 (by simp)
    · rw [if_neg hz] at h2
      simp only [Option.some.injEq] at h2 h3
      constructor
      · intro i hi
        by_cases hin : i = n
        · subst hin
          unfold LE_pivot
          rw [← ih2]
          exact hz
        · exact ih1 i (by omega)
      · rw [LE_solve_upto_succ, ← ih2, ← h3, ← h2]

/-- With the nonzeros of the pivot row inside `m_nzrd`, the sparse sweep of a pivot
is the sweep with the full-row loop. -/
theorem LE_solve_elim_eq_full (kN : Nat) (m_terms : Nat → terms_t) (ok : NzrdOK kN m_terms)
    (n : Nat) (hn : n < kN) (S : Mat × Vec)
    (hpat : ∀ c, n < c → c < kN → S.1 n c ≠ 0 → c ∈ (m_terms n).m_nzrd) :
    LE_solve_elim kN m_terms n S = LE_solve_elim kN (dense_terms kN) n S := by
  have okd := dense_terms_ok kN
  apply Prod.ext
  · funext r c
    rw [LE_solve_elim_fst kN m_terms n (ok.nodup n hn),
      LE_solve_elim_fst kN (dense_terms kN) n (okd.nodup n hn)]
    have hd : c ∈ (dense_terms kN n).m_nzrd ↔ n < c ∧ c < kN := by
      simp only [dense_terms, List.mem_range'_1]
      omega
    by_cases hr : n < r ∧ r < kN
    · by_cases hcm : c ∈ (m_terms n).m_nzrd
      · have hb := ok.bounds n hn c hcm
        rw [if_pos ⟨hr, hcm⟩, if_pos ⟨hr, hd.mpr hb⟩]
      · rw [if_neg (fun h => hcm h.2)]
        by_cases hc : n < c ∧ c < kN
        · have hz : S.1 n c = 0 := by
            by_contra hne
            exact hcm (hpat c hc.1 hc.2 hne)
          rw [if_pos ⟨hr, hd.mpr hc⟩, hz]
          ring
        · rw [if_neg (fun h => hc (hd.mp h.2))]
    · rw [if_neg (fun h => hr h.1), if_neg (fun h => hr h.1)]
  · funext r
    rw [LE_solve_elim_snd kN m_terms n (ok.nodup n hn),
      LE_solve_elim_snd kN (dense_terms kN) n (okd.nodup n hn)]

/-- Entries in the columns up to `n` are not written from step `n` on. -/
theorem LE_solve_upto_col_stable (kN : Nat) (m_terms : Nat → terms_t) (ok : NzrdOK kN m_terms)
    (s : Mat × Vec) (n m : Nat) (hnm : n ≤ m) (hm : m ≤ kN) (r c : Nat) (hc : c ≤ n) :
    (LE_solve_upto false kN m_terms m s).1 r c = (LE_solve_upto false kN m_terms n s).1 r c := by
  induction m with
  | zero =>
    have : n = 0 := by omega
    subst this; rfl
  | succ m ih =>
    by_cases h : n = m + 1
    · subst h; rfl
    · have hm1 : m < kN := hm
      rw [LE_solve_upto_succ, LE_solve_pre_false, LE_solve_elim_fst kN m_terms m (ok.nodup m hm1)]
      have : ¬ ((m < r ∧ r < kN) ∧ c ∈ (m_terms m).m_nzrd) := by
        rintro ⟨-, hcm⟩
        have := (ok.bounds m hm1 c hcm).1
        omega
      rw [if_neg this]
      exact ih (by omega) (by omega)

/-- With the nonzeros right of the diagonal inside `m_nzrd`, the sparse back
substitution of a row is the one with the full-row loop. -/
theorem LE_back_subst_row_eq_full (kN : Nat) (m_terms : Nat → terms_t) (ok : NzrdOK kN m_terms)
    (S : Mat × Vec) (j : Nat) (hj : j < kN)
    (hpat : ∀ c, j < c → c < kN → S.1 j c ≠ 0 → c ∈ (m_terms j).m_nzrd) (x : Vec) :
    LE_back_subst_row m_terms S j x = LE_back_subst_row (dense_terms kN) S j x := by
  have okd := dense_terms_ok kN
  unfold LE_back_subst_row
  rw [foldl_nzrd_eq_sum kN (m_terms j).m_nzrd j (ok.nodup j hj) (ok.bounds j hj) (S.1 j) x hpat,
    foldl_nzrd_eq_sum kN (dense_terms kN j).m_nzrd j (okd.nodup j hj) (okd.bounds j hj) (S.1 j) x
      (fun c h1 h2 _ => by
        simp only [dense_terms, List.mem_range'_1]
        omega)]

theorem foldlM_congr_mem {σ : Type} (f g : σ → Nat → Option σ) (L : List Nat)
    (h : ∀ j, j ∈ L → ∀ x, f x j = g x j) (x : σ) : L.foldlM f x = L.foldlM g x := by
  induction L generalizing x with
  | nil => rfl
  | cons a L ih =>
    rw [List.foldlM_cons, List.foldlM_cons, h a (List.mem_cons_self _ _) x]
    cases g x a with
    | none => rfl
    | some y => exact ih (fun j hj => h j (List.mem_cons_of_mem _ hj)) y

/-- The sparse elimination and the elimination with full-row loops are the same
computation when the matrix has its nonzeros right of the diagonal inside `m_nzrd`. -/
theorem LE_solve_eq_full (kN : Nat) (m_terms : Nat → terms_t) (ok : NzrdOK kN m_terms)
    (A0 : Mat) (b0 : Vec)
    (hpat : ∀ r c, r < kN → r < c → c < kN → A0 r c ≠ 0 → c ∈ (m_terms r).m_nzrd)
    (n : Nat) (hn : n ≤ kN) :
    (List.range n).foldlM (fun s i => LE_solve_step false kN m_terms i s) (A0, b0)
      = (List.range n).foldlM (fun s i => LE_solve_step false kN (dense_terms kN) i s)
          (A0, b0) := by
  induction n with
  | zero => rfl
  | succ n ih =>
    have hn1 : n < kN := hn
    rw [List.range_succ, List.foldlM_append, List.foldlM_append, ← ih (Nat.le_of_lt hn1)]
    cases hS : (List.range n).foldlM (fun s i => LE_solve_step false kN m_terms i s) (A0, b0) with
    | none => rfl
    | some S =>
      obtain ⟨hp, hS1⟩ := LE_solve_fold_some false kN m_terms (A0, b0) n S hS
      obtain ⟨-, inv2⟩ := LE_solve_upto_inv kN m_terms ok A0 b0 hpat n (Nat.le_of_lt hn1) hp
      rw [← hS1] at inv2
      simp only [Option.bind_eq_bind, Option.some_bind, List.foldlM_cons, List.foldlM_nil,
        Option.pure_def, Option.bind_some]
      unfold LE_solve_step
      simp only [LE_solve_pre_false]
      rw [LE_solve_elim_eq_full kN m_terms ok n hn1 S (fun c h1 h2 h3 => inv2 n c hn1 h1 h2 h3)]

end matrix_solver_direct_t


/-- C25: the direct solver under the no-zero-pivot precondition, pivot search
disabled.  For well-formed rows, every matrix `A` whose nonzeros lie inside the
`nz` lists and every `RHS`, if every pivot that `LE_solve` reads is nonzero, then
`LE_solve` and `LE_back_subst` succeed and the returned `x` satisfies `A x = RHS`,
although only the columns in `nzrd[i]` are updated and summed over: the pivots of the
back substitution are the pivots `LE_solve` has read, and the entry `A[r][c]` below
the diagonal (`c < r`) is left as it was when pivot `c` was reached, it is not
zeroed. -/
theorem direct_solver_sparse_elimination (N : Nat) (rows : Nat → terms_t)
    (hwf : ∀ k, k < N → (rows k).wf N) (A : Mat) (RHS new_v : Vec)
    (hA : ∀ r c, r < N → c < N → A r c ≠ 0 →
      c ∈ (matrix_solver_direct_t.vsetup_nz N rows r).m_nz)
    (hpiv : ∀ i, i < N →
      matrix_solver_direct_t.LE_pivot false N (matrix_solver_direct_t.vsetup_nz N rows)
        (A, RHS) i ≠ 0) :
    ∃ s x,
      matrix_solver_direct_t.LE_solve false N (matrix_solver_direct_t.vsetup_nz N rows)
        (A, RHS) = some s ∧
      matrix_solver_direct_t.LE_back_subst N (matrix_solver_direct_t.vsetup_nz N rows) s new_v
        = some x ∧
      IsSolution N A RHS x ∧
      (∀ j, j < N → s.1 j j
        = matrix_solver_direct_t.LE_pivot false N (matrix_solver_direct_t.vsetup_nz N rows)
            (A, RHS) j) ∧
      (∀ r c, c < r → r < N → s.1 r c
        = (matrix_solver_direct_t.LE_solve_upto false N
            (matrix_solver_direct_t.vsetup_nz N rows) c (A, RHS)).1 r c) := by
  have ok := matrix_solver_direct_t.vsetup_nz_ok N rows hwf
  obtain ⟨s, x, h1, h2, h3, -⟩ := matrix_solver_direct_t.LE_solve_back_subst_correct N
    (matrix_solver_direct_t.vsetup_nz N rows) ok A RHS new_v
    (fun r c hr hrc hc hne =>
      matrix_solver_direct_t.vsetup_nz_covers N rows r c hr hrc (hA r c hr hc hne)) hpiv
  have hs : s = matrix_solver_direct_t.LE_solve_upto false N
      (matrix_solver_direct_t.vsetup_nz N rows) N (A, RHS) := by
    have h := matrix_solver_direct_t.LE_solve_fold_eq_upto false N
      (matrix_solver_direct_t.vsetup_nz N rows) (A, RHS) N hpiv
    unfold matrix_solver_direct_t.LE_solve at h1
    rw [h1] at h
    exact Option.some.inj h
  refine ⟨s, x, h1, h2, h3, fun j hj => ?_, fun r c hcr hr => ?_⟩
  · rw [hs, matrix_solver_direct_t.LE_solve_upto_row_stable N _ ok (A, RHS) j N
      (Nat.le_of_lt hj) (Nat.le_refl N) j j (Nat.le_refl j)]
    simp only [matrix_solver_direct_t.LE_pivot, matrix_solver_direct_t.LE_solve_pre_false]
  · rw [hs]
    exact matrix_solver_direct_t.LE_solve_upto_col_stable N _ ok (A, RHS) c N (by omega)
      (Nat.le_refl N) r c (Nat.le_refl c)

/-- Witness of `direct_solver_sparse_elimination`: the two-net scenario, where the
entry `A[1][0] = -2` below the diagonal is still in place after the elimination. -/
theorem direct_solver_sparse_elimination_witness :
    ∃ s x,
      matrix_solver_direct_t.LE_solve false 2 (matrix_solver_direct_t.vsetup_nz 2 scenario_rows)
        (fun r c => if r = c then 3 else -2, fun i => if i = 0 then 1 else 0) = some s ∧
      matrix_solver_direct_t.LE_back_subst 2 (matrix_solver_direct_t.vsetup_nz 2 scenario_rows)
        s (fun _ => 0) = some x ∧
      IsSolution 2 (fun r c => if r = c then 3 else -2) (fun i => if i = 0 then 1 else 0) x ∧
      s.1 1 0 = -2 := by
  obtain ⟨s, x, h1, h2, h3, -, h5⟩ := direct_solver_sparse_elimination 2 scenario_rows
    scenario_rows_wf (fun r c => if r = c then 3 else -2) (fun i => if i = 0 then 1 else 0)
    (fun _ => 0)
    (by
      intro r c hr hc _
      have h0 : (matrix_solver_direct_t.vsetup_nz 2 scenario_rows 0).m_nz = [0, 1] := by decide
      have h1 : (matrix_solver_direct_t.vsetup_nz 2 scenario_rows 1).m_nz = [0, 1] := by decide
      have hr2 : r = 0 ∨ r = 1 := by omega
      have hc2 : c = 0 ∨ c = 1 := by omega
      rcases hr2 with h | h <;> rcases hc2 with h' | h' <;> subst h <;> subst h' <;>
        simp [h0, h1])
    (by
      intro i hi
      have h0 : (matrix_solver_direct_t.vsetup_nz 2 scenario_rows 0).m_nzrd = [1] := by decide
      have hi2 : i = 0 ∨ i = 1 := by omega
      rcases hi2 with h | h <;> subst h
      · simp [matrix_solver_direct_t.LE_pivot, matrix_solver_direct_t.LE_solve_pre,
          matrix_solver_direct_t.LE_solve_upto]
      · simp [matrix_solver_direct_t.LE_pivot, matrix_solver_direct_t.LE_solve_pre,
          matrix_solver_direct_t.LE_solve_upto, matrix_solver_direct_t.LE_solve_elim,
          matrix_solver_direct_t.LE_solve_row, h0, List.range_succ, List.range']
        norm_num)
  refine ⟨s, x, h1, h2, h3, ?_⟩
  rw [h5 1 0 (by decide) (by decide)]
  simp [matrix_solver_direct_t.LE_solve_upto]

/-- C26: `nzrd` covers the fill-in.  For well-formed rows and the matrix that
`build_LE_A` assembles from the rows `vsetup` has processed, with any `RHS`: when
`LE_solve` (pivot search disabled) reaches pivot row `i`, every column `c > i` with
`A[i][c] ≠ 0` is in `nzrd[i]`; `LE_solve` is the same computation as the elimination
with the full-row loops over `k = i+1 .. N-1` (same matrix, same `RHS`, or both fail
at the same zero pivot); and on its result `LE_back_subst` is the same computation as
the back substitution with the full-row loop, so the same `x` is returned. -/
theorem nzrd_covers_fill_in (N : Nat) (rows : Nat → terms_t)
    (hwf : ∀ k, k < N → (rows k).wf N) (m_A : Mat) (RHS new_v : Vec) :
    (∀ i, i < N →
      (∀ i1, i1 < i → matrix_solver_direct_t.LE_pivot false N
        (matrix_solver_direct_t.vsetup_nz N rows)
        (matrix_solver_direct_t.build_LE_A N (matrix_solver_direct_t.vsetup_nz N rows) m_A, RHS)
        i1 ≠ 0) →
      ∀ c, i < c → c < N →
        (matrix_solver_direct_t.LE_solve_upto false N (matrix_solver_direct_t.vsetup_nz N rows) i
          (matrix_solver_direct_t.build_LE_A N (matrix_solver_direct_t.vsetup_nz N rows) m_A,
            RHS)).1 i c ≠ 0 →
        c ∈ (matrix_solver_direct_t.vsetup_nz N rows i).m_nzrd) ∧
    matrix_solver_direct_t.LE_solve false N (matrix_solver_direct_t.vsetup_nz N rows)
        (matrix_solver_direct_t.build_LE_A N (matrix_solver_direct_t.vsetup_nz N rows) m_A, RHS)
      = matrix_solver_direct_t.LE_solve_full N
        (matrix_solver_direct_t.build_LE_A N (matrix_solver_direct_t.vsetup_nz N rows) m_A, RHS) ∧
    (∀ S, matrix_solver_direct_t.LE_solve false N (matrix_solver_direct_t.vsetup_nz N rows)
        (matrix_solver_direct_t.build_LE_A N (matrix_solver_direct_t.vsetup_nz N rows) m_A, RHS)
        = some S →
      matrix_solver_direct_t.LE_back_subst N (matrix_solver_direct_t.vsetup_nz N rows) S new_v
        = matrix_solver_direct_t.LE_back_subst_full N S new_v) := by
  have ok := matrix_solver_direct_t.vsetup_nz_ok N rows hwf
  have hpat : ∀ r c, r < N → r < c → c < N →
      matrix_solver_direct_t.build_LE_A N (matrix_solver_direct_t.vsetup_nz N rows) m_A r c ≠ 0 →
      c ∈ (matrix_solver_direct_t.vsetup_nz N rows r).m_nzrd :=
    fun r c hr hrc hc hne => matrix_solver_direct_t.vsetup_nz_covers N rows r c hr hrc
      (matrix_solver_direct_t.build_LE_A_inside_nz N rows m_A r c hr hc hne)
  generalize matrix_solver_direct_t.build_LE_A N (matrix_solver_direct_t.vsetup_nz N rows) m_A
    = A at hpat
  refine ⟨fun i hi hp c hic hc hne => ?_, ?_, fun S hS => ?_⟩
  · exact (matrix_solver_direct_t.LE_solve_upto_inv N _ ok A RHS hpat i (Nat.le_of_lt hi) hp).2
      i c hi hic hc hne
  · unfold matrix_solver_direct_t.LE_solve_full matrix_solver_direct_t.LE_solve
    exact matrix_solver_direct_t.LE_solve_eq_full N _ ok A RHS hpat N (Nat.le_refl N)
  · unfold matrix_solver_direct_t.LE_solve at hS
    obtain ⟨hp, hS1⟩ := matrix_solver_direct_t.LE_solve_fold_some false N _ (A, RHS) N S hS
    obtain ⟨-, inv2⟩ := matrix_solver_direct_t.LE_solve_upto_inv N _ ok A RHS hpat N
      (Nat.le_refl N) hp
    rw [← hS1] at inv2
    unfold matrix_solver_direct_t.LE_back_subst_full matrix_solver_direct_t.LE_back_subst
    apply matrix_solver_direct_t.foldlM_congr_mem
    intro j hj x
    rw [List.mem_reverse, List.mem_range] at hj
    exact matrix_solver_direct_t.LE_back_subst_row_eq_full N _ ok S j hj
      (fun c h1 h2 h3 => inv2 j c hj h1 h2 h3) x

/-- Witness of `nzrd_covers_fill_in`: the chain of three nets, whose rows 0 and 2
are not coupled. -/
theorem nzrd_covers_fill_in_witness :
    matrix_solver_direct_t.LE_solve false 3 (matrix_solver_direct_t.vsetup_nz 3 chain_rows)
        (matrix_solver_direct_t.build_LE_A 3 (matrix_solver_direct_t.vsetup_nz 3 chain_rows)
          (fun _ _ => 7), fun i => if i = 0 then 1 else 0)
      = matrix_solver_direct_t.LE_solve_full 3
        (matrix_solver_direct_t.build_LE_A 3 (matrix_solver_direct_t.vsetup_nz 3 chain_rows)
          (fun _ _ => 7), fun i => if i = 0 then 1 else 0) :=
  (nzrd_covers_fill_in 3 chain_rows
    (by
      intro k hk
      have hk3 : k = 0 ∨ k = 1 ∨ k = 2 := by omega
      rcases hk3 with h | h | h <;> subst h
      · refine ⟨by decide, fun i hi => ?_⟩
        have hi0 : i = 0 := by
          have : i < 1 := hi
          omega
        subst hi0
        exact ⟨by decide, by decide⟩
      · refine ⟨by decide, fun i hi => ?_⟩
        have hi0 : i = 0 ∨ i = 1 := by
          have : i < 2 := hi
          omega
        rcases hi0 with h | h <;> subst h <;> exact ⟨by decide, by decide⟩
      · refine ⟨by decide, fun i hi => ?_⟩
        have hi0 : i = 0 := by
          have : i < 1 := hi
          omega
        subst hi0
        exact ⟨by decide, by decide⟩)
    (fun _ _ => 7) (fun i => if i = 0 then 1 else 0) (fun _ => 0)).2.1

/-- C30: the assembled nonzeros stay inside the `nz` lists.  For rows `m_terms` with
the topology (`m_railstart`, `net_other`) of the rows that `vsetup` has processed and
any terminal values, any previous contents of the matrix, every row `k < N` and
every column `c < N`: if `c` is not in `nz[k]` (of the direct or of the Woodbury
solver) then `build_LE_A` leaves `A[k][c] = 0`; hence two matrices assembled from
that topology agree at every entry outside the `nz` lists. -/
theorem assembled_inside_nz (N : Nat) (rows m_terms : Nat → terms_t) (m_A : Mat) (k c : Nat)
    (hk : k < N) (hc : c < N)
    (h1 : (m_terms k).m_railstart = (rows k).m_railstart)
    (h2 : (m_terms k).net_other = (rows k).net_other) :
    (c ∉ (matrix_solver_direct_t.vsetup_nz N rows k).m_nz →
      matrix_solver_direct_t.build_LE_A N m_terms m_A k c = 0) ∧
    (c ∉ (matrix_solver_w_t.vsetup_nz N rows k).m_nz →
      matrix_solver_direct_t.build_LE_A N m_terms m_A k c = 0) ∧
    (∀ (m_terms2 : Nat → terms_t) (m_A2 : Mat),
      (m_terms2 k).m_railstart = (rows k).m_railstart →
      (m_terms2 k).net_other = (rows k).net_other →
      (c ∉ (matrix_solver_direct_t.vsetup_nz N rows k).m_nz ∨
        c ∉ (matrix_solver_w_t.vsetup_nz N rows k).m_nz) →
      matrix_solver_direct_t.build_LE_A N m_terms m_A k c
        = matrix_solver_direct_t.build_LE_A N m_terms2 m_A2 k c) := by
  have d5 := (matrix_solver_direct_t.vsetup_nz_spec N rows k hk).2.2.2.2
  have w5 := (matrix_solver_w_t.w_vsetup_nz_spec N rows k hk).1
  have key : ∀ (mt : Nat → terms_t) (B : Mat),
      (mt k).m_railstart = (rows k).m_railstart → (mt k).net_other = (rows k).net_other →
      ¬ (c = k ∨ coupled (rows k) (rows k).m_railstart c) →
      matrix_solver_direct_t.build_LE_A N mt B k c = 0 := by
    intro mt B e1 e2 hno
    rw [not_or] at hno
    apply matrix_solver_direct_t.build_LE_A_zero_off_pattern N mt B k c hk hc hno.1
    rintro ⟨i, hi, hic⟩
    rw [e1] at hi
    rw [e2] at hic
    exact hno.2 ⟨i, hi, hic⟩
  refine ⟨fun h => key m_terms m_A h1 h2 (fun h3 => h ((d5 c).mpr h3)),
    fun h => key m_terms m_A h1 h2 (fun h3 => h ((w5 c).mpr h3)), ?_⟩
  intro m_terms2 m_A2 e1 e2 h
  have hno : ¬ (c = k ∨ coupled (rows k) (rows k).m_railstart c) := by
    rcases h with h | h
    · exact fun h3 => h ((d5 c).mpr h3)
    · exact fun h3 => h ((w5 c).mpr h3)
  rw [key m_terms m_A h1 h2 hno, key m_terms2 m_A2 e1 e2 hno]

/-- Witness of `assembled_inside_nz`: row 0 and column 2 of the chain of three nets. -/
theorem assembled_inside_nz_witness :
    matrix_solver_direct_t.build_LE_A 3 chain_rows (fun _ _ => 7) 0 2 = 0 :=
  (assembled_inside_nz 3 chain_rows chain_rows (fun _ _ => 7) 0 2 (by decide) (by decide)
    rfl rfl).1
    (by
      have h0 : (matrix_solver_direct_t.vsetup_nz 3 chain_rows 0).m_nz = [0, 1] := by decide
      rw [h0]
      decide)

/-! ## Pivot search -/

namespace matrix_solver_direct_t

theorem LE_solve_maxrow_fold (A : Mat) (i a b : Nat) (hab : a < b) (n : Nat) :
    ∀ m, m = (List.range' b n).foldl
        (fun maxrow j => if |A j i| > |A maxrow i| then j else maxrow) a →
      (m = a ∨ (b ≤ m ∧ m < b + n)) ∧
      (∀ j, j = a ∨ (b ≤ j ∧ j < b + n) → |A j i| ≤ |A m i|) ∧
      (∀ j, j = a ∨ b ≤ j → j < m → |A j i| < |A m i|) := by
  induction n with
  | zero =>
    intro m hm
    simp at hm
    subst hm
    refine ⟨Or.inl rfl, fun j hj => ?_, fun j hj hjm => ?_⟩
    · rcases hj with h | h
      · rw [h]
      · omega
    · rcases hj with h | h <;> omega
  | succ n ih =>
    intro m hm
    rw [List.range'_concat, List.foldl_append] at hm
    simp only [List.foldl_cons, List.foldl_nil, one_mul] at hm
    obtain ⟨p1, p2, p3⟩ := ih _ rfl
    generalize (List.range' b n).foldl
      (fun maxrow j => if |A j i| > |A maxrow i| then j else maxrow) a = m0 at hm p1 p2 p3
    by_cases hgt : |A (b + n) i| > |A m0 i|
    · rw [if_pos hgt] at hm
      subst hm
      refine ⟨Or.inr ⟨by omega, by omega⟩, fun j hj => ?_, fun j hj hjm => ?_⟩
      · by_cases hjn : j = b + n
        · rw [hjn]
        · exact le_of_lt (lt_of_le_of_lt (p2 j (by omega)) hgt)
      · exact lt_of_le_of_lt (p2 j (by omega)) hgt
    · rw [if_neg hgt] at hm
      subst hm
      refine ⟨by omega, fun j hj => ?_, fun j hj hjm => p3 j hj hjm⟩
      by_cases hjn : j = b + n
      · rw [hjn]; exact not_lt.mp hgt
      · exact p2 j (by omega)

theorem LE_solve_swap_fold (A0 : Mat) (i m b : Nat) (hm : m ≠ i) (n : Nat) :
    ∀ r c, (List.range' b n).foldl
        (fun A k => Mat.set (Mat.set A i k (A m k)) m k (A i k)) A0 r c
      = if b ≤ c ∧ c < b + n then
          (if r = m then A0 i c else if r = i then A0 m c else A0 r c)
        else A0 r c := by
  induction n with
  | zero =>
    intro r c
    have h : ¬ (b ≤ c ∧ c < b + 0) := by omega
    simp only [List.range'_zero, List.foldl_nil, h, if_false]
  | succ n ih =>
    intro r c
    rw [List.range'_concat, List.foldl_append]
    simp only [List.foldl_cons, List.foldl_nil, Mat_set_apply, one_mul]
    rw [ih, ih, ih]
    have hne : ¬ (b ≤ b + n ∧ b + n < b + n) := by omega
    simp only [hne, if_false]
    by_cases hc : c = b + n
    · subst hc
      by_cases hrm : r = m
      · subst hrm
        simp
      · by_cases hri : r = i
        · subst hri
          simp [hrm]
        · simp [hrm, hri]
    · by_cases hrm : r = m
      · subst hrm
        simp [hc]
        by_cases h1 : b ≤ c ∧ c < b + n
        · have h2 : b ≤ c ∧ c < b + (n + 1) := by omega
          simp [h1, h2]
        · have h2 : ¬ (b ≤ c ∧ c < b + (n + 1)) := by omega
          simp [h1, h2]
      · by_cases h1 : b ≤ c ∧ c < b + n
        · have h2 : b ≤ c ∧ c < b + (n + 1) := by omega
          simp [hc, hrm, h1, h2]
        · have h2 : ¬ (b ≤ c ∧ c < b + (n + 1)) := by omega
          simp [hc, hrm, h1, h2]

/-- The pivot search of `LE_solve` at step `i`: the row `m` that is swapped into
position `i` has the largest `|m_A[j][i]|` among the rows `j` in `[i, kN)` and is the
first such row; the rows `i` and `m` are exchanged from column `i` on, together with
their `m_RHS` entries, and nothing else is written. -/
theorem LE_solve_search_spec (kN i : Nat) (s : Mat × Vec) (hi : i < kN) :
    ∃ m, i ≤ m ∧ m < kN ∧
      (∀ j, i ≤ j → j < kN → |s.1 j i| ≤ |s.1 m i|) ∧
      (∀ j, i ≤ j → j < m → |s.1 j i| < |s.1 m i|) ∧
      (∀ k, i ≤ k → k < kN →
        (LE_solve_search kN i s).1 i k = s.1 m k ∧ (LE_solve_search kN i s).1 m k = s.1 i k) ∧
      ((LE_solve_search kN i s).2 i = s.2 m ∧ (LE_solve_search kN i s).2 m = s.2 i) ∧
      (∀ r k, r ≠ i → r ≠ m → (LE_solve_search kN i s).1 r k = s.1 r k) ∧
      (∀ r k, k < i → (LE_solve_search kN i s).1 r k = s.1 r k) ∧
      (∀ r, r ≠ i → r ≠ m → (LE_solve_search kN i s).2 r = s.2 r) := by
  obtain ⟨p1, p2, p3⟩ := LE_solve_maxrow_fold s.1 i i (i + 1) (Nat.lt_succ_self i)
    (kN - (i + 1)) _ rfl
  unfold LE_solve_search
  simp only []
  generalize (List.range' (i + 1) (kN - (i + 1))).foldl
    (fun maxrow j => if |s.1 j i| > |s.1 maxrow i| then j else maxrow) i = m at p1 p2 p3
  refine ⟨m, by omega, by omega, fun j h1 h2 => p2 j (by omega),
    fun j h1 h2 => p3 j (by omega) h2, ?_⟩
  by_cases hm : m = i
  · subst hm
    simp
  · rw [if_pos hm]
    simp only [LE_solve_swap_fold s.1 i m i hm, Vec_set_apply]
    refine ⟨fun k h1 h2 => ?_, ?_, fun r k h1 h2 => ?_, fun r k h1 => ?_, fun r h1 h2 => ?_⟩
    · have hk : i ≤ k ∧ k < i + (kN - i) := by omega
      have hmi : i ≠ m := fun h => hm h.symm
      simp [hk, hmi]
    · have hmi : i ≠ m := fun h => hm h.symm
      simp [hmi]
    · simp [h1, h2]
    · have hk : ¬ (i ≤ k ∧ k < i + (kN - i)) := by omega
      simp [hk]
    · simp [h1, h2]

end matrix_solver_direct_t

theorem chain_rows_wf : ∀ k, k < 3 → (chain_rows k).wf 3 := by
  intro k hk
  have hk3 : k = 0 ∨ k = 1 ∨ k = 2 := by omega
  rcases hk3 with h | h | h <;> subst h
  · refine ⟨by decide, fun i hi => ?_⟩
    have hi0 : i = 0 := by
      have : i < 1 := hi
      omega
    subst hi0
    exact ⟨by decide, by decide⟩
  · refine ⟨by decide, fun i hi => ?_⟩
    have hi0 : i = 0 ∨ i = 1 := by
      have : i < 2 := hi
      omega
    rcases hi0 with h | h <;> subst h <;> exact ⟨by decide, by decide⟩
  · refine ⟨by decide, fun i hi => ?_⟩
    have hi0 : i = 0 := by
      have : i < 1 := hi
      omega
    subst hi0
    exact ⟨by decide, by decide⟩

theorem chain_rows_matrix (junk : Mat) (r c : Nat) (hr : r < 3) (hc : c < 3) :
    matrix_solver_direct_t.build_LE_A 3 chain_rows junk r c
      = if r = 0 then (if c = 0 then 1 else if c = 1 then -2 else 0)
        else if r = 1 then (if c = 0 then -2 else if c = 1 then 2 else -1)
        else (if c = 0 then 0 else if c = 1 then -1 else 2) := by
  interval_cases r <;> interval_cases c <;>
    simp [matrix_solver_direct_t.build_LE_A, matrix_solver_direct_t.build_LE_A_row,
      chain_rows, List.range_succ] <;> norm_num

/-- C27: pivot search with the lists of the unswapped row order.  For the chain of
three nets (well-formed rows, assembled `A = [[1,-2,0],[-2,2,-1],[0,-1,2]]`,
non-singular, `RHS = [1,0,0]`) and `USE_PIVOT_SEARCH` true, pivot step 0 swaps row 1,
which has the largest `|A[j][0]|`, and its `RHS` entry into position 0; the
elimination then updates row 1 only in column 1 (`nzrd[0] = [1]`) and the back
substitution of row 0 sums only over column 1, so the `x = (-1, -1, -1/2)` that is
returned does not satisfy `A x = RHS`; without pivot search the same input gives the
solution `(-3/5, -4/5, -2/5)`. -/
theorem pivot_search_breaks_pattern :
    (∀ k, k < 3 → (chain_rows k).wf 3) ∧
    (∀ r c, r < 3 → c < 3 →
      matrix_solver_direct_t.build_LE_A 3 chain_rows (fun _ _ => 0) r c
        = if r = 0 then (if c = 0 then 1 else if c = 1 then -2 else 0)
          else if r = 1 then (if c = 0 then -2 else if c = 1 then 2 else -1)
          else (if c = 0 then 0 else if c = 1 then -1 else 2)) ∧
    NonSingular 3 (matrix_solver_direct_t.build_LE_A 3 chain_rows (fun _ _ => 0)) ∧
    ((matrix_solver_direct_t.vsetup_nz 3 chain_rows 0).m_nzrd = [1] ∧
      (matrix_solver_direct_t.vsetup_nz 3 chain_rows 1).m_nzrd = [2] ∧
      (matrix_solver_direct_t.vsetup_nz 3 chain_rows 2).m_nzrd = []) ∧
    ((matrix_solver_direct_t.LE_solve_pre true 3 0
        (matrix_solver_direct_t.build_LE_A 3 chain_rows (fun _ _ => 0),
          matrix_solver_direct_t.build_LE_RHS 3 chain_rows (fun _ => 0))).1 0 0 = -2 ∧
      (matrix_solver_direct_t.LE_solve_pre true 3 0
        (matrix_solver_direct_t.build_LE_A 3 chain_rows (fun _ _ => 0),
          matrix_solver_direct_t.build_LE_RHS 3 chain_rows (fun _ => 0))).1 0 2 = -1 ∧
      (matrix_solver_direct_t.LE_solve_pre true 3 0
        (matrix_solver_direct_t.build_LE_A 3 chain_rows (fun _ _ => 0),
          matrix_solver_direct_t.build_LE_RHS 3 chain_rows (fun _ => 0))).1 1 0 = 1 ∧
      (matrix_solver_direct_t.LE_solve_pre true 3 0
        (matrix_solver_direct_t.build_LE_A 3 chain_rows (fun _ _ => 0),
          matrix_solver_direct_t.build_LE_RHS 3 chain_rows (fun _ => 0))).2 1 = 1) ∧
    ((matrix_solver_direct_t.LE_solve true 3 (matrix_solver_direct_t.vsetup_nz 3 chain_rows)
        (matrix_solver_direct_t.build_LE_A 3 chain_rows (fun _ _ => 0),
          matrix_solver_direct_t.build_LE_RHS 3 chain_rows (fun _ => 0))).bind
      (fun s => matrix_solver_direct_t.LE_back_subst 3
        (matrix_solver_direct_t.vsetup_nz 3 chain_rows) s (fun _ => 0))).map
      (fun x => (x 0, x 1, x 2)) = some (-1, -1, -1 / 2) ∧
    (∀ x, (matrix_solver_direct_t.LE_solve true 3 (matrix_solver_direct_t.vsetup_nz 3 chain_rows)
        (matrix_solver_direct_t.build_LE_A 3 chain_rows (fun _ _ => 0),
          matrix_solver_direct_t.build_LE_RHS 3 chain_rows (fun _ => 0))).bind
      (fun s => matrix_solver_direct_t.LE_back_subst 3
        (matrix_solver_direct_t.vsetup_nz 3 chain_rows) s (fun _ => 0)) = some x →
      ¬ IsSolution 3 (matrix_solver_direct_t.build_LE_A 3 chain_rows (fun _ _ => 0))
        (matrix_solver_direct_t.build_LE_RHS 3 chain_rows (fun _ => 0)) x) ∧
    ((matrix_solver_direct_t.LE_solve false 3 (matrix_solver_direct_t.vsetup_nz 3 chain_rows)
        (matrix_solver_direct_t.build_LE_A 3 chain_rows (fun _ _ => 0),
          matrix_solver_direct_t.build_LE_RHS 3 chain_rows (fun _ => 0))).bind
      (fun s => matrix_solver_direct_t.LE_back_subst 3
        (matrix_solver_direct_t.vsetup_nz 3 chain_rows) s (fun _ => 0))).map
      (fun x => (x 0, x 1, x 2)) = some (-3 / 5, -4 / 5, -2 / 5) := by
  have h0 : (matrix_solver_direct_t.vsetup_nz 3 chain_rows 0).m_nzrd = [1] := by decide
  have h1 : (matrix_solver_direct_t.vsetup_nz 3 chain_rows 1).m_nzrd = [2] := by decide
  have h2 : (matrix_solver_direct_t.vsetup_nz 3 chain_rows 2).m_nzrd = [] := by decide
  have hA := chain_rows_matrix (fun _ _ => 0)
  have hev : ((matrix_solver_direct_t.LE_solve true 3
        (matrix_solver_direct_t.vsetup_nz 3 chain_rows)
        (matrix_solver_direct_t.build_LE_A 3 chain_rows (fun _ _ => 0),
          matrix_solver_direct_t.build_LE_RHS 3 chain_rows (fun _ => 0))).bind
      (fun s => matrix_solver_direct_t.LE_back_subst 3
        (matrix_solver_direct_t.vsetup_nz 3 chain_rows) s (fun _ => 0))).map
      (fun x => (x 0, x 1, x 2)) = some (-1, -1, -1 / 2) := by
    simp [matrix_solver_direct_t.LE_solve, matrix_solver_direct_t.LE_solve_step,
      matrix_solver_direct_t.LE_solve_pre, matrix_solver_direct_t.LE_solve_search,
      matrix_solver_direct_t.LE_solve_elim,
      matrix_solver_direct_t.LE_solve_row, matrix_solver_direct_t.LE_back_subst,
      matrix_solver_direct_t.LE_back_subst_row, h0, h1, h2,
      matrix_solver_direct_t.build_LE_A, matrix_solver_direct_t.build_LE_A_row,
      matrix_solver_direct_t.build_LE_RHS, chain_rows,
      List.range_succ, List.range']
    norm_num
  refine ⟨chain_rows_wf, hA, ?_, ⟨h0, h1, h2⟩, ?_, hev, ?_, ?_⟩
  · intro z hz c hc
    have e0 := hz 0 (by decide)
    have e1 := hz 1 (by decide)
    have e2 := hz 2 (by decide)
    simp only [Finset.sum_range_succ, Finset.sum_range_zero, zero_add,
      hA 0 0 (by decide) (by decide), hA 0 1 (by decide) (by decide),
      hA 0 2 (by decide) (by decide), hA 1 0 (by decide) (by decide),
      hA 1 1 (by decide) (by decide), hA 1 2 (by decide) (by decide),
      hA 2 0 (by decide) (by decide), hA 2 1 (by decide) (by decide),
      hA 2 2 (by decide) (by decide)] at e0 e1 e2
    norm_num at e0 e1 e2
    interval_cases c <;> linarith
  · simp [matrix_solver_direct_t.LE_solve_pre, matrix_solver_direct_t.LE_solve_search,
      matrix_solver_direct_t.build_LE_A, matrix_solver_direct_t.build_LE_A_row,
      matrix_solver_direct_t.build_LE_RHS, chain_rows, List.range_succ, List.range']
    norm_num
  · intro x hx hsol
    rw [hx] at hev
    simp only [Option.map_some', Option.some.injEq, Prod.mk.injEq] at hev
    have e1 := hsol 1 (by decide)
    simp only [Finset.sum_range_succ, Finset.sum_range_zero, zero_add,
      hA 1 0 (by decide) (by decide),
      hA 1 1 (by decide) (by decide), hA 1 2 (by decide) (by decide),
      hev.1, hev.2.1, hev.2.2] at e1
    simp [matrix_solver_direct_t.build_LE_RHS, chain_rows, List.range_succ, List.range'] at e1
  · simp [matrix_solver_direct_t.LE_solve, matrix_solver_direct_t.LE_solve_step,
      matrix_solver_direct_t.LE_solve_pre,
      matrix_solver_direct_t.LE_solve_elim,
      matrix_solver_direct_t.LE_solve_row, matrix_solver_direct_t.LE_back_subst,
      matrix_solver_direct_t.LE_back_subst_row, h0, h1, h2,
      matrix_solver_direct_t.build_LE_A, matrix_solver_direct_t.build_LE_A_row,
      matrix_solver_direct_t.build_LE_RHS, chain_rows,
      List.range_succ, List.range']
    norm_num

/-! ## Rows swept by the downward pass of `LE_invert` -/

namespace matrix_solver_w_t

theorem invert_state_ext (a b : invert_state) (h1 : a.W = b.W) (h2 : a.lA = b.lA)
    (h3 : a.Ainv = b.Ainv) : a = b := by
  cases a
  cases b
  simp only at h1 h2 h3
  subst h1
  subst h2
  subst h3
  rfl

theorem LE_invert_down_fold_some (m_terms : Nat → terms_t) (s0 : invert_state) (n : Nat) :
    ∀ S, (List.range n).foldlM (fun s i => LE_invert_down_step m_terms i s) s0 = some S →
      (∀ i, i < n → (LE_invert_down_upto m_terms i s0).W i i ≠ 0) ∧
        S = LE_invert_down_upto m_terms n s0 := by
  induction n with
  | zero =>
    intro S h
    simp [LE_invert_down_upto] at h ⊢
    exact h.symm
  | succ n ih =>
    intro S h
    rw [List.range_succ, List.foldlM_append] at h
    cases h1 : (List.range n).foldlM (fun s i => LE_invert_down_step m_terms i s) s0 with
    | none => rw [h1] at h; simp at h
    | some S1 =>
      rw [h1] at h
      obtain ⟨hp, hS1⟩ := ih S1 h1
      subst hS1
      simp only [List.foldlM_cons, List.foldlM_nil, Option.some_bind, LE_invert_down_step,
        Option.bind_eq_bind] at h
      by_cases hz : (LE_invert_down_upto m_terms n s0).W n n = 0
      · simp [hz] at h
      · simp [hz] at h
        refine ⟨fun i hi => ?_, ?_⟩
        · by_cases hin : i = n
          · subst hin; exact hz
          · exact hp i (by omega)
        · rw [LE_invert_down_upto_succ]
          exact h.symm

theorem LE_invert_down_elim_eq_all (kN : Nat) (m_terms : Nat → terms_t) (i : Nat)
    (S : invert_state) (hp : (m_terms i).m_nzrd.Nodup) (hL : (m_terms i).m_nzbd.Nodup)
    (hmem : ∀ j, j ∈ (m_terms i).m_nzbd → i < j ∧ j < kN)
    (hcov : ∀ j, i < j → j < kN → S.W j i ≠ 0 → j ∈ (m_terms i).m_nzbd) :
    LE_invert_down_elim m_terms i S = LE_invert_down_elim_all kN m_terms i S := by
  have hiL : i ∉ (m_terms i).m_nzbd := fun h => Nat.lt_irrefl i (hmem i h).1
  have hiR : i ∉ List.range' (i + 1) (kN - (i + 1)) := by
    intro h
    rw [List.mem_range'_1] at h
    omega
  obtain ⟨a1, a2, a3⟩ := LE_invert_down_rows_fold (m_terms i).m_nzrd hp i (1 / S.W i i)
    (m_terms i).m_nzbd hL hiL S
  obtain ⟨b1, b2, b3⟩ := LE_invert_down_rows_fold (m_terms i).m_nzrd hp i (1 / S.W i i)
    (List.range' (i + 1) (kN - (i + 1))) (List.nodup_range' _ _) hiR S
  have hz : ∀ r, r ∈ List.range' (i + 1) (kN - (i + 1)) → r ∉ (m_terms i).m_nzbd →
      S.W r i = 0 := by
    intro r hr hn
    rw [List.mem_range'_1] at hr
    by_contra hne
    exact hn (hcov r (by omega) (by omega) hne)
  have hsub : ∀ r, r ∈ (m_terms i).m_nzbd → r ∈ List.range' (i + 1) (kN - (i + 1)) := by
    intro r hr
    rw [List.mem_range'_1]
    have := hmem r hr
    omega
  apply invert_state_ext
  · funext r c
    unfold LE_invert_down_elim LE_invert_down_elim_all
    simp only []
    rw [a1, b1]
    by_cases hr : r ∈ (m_terms i).m_nzbd
    · simp [hr, hsub r hr]
    · by_cases hr2 : r ∈ List.range' (i + 1) (kN - (i + 1))
      · simp [hr, hr2, hz r hr2 hr]
      · simp [hr, hr2]
  · unfold LE_invert_down_elim LE_invert_down_elim_all
    simp only []
    rw [a3, b3]
  · funext r c
    unfold LE_invert_down_elim LE_invert_down_elim_all
    simp only []
    rw [a2, b2]
    by_cases hr : r ∈ (m_terms i).m_nzbd
    · simp [hr, hsub r hr]
    · by_cases hr2 : r ∈ List.range' (i + 1) (kN - (i + 1))
      · simp [hr, hr2, hz r hr2 hr]
      · simp [hr, hr2]

theorem LE_invert_down_covered (kN : Nat) (m_terms : Nat → terms_t) (ok : NzrdOK kN m_terms)
    (okb : NzbdOK kN m_terms) (A0 : Mat) (s0 : invert_state)
    (hpatA : ∀ r c, r < kN → c < kN → A0 r c ≠ 0 → c ∈ (m_terms r).m_nz)
    (hcov : ∀ r c, r < kN → r < c → c ∈ (m_terms r).m_nz → c ∈ (m_terms r).m_nzrd)
    (i : Nat) (hi : i < kN)
    (hpiv : ∀ i1, i1 < i → LE_invert_pivot_down kN m_terms A0 s0 i1 ≠ 0)
    (j : Nat) (hij : i < j) (hj : j < kN)
    (hne : (LE_invert_down_upto m_terms i (LE_invert_init kN A0 s0)).W j i ≠ 0) :
    j ∈ (m_terms i).m_nzbd := by
  obtain ⟨-, -, -, d4, -⟩ := LE_invert_down_inv kN m_terms ok okb A0 s0 hpatA hcov i
    (Nat.le_of_lt hi) hpiv _ rfl
  exact (okb.mem i hi j).mpr ⟨⟨hij, hj⟩, d4 j i hj hi hne⟩

theorem LE_invert_down_eq_all (kN : Nat) (m_terms : Nat → terms_t) (ok : NzrdOK kN m_terms)
    (okb : NzbdOK kN m_terms) (A0 : Mat) (s0 : invert_state)
    (hpatA : ∀ r c, r < kN → c < kN → A0 r c ≠ 0 → c ∈ (m_terms r).m_nz)
    (hcov : ∀ r c, r < kN → r < c → c ∈ (m_terms r).m_nz → c ∈ (m_terms r).m_nzrd) :
    (List.range kN).foldlM (fun s i => LE_invert_down_step m_terms i s) (LE_invert_init kN A0 s0)
      = LE_invert_down_all kN m_terms (LE_invert_init kN A0 s0) := by
  unfold LE_invert_down_all
  have key : ∀ n, n ≤ kN →
      (List.range n).foldlM (fun s i => LE_invert_down_step m_terms i s)
          (LE_invert_init kN A0 s0)
        = (List.range n).foldlM
          (fun s i => if s.W i i = 0 then none
            else some (LE_invert_down_elim_all kN m_terms i s)) (LE_invert_init kN A0 s0) := by
    intro n
    induction n with
    | zero => intro _; rfl
    | succ n ih =>
      intro hn
      rw [List.range_succ, List.foldlM_append, List.foldlM_append, ← ih (by omega)]
      cases h1 : (List.range n).foldlM (fun s i => LE_invert_down_step m_terms i s)
          (LE_invert_init kN A0 s0) with
      | none => rfl
      | some S =>
        obtain ⟨hp, hS⟩ := LE_invert_down_fold_some m_terms _ n S h1
        simp only [List.foldlM_cons, List.foldlM_nil, Option.some_bind, Option.bind_eq_bind,
          LE_invert_down_step]
        by_cases hz : S.W n n = 0
        · simp [hz]
        · simp only [hz, if_false]
          have hn1 : n < kN := by omega
          rw [LE_invert_down_elim_eq_all kN m_terms n S (ok.nodup n hn1) (okb.nodup n hn1)
            (fun j hj => ((okb.mem n hn1 j).mp hj).1)
            (fun j hnj hj hne => LE_invert_down_covered kN m_terms ok okb A0 s0 hpatA hcov n hn1
              hp j hnj hj (by rw [← hS]; exact hne))]
  exact key kN (Nat.le_refl kN)

end matrix_solver_w_t

/-- C28: the lists `m_nzbd` cover every affected row.  For rows that are well formed
and a matrix `A` whose nonzeros lie inside the `m_nz` lists of the Woodbury `vsetup`:
at every pivot step `i` of the downward pass of `LE_invert` that is reached (the pivots
before it are not zero), every row `j > i` with `W(j,i) ≠ 0` is a member of
`m_nzbd` of row `i`; and the downward pass that sweeps the rows in `m_nzbd` only gives
the same result (the same matrices, or the same failure at a zero pivot) as the
downward pass that sweeps all the rows `j = i+1 .. N-1`. -/
theorem nzbd_covers_affected_rows (N : Nat) (rows : Nat → terms_t)
    (hwf : ∀ k, k < N → (rows k).wf N) (A : Mat) (s0 : invert_state)
    (hA : ∀ r c, r < N → c < N → A r c ≠ 0 → c ∈ (matrix_solver_w_t.vsetup_nz N rows r).m_nz) :
    (∀ i, i < N →
      (∀ i1, i1 < i →
        matrix_solver_w_t.LE_invert_pivot_down N (matrix_solver_w_t.vsetup_nz N rows) A s0 i1
          ≠ 0) →
      ∀ j, i < j → j < N →
        (matrix_solver_w_t.LE_invert_down_upto (matrix_solver_w_t.vsetup_nz N rows) i
          (matrix_solver_w_t.LE_invert_init N A s0)).W j i ≠ 0 →
        j ∈ (matrix_solver_w_t.vsetup_nz N rows i).m_nzbd) ∧
    (List.range N).foldlM
        (fun s i => matrix_solver_w_t.LE_invert_down_step (matrix_solver_w_t.vsetup_nz N rows) i s)
        (matrix_solver_w_t.LE_invert_init N A s0)
      = matrix_solver_w_t.LE_invert_down_all N (matrix_solver_w_t.vsetup_nz N rows)
        (matrix_solver_w_t.LE_invert_init N A s0) := by
  have ok := matrix_solver_w_t.w_vsetup_nz_ok N rows hwf
  have okb := matrix_solver_w_t.w_vsetup_nzbd_ok N rows
  have hcov : ∀ r c, r < N → r < c → c ∈ (matrix_solver_w_t.vsetup_nz N rows r).m_nz →
      c ∈ (matrix_solver_w_t.vsetup_nz N rows r).m_nzrd :=
    fun r c hr hrc h => matrix_solver_w_t.w_vsetup_nz_covers N rows r c hr hrc h
  exact ⟨fun i hi hpiv j hij hj hne =>
      matrix_solver_w_t.LE_invert_down_covered N _ ok okb A s0 hA hcov i hi hpiv j hij hj hne,
    matrix_solver_w_t.LE_invert_down_eq_all N _ ok okb A s0 hA hcov⟩

theorem nzbd_covers_affected_rows_witness :
    (∀ k, k < 3 → (chain_rows k).wf 3) ∧
    (matrix_solver_w_t.vsetup_nz 3 chain_rows 0).m_nzbd = [1] ∧
    (matrix_solver_w_t.vsetup_nz 3 chain_rows 1).m_nzbd = [2] ∧
    (matrix_solver_w_t.vsetup_nz 3 chain_rows 2).m_nzbd = [] ∧
    (∀ r c, r < 3 → c < 3 →
      matrix_solver_direct_t.build_LE_A 3 chain_rows (fun _ _ => 0) r c ≠ 0 →
      c ∈ (matrix_solver_w_t.vsetup_nz 3 chain_rows r).m_nz) ∧
    ((∀ i, i < 3 →
      (∀ i1, i1 < i →
        matrix_solver_w_t.LE_invert_pivot_down 3 (matrix_solver_w_t.vsetup_nz 3 chain_rows)
          (matrix_solver_direct_t.build_LE_A 3 chain_rows (fun _ _ => 0))
          ⟨fun _ _ => 7, fun _ _ => 8, fun _ _ => 9⟩ i1 ≠ 0) →
      ∀ j, i < j → j < 3 →
        (matrix_solver_w_t.LE_invert_down_upto (matrix_solver_w_t.vsetup_nz 3 chain_rows) i
          (matrix_solver_w_t.LE_invert_init 3
            (matrix_solver_direct_t.build_LE_A 3 chain_rows (fun _ _ => 0))
            ⟨fun _ _ => 7, fun _ _ => 8, fun _ _ => 9⟩)).W j i ≠ 0 →
        j ∈ (matrix_solver_w_t.vsetup_nz 3 chain_rows i).m_nzbd) ∧
    (List.range 3).foldlM
        (fun s i =>
          matrix_solver_w_t.LE_invert_down_step (matrix_solver_w_t.vsetup_nz 3 chain_rows) i s)
        (matrix_solver_w_t.LE_invert_init 3
          (matrix_solver_direct_t.build_LE_A 3 chain_rows (fun _ _ => 0))
          ⟨fun _ _ => 7, fun _ _ => 8, fun _ _ => 9⟩)
      = matrix_solver_w_t.LE_invert_down_all 3 (matrix_solver_w_t.vsetup_nz 3 chain_rows)
        (matrix_solver_w_t.LE_invert_init 3
          (matrix_solver_direct_t.build_LE_A 3 chain_rows (fun _ _ => 0))
          ⟨fun _ _ => 7, fun _ _ => 8, fun _ _ => 9⟩)) := by
  have hA : ∀ r c, r < 3 → c < 3 →
      matrix_solver_direct_t.build_LE_A 3 chain_rows (fun _ _ => 0) r c ≠ 0 →
      c ∈ (matrix_solver_w_t.vsetup_nz 3 chain_rows r).m_nz := by
    intro r c hr hc hne
    rw [chain_rows_matrix _ r c hr hc] at hne
    have h0 : (matrix_solver_w_t.vsetup_nz 3 chain_rows 0).m_nz = [0, 1] := by decide
    have h1 : (matrix_solver_w_t.vsetup_nz 3 chain_rows 1).m_nz = [0, 1, 2] := by decide
    have h2 : (matrix_solver_w_t.vsetup_nz 3 chain_rows 2).m_nz = [1, 2] := by decide
    interval_cases r <;> interval_cases c <;> simp_all
  exact ⟨chain_rows_wf, by decide, by decide, by decide, hA,
    nzbd_covers_affected_rows 3 chain_rows chain_rows_wf _ _ hA⟩

/-! ## The fast path and the persistent inverse -/

namespace matrix_solver_w_t

theorem foldlM_some_invariant {σ ι : Type} (P : σ → Prop) (f : σ → ι → Option σ)
    (hf : ∀ s i s1, P s → f s i = some s1 → P s1) (l : List ι) :
    ∀ s0 S, l.foldlM f s0 = some S → P s0 → P S := by
  induction l with
  | nil =>
    intro s0 S h h0
    simp at h
    rw [← h]
    exact h0
  | cons a l ih =>
    intro s0 S h h0
    simp only [List.foldlM_cons, Option.bind_eq_bind] at h
    cases h1 : f s0 a with
    | none => rw [h1] at h; simp at h
    | some s1 =>
      rw [h1] at h
      exact ih s1 S h (hf s0 a s1 h0 h1)

theorem foldl_invariant {σ ι : Type} (P : σ → Prop) (f : σ → ι → σ)
    (hf : ∀ s i, P s → P (f s i)) (l : List ι) : ∀ s0, P s0 → P (l.foldl f s0) := by
  induction l with
  | nil => intro s0 h0; exact h0
  | cons a l ih => intro s0 h0; exact ih (f s0 a) (hf s0 a h0)

theorem LE_invert_down_row_lA (p : List Nat) (i : Nat) (f : ℚ) (j : Nat) (s : invert_state) :
    (LE_invert_down_row p i f j s).lA = s.lA := by
  unfold LE_invert_down_row
  simp only []
  split <;> rfl

theorem LE_invert_up_row_lA (kN i : Nat) (f : ℚ) (j : Nat) (s : invert_state) :
    (LE_invert_up_row kN i f j s).lA = s.lA := by
  unfold LE_invert_up_row
  simp only []
  split <;> rfl

theorem LE_invert_down_elim_lA (m_terms : Nat → terms_t) (i : Nat) (s : invert_state) :
    (LE_invert_down_elim m_terms i s).lA = s.lA := by
  unfold LE_invert_down_elim
  exact foldl_invariant (fun S => S.lA = s.lA)
    (fun s5 j => LE_invert_down_row (m_terms i).m_nzrd i (1 / s.W i i) j s5)
    (fun s4 j h4 => by
      show (LE_invert_down_row _ _ _ _ _).lA = _
      rw [LE_invert_down_row_lA]; exact h4) _ s rfl

theorem LE_invert_up_elim_lA (kN i : Nat) (s : invert_state) :
    (LE_invert_up_elim kN i s).lA = s.lA := by
  unfold LE_invert_up_elim
  show ((List.range i).reverse.foldl (fun s5 j => LE_invert_up_row kN i (1 / s.W i i) j s5) s).lA
    = s.lA
  exact foldl_invariant (fun S => S.lA = s.lA)
    (fun s5 j => LE_invert_up_row kN i (1 / s.W i i) j s5)
    (fun s4 j h4 => by
      show (LE_invert_up_row _ _ _ _ _).lA = _
      rw [LE_invert_up_row_lA]; exact h4) _ s rfl

/-- The passes of `LE_invert` do not write `lA`: a refresh that returns leaves in
`lA` what its initialisation loop has stored. -/
theorem LE_invert_lA (kN : Nat) (m_terms : Nat → terms_t) (A : Mat) (s s1 : invert_state)
    (h : LE_invert kN m_terms A s = some s1) : s1.lA = (LE_invert_init kN A s).lA := by
  unfold LE_invert at h
  cases hd : (List.range kN).foldlM (fun s i => LE_invert_down_step m_terms i s)
      (LE_invert_init kN A s) with
  | none => rw [hd] at h; simp at h
  | some S =>
    rw [hd] at h
    simp only [Option.some_bind, Option.bind_eq_bind] at h
    have h1 : S.lA = (LE_invert_init kN A s).lA := by
      refine foldlM_some_invariant (fun S => S.lA = (LE_invert_init kN A s).lA)
        (fun s i => LE_invert_down_step m_terms i s) ?_ _ _ S hd rfl
      intro s2 i s3 hP hs
      unfold LE_invert_down_step at hs
      simp only [] at hs
      split at hs
      · simp at hs
      · simp only [Option.some.injEq] at hs
        rw [← hs]
        show (LE_invert_down_elim m_terms i s2).lA = _
        rw [LE_invert_down_elim_lA]
        exact hP
    refine foldlM_some_invariant (fun S => S.lA = (LE_invert_init kN A s).lA)
      (fun s i => LE_invert_up_step kN i s) ?_ _ _ s1 h h1
    intro s2 i s3 hP hs
    unfold LE_invert_up_step at hs
    simp only [] at hs
    split at hs
    · simp at hs
    · simp only [Option.some.injEq] at hs
      rw [← hs]
      show (LE_invert_up_elim kN i s2).lA = _
      rw [LE_invert_up_elim_lA]
      exact hP

/-- A call of `solve_non_dynamic` that takes the refresh path and returns leaves the
assembled matrix of that call in the snapshot `lA`. -/
theorem solve_refresh_snapshot (s : matrix_solver_w_t) (new_V t : Vec) (nr : Bool) (code : Nat)
    (s1 : matrix_solver_w_t) (hc : s.m_cnt % 100 = 0)
    (h : solve_non_dynamic s new_V t nr = some (code, s1)) :
    s1.N = s.N ∧ s1.m_A = s.m_A ∧
      ∀ r c, r < s.N → c < s.N → s1.inv.lA r c = s.m_A r c := by
  unfold solve_non_dynamic at h
  rw [if_pos hc] at h
  unfold solve_refresh at h
  cases hi : LE_invert s.N s.m_terms s.m_A s.inv with
  | none => simp [hi] at h
  | some inv =>
    simp only [hi, Option.map_some', Option.some.injEq] at h
    have hl := LE_invert_lA s.N s.m_terms s.m_A s.inv inv hi
    have h2 : s1 = (solve_commit { s with inv := inv }
        (LE_compute_x s.N inv.Ainv s.m_RHS new_V) nr).2 := by rw [h]
    have h3 : s1.N = s.N ∧ s1.m_A = s.m_A ∧ s1.inv = inv := by
      rw [h2]
      unfold solve_commit
      cases nr <;> exact ⟨rfl, rfl, rfl⟩
    refine ⟨h3.1, h3.2.1, fun r c hr hc1 => ?_⟩
    rw [h3.2.2, hl, (LE_invert_init_apply s.N s.m_A s.inv).2.1 r c]
    simp [hr, hc1]

theorem solve_fast_eq (s s1 : matrix_solver_w_t) (v t x : Vec)
    (h : solve_fast s v t = some (s1, x)) : s1 = { s with H := s1.H } := by
  unfold solve_fast at h
  simp only at h
  split at h
  · simp only [Option.bind_eq_some, Option.map_eq_some', Prod.mk.injEq] at h
    obtain ⟨r, -, t1, -, heq, -⟩ := h
    rw [← heq]
  · simp only [Option.some.injEq, Prod.mk.injEq] at h
    rw [← h.1]

theorem w_fast_run_inv (s0 s : matrix_solver_w_t) (h : w_fast_run s0 s) :
    s.N = s0.N ∧ s.inv = s0.inv := by
  induction h with
  | start => exact ⟨rfl, rfl⟩
  | call s new_V t nr code s1 s2 hr hf hc hk ih =>
    unfold solve_non_dynamic at hc
    rw [if_neg hf] at hc
    cases hs : solve_fast s new_V t with
    | none => simp [hs] at hc
    | some r =>
      obtain ⟨r1, x⟩ := r
      simp only [hs, Option.map_some', Option.some.injEq] at hc
      have e := solve_fast_eq s r1 new_V t x hs
      have h2 : s1 = (solve_commit r1 x nr).2 := by rw [hc]
      have h3 : s1.N = s.N ∧ s1.inv = s.inv := by
        rw [h2, e]
        unfold solve_commit
        cases nr <;> exact ⟨rfl, rfl⟩
      obtain ⟨k1, k2, -⟩ := hk
      exact ⟨by rw [k1, h3.1, ih.1], by rw [k2, h3.2, ih.2]⟩

end matrix_solver_w_t

/-- C29: the fast path leaves the persistent inverse untouched.  A Woodbury
`solve_non_dynamic` call with `m_cnt % 100 ≠ 0` that returns leaves the solver as it
was but for the scratch matrix `H`, the counter `m_cnt` and the net voltages: `Ainv`,
the snapshot `lA` (and `W`), the matrix `A`, `RHS`, the rows and `N()` are the same.
Consequently, when the call is reached from an earlier entry state `s0` (such as the
one the last full refresh has left) by fast-path calls only, with the matrix
reassembled in between, its inverse and snapshot are still those of `s0`, and its
changed rows are those of the current matrix against the snapshot of `s0`. -/
theorem fast_path_keeps_inverse (s0 s : matrix_solver_w_t)
    (hrun : matrix_solver_w_t.w_fast_run s0 s) (new_V t : Vec) (newton_raphson : Bool)
    (code : Nat) (s1 : matrix_solver_w_t) (hc : s.m_cnt % 100 ≠ 0)
    (h : matrix_solver_w_t.solve_non_dynamic s new_V t newton_raphson = some (code, s1)) :
    (∃ x : Vec, s1 = { s with H := s1.H, m_cnt := (s.m_cnt + 1) % 2 ^ 32
                              cur_Analog := matrix_solver_w_t.store s.N x s.cur_Analog }) ∧
    (s1.inv.Ainv = s.inv.Ainv ∧ s1.inv.lA = s.inv.lA ∧ s1.m_A = s.m_A) ∧
    (s.inv = s0.inv ∧ s1.inv = s0.inv) ∧
    matrix_solver_w_t.changed_rows s.N s.m_terms s.m_A s.inv.lA
      = matrix_solver_w_t.changed_rows s.N s.m_terms s.m_A s0.inv.lA := by
  obtain ⟨-, r2⟩ := matrix_solver_w_t.w_fast_run_inv s0 s hrun
  have h0 := h
  unfold matrix_solver_w_t.solve_non_dynamic at h
  cases hs : (if s.m_cnt % 100 = 0 then matrix_solver_w_t.solve_refresh s new_V
      else matrix_solver_w_t.solve_fast s new_V t) with
  | none => simp [hs] at h
  | some r =>
    obtain ⟨r1, x⟩ := r
    have hq := matrix_solver_w_t.solve_non_dynamic_eq_w s new_V t newton_raphson (r1, x) hs
    rw [h0] at hq
    simp only [Option.some.injEq, Prod.mk.injEq] at hq
    rw [if_neg hc] at hs
    have e := matrix_solver_w_t.solve_fast_eq s r1 new_V t x hs
    have e1 : s1 = { s with H := r1.H, m_cnt := (s.m_cnt + 1) % 2 ^ 32
                            cur_Analog := matrix_solver_w_t.store s.N x s.cur_Analog } := by
      rw [hq.2, e]
    have e2 : s1.H = r1.H := by rw [e1]
    have e3 : s1.inv = s.inv := by rw [e1]
    have e4 : s1.m_A = s.m_A := by rw [e1]
    refine ⟨⟨x, ?_⟩, ⟨by rw [e3], by rw [e3], e4⟩, ⟨r2, by rw [e3, r2]⟩, by rw [r2]⟩
    rw [e2]
    exact e1


theorem fast_path_keeps_inverse_witness :
    ∃ s1 v code s3,
      matrix_solver_w_t.solve_non_dynamic shorted_w_same (fun _ => 0) (fun _ => 0) false
        = some (1, s1) ∧
      matrix_solver_w_t.between_calls s1 (shorted_w_third v) ∧
      matrix_solver_w_t.w_fast_run shorted_w_same (shorted_w_third v) ∧
      (shorted_w_third v).m_cnt % 100 ≠ 0 ∧
      matrix_solver_w_t.solve_non_dynamic (shorted_w_third v) (fun _ => 0) (fun _ => 0) false
        = some (code, s3) ∧
      ((∃ x : Vec, s3 = { shorted_w_third v with H := s3.H, m_cnt := ((shorted_w_third v).m_cnt + 1) % 2 ^ 32, cur_Analog := matrix_solver_w_t.store (shorted_w_third v).N x (shorted_w_third v).cur_Analog }) ∧
        (s3.inv.Ainv = (shorted_w_third v).inv.Ainv ∧ s3.inv.lA = (shorted_w_third v).inv.lA ∧
          s3.m_A = (shorted_w_third v).m_A) ∧
        ((shorted_w_third v).inv = shorted_w_same.inv ∧ s3.inv = shorted_w_same.inv) ∧
        matrix_solver_w_t.changed_rows (shorted_w_third v).N (shorted_w_third v).m_terms
            (shorted_w_third v).m_A (shorted_w_third v).inv.lA
          = matrix_solver_w_t.changed_rows (shorted_w_third v).N (shorted_w_third v).m_terms
              (shorted_w_third v).m_A shorted_w_same.inv.lA) := by
  have h0 : (matrix_solver_w_t.vsetup_nz 1 (shorted_rows 1) 0).m_nz = [0, 0] := by decide
  have hf : matrix_solver_w_t.solve_fast shorted_w_same (fun _ => 0) (fun _ => 0)
      = some (shorted_w_same,
          matrix_solver_w_t.LE_compute_x 1 (fun _ _ => 1) (fun _ => 2) (fun _ => 0)) := by
    simp [matrix_solver_w_t.solve_fast, matrix_solver_w_t.changed_rows, shorted_w_same,
      shorted_w, h0]
  have hc1 : shorted_w_same.m_cnt % 100 ≠ 0 := by decide
  have h1 := matrix_solver_w_t.solve_non_dynamic_eq_w shorted_w_same
    (fun _ => 0) (fun _ => 0) false _ (by rw [if_neg hc1]; exact hf)
  simp only [Bool.false_eq_true, false_and, if_false] at h1
  have hev : ∀ v, (matrix_solver_w_t.solve_non_dynamic (shorted_w_third v)
      (fun _ => 0) (fun _ => 0) false).map (fun r => r.2.cur_Analog 0) = some (4 / 3) := by
    intro v
    simp [matrix_solver_w_t.solve_non_dynamic, matrix_solver_w_t.solve_commit,
      matrix_solver_w_t.solve_fast, shorted_w_third, shorted_w, matrix_solver_w_t.changed_rows,
      matrix_solver_w_t.fast_w, matrix_solver_w_t.fast_H, matrix_solver_w_t.fast_elim,
      matrix_solver_w_t.fast_elim_step, matrix_solver_w_t.fast_elim_rows,
      matrix_solver_w_t.fast_elim_row, matrix_solver_w_t.fast_back,
      matrix_solver_w_t.fast_back_row, matrix_solver_w_t.fast_correct,
      matrix_solver_w_t.LE_compute_x, matrix_solver_w_t.store, matrix_solver_direct_t.store,
      h0, List.range_succ, List.range']
    norm_num
    simp [List.range_succ]
  cases h2 : matrix_solver_w_t.solve_non_dynamic
      (shorted_w_third (matrix_solver_w_t.store 1
        (matrix_solver_w_t.LE_compute_x 1 (fun _ _ => 1) (fun _ => 2) (fun _ => 0)) (fun _ => 0)))
      (fun _ => 0) (fun _ => 0) false with
  | none =>
    have := hev (matrix_solver_w_t.store 1
        (matrix_solver_w_t.LE_compute_x 1 (fun _ _ => 1) (fun _ => 2) (fun _ => 0)) (fun _ => 0))
    rw [h2] at this
    simp at this
  | some p =>
    obtain ⟨code, s3⟩ := p
    have hc2 : ∀ v, (shorted_w_third v).m_cnt % 100 ≠ 0 := fun v =>
      show 2 % 100 ≠ 0 by decide
    have hrun : matrix_solver_w_t.w_fast_run shorted_w_same
        (shorted_w_third (matrix_solver_w_t.store 1
          (matrix_solver_w_t.LE_compute_x 1 (fun _ _ => 1) (fun _ => 2) (fun _ => 0))
          (fun _ => 0))) :=
      matrix_solver_w_t.w_fast_run.call _ _ _ _ _ _ _ _
        (matrix_solver_w_t.w_fast_run.start _) hc1 h1 ⟨rfl, rfl, rfl⟩
    exact ⟨_, _, code, s3, h1, ⟨rfl, rfl, rfl⟩, hrun, hc2 _, h2,
      fast_path_keeps_inverse _ _ hrun _ _ _ _ _ (hc2 _) h2⟩

/-! ## Timestep controller: bounds of the result -/

namespace matrix_solver_direct_t

/-- The running step of the loop of `compute_next_timestep` never rises: whatever the
nets hold, a loop that returns leaves a step that is at most the start value. -/
theorem compute_next_timestep_fold_le (sqrt : ℚ → ℚ) (p : solver_parameters_t) (hn : ℚ)
    (m_last_V : Vec) (l : List Nat) :
    ∀ (st st1 : ℚ × (Nat → analog_net_t)),
      l.foldlM (fun st k => compute_next_timestep_net sqrt p hn m_last_V k st) st = some st1 →
      st1.1 ≤ st.1 := by
  induction l with
  | nil =>
    intro st st1 h
    simp at h
    rw [h]
  | cons k l ih =>
    intro st st1 h
    simp only [List.foldlM_cons, Option.bind_eq_bind] at h
    cases h1 : compute_next_timestep_net sqrt p hn m_last_V k st with
    | none => rw [h1] at h; simp at h
    | some st2 =>
      rw [h1] at h
      have h2 := ih st2 st1 h
      unfold compute_next_timestep_net at h1
      simp only [] at h1
      split at h1
      · simp at h1
      · simp only [Option.some.injEq] at h1
        rw [← h1] at h2
        refine le_trans h2 ?_
        show (if _ < st.1 then _ else st.1) ≤ st.1
        split
        · exact le_of_lt (by assumption)
        · exact le_refl _

end matrix_solver_direct_t

/-- C31: bounds of the timestep controller with dynamic stepping enabled.  For every
`N`, every state of the nets and every value of `nl_math::sqrt`: a value that
`compute_next_timestep` returns is at least `min_timestep` and at most
`max(min_timestep, max_timestep)`, so it is at most `max_timestep` when
`min_timestep <= max_timestep`, whatever the candidates of the nets are; and the call
does return when none of the divisors `hn`, `m_h_n_m_1`, `hn + m_h_n_m_1` is zero. -/
theorem next_timestep_bounds (sqrt : ℚ → ℚ) (m_params : solver_parameters_t) (iN : Nat)
    (hn : ℚ) (m_last_V : Vec) (m_nets : Nat → analog_net_t)
    (hdyn : m_params.m_dynamic = true) :
    (∀ r nets1,
      matrix_solver_direct_t.compute_next_timestep sqrt m_params iN hn m_last_V m_nets
        = some (r, nets1) →
      m_params.m_min_timestep ≤ r ∧
      r ≤ max m_params.m_min_timestep m_params.m_max_timestep ∧
      (m_params.m_min_timestep ≤ m_params.m_max_timestep → r ≤ m_params.m_max_timestep)) ∧
    (hn ≠ 0 →
      (∀ k, k < iN → (m_nets k).m_h_n_m_1 ≠ 0 ∧ hn + (m_nets k).m_h_n_m_1 ≠ 0) →
      ∃ r nets1,
        matrix_solver_direct_t.compute_next_timestep sqrt m_params iN hn m_last_V m_nets
          = some (r, nets1)) := by
  constructor
  · intro r nets1 h
    unfold matrix_solver_direct_t.compute_next_timestep at h
    rw [if_pos hdyn] at h
    cases hf : (List.range iN).foldlM
        (fun st k => matrix_solver_direct_t.compute_next_timestep_net sqrt m_params hn m_last_V k st)
        (m_params.m_max_timestep, m_nets) with
    | none => rw [hf] at h; simp at h
    | some st =>
      rw [hf] at h
      simp only [Option.map_some', Option.some.injEq, Prod.mk.injEq] at h
      have hle : st.1 ≤ m_params.m_max_timestep :=
        matrix_solver_direct_t.compute_next_timestep_fold_le sqrt m_params hn m_last_V _ _ _ hf
      have hr := h.1
      by_cases hlt : st.1 < m_params.m_min_timestep
      · rw [if_pos hlt] at hr
        rw [← hr]
        exact ⟨le_refl _, le_max_left _ _, fun h => h⟩
      · rw [if_neg hlt] at hr
        rw [← hr]
        exact ⟨not_lt.mp hlt, le_trans hle (le_max_right _ _), fun _ => hle⟩
  · intro hhn hh
    obtain ⟨r, nets1, h1, -⟩ :=
      matrix_solver_direct_t.compute_next_timestep_fold sqrt m_params hn m_last_V m_nets
        m_params.m_max_timestep hhn iN hh
    unfold matrix_solver_direct_t.compute_next_timestep
    rw [if_pos hdyn, h1]
    exact ⟨_, _, rfl⟩

/-- Witness of `next_timestep_bounds`: one net with `max_timestep = 1`,
`min_timestep = 1/10`, `lte = 2` whose candidate step is 2; the call returns, and
what it returns is between `1/10` and `1`. -/
theorem next_timestep_bounds_witness :
    matrix_solver_direct_t.new_net_timestep sqrt_exact
      { m_max_timestep := 1, m_min_timestep := 1 / 10, m_lte := 2, m_dynamic := true } 1 0
      { m_cur_Analog := 2, m_h_n_m_1 := 1, m_DD_n_m_1 := 0 } = 2 ∧
    ∃ r nets1,
      matrix_solver_direct_t.compute_next_timestep sqrt_exact
        { m_max_timestep := 1, m_min_timestep := 1 / 10, m_lte := 2, m_dynamic := true } 1 1
        (fun _ => 0) (fun _ => { m_cur_Analog := 2, m_h_n_m_1 := 1, m_DD_n_m_1 := 0 })
        = some (r, nets1) ∧
      (1 / 10 : ℚ) ≤ r ∧ r ≤ max (1 / 10 : ℚ) 1 ∧ r ≤ 1 := by
  have hb := next_timestep_bounds sqrt_exact
    { m_max_timestep := 1, m_min_timestep := 1 / 10, m_lte := 2, m_dynamic := true } 1 1
    (fun _ => 0) (fun _ => { m_cur_Analog := 2, m_h_n_m_1 := 1, m_DD_n_m_1 := 0 }) rfl
  obtain ⟨r, nets1, h⟩ := hb.2 one_ne_zero (fun _ _ => ⟨one_ne_zero, by norm_num⟩)
  obtain ⟨b1, b2, b3⟩ := hb.1 r nets1 h
  refine ⟨?_, r, nets1, h, b1, b2, b3 (by norm_num)⟩
  have hD : matrix_solver_direct_t.DD2 1 0
      { m_cur_Analog := 2, m_h_n_m_1 := 1, m_DD_n_m_1 := 0 } = 1 := by
    unfold matrix_solver_direct_t.DD2
    norm_num
  unfold matrix_solver_direct_t.new_net_timestep
  rw [hD]
  have h4 : (2 : ℚ) / |1 / 2 * 1| = 4 := by
    rw [abs_of_pos (by norm_num : (0 : ℚ) < 1 / 2 * 1)]
    norm_num
  rw [if_pos (by rw [abs_one]; norm_num)]
  show sqrt_exact ((2 : ℚ) / |1 / 2 * 1|) = 2
  rw [h4]
  exact sqrt_exact_four

/-! ## Reordering of the rows: the permutation -/

theorem swap_at_eq_swap {α : Type} (a : Nat → α) (i j : Nat) :
    swap_at a i j = fun k => a (Equiv.swap i j k) := by
  funext k
  unfold swap_at
  rw [Equiv.swap_apply_def]
  by_cases h1 : k = i
  · simp [h1]
  · by_cases h2 : k = j
    · subst h2
      simp [h1]
    · simp [h1, h2]

theorem foldl_invariant_mem {σ ι : Type} (P : σ → Prop) (f : σ → ι → σ) (l : List ι)
    (hf : ∀ s i, i ∈ l → P s → P (f s i)) : ∀ s0, P s0 → P (l.foldl f s0) := by
  induction l with
  | nil => intro s0 h0; exact h0
  | cons a l ih =>
    intro s0 h0
    exact ih (fun s i hi hs => hf s i (List.mem_cons_of_mem _ hi) hs) (f s0 a)
      (hf s0 a (List.mem_cons_self _ _) h0)

namespace matrix_solver_direct_t

/-- One step of the reordering loop composes the rearrangement of both arrays with
the same transposition. -/
theorem vsetup_sort_step_perm {α : Type} (N : Nat) (m_terms : Nat → terms_list_t)
    (m_nets : Nat → α) (sort_order : Int) (i : Nat) (hi : i + 1 < N)
    (s : (Nat → terms_list_t) × (Nat → α))
    (h : ∃ p : Equiv.Perm Nat, (∀ k, N ≤ k → p k = k) ∧
      s.1 = (fun k => m_terms (p k)) ∧ s.2 = (fun k => m_nets (p k))) :
    ∃ p : Equiv.Perm Nat, (∀ k, N ≤ k → p k = k) ∧
      (vsetup_sort_step sort_order i s).1 = (fun k => m_terms (p k)) ∧
      (vsetup_sort_step sort_order i s).2 = (fun k => m_nets (p k)) := by
  obtain ⟨p, h1, h2, h3⟩ := h
  unfold vsetup_sort_step
  split
  · refine ⟨(Equiv.swap i (i + 1)).trans p, fun k hk => ?_, ?_, ?_⟩
    · rw [Equiv.trans_apply, Equiv.swap_apply_of_ne_of_ne (by omega) (by omega)]
      exact h1 k hk
    · show swap_at s.1 i (i + 1) = _
      rw [swap_at_eq_swap, h2]
      rfl
    · show swap_at s.2 i (i + 1) = _
      rw [swap_at_eq_swap, h3]
      rfl
  · exact ⟨p, h1, h2, h3⟩

theorem vsetup_sort_perm {α : Type} (N : Nat) (gauss_seidel : Bool)
    (m_terms : Nat → terms_list_t) (m_nets : Nat → α) :
    ∃ p : Equiv.Perm Nat, (∀ k, N ≤ k → p k = k) ∧
      (vsetup_sort N gauss_seidel (m_terms, m_nets)).1 = (fun k => m_terms (p k)) ∧
      (vsetup_sort N gauss_seidel (m_terms, m_nets)).2 = (fun k => m_nets (p k)) := by
  unfold vsetup_sort
  simp only []
  refine foldl_invariant_mem
    (fun s : (Nat → terms_list_t) × (Nat → α) =>
      ∃ p : Equiv.Perm Nat, (∀ k, N ≤ k → p k = k) ∧
        s.1 = (fun k => m_terms (p k)) ∧ s.2 = (fun k => m_nets (p k)))
    _ _ (fun s _ _ hs => ?_) _ ⟨Equiv.refl Nat, fun _ _ => rfl, rfl, rfl⟩
  refine foldl_invariant_mem
    (fun s : (Nat → terms_list_t) × (Nat → α) =>
      ∃ p : Equiv.Perm Nat, (∀ k, N ≤ k → p k = k) ∧
        s.1 = (fun k => m_terms (p k)) ∧ s.2 = (fun k => m_nets (p k)))
    _ _ (fun s i hi hs => ?_) _ hs
  rw [List.mem_range] at hi
  exact vsetup_sort_step_perm N m_terms m_nets _ i (by omega) s hs

theorem perm_below {N : Nat} (p : Equiv.Perm Nat) (h : ∀ k, N ≤ k → p k = k) (k : Nat)
    (hk : k < N) : p k < N := by
  by_contra hge
  have h1 := h (p k) (not_lt.mp hge)
  have h2 := p.injective h1
  omega

theorem perm_range_map {N : Nat} (p : Equiv.Perm Nat) (h : ∀ k, N ≤ k → p k = k) :
    ((List.range N).map p).Perm (List.range N) := by
  have hnd : ((List.range N).map p).Nodup := (List.nodup_range N).map p.injective
  have hsub : (List.range N).map p ⊆ List.range N := by
    intro x hx
    rw [List.mem_map] at hx
    obtain ⟨k, hk, rfl⟩ := hx
    rw [List.mem_range] at hk ⊢
    exact perm_below p h k hk
  exact (List.subperm_of_subset hnd hsub).perm_of_length_le (by simp)

end matrix_solver_direct_t

/-- C32: the reordering of the rows is a synchronized permutation.  Whatever the rows
and the nets are, the reordering loop of `vsetup` rearranges the row array `m_terms`
and the net list `m_nets` by one and the same permutation of the positions below `N`
(the positions from `N` on are not touched): the rows afterwards are the rows before
in another order, each as it was, none lost or duplicated, and so are the nets; a
relation that held between the row and the net of every position before the loop
holds between the row and the net of every position after it; and for `N <= 1`
nothing is moved. -/
theorem reorder_synchronized_permutation {α : Type} (N : Nat) (gauss_seidel : Bool)
    (m_terms : Nat → terms_list_t) (m_nets : Nat → α) :
    (∃ p : Equiv.Perm Nat, (∀ k, N ≤ k → p k = k) ∧ (∀ k, k < N → p k < N) ∧
      (matrix_solver_direct_t.vsetup_sort N gauss_seidel (m_terms, m_nets)).1
        = (fun k => m_terms (p k)) ∧
      (matrix_solver_direct_t.vsetup_sort N gauss_seidel (m_terms, m_nets)).2
        = (fun k => m_nets (p k))) ∧
    ((List.range N).map
        (matrix_solver_direct_t.vsetup_sort N gauss_seidel (m_terms, m_nets)).1).Perm
      ((List.range N).map m_terms) ∧
    ((List.range N).map
        (matrix_solver_direct_t.vsetup_sort N gauss_seidel (m_terms, m_nets)).2).Perm
      ((List.range N).map m_nets) ∧
    (∀ R : terms_list_t → α → Prop, (∀ i, i < N → R (m_terms i) (m_nets i)) →
      ∀ i, i < N →
        R ((matrix_solver_direct_t.vsetup_sort N gauss_seidel (m_terms, m_nets)).1 i)
          ((matrix_solver_direct_t.vsetup_sort N gauss_seidel (m_terms, m_nets)).2 i)) ∧
    (N ≤ 1 →
      matrix_solver_direct_t.vsetup_sort N gauss_seidel (m_terms, m_nets) = (m_terms, m_nets)) := by
  obtain ⟨p, h1, h2, h3⟩ :=
    matrix_solver_direct_t.vsetup_sort_perm N gauss_seidel m_terms m_nets
  have hb := matrix_solver_direct_t.perm_below p h1
  have hp := matrix_solver_direct_t.perm_range_map p h1
  refine ⟨⟨p, h1, hb, h2, h3⟩, ?_, ?_, fun R hR i hi => ?_, fun hN => ?_⟩
  · rw [h2]
    have := hp.map m_terms
    rwa [List.map_map] at this
  · rw [h3]
    have := hp.map m_nets
    rwa [List.map_map] at this
  · rw [h2, h3]
    exact hR (p i) (hb i hi)
  · unfold matrix_solver_direct_t.vsetup_sort
    have h0 : N / 2 = 0 := by omega
    simp [h0]

/-- Witness of `reorder_synchronized_permutation`: three rows with 3, 2, 1
matrix-coupled terms and the nets 0, 1, 2 in elimination mode.  The loop leaves the
rows with 2, 1, 3 terms and the nets 1, 2, 0: every row is still at the position of
its net. -/
theorem reorder_synchronized_permutation_witness :
    (∃ p : Equiv.Perm Nat, (∀ k, 3 ≤ k → p k = k) ∧ (∀ k, k < 3 → p k < 3) ∧
      (matrix_solver_direct_t.vsetup_sort 3 false
        ((fun k => row_of_railstart (3 - k)), (fun k => k))).1
        = (fun k => row_of_railstart (3 - p k)) ∧
      (matrix_solver_direct_t.vsetup_sort 3 false
        ((fun k => row_of_railstart (3 - k)), (fun k => k))).2 = (fun k => p k)) ∧
    (∀ i, i < 3 →
      (matrix_solver_direct_t.vsetup_sort 3 false
        ((fun k => row_of_railstart (3 - k)), (fun k => k))).1 i
      = row_of_railstart (3 - (matrix_solver_direct_t.vsetup_sort 3 false
          ((fun k => row_of_railstart (3 - k)), (fun k => k))).2 i)) ∧
    ((matrix_solver_direct_t.vsetup_sort 3 false
        ((fun k => row_of_railstart (3 - k)), (fun k => k))).2 0 = 1 ∧
      (matrix_solver_direct_t.vsetup_sort 3 false
        ((fun k => row_of_railstart (3 - k)), (fun k => k))).2 1 = 2 ∧
      (matrix_solver_direct_t.vsetup_sort 3 false
        ((fun k => row_of_railstart (3 - k)), (fun k => k))).2 2 = 0) := by
  have h := reorder_synchronized_permutation 3 false (fun k => row_of_railstart (3 - k))
    (fun k => k)
  refine ⟨h.1, fun i hi => ?_, ?_⟩
  · exact h.2.2.2.1 (fun t n => t = row_of_railstart (3 - n)) (fun _ _ => rfl) i hi
  · refine ⟨?_, ?_, ?_⟩ <;>
      simp [matrix_solver_direct_t.vsetup_sort, matrix_solver_direct_t.vsetup_sort_step,
        swap_at, row_of_railstart, List.range_succ]

end Netlist
